import Mathlib

/-!
Drupper: proof log and core traversal of the DRUP trimmer.

Shallow embedding of `src/drupper.cpp`.  Pointers to clauses are indices into
the memory `Internal.heap`; a null pointer is `none`.  Debug-only `assert`s
are not executed by the embedding; where the C++ would dereference a null or
dangling pointer the embedding leaves the state unchanged.
-/

namespace CaDiCaL

/-! ## Data model -/

/-- Host clause with the proof footer `drup`: `drup_core`, `drup_islem` (the
C++ field `drup.lemma`) and `drup_idx`.
`size` is the length of `literals`. -/
structure Clause where
  conditioned : Bool := false
  covered : Bool := false
  enqueued : Bool := false
  frozen : Bool := false
  garbage : Bool := false
  gate : Bool := false
  hyper : Bool := false
  instantiated : Bool := false
  keep : Bool := false
  moved : Bool := false
  reason : Bool := false
  redundant : Bool := false
  transred : Bool := false
  subsume : Bool := false
  vivified : Bool := false
  vivify : Bool := false
  drup_core : Bool := false
  drup_islem : Bool := false
  drup_idx : Nat := 0
  used : Nat := 0
  glue : Int := 0
  pos : Int := 2
  copy : Option Nat := none
  literals : List Int := []
deriving DecidableEq, Repr, Inhabited

/-- Number of literals, `c->size`. -/
def Clause.size (c : Clause) : Nat := c.literals.length

/-- First literal `c->literals[0]` (0 when the clause has no literal). -/
def Clause.lit0 (c : Clause) : Int := c.literals.headD 0

/-- The two variants of a proof entry: a borrowed clause pointer (possibly
null) or an owned literal vector. -/
inductive Variant where
  | CLAUSE (counterpart : Option Nat)
  | LITERALS (literals : List Int)
deriving DecidableEq, Repr, Inhabited

/-- One entry of the proof log. -/
structure DrupperClause where
  deleted : Bool := false
  revive_at : Nat := 0
  variant : Variant
deriving DecidableEq, Repr, Inhabited

/-- Constructor `DrupperClause (vector<int> c, bool deletion)`. -/
def DrupperClause.ofLits (c : List Int) (deletion : Bool) : DrupperClause :=
  { deleted := deletion, revive_at := 0, variant := Variant.LITERALS c }

/-- Constructor `DrupperClause (Clause *c, bool deletion)`. -/
def DrupperClause.ofClause (c : Nat) (deletion : Bool) : DrupperClause :=
  { deleted := deletion, revive_at := 0, variant := Variant.CLAUSE (some c) }

/-- Whether the entry is of `CLAUSE` variant (`variant_type () == CLAUSE`). -/
def DrupperClause.isClause (dc : DrupperClause) : Bool :=
  match dc.variant with
  | Variant.CLAUSE _ => true
  | Variant.LITERALS _ => false

/-- Accessor `clause ()`: the counterpart pointer; `none` for a null pointer
and for an entry of `LITERALS` variant (where the C++ asserts). -/
def DrupperClause.clause (dc : DrupperClause) : Option Nat :=
  match dc.variant with
  | Variant.CLAUSE c => c
  | Variant.LITERALS _ => none

/-- Accessor `lits ()`: the owned literals; empty for a `CLAUSE` entry (where
the C++ asserts). -/
def DrupperClause.lits (dc : DrupperClause) : List Int :=
  match dc.variant with
  | Variant.CLAUSE _ => []
  | Variant.LITERALS l => l

/-- Both overloads of `set_variant` replace the variant. -/
def DrupperClause.set_variant (dc : DrupperClause) (v : Variant) : DrupperClause :=
  { dc with variant := v }

/-- Core statistics `stats.core`; `vars` is `stats.core.variables`. -/
structure CoreStats where
  clauses : Int := 0
  lemmas : Int := 0
  vars : Int := 0
deriving DecidableEq, Repr, Inhabited

/-- Statistics of the Drupper. -/
structure DrupperStats where
  trims : Int := 0
  derived : Int := 0
  deleted : Int := 0
  revived : Int := 0
  units : Int := 0
  core : CoreStats := {}
deriving DecidableEq, Repr, Inhabited

/-- Host counters touched by the Drupper (`internal->stats`). -/
structure IStats where
  current_redundant : Int := 0
  current_irredundant : Int := 0
  added_redundant : Int := 0
  irrlits : Int := 0
  garbage_bytes : Int := 0
  garbage_clauses : Int := 0
  garbage_literals : Int := 0
  now_fixed : Int := 0
  reactivated : Int := 0
  inactive : Int := 0
  active : Int := 0
deriving DecidableEq, Repr, Inhabited

/-- Status of a variable in `Flags`. -/
inductive FlagStatus where
  | UNUSED | ACTIVE | FIXED | ELIMINATED | SUBSTITUTED | PURE
deriving DecidableEq, Repr, Inhabited

/-- Per-variable record `Var` of the host. -/
structure Var where
  level : Int := 0
  trail : Int := 0
  reason : Option Nat := none
deriving DecidableEq, Repr, Inhabited

/-- The part of the host solver state that the Drupper reads or writes.
Tables are indexed by variable (`|lit|`), `vals` by literal. -/
structure Internal where
  heap : List Clause := []
  clauses : List Nat := []
  assumptions : List Int := []
  constraint : List Int := []
  unsat : Bool := false
  unsat_constraint : Bool := false
  marked_failed : Bool := false
  protected_reasons : Bool := false
  max_var : Nat := 0
  vtab : Nat → Var := fun _ => {}
  vals : Int → Int := fun _ => 0
  marks : Nat → Int := fun _ => 0
  fstatus : Nat → FlagStatus := fun _ => FlagStatus.ACTIVE
  seen : Nat → Bool := fun _ => false
  trail : List Int := []
  propagated : Nat := 0
  control : List Int := [0]
  level : Int := 0
  conflict : Option Nat := none
  watches : Int → List (Int × Nat) := fun _ => []
  stats : IStats := {}

/-- Dereference a clause pointer. -/
def Internal.deref (s : Internal) (p : Nat) : Clause := s.heap.getD p default

/-- Write through a clause pointer. -/
def Internal.store (s : Internal) (p : Nat) (c : Clause) : Internal :=
  { s with heap := s.heap.set p c }

/-- Apply `f` to the clause behind `p`. -/
def Internal.modify (s : Internal) (p : Nat) (f : Clause → Clause) : Internal :=
  s.store p (f (s.deref p))

/-- Lookup `internal->var (lit)`. -/
def Internal.var (s : Internal) (lit : Int) : Var := s.vtab lit.natAbs

/-- Lookup `internal->val (lit)`. -/
def Internal.val (s : Internal) (lit : Int) : Int := s.vals lit

/-- Settings of the Drupper. -/
structure Settings where
  core_units : Bool := false
  unmark_core : Bool := true
  reconstruct : Bool := false
  prefer_core : Bool := false
  check_core : Bool := true
deriving DecidableEq, Repr, Inhabited

/-- State of the Drupper together with the host state it borrows. -/
structure Drupper where
  internal : Internal := {}
  proof : List DrupperClause := []
  unit_clauses : List Nat := []
  failed_constraint : Option Nat := none
  final_conflict : Option Nat := none
  isolated : Bool := false
  validating : Bool := false
  overconstrained : Bool := false
  stats : DrupperStats := {}
  settings : Settings := {}

/-- Host routines whose bodies are outside `drupper.cpp`; every result below
holds for all of them. -/
structure HostOps where
  externalize : Int → Int
  bytes : Nat → Nat
  watch_clause : Internal → Nat → Internal
  unwatch_clause : Internal → Nat → Internal
  reactivate : Internal → Int → Internal
  protect_reasons : Internal → Internal
  unprotect_reasons : Internal → Internal
  flush_all_occs_and_watches : Internal → Internal
  save_core_phase_stats : DrupperStats → DrupperStats

/-! ## Clause lifecycle -/

/-- Modelled from the spec: the width of the bit-fields `drup.idx` and
`revive_at`, whose declarations are outside `drupper.cpp` (the spec gives
`idx` 30 bits, as does the assertion in `append_lemma`).  A value stored in
one of them is reduced modulo `2^30`. -/
def wrap30 (n : Nat) : Nat := n % 2 ^ 30

/-- Allocation of a clause: the new pointer is the next free index. -/
def Internal.alloc (s : Internal) (c : Clause) : Internal × Nat :=
  ({ s with heap := s.heap ++ [c] }, s.heap.length)

/-- The `Clause *Drupper::new_redundant_clause (const vector<int> &clause)`. -/
def new_redundant_clause (s : Internal) (clause : List Int) : Internal × Nat :=
  let a := s.alloc
    { conditioned := false, covered := false, enqueued := false, frozen := false,
      garbage := false, gate := false, hyper := false, instantiated := false,
      keep := false, moved := false, reason := false, redundant := true,
      transred := false, subsume := false, vivified := false, vivify := false,
      drup_core := false, drup_islem := true, drup_idx := 0, used := 0, glue := 0,
      pos := 2, literals := clause }
  let s1 := a.1
  ({ s1 with
      stats := { s1.stats with current_redundant := s1.stats.current_redundant + 1,
                               added_redundant := s1.stats.added_redundant + 1 },
      clauses := s1.clauses ++ [a.2] }, a.2)

/-- The `void Drupper::mark_garbage (Clause *c)`. -/
def mark_garbage (ops : HostOps) (s : Internal) (c : Nat) : Internal :=
  let cl := s.deref c
  if cl.garbage then s
  else
    let s1 := s.modify c fun x => { x with garbage := true }
    if cl.size = 1 then s1
    else
      let bytes : Int := ops.bytes cl.size
      let st := s1.stats
      let st1 :=
        if cl.redundant then { st with current_redundant := st.current_redundant - 1 }
        else { st with current_irredundant := st.current_irredundant - 1,
                       irrlits := st.irrlits - cl.size }
      let st2 := { st1 with garbage_bytes := st1.garbage_bytes + bytes,
                            garbage_clauses := st1.garbage_clauses + 1,
                            garbage_literals := st1.garbage_literals + cl.size }
      let s2 := { s1 with stats := st2 }
      s2.modify c fun x => { x with used := 0 }

/-- The `void Drupper::mark_active (Clause *c)`. -/
def mark_active (ops : HostOps) (s : Internal) (c : Nat) : Internal :=
  let cl := s.deref c
  if !cl.garbage then s
  else
    let s1 := s.modify c fun x => { x with garbage := false }
    if cl.size = 1 then s1
    else
      let bytes : Int := ops.bytes cl.size
      let st := s1.stats
      let st1 :=
        if cl.redundant then { st with current_redundant := st.current_redundant + 1 }
        else { st with current_irredundant := st.current_irredundant + 1,
                       irrlits := st.irrlits + cl.size }
      let st2 := { st1 with garbage_bytes := st1.garbage_bytes - bytes,
                            garbage_clauses := st1.garbage_clauses - 1,
                            garbage_literals := st1.garbage_literals - cl.size }
      { s1 with stats := st2 }

/-- The `Clause *Drupper::new_unit_clause (const int lit, bool original)`. -/
def new_unit_clause (d : Drupper) (lit : Int) (original : Bool) : Drupper × Nat :=
  let a := d.internal.alloc
    { conditioned := false, covered := false, enqueued := false, frozen := false,
      garbage := false, gate := false, hyper := false, instantiated := false,
      keep := true, moved := false, reason := false, redundant := !original,
      transred := false, subsume := false, vivified := false, vivify := false,
      drup_core := false, drup_islem := !original, drup_idx := 0, used := 0, glue := 0,
      pos := 2, literals := [lit] }
  ({ d with internal := a.1, stats := { d.stats with units := d.stats.units + 1 },
            unit_clauses := d.unit_clauses ++ [a.2] }, a.2)

/-- The `void Drupper::mark_core (Clause *c)`. -/
def mark_core (s : Internal) (c : Nat) : Internal :=
  s.modify c fun x => { x with drup_core := true }

/-- Call of `mark_core` on a pointer that may be null (a null pointer is
undefined behaviour in the C++ and changes nothing here). -/
def mark_core_opt (s : Internal) (c : Option Nat) : Internal :=
  match c with
  | some p => mark_core s p
  | none => s

/-! ## Tautologies, duplicates, falsified literals -/

/-- Comparison of `trivially_satisfied`: by `abs`, then by value. -/
def sorter (a b : Int) : Bool :=
  decide (a.natAbs < b.natAbs) || (decide (a.natAbs = b.natAbs) && decide (a < b))

/-- Result of `std::sort (sorted.begin (), sorted.end (), sorter)`: the
arrangement of the vector in which no element is `sorter`-greater than one
after it. -/
def sort_literals (c : List Int) : List Int :=
  c.insertionSort fun a b => sorter b a = false

/-- The scan `for (i = 1; i < sorted.size (); i++) if (sorted[i] ==
-sorted[i - 1]) return true;`. -/
def adjacent_complement : List Int → Bool
  | [] => false
  | [_] => false
  | a :: b :: rest => if b = -a then true else adjacent_complement (b :: rest)

/-- The `bool Drupper::trivially_satisfied (const vector<int> &c)`. -/
def trivially_satisfied (c : List Int) : Bool :=
  adjacent_complement (sort_literals c)

/-- Modelled from the spec: the host's per-variable mark (`marked`, `mark`,
`unmark` are outside `drupper.cpp`); `marked (lit)` is the stored sign seen
from `lit`. -/
def Internal.marked (s : Internal) (lit : Int) : Int :=
  if lit < 0 then - s.marks lit.natAbs else s.marks lit.natAbs

/-- Modelled from the spec: `mark (lit)` stores the sign of `lit` for its
variable. -/
def Internal.mark (s : Internal) (lit : Int) : Internal :=
  { s with marks := Function.update s.marks lit.natAbs (Int.sign lit) }

/-- Modelled from the spec: `unmark (lit)` clears the mark of the variable. -/
def Internal.unmark (s : Internal) (lit : Int) : Internal :=
  { s with marks := Function.update s.marks lit.natAbs 0 }

/-- First loop of `remove_duplicates`: keep the literals whose variable is
not marked yet, marking as it goes. -/
def remove_duplicates_scan : List Int → Internal → List Int → Internal × List Int
  | [], s, unique => (s, unique)
  | lit :: rest, s, unique =>
    if s.marked lit ≠ 0 then remove_duplicates_scan rest s unique
    else remove_duplicates_scan rest (s.mark lit) (unique ++ [lit])

/-- The `static vector<int> remove_duplicates (Internal *, const vector<int> &)`. -/
def remove_duplicates (s : Internal) (c : List Int) : Internal × List Int :=
  let r := remove_duplicates_scan c s []
  (r.2.foldl Internal.unmark r.1, r.2)

/-- Loop of `swap_falsified_literals_right` from index `i` with bound `sz`. -/
def swap_falsified_loop (val : Int → Int) (c : List Int) (i sz : Nat) : List Int :=
  if i < sz then
    if val (c.getD i 0) < 0 then
      let bl := c.getD (sz - 1) 0
      swap_falsified_loop val ((c.set (sz - 1) (c.getD i 0)).set i bl) (i + 1) (sz - 1)
    else swap_falsified_loop val c (i + 1) sz
  else c
termination_by sz - i

/-- The `static void swap_falsified_literals_right (Internal *, vector<int> &)`. -/
def swap_falsified_literals_right (s : Internal) (c : List Int) : List Int :=
  swap_falsified_loop s.val c 0 c.length

/-! ## The proof log -/

/-- Entry `proof[i]`. -/
def Drupper.entry (d : Drupper) (i : Nat) : DrupperClause :=
  d.proof.getD i { variant := Variant.CLAUSE none }

/-- Update of entry `proof[i]` in place. -/
def Drupper.modifyEntry (d : Drupper) (i : Nat) (f : DrupperClause → DrupperClause) : Drupper :=
  { d with proof := d.proof.set i (f (d.entry i)) }

/-- The `Clause *DrupperClause::flip_variant ()`: a `CLAUSE` entry takes over
the literals of its counterpart.  Entries of another shape are left alone
(the C++ asserts). -/
def flip_variant (s : Internal) (dc : DrupperClause) : DrupperClause :=
  match dc.variant with
  | Variant.CLAUSE (some r) => dc.set_variant (Variant.LITERALS (s.deref r).literals)
  | _ => dc

/-- The `void Drupper::append_lemma (DrupperClause *dc)`. -/
def append_lemma (d : Drupper) (dc : DrupperClause) : Drupper :=
  let st := if dc.deleted then { d.stats with deleted := d.stats.deleted + 1 }
            else { d.stats with derived := d.stats.derived + 1 }
  match dc.variant with
  | Variant.CLAUSE (some c) =>
    let cl := d.internal.deref c
    let dc1 := if dc.deleted && cl.drup_idx ≠ 0 then { dc with revive_at := cl.drup_idx } else dc
    let i1 := d.internal.modify c fun x =>
      { x with drup_idx := wrap30 (d.proof.length + 1), drup_islem := x.redundant }
    { d with stats := st, internal := i1, proof := d.proof ++ [dc1] }
  | _ => { d with stats := st, proof := d.proof ++ [dc] }

/-- The `void Drupper::append_failed (const vector<int> &c)`. -/
def append_failed (d : Drupper) (c : List Int) : Drupper :=
  let d1 := append_lemma d (DrupperClause.ofLits c false)
  let d2 := append_lemma d1 (DrupperClause.ofLits c true)
  let i := d2.proof.length - 1
  d2.modifyEntry i fun dc => { dc with revive_at := wrap30 i }

/-- The loop `for (int lit : *c) if (flags (lit).eliminated ()) reactivate (lit);`. -/
def reactivate_eliminated (ops : HostOps) (s : Internal) (lits : List Int) : Internal :=
  lits.foldl (fun s lit =>
    if s.fstatus lit.natAbs = FlagStatus.ELIMINATED then ops.reactivate s lit else s) s

/-- First part of `revive_clause`: the clause `c` of entry `i`; an entry of
`LITERALS` variant gets a fresh redundant clause, marked garbage, with
`drup.idx = i + 1`, and becomes a `CLAUSE` entry. -/
def revive_materialize (ops : HostOps) (d : Drupper) (i : Nat) : Drupper × Option Nat :=
  match (d.entry i).variant with
  | Variant.CLAUSE c => (d, c)
  | Variant.LITERALS literals =>
    let a := new_redundant_clause d.internal literals
    let s1 := mark_garbage ops a.1 a.2
    let s2 := s1.modify a.2 fun x => { x with drup_idx := wrap30 (i + 1) }
    (({ d with internal := s2 }).modifyEntry i fun e =>
        e.set_variant (Variant.CLAUSE (some a.2)), some a.2)

/-- Second part of `revive_clause`: `mark_active (c)`, `c->drup.lemma =
false`, watch the clause, reactivate its eliminated variables. -/
def revive_activate (ops : HostOps) (d : Drupper) (c : Option Nat) : Drupper :=
  match c with
  | some c =>
    let s1 := mark_active ops d.internal c
    let s2 := s1.modify c fun x => { x with drup_islem := false }
    let s3 := ops.watch_clause s2 c
    { d with internal := reactivate_eliminated ops s3 (s3.deref c).literals }
  | none => d

/-- The `void Drupper::revive_clause (const int i)`. -/
def revive_clause (ops : HostOps) (d : Drupper) (i : Nat) : Drupper :=
  let dc := d.entry i
  let r := revive_materialize ops d i
  let d2 := revive_activate ops r.1 r.2
  let d3 :=
    if dc.revive_at ≠ 0 then
      d2.modifyEntry (dc.revive_at - 1) fun e => e.set_variant (Variant.CLAUSE r.2)
    else d2
  { d3 with stats := { d3.stats with revived := d3.stats.revived + 1 } }

/-! ## Notification hooks -/

/-- The `void Drupper::add_derived_clause (Clause *c)`. -/
def add_derived_clause (d : Drupper) (c : Nat) : Drupper :=
  if d.isolated then d else append_lemma d (DrupperClause.ofClause c false)

/-- Store `internal->var (lit).reason = c`. -/
def Internal.set_reason (s : Internal) (lit : Int) (c : Option Nat) : Internal :=
  { s with vtab := Function.update s.vtab lit.natAbs { s.vtab lit.natAbs with reason := c } }

/-- The `void Drupper::add_derived_unit_clause (const int lit, bool original)`. -/
def add_derived_unit_clause (d : Drupper) (lit : Int) (original : Bool) : Drupper :=
  if d.isolated then d
  else
    let r1 : Drupper × Option Nat :=
      if (d.internal.var lit).reason = none then
        let a := new_unit_clause d lit original
        ({ a.1 with internal := a.1.internal.set_reason lit (some a.2) }, some a.2)
      else (d, none)
    if !original then
      let r2 : Drupper × Nat :=
        match r1.2 with
        | none => new_unit_clause r1.1 lit original
        | some c => (r1.1, c)
      let d2 := { r2.1 with internal := r2.1.internal.set_reason lit (some r2.2) }
      append_lemma d2 (DrupperClause.ofClause r2.2 false)
    else r1.1

/-- The `void Drupper::add_derived_empty_clause ()`. -/
def add_derived_empty_clause (d : Drupper) : Drupper :=
  if d.isolated then d else { d with final_conflict := d.internal.conflict }

/-- The `void Drupper::add_falsified_original_clause (const vector<int> &, bool)`. -/
def add_falsified_original_clause (ops : HostOps) (d : Drupper) (clause : List Int)
    (derived : Bool) : Drupper :=
  if d.isolated then d
  else
    let d1 : Drupper :=
      if derived then
        let last := d.proof.length - 1
        let lits := (d.entry last).lits
        let d2 :=
          if lits.length = 1 then
            let a := new_unit_clause d (lits.headD 0) false
            a.1.modifyEntry last fun e => e.set_variant (Variant.CLAUSE (some a.2))
          else revive_clause ops d last
        { d2 with final_conflict := (d2.entry last).clause, overconstrained := true }
      else
        let r := remove_duplicates d.internal clause
        let modified := swap_falsified_literals_right r.1 r.2
        let d2 := { d with internal := r.1 }
        if modified.length = 1 then
          let a := new_unit_clause d2 (modified.headD 0) false
          { a.1 with final_conflict := some a.2 }
        else
          let a := new_redundant_clause d2.internal modified
          let s1 := ops.watch_clause a.1 a.2
          { d2 with internal := reactivate_eliminated ops s1 (s1.deref a.2).literals,
                    final_conflict := some a.2 }
    match d1.final_conflict with
    | some c => { d1 with internal := d1.internal.modify c fun x => { x with drup_islem := false } }
    | none => d1

/-- The `void Drupper::add_failing_assumption (const vector<int> &c)`. -/
def add_failing_assumption (d : Drupper) (c : List Int) : Drupper :=
  if d.isolated then d
  else if c.length > 1 then
    if !trivially_satisfied c then append_failed d c else d
  else { d with internal := mark_core_opt d.internal (d.internal.var (c.headD 0)).reason }

/-- The `void Drupper::add_updated_clause (Clause *c)`. -/
def add_updated_clause (d : Drupper) (c : Nat) : Drupper :=
  if d.isolated then d
  else
    let idx := (d.internal.deref c).drup_idx
    let d1 := if idx ≠ 0 then
        d.modifyEntry (idx - 1) fun e => e.set_variant (Variant.CLAUSE none)
      else d
    let revive_at := idx
    let d2 := append_lemma d1 (DrupperClause.ofClause c false)
    let lits := (d2.internal.deref c).literals
    let old : DrupperClause := { DrupperClause.ofLits lits true with revive_at := revive_at }
    append_lemma d2 old

/-- The `void Drupper::delete_clause (const vector<int> &c, bool original)`. -/
def delete_clause_lits (d : Drupper) (c : List Int) (original : Bool) : Drupper :=
  if d.isolated then d
  else
    let r := remove_duplicates d.internal c
    let d1 := { d with internal := r.1 }
    if r.2.length = c.length ∨ r.2.length > 1 then
      let modified := if original then swap_falsified_literals_right d1.internal r.2 else r.2
      append_lemma d1 (DrupperClause.ofLits modified true)
    else d1

/-- The `void Drupper::delete_clause (Clause *c)`. -/
def delete_clause (d : Drupper) (c : Nat) : Drupper :=
  if d.isolated then d else append_lemma d (DrupperClause.ofClause c true)

/-- The `void Drupper::deallocate_clause (Clause *c)`. -/
def deallocate_clause (d : Drupper) (c : Nat) : Drupper :=
  if d.isolated then d
  else
    let idx := (d.internal.deref c).drup_idx
    if idx = 0 ∨ d.proof.length < idx then d
    else
      let dc := d.entry (idx - 1)
      let d1 := d.modifyEntry (idx - 1) (flip_variant d.internal)
      if dc.revive_at ≠ 0 then
        d1.modifyEntry (dc.revive_at - 1) fun e => e.set_variant (Variant.CLAUSE none)
      else d1

/-- Body of the loop of `update_moved_counterparts` for index `i`. -/
def update_moved_entry (d : Drupper) (i : Nat) : Drupper :=
  let dc := d.entry i
  match dc.variant with
  | Variant.LITERALS _ => d
  | Variant.CLAUSE none => d
  | Variant.CLAUSE (some c) =>
    let cl := d.internal.deref c
    if !cl.moved then d
    else
      let s1 :=
        match cl.copy with
        | some q => d.internal.modify q fun x =>
            { x with drup_idx := cl.drup_idx, drup_islem := cl.drup_islem }
        | none => d.internal
      let d1 := ({ d with internal := s1 }).modifyEntry i fun e =>
        e.set_variant (Variant.CLAUSE cl.copy)
      if dc.revive_at ≠ 0 then
        d1.modifyEntry (dc.revive_at - 1) fun e => e.set_variant (Variant.CLAUSE cl.copy)
      else d1

/-- The `void Drupper::update_moved_counterparts ()`. -/
def update_moved_counterparts (d : Drupper) : Drupper :=
  if d.isolated then d
  else (List.range d.proof.length).foldl update_moved_entry d

/-- Popping loop of `reconstruct`: remove `pop` entries from the end.  The
result is `none` when `proof.back ()` is taken of an empty log, or when the
popped entry owns literals or holds a null reference, where `c->drup.idx` is
written through `dc->clause ()`. -/
def reconstruct_pop : Nat → Drupper → Option Drupper
  | 0, d => some d
  | pop + 1, d =>
    match d.proof.getLast? with
    | none => none
    | some dc =>
      match dc.clause with
      | none => none
      | some c =>
        let s1 := d.internal.modify c fun x => { x with drup_idx := 0 }
        let st := if dc.deleted then { d.stats with deleted := d.stats.deleted - 1 }
                  else { d.stats with derived := d.stats.derived - 1 }
        reconstruct_pop pop { d with internal := s1, stats := st, proof := d.proof.dropLast }

/-- Body of the backward loop of `reconstruct` for index `i`.  The result is
`none` when a deleted entry owns literals or holds a null reference, where
`c->drup.idx` is written through `dc->clause ()`, and when `revive_at - 1` is
no index of the log. -/
def reconstruct_entry (d : Drupper) (i : Nat) : Option Drupper :=
  let dc := d.entry i
  if dc.deleted then
    match dc.clause with
    | none => none
    | some c =>
      let s1 := d.internal.modify c fun x => { x with drup_idx := 0 }
      let d1 := ({ d with internal := s1 }).modifyEntry i (flip_variant s1)
      if dc.revive_at ≠ 0 then
        if dc.revive_at - 1 < d.proof.length then
          some (d1.modifyEntry (dc.revive_at - 1) fun e => e.set_variant (Variant.CLAUSE none))
        else none
      else some d1
  else some d

/-- The backward loop of `reconstruct` over the indices `is`, in order. -/
def reconstruct_entries : List Nat → Drupper → Option Drupper
  | [], d => some d
  | i :: is, d =>
    match reconstruct_entry d i with
    | none => none
    | some d1 => reconstruct_entries is d1

/-- The `void Drupper::reconstruct (const unsigned proof_sz)`; the `isolated`
lock is taken on entry and released on exit.  The result is `none` when one
of its loops dereferences an entry that holds no clause. -/
def reconstruct (ops : HostOps) (d : Drupper) (proof_sz : Nat) : Option Drupper :=
  let d0 := { d with isolated := true }
  let popped := if d0.proof.length > proof_sz then
      reconstruct_pop (d0.proof.length - proof_sz) d0 else some d0
  match popped with
  | none => none
  | some d1 =>
    let s1 := if !d1.internal.protected_reasons then ops.protect_reasons d1.internal
              else d1.internal
    let s2 := ops.flush_all_occs_and_watches s1
    let d2 := { d1 with internal := s2 }
    match reconstruct_entries (List.range d2.proof.length).reverse d2 with
    | none => none
    | some d3 => some { d3 with internal := ops.unprotect_reasons d3.internal, isolated := false }

/-! ## Core traversal -/

/-- The visitor interface `CoreIterator`, with the visitor's own state made
explicit. -/
structure CoreIterator (σ : Type) where
  clause : σ → List Int → Bool × σ
  assumption : σ → Int → Bool × σ
  constraint : σ → List Int → Bool × σ

/-- Local variables of `traverse_core` plus the statistics and the visitor. -/
structure Traversal (σ : Type) where
  eclause : List Int := []
  seen : List Bool
  stats : DrupperStats
  it : σ

/-- Body of `if (seen[abs(ilit)]) continue; seen[abs(ilit)] = 1;
stats.core.variables++;`.  An index beyond the bitmap is undefined behaviour
in the C++; here the read gives `0` and the write is dropped. -/
def see_variable {σ : Type} (t : Traversal σ) (ilit : Int) : Traversal σ :=
  if t.seen.getD ilit.natAbs false then t
  else { t with seen := t.seen.set ilit.natAbs true,
                stats := { t.stats with core := { t.stats.core with
                  vars := t.stats.core.vars + 1 } } }

/-- Body of the literal loops of `traverse_core`: externalize, push, track
the variable. -/
def push_literal {σ : Type} (ext : Int → Int) (t : Traversal σ) (ilit : Int) : Traversal σ :=
  see_variable { t with eclause := t.eclause ++ [ext ilit] } ilit

/-- Increment `stats.core.lemmas`. -/
def count_lemma {σ : Type} (t : Traversal σ) : Traversal σ :=
  { t with stats := { t.stats with core := { t.stats.core with
      lemmas := t.stats.core.lemmas + 1 } } }

/-- Increment `stats.core.clauses`. -/
def count_clause {σ : Type} (t : Traversal σ) : Traversal σ :=
  { t with stats := { t.stats with core := { t.stats.core with
      clauses := t.stats.core.clauses + 1 } } }

/-- First loop of the non-const `traverse_core`, over `internal->clauses`.
The Boolean is `false` when the function has returned `false`. -/
def traverse_clauses {σ : Type} (ext : Int → Int) (it : CoreIterator σ) (d : Drupper) :
    List Nat → Traversal σ → Bool × Traversal σ
  | [], t => (true, t)
  | c :: cs, t =>
    let cl := d.internal.deref c
    if cl.drup_core then
      if some c = d.failed_constraint then traverse_clauses ext it d cs t
      else if cl.drup_islem then traverse_clauses ext it d cs (count_lemma t)
      else
        let t1 := cl.literals.foldl (push_literal ext) (count_clause t)
        let r := it.clause t1.it t1.eclause
        if !r.1 then (false, { t1 with it := r.2 })
        else traverse_clauses ext it d cs { t1 with it := r.2, eclause := [] }
    else traverse_clauses ext it d cs t

/-- Second loop of the non-const `traverse_core`, over `unit_clauses`. -/
def traverse_units {σ : Type} (ext : Int → Int) (it : CoreIterator σ) (d : Drupper) :
    List Nat → Traversal σ → Bool × Traversal σ
  | [], t => (true, t)
  | c :: cs, t =>
    let cl := d.internal.deref c
    if cl.drup_core then
      let ilit := cl.lit0
      if cl.drup_islem then traverse_units ext it d cs (count_lemma t)
      else
        let t1 := push_literal ext (count_clause t) ilit
        let r := it.clause t1.it t1.eclause
        if !r.1 then (false, { t1 with it := r.2 })
        else traverse_units ext it d cs { t1 with it := r.2, eclause := [] }
    else traverse_units ext it d cs t

/-- Third loop of the non-const `traverse_core`, over `internal->assumptions`. -/
def traverse_assumptions {σ : Type} (ext : Int → Int) (it : CoreIterator σ) :
    List Int → Traversal σ → Bool × Traversal σ
  | [], t => (true, t)
  | ilit :: rest, t =>
    let r := it.assumption t.it (ext ilit)
    if !r.1 then (false, { t with it := r.2 })
    else traverse_assumptions ext it rest (see_variable { t with it := r.2 } ilit)

/-- Final block of the non-const `traverse_core`: the failed constraint. -/
def traverse_constraint {σ : Type} (ext : Int → Int) (it : CoreIterator σ) (d : Drupper)
    (t : Traversal σ) : Bool × Traversal σ :=
  if d.internal.unsat_constraint then
    let t1 := d.internal.constraint.foldl (push_literal ext) (count_clause t)
    let r := it.constraint t1.it t1.eclause
    if !r.1 then (false, { t1 with it := r.2 })
    else (true, { t1 with it := r.2, eclause := [] })
  else (true, t)

/-- The statistics-collecting `bool Drupper::traverse_core (CoreIterator &it)`.
Returns the result, the visitor state and the Drupper with updated
statistics. -/
def traverse_core {σ : Type} (ops : HostOps) (it : CoreIterator σ) (d : Drupper) (v : σ) :
    Bool × σ × Drupper :=
  let t0 : Traversal σ :=
    { eclause := [], seen := List.replicate (d.internal.max_var + 1) false,
      stats := d.stats, it := v }
  let r1 := traverse_clauses ops.externalize it d d.internal.clauses t0
  if !r1.1 then (false, r1.2.it, { d with stats := r1.2.stats }) else
  let r2 := traverse_units ops.externalize it d d.unit_clauses r1.2
  if !r2.1 then (false, r2.2.it, { d with stats := r2.2.stats }) else
  let r3 := traverse_assumptions ops.externalize it d.internal.assumptions r2.2
  if !r3.1 then (false, r3.2.it, { d with stats := r3.2.stats }) else
  let r4 := traverse_constraint ops.externalize it d r3.2
  if !r4.1 then (false, r4.2.it, { d with stats := r4.2.stats }) else
  (true, r4.2.it, { d with stats := ops.save_core_phase_stats r4.2.stats })

/-- First loop of `traverse_core (CoreIterator &it) const`. -/
def traverse_clauses_const {σ : Type} (ext : Int → Int) (it : CoreIterator σ) (d : Drupper) :
    List Nat → σ → Bool × σ
  | [], v => (true, v)
  | c :: cs, v =>
    let cl := d.internal.deref c
    if cl.drup_core then
      if cl.drup_islem || some c = d.failed_constraint then
        traverse_clauses_const ext it d cs v
      else
        let eclause := cl.literals.foldl (fun e ilit => e ++ [ext ilit]) []
        let r := it.clause v eclause
        if !r.1 then (false, r.2) else traverse_clauses_const ext it d cs r.2
    else traverse_clauses_const ext it d cs v

/-- Second loop of `traverse_core (CoreIterator &it) const`. -/
def traverse_units_const {σ : Type} (ext : Int → Int) (it : CoreIterator σ) (d : Drupper) :
    List Nat → σ → Bool × σ
  | [], v => (true, v)
  | c :: cs, v =>
    let cl := d.internal.deref c
    if cl.drup_core then
      let ilit := cl.lit0
      if cl.drup_islem then traverse_units_const ext it d cs v
      else
        let r := it.clause v [ext ilit]
        if !r.1 then (false, r.2) else traverse_units_const ext it d cs r.2
    else traverse_units_const ext it d cs v

/-- Third loop of `traverse_core (CoreIterator &it) const`. -/
def traverse_assumptions_const {σ : Type} (ext : Int → Int) (it : CoreIterator σ) :
    List Int → σ → Bool × σ
  | [], v => (true, v)
  | ilit :: rest, v =>
    let r := it.assumption v (ext ilit)
    if !r.1 then (false, r.2) else traverse_assumptions_const ext it rest r.2

/-- The `bool Drupper::traverse_core (CoreIterator &it) const`. -/
def traverse_core_const {σ : Type} (ops : HostOps) (it : CoreIterator σ) (d : Drupper) (v : σ) :
    Bool × σ :=
  let r1 := traverse_clauses_const ops.externalize it d d.internal.clauses v
  if !r1.1 then (false, r1.2) else
  let r2 := traverse_units_const ops.externalize it d d.unit_clauses r1.2
  if !r2.1 then (false, r2.2) else
  let r3 := traverse_assumptions_const ops.externalize it d.internal.assumptions r2.2
  if !r3.1 then (false, r3.2) else
  if d.internal.unsat_constraint then
    let eclause := d.internal.constraint.foldl (fun e ilit => e ++ [ops.externalize ilit]) []
    let r4 := it.constraint r3.2 eclause
    if !r4.1 then (false, r4.2) else (true, r4.2)
  else (true, r3.2)

/-! ## Observing the visitor -/

/-- One call made on the visitor. -/
inductive Callback where
  | clause (lits : List Int)
  | assumption (lit : Int)
  | constraint (lits : List Int)
deriving DecidableEq, Repr, Inhabited

/-- Whether the call is `clause`. -/
def Callback.isClauseCall : Callback → Bool
  | Callback.clause _ => true
  | _ => false

/-- Whether the call is `constraint`. -/
def Callback.isConstraintCall : Callback → Bool
  | Callback.constraint _ => true
  | _ => false

/-- Literals passed by the call. -/
def Callback.literals : Callback → List Int
  | Callback.clause l => l
  | Callback.assumption a => [a]
  | Callback.constraint l => l

/-- The visitor `it` with a journal: every call is appended to the journal
together with the value the visitor returned. -/
def traced {σ : Type} (it : CoreIterator σ) : CoreIterator (List (Callback × Bool) × σ) where
  clause := fun s lits =>
    let r := it.clause s.2 lits
    (r.1, (s.1 ++ [(Callback.clause lits, r.1)], r.2))
  assumption := fun s lit =>
    let r := it.assumption s.2 lit
    (r.1, (s.1 ++ [(Callback.assumption lit, r.1)], r.2))
  constraint := fun s lits =>
    let r := it.constraint s.2 lits
    (r.1, (s.1 ++ [(Callback.constraint lits, r.1)], r.2))

/-- Journal of the non-const `traverse_core` run on visitor `it` from `v`. -/
def journal {σ : Type} (ops : HostOps) (it : CoreIterator σ) (d : Drupper) (v : σ) :
    List (Callback × Bool) :=
  (traverse_core ops (traced it) d ([], v)).2.1.1

/-- Journal of the const `traverse_core` run on visitor `it` from `v`. -/
def journal_const {σ : Type} (ops : HostOps) (it : CoreIterator σ) (d : Drupper) (v : σ) :
    List (Callback × Bool) :=
  (traverse_core_const ops (traced it) d ([], v)).2.1

/-- A visitor all of whose callbacks return `true`. -/
def CoreIterator.AlwaysTrue {σ : Type} (it : CoreIterator σ) : Prop :=
  (∀ s l, (it.clause s l).1 = true) ∧ (∀ s a, (it.assumption s a).1 = true) ∧
    (∀ s l, (it.constraint s l).1 = true)

/-- The statistics collector: accepts every call and keeps no state. -/
def statsCollector : CoreIterator Unit where
  clause := fun _ _ => (true, ())
  assumption := fun _ _ => (true, ())
  constraint := fun _ _ => (true, ())

/-- The callback sequence as the specification words it: the core non-lemma
pool clauses other than the failed constraint, then the core non-lemma units,
then every assumption, then the constraint when `unsat_constraint` is set. -/
def core_callbacks (ext : Int → Int) (d : Drupper) : List Callback :=
  ((d.internal.clauses.filter fun c =>
      (d.internal.deref c).drup_core && !(d.internal.deref c).drup_islem &&
        decide (some c ≠ d.failed_constraint)).map fun c =>
      Callback.clause ((d.internal.deref c).literals.map ext))
  ++ ((d.unit_clauses.filter fun c =>
      (d.internal.deref c).drup_core && !(d.internal.deref c).drup_islem).map fun c =>
      Callback.clause [ext (d.internal.deref c).lit0])
  ++ d.internal.assumptions.map (fun a => Callback.assumption (ext a))
  ++ (if d.internal.unsat_constraint then
        [Callback.constraint (d.internal.constraint.map ext)] else [])

/-- Number of core-marked lemmas that the traversal counts: pool clauses other
than the failed constraint, and units. -/
def core_lemma_count (d : Drupper) : Nat :=
  (d.internal.clauses.filter fun c =>
      (d.internal.deref c).drup_core && (d.internal.deref c).drup_islem &&
        decide (some c ≠ d.failed_constraint)).length
  + (d.unit_clauses.filter fun c =>
      (d.internal.deref c).drup_core && (d.internal.deref c).drup_islem).length

/-- Variables (absolute values) of the literals of a call sequence, without
repetition. -/
def distinct_variables (cs : List Callback) : List Nat :=
  ((cs.map Callback.literals).flatten.map Int.natAbs).dedup

/-- Internal literals of the pool clauses `cs` that the first loop emits. -/
def pool_literals (d : Drupper) (cs : List Nat) : List Int :=
  ((cs.filter fun c =>
      (d.internal.deref c).drup_core && !(d.internal.deref c).drup_islem &&
        decide (some c ≠ d.failed_constraint)).map fun c =>
      (d.internal.deref c).literals).flatten

/-- Internal literals of the units `cs` that the second loop emits. -/
def unit_literals (d : Drupper) (cs : List Nat) : List Int :=
  (cs.filter fun c =>
      (d.internal.deref c).drup_core && !(d.internal.deref c).drup_islem).map fun c =>
      (d.internal.deref c).lit0

/-- Core-marked lemmas among the pool clauses `cs`, the failed constraint
excluded. -/
def pool_lemmas (d : Drupper) (cs : List Nat) : List Nat :=
  cs.filter fun c =>
      (d.internal.deref c).drup_core && (d.internal.deref c).drup_islem &&
        decide (some c ≠ d.failed_constraint)

/-- Core-marked lemmas among the units `cs`. -/
def unit_lemmas (d : Drupper) (cs : List Nat) : List Nat :=
  cs.filter fun c => (d.internal.deref c).drup_core && (d.internal.deref c).drup_islem

/-- Internal counterpart of `core_callbacks`: the literals before
externalization, in the order in which the traversal meets them. -/
def core_internal_literals (d : Drupper) : List Int :=
  pool_literals d d.internal.clauses ++ unit_literals d d.unit_clauses
  ++ d.internal.assumptions
  ++ (if d.internal.unsat_constraint then d.internal.constraint else [])

/-- Bitmap and counters of a traversal that has emitted `nc` clauses, counted
`nl` lemmas and tracked the internal literals `L`. -/
def Tracked {σ : Type} (mv : Nat) (t : Traversal σ) (nc nl : Nat) (L : List Int) : Prop :=
  t.stats.core.clauses = (nc : Int) ∧ t.stats.core.lemmas = (nl : Int) ∧
  t.seen.length = mv + 1 ∧ (∀ n, t.seen.getD n false = true ↔ n ∈ L.map Int.natAbs) ∧
  t.stats.core.vars = (((L.map Int.natAbs).dedup.length : Nat) : Int)

/-- Scenario S4: original units `(1)` and `(2)`, both core, and the failed
constraint `[-1, -2]` materialised as a redundant core clause. -/
def scenarioS4 : Drupper :=
  { internal :=
      { heap := [ { literals := [1], keep := true, drup_core := true },
                  { literals := [2], keep := true, drup_core := true },
                  { literals := [-1, -2], redundant := true, drup_core := true,
                    drup_islem := true } ],
        clauses := [2], constraint := [-1, -2], unsat_constraint := true, max_var := 2 },
    unit_clauses := [0, 1], failed_constraint := some 2 }

/-- Host operations used in the examples: identity externalization, 8 bytes
per literal, and host routines that leave the modelled state alone. -/
def exampleOps : HostOps where
  externalize := id
  bytes := fun n => 8 * n
  watch_clause := fun s _ => s
  unwatch_clause := fun s _ => s
  reactivate := fun s _ => s
  protect_reasons := fun s => s
  unprotect_reasons := fun s => s
  flush_all_occs_and_watches := fun s => s
  save_core_phase_stats := fun st => st

/-- Calls that the first loop makes for the pool prefix `cs`. -/
def pool_calls (ext : Int → Int) (d : Drupper) (cs : List Nat) : List Callback :=
  (cs.filter fun c =>
      (d.internal.deref c).drup_core && !(d.internal.deref c).drup_islem &&
        decide (some c ≠ d.failed_constraint)).map fun c =>
      Callback.clause ((d.internal.deref c).literals.map ext)

/-- Calls that the second loop makes for the units `cs`. -/
def unit_calls (ext : Int → Int) (d : Drupper) (cs : List Nat) : List Callback :=
  (cs.filter fun c =>
      (d.internal.deref c).drup_core && !(d.internal.deref c).drup_islem).map fun c =>
      Callback.clause [ext (d.internal.deref c).lit0]

/-- Forget the journal of a traversal state. -/
def untrace {σ : Type} (t : Traversal (List (Callback × Bool) × σ)) : Traversal σ :=
  { eclause := t.eclause, seen := t.seen, stats := t.stats, it := t.it.2 }

/-- Short-circuit shape of a journal that grew from `l0` to `l` while the
traversal produced `res`: the calls added were all answered `true`, except
that when `res` is `false` the last one was answered `false`. -/
def ShortCircuit (res : Bool) (l0 l : List (Callback × Bool)) : Prop :=
  ∃ x, l = l0 ++ x ∧ (res = true → ∀ e ∈ x, e.2 = true) ∧
    (res = false → ∃ pre c, x = pre ++ [(c, false)] ∧ ∀ e ∈ pre, e.2 = true)

/-- A small state for examples: pool clauses `(1 2)` (core, original),
`(2 3)` (core, lemma), `(-1 3)` (not core) and the failed constraint `(-2 -3)`;
units `(4)` (core, original) and `(-5)` (core, lemma); assumption `-3`. -/
def exampleCore : Drupper :=
  { internal :=
      { heap := [ { literals := [1, 2], drup_core := true },
                  { literals := [2, 3], redundant := true, drup_core := true,
                    drup_islem := true },
                  { literals := [-1, 3] },
                  { literals := [-2, -3], redundant := true, drup_core := true,
                    drup_islem := false },
                  { literals := [4], keep := true, drup_core := true },
                  { literals := [-5], keep := true, redundant := true, drup_core := true,
                    drup_islem := true } ],
        clauses := [0, 1, 2, 3], assumptions := [-3], constraint := [-2, -3],
        unsat_constraint := true, max_var := 5 },
    unit_clauses := [4, 5], failed_constraint := some 3 }

/-! ## Sequences of notifications -/

/-- A notification made to the Drupper between trims: one of its hooks. -/
inductive Event where
  | add_derived_clause (c : Nat)
  | add_derived_unit_clause (lit : Int) (original : Bool)
  | add_derived_empty_clause
  | add_falsified_original_clause (clause : List Int) (derived : Bool)
  | add_failing_assumption (c : List Int)
  | add_updated_clause (c : Nat)
  | delete_clause_lits (c : List Int) (original : Bool)
  | delete_clause (c : Nat)
  | deallocate_clause (c : Nat)
  | update_moved_counterparts
deriving DecidableEq, Repr, Inhabited

/-- Effect of one event. -/
def Event.run (ops : HostOps) (d : Drupper) : Event → Drupper
  | Event.add_derived_clause c => CaDiCaL.add_derived_clause d c
  | Event.add_derived_unit_clause lit original => CaDiCaL.add_derived_unit_clause d lit original
  | Event.add_derived_empty_clause => CaDiCaL.add_derived_empty_clause d
  | Event.add_falsified_original_clause clause derived =>
    CaDiCaL.add_falsified_original_clause ops d clause derived
  | Event.add_failing_assumption c => CaDiCaL.add_failing_assumption d c
  | Event.add_updated_clause c => CaDiCaL.add_updated_clause d c
  | Event.delete_clause_lits c original => CaDiCaL.delete_clause_lits d c original
  | Event.delete_clause c => CaDiCaL.delete_clause d c
  | Event.deallocate_clause c => CaDiCaL.deallocate_clause d c
  | Event.update_moved_counterparts => CaDiCaL.update_moved_counterparts d

/-- A call made on the Drupper between trims: a notification hook, or
`reconstruct`. -/
inductive Call where
  | notify (e : Event)
  | reconstruct (proof_sz : Nat)
deriving DecidableEq, Repr, Inhabited

/-- Effect of one call; `none` when `reconstruct` dereferences an entry that
holds no clause. -/
def Call.run (ops : HostOps) (d : Drupper) : Call → Option Drupper
  | Call.notify e => some (e.run ops d)
  | Call.reconstruct proof_sz => CaDiCaL.reconstruct ops d proof_sz

/-- Effect of a sequence of calls, first to last. -/
def run_calls (ops : HostOps) : Drupper → List Call → Option Drupper
  | d, [] => some d
  | d, c :: cs =>
    match c.run ops d with
    | none => none
    | some d1 => run_calls ops d1 cs

/-- What `reconstruct (proof_sz)` needs of the log to run through: each entry
that it pops and each deleted entry that stays holds a clause reference, and
the back link of a deleted entry that stays points to an earlier entry that
is not deleted. -/
def ReconstructReady (d : Drupper) (proof_sz : Nat) : Prop :=
  ∀ i, i < d.proof.length →
    ((proof_sz ≤ i ∨ (d.entry i).deleted = true) →
      ∃ c, (d.entry i).variant = Variant.CLAUSE (some c)) ∧
    (i < proof_sz → (d.entry i).deleted = true → ∀ j, (d.entry i).revive_at = j + 1 →
      j < i ∧ (d.entry j).deleted = false)

/-- The check `proof.size () == unsigned (stats.derived + stats.deleted)` of
`check_environment`. -/
def well_formed (d : Drupper) : Prop :=
  (d.proof.length : Int) = d.stats.derived + d.stats.deleted

/-- A state in which the backward loop is running: `validating` is set,
`isolated` is not; clause 0 is `(1 2)`. -/
def validatingState : Drupper :=
  { internal := { heap := [ { literals := [1, 2] } ], clauses := [0] }, validating := true }

/-- The same state under the `isolated` lock. -/
def isolatedState : Drupper :=
  { validatingState with isolated := true }

/-- A state with an empty log and zero statistics; clause 0 is `(1 2)`,
clause 1 is `(-1 2 3)`. -/
def emptyLogState : Drupper :=
  { internal := { heap := [ { literals := [1, 2] }, { literals := [-1, 2, 3] } ],
                  clauses := [0, 1] } }

/-- The state `emptyLogState` where the host has marked both clauses
garbage. -/
def garbageLogState : Drupper :=
  { internal := { heap := [ { literals := [1, 2], garbage := true },
                            { literals := [-1, 2, 3], garbage := true } ],
                  clauses := [0, 1] } }

/-! ## Invariants linking clauses and log entries -/

/-- Footer index `c->drup.idx` of the clause behind pointer `p`. -/
def Drupper.idx (d : Drupper) (p : Nat) : Nat := (d.internal.deref p).drup_idx

/-- Entry `k` of a log. -/
def ent (P : List DrupperClause) (k : Nat) : DrupperClause :=
  P.getD k { variant := Variant.CLAUSE none }

/-- Index roundtrip: a clause that is not in `dead` and has `idx = k + 1`
finds entry `k` of the log, and that entry is a `CLAUSE` entry for it. -/
def IndexRoundtrip (idx : Nat → Nat) (P : List DrupperClause) (dead : List Nat) : Prop :=
  ∀ c k, c ∉ dead → idx c = k + 1 →
    k < P.length ∧ (ent P k).variant = Variant.CLAUSE (some c)

/-- No entry at or after position `idx c` refers to clause `c`. -/
def IndexLatest (idx : Nat → Nat) (P : List DrupperClause) : Prop :=
  ∀ i c, i < P.length → (ent P i).variant = Variant.CLAUSE (some c) → i < idx c

/-- Back links: an entry with `revive_at = j + 1` is a deletion, entry `j`
comes earlier and is a derivation without back link, and entry `j` either
has had its clause reference cleared or holds the same variant (the same
clause pointer, or the same literal vector). -/
def BackLinks (P : List DrupperClause) : Prop :=
  ∀ i j, i < P.length → (ent P i).revive_at = j + 1 →
    (ent P i).deleted = true ∧ j < i ∧ (ent P j).deleted = false ∧
    (ent P j).revive_at = 0 ∧
    ((ent P j).variant = Variant.CLAUSE none ∨ (ent P j).variant = (ent P i).variant)

/-- Literals an entry refers to: its own vector, or the literals of its
clause; nothing for a cleared reference. -/
def entry_literals (s : Internal) (dc : DrupperClause) : Option (List Int) :=
  match dc.variant with
  | Variant.LITERALS l => some l
  | Variant.CLAUSE (some c) => some (s.deref c).literals
  | Variant.CLAUSE none => none

/-- Back-link symmetry as claim C8 words it, for one state: every deletion
with `revive_at = j + 1` has `j` before it, entry `j` a derivation without
back link, and both entries refer to the same literals; derivations have no
back link. -/
def BackLinkSymmetry (d : Drupper) : Prop :=
  (∀ i j, i < d.proof.length → (d.entry i).deleted = true → (d.entry i).revive_at = j + 1 →
    j < i ∧ (d.entry j).deleted = false ∧ (d.entry j).revive_at = 0 ∧
    entry_literals d.internal (d.entry j) = entry_literals d.internal (d.entry i)) ∧
  (∀ i, i < d.proof.length → (d.entry i).deleted = false → (d.entry i).revive_at = 0)

/-- What the host does on its own between notifications: it may change its
state and allocate clauses, but never writes the footer index of a clause,
and a fresh clause has index 0. -/
def HostStep (s t : Internal) : Prop :=
  s.heap.length ≤ t.heap.length ∧ ∀ p, (t.deref p).drup_idx = (s.deref p).drup_idx

/-- The log keeps within the 30-bit index range: at most `2^30 - 1` entries. -/
def within_index_range (d : Drupper) : Prop := d.proof.length < 2 ^ 30

instance (d : Drupper) : Decidable (within_index_range d) :=
  inferInstanceAs (Decidable (d.proof.length < 2 ^ 30))

/-- The entry that `append_lemma` pushes for `dc`: a deletion of a clause
that is already in the log gets the clause's index as back link. -/
def linked (d : Drupper) (dc : DrupperClause) : DrupperClause :=
  match dc.variant with
  | Variant.CLAUSE (some c) =>
    if dc.deleted && d.idx c ≠ 0 then { dc with revive_at := d.idx c } else dc
  | _ => dc

/-- The footer indices after `append_lemma` has pushed `dc` at position `n`. -/
def reindexed (d : Drupper) (dc : DrupperClause) : Nat → Nat :=
  match dc.variant with
  | Variant.CLAUSE (some c) =>
    if c < d.internal.heap.length then Function.update d.idx c (d.proof.length + 1) else d.idx
  | _ => d.idx

/-- States reachable by `add_derived_clause`, `add_derived_unit_clause`,
`delete_clause (Clause *)` and `add_updated_clause`, with host activity in
between, from a state with an empty log in which every footer index is 0,
the log staying within the index range. -/
inductive Reachable : Drupper → Prop
  | init (d : Drupper) (hp : d.proof = []) (hi : ∀ p, d.idx p = 0) : Reachable d
  | host (d : Drupper) (t : Internal) (h : Reachable d) (hs : HostStep d.internal t) :
      Reachable { d with internal := t }
  | add_derived_clause (d : Drupper) (c : Nat) (h : Reachable d)
      (hb : within_index_range (add_derived_clause d c)) : Reachable (add_derived_clause d c)
  | add_derived_unit_clause (d : Drupper) (lit : Int) (original : Bool) (h : Reachable d)
      (hb : within_index_range (add_derived_unit_clause d lit original)) :
      Reachable (add_derived_unit_clause d lit original)
  | delete_clause (d : Drupper) (c : Nat) (h : Reachable d)
      (hb : within_index_range (delete_clause d c)) : Reachable (delete_clause d c)
  | add_updated_clause (d : Drupper) (c : Nat) (h : Reachable d)
      (hb : within_index_range (add_updated_clause d c)) : Reachable (add_updated_clause d c)

/-- The host has not notified a deletion of `c` since the latest derivation
of `c`: the footer index of `c` is 0 or points to a derivation entry. -/
def not_deleted_yet (d : Drupper) (c : Nat) : Prop :=
  d.idx c = 0 ∨ (d.entry (d.idx c - 1)).deleted = false

/-- States reachable through the notification hooks under the host protocol,
together with the clauses deallocated so far.  A hook that takes a clause is
called on an allocated clause that has not been deallocated; a clause is
deleted or updated only while `not_deleted_yet`; `deallocate_clause` is
called on a clause that is in the log; the log stays within the index range;
between notifications the host does `HostStep`s. -/
inductive Protocol : List Nat → Drupper → Prop
  | init (d : Drupper) (hp : d.proof = []) (hi : ∀ p, d.idx p = 0) : Protocol [] d
  | host (dead : List Nat) (d : Drupper) (t : Internal) (h : Protocol dead d)
      (hs : HostStep d.internal t) : Protocol dead { d with internal := t }
  | add_derived_clause (dead : List Nat) (d : Drupper) (c : Nat) (h : Protocol dead d)
      (hc : c < d.internal.heap.length) (hl : c ∉ dead)
      (hb : within_index_range (add_derived_clause d c)) :
      Protocol dead (add_derived_clause d c)
  | add_derived_unit_clause (dead : List Nat) (d : Drupper) (lit : Int) (original : Bool)
      (h : Protocol dead d)
      (hb : within_index_range (add_derived_unit_clause d lit original)) :
      Protocol dead (add_derived_unit_clause d lit original)
  | add_failing_assumption (dead : List Nat) (d : Drupper) (c : List Int)
      (h : Protocol dead d) (hb : within_index_range (add_failing_assumption d c)) :
      Protocol dead (add_failing_assumption d c)
  | add_updated_clause (dead : List Nat) (d : Drupper) (c : Nat) (h : Protocol dead d)
      (hc : c < d.internal.heap.length) (hl : c ∉ dead) (hn : not_deleted_yet d c)
      (hb : within_index_range (add_updated_clause d c)) :
      Protocol dead (add_updated_clause d c)
  | delete_clause_lits (dead : List Nat) (d : Drupper) (c : List Int) (original : Bool)
      (h : Protocol dead d) (hb : within_index_range (delete_clause_lits d c original)) :
      Protocol dead (delete_clause_lits d c original)
  | delete_clause (dead : List Nat) (d : Drupper) (c : Nat) (h : Protocol dead d)
      (hc : c < d.internal.heap.length) (hl : c ∉ dead) (hn : not_deleted_yet d c)
      (hb : within_index_range (delete_clause d c)) :
      Protocol dead (delete_clause d c)
  | deallocate_clause (dead : List Nat) (d : Drupper) (c : Nat) (h : Protocol dead d)
      (hc : c < d.internal.heap.length) (hl : c ∉ dead) (hx : d.idx c ≠ 0) :
      Protocol (c :: dead) (deallocate_clause d c)

/-- The invariants of the log that hold along `Protocol`. -/
structure LogInv (dead : List Nat) (d : Drupper) : Prop where
  roundtrip : IndexRoundtrip d.idx d.proof dead
  latest : IndexLatest d.idx d.proof
  links : BackLinks d.proof
  dead_valid : ∀ p ∈ dead, p < d.internal.heap.length

/-- The state after `add_derived_clause` of clause 0 from `emptyLogState`. -/
def derivedState : Drupper := add_derived_clause emptyLogState 0

/-- The state after the host has then deleted clause 0. -/
def deletedState : Drupper := delete_clause derivedState 0

/-- The state after the host has then deallocated clause 0. -/
def deallocatedState : Drupper := deallocate_clause deletedState 0

/-- The reading of claim C10 for one state: every footer index `k + 1`
points to a `CLAUSE` entry for that clause which is a derivation. -/
def IndexPointsToDerivation (d : Drupper) : Prop :=
  ∀ c k, d.idx c = k + 1 →
    k < d.proof.length ∧ (d.entry k).variant = Variant.CLAUSE (some c) ∧
      (d.entry k).deleted = false

/-! ## Tautology check: order and specification -/

/-- Rank of a literal in the order of `sorter`: by absolute value, the
negative literal of a variable before the positive one. -/
def literal_rank (a : Int) : Nat := 2 * a.natAbs + (if 0 < a then 1 else 0)

/-- Some literal of `c` occurs in `c` together with its negation. -/
def has_complementary_pair (c : List Int) : Prop := ∃ x, x ∈ c ∧ -x ∈ c

/-- An assignment in which the literals 1 and 3 are falsified and every
other literal is unassigned. -/
def falsified13 : Internal := { vals := fun l => if l = 1 ∨ l = 3 then -1 else 0 }

/-! ## Host counters touched by the lifecycle operations -/

/-- The counters of `Internal::stats` that `new_redundant_clause`,
`mark_garbage` and `mark_active` write: `current.redundant`,
`current.irredundant`, `irrlits`, `garbage.bytes`, `garbage.clauses`,
`garbage.literals`, `added.redundant`. -/
def IStats.accounting (st : IStats) : Int × Int × Int × Int × Int × Int × Int :=
  (st.current_redundant, st.current_irredundant, st.irrlits, st.garbage_bytes,
    st.garbage_clauses, st.garbage_literals, st.added_redundant)

/-! ## The host protocol with one derivation per allocated clause -/

/-- States reachable under the host protocol of `Protocol` in which, in
addition, `add_derived_clause` is called on a clause that is not in the log
yet (the host notifies the derivation when it allocates the clause), together
with the clauses deallocated so far. -/
inductive FreshProtocol : List Nat → Drupper → Prop
  | init (d : Drupper) (hp : d.proof = []) (hi : ∀ p, d.idx p = 0) : FreshProtocol [] d
  | host (dead : List Nat) (d : Drupper) (t : Internal) (h : FreshProtocol dead d)
      (hs : HostStep d.internal t) : FreshProtocol dead { d with internal := t }
  | add_derived_clause (dead : List Nat) (d : Drupper) (c : Nat) (h : FreshProtocol dead d)
      (hc : c < d.internal.heap.length) (hl : c ∉ dead) (hf : d.idx c = 0)
      (hb : within_index_range (add_derived_clause d c)) :
      FreshProtocol dead (add_derived_clause d c)
  | add_derived_unit_clause (dead : List Nat) (d : Drupper) (lit : Int) (original : Bool)
      (h : FreshProtocol dead d)
      (hb : within_index_range (add_derived_unit_clause d lit original)) :
      FreshProtocol dead (add_derived_unit_clause d lit original)
  | add_failing_assumption (dead : List Nat) (d : Drupper) (c : List Int)
      (h : FreshProtocol dead d) (hb : within_index_range (add_failing_assumption d c)) :
      FreshProtocol dead (add_failing_assumption d c)
  | add_updated_clause (dead : List Nat) (d : Drupper) (c : Nat) (h : FreshProtocol dead d)
      (hc : c < d.internal.heap.length) (hl : c ∉ dead) (hn : not_deleted_yet d c)
      (hb : within_index_range (add_updated_clause d c)) :
      FreshProtocol dead (add_updated_clause d c)
  | delete_clause_lits (dead : List Nat) (d : Drupper) (c : List Int) (original : Bool)
      (h : FreshProtocol dead d) (hb : within_index_range (delete_clause_lits d c original)) :
      FreshProtocol dead (delete_clause_lits d c original)
  | delete_clause (dead : List Nat) (d : Drupper) (c : Nat) (h : FreshProtocol dead d)
      (hc : c < d.internal.heap.length) (hl : c ∉ dead) (hn : not_deleted_yet d c)
      (hb : within_index_range (delete_clause d c)) :
      FreshProtocol dead (delete_clause d c)
  | deallocate_clause (dead : List Nat) (d : Drupper) (c : Nat) (h : FreshProtocol dead d)
      (hc : c < d.internal.heap.length) (hl : c ∉ dead) (hx : d.idx c ≠ 0) :
      FreshProtocol (c :: dead) (deallocate_clause d c)

/-- Every entry that refers to a clause `c` is the entry that the footer
index of `c` points to, or the entry that this one links back to. -/
def OnlyRefs (idx : Nat → Nat) (P : List DrupperClause) : Prop :=
  ∀ i c, i < P.length → (ent P i).variant = Variant.CLAUSE (some c) →
    ∃ k, idx c = k + 1 ∧ (i = k ∨ (ent P k).revive_at = i + 1)

/-- No entry refers to a deallocated clause. -/
def NoDeadRefs (dead : List Nat) (P : List DrupperClause) : Prop :=
  ∀ c, c ∈ dead → ∀ i, (ent P i).variant ≠ Variant.CLAUSE (some c)

/-- The invariants on clause references that hold along `FreshProtocol`. -/
structure RefInv (dead : List Nat) (d : Drupper) : Prop where
  only : OnlyRefs d.idx d.proof
  nodead : NoDeadRefs dead d.proof

/-! ## Distinct literals of a vector -/

/-- The distinct literals in first-occurrence order, continuing from the
literals `seen` so far and reading `c`. -/
def distinct_from : List Int → List Int → List Int
  | [], seen => seen
  | l :: rest, seen =>
    if l ∈ seen then distinct_from rest seen else distinct_from rest (seen ++ [l])

/-- The distinct literals of `c` in the order of their first occurrence. -/
def distinct_literals (c : List Int) : List Int := distinct_from c []

/-! ## The CNF printer -/

/-- Modelled from the spec: the output `File` (declared outside
`drupper.cpp`) is the text written so far; `put` of a string or of a
character appends it. -/
def File.put (f : String) (s : String) : String := f ++ s

/-- Modelled from the spec: `put` of an `int` appends its decimal numeral. -/
def File.put_int (f : String) (n : Int) : String := f ++ toString n

/-- Constructor `CorePrinter (File *file, int vars, int clauses)`: the header. -/
def CorePrinter.header (file : String) (vars clauses : Int) : String :=
  File.put (File.put_int (File.put (File.put_int (File.put file "p cnf ") vars) " ") clauses) "\n"

/-- The loop `for (int lit : c) f->put (lit), f->put (' ');`. -/
def CorePrinter.put_literals (f : String) (c : List Int) : String :=
  c.foldl (fun f lit => File.put (File.put_int f lit) " ") f

/-- The `bool CorePrinter::clause (const std::vector<int> &c)`. -/
def CorePrinter.clause (f : String) (c : List Int) : Bool × String :=
  (true, File.put (CorePrinter.put_literals f c) "0\n")

/-- The `bool CorePrinter::assumption (const int lit)`. -/
def CorePrinter.assumption (f : String) (lit : Int) : Bool × String :=
  (true, File.put (File.put_int f lit) "0\n")

/-- The `bool CorePrinter::constraint (const std::vector<int> &c)`. -/
def CorePrinter.constraint (f : String) (c : List Int) : Bool × String :=
  (true, File.put (CorePrinter.put_literals f c) "0\n")

/-- The `struct CorePrinter : public CoreIterator`, its state the text written. -/
def CorePrinter.visitor : CoreIterator String :=
  { clause := CorePrinter.clause, assumption := CorePrinter.assumption,
    constraint := CorePrinter.constraint }

/-- Value of a decimal numeral; `none` for the empty word and for a word with
a character that is not a digit. -/
def numeral_value (cs : List Char) : Option Nat :=
  if cs = [] then none
  else cs.foldl (fun acc ch =>
    acc.bind fun n => if ch.isDigit then some (10 * n + (ch.toNat - 48)) else none) (some 0)

/-- Value of a word as an integer, with an optional leading minus sign. -/
def integer_value : List Char → Option Int
  | [] => none
  | ch :: cs =>
    if ch = Char.ofNat 45 then (numeral_value cs).map fun n => - (n : Int)
    else (numeral_value (ch :: cs)).map fun n => (n : Int)

/-- The words of a text that whitespace separates; `cur` is the word being read. -/
def words_of : List Char → List Char → List (List Char)
  | [], cur => if cur = [] then [] else [cur]
  | ch :: rest, cur =>
    if ch.isWhitespace then
      if cur = [] then words_of rest [] else cur :: words_of rest []
    else words_of rest (cur ++ [ch])

/-- A text read as whitespace-separated integers. -/
def read_integers (s : String) : List (Option Int) :=
  (words_of s.toList []).map integer_value

/-! ## The size guard of `append_lemma` -/

/-- The guard `assert (proof.size () <= (1u << 30) - 1 && ...)` at the head of
`append_lemma`. -/
def append_lemma_guard (d : Drupper) : Prop := d.proof.length ≤ 2 ^ 30 - 1

instance (d : Drupper) : Decidable (append_lemma_guard d) :=
  inferInstanceAs (Decidable (d.proof.length ≤ 2 ^ 30 - 1))

/-- The two-clause example state with a log of `2^30 - 1` entries, the longest
log that passes the guard of `append_lemma`. -/
def fullLogState : Drupper :=
  { emptyLogState with
    proof := List.replicate (2 ^ 30 - 1) (DrupperClause.ofLits [1, 2] false),
    stats := { derived := 2 ^ 30 - 1 } }

/-! ## Watch reordering -/

/-- Loop of `prefer_core_watches` with the cursors `l` and `h`; `core w` is
`w.clause->drup.core`. -/
def prefer_core_loop (core : Nat → Bool) (ws : List (Int × Nat)) (l h : Nat) :
    List (Int × Nat) :=
  if l < h then
    let w := ws.getD h default
    if !core w.2 then prefer_core_loop core ws l (h - 1)
    else
      let tw := ws.getD l default
      prefer_core_loop core ((ws.set l (ws.getD h default)).set h tw) (l + 1) h
  else ws
termination_by h - l

/-- The `void Drupper::prefer_core_watches (const int lit)`.  The C++ starts
with `h = ws.size () - 1` as an `int`, which is `-1` for an empty list; the
loop is not entered then, as with the truncated subtraction here, and `h` is
decremented only while `l < h`. -/
def prefer_core_watches (s : Internal) (lit : Int) : Internal :=
  let ws := prefer_core_loop (fun c => (s.deref c).drup_core) (s.watches lit) 0
    ((s.watches lit).length - 1)
  { s with watches := Function.update s.watches lit ws }

/-- A state with four watches of literal 1 whose clauses are, in order, core,
not core, core, not core. -/
def watchState : Internal :=
  { heap := [ { literals := [1, 2], drup_core := true }, { literals := [1, 3] },
              { literals := [1, 4], drup_core := true }, { literals := [1, 5] } ],
    watches := fun l => if l = 1 then [(2, 0), (3, 1), (4, 2), (5, 3)] else [] }

/-! ## Restoring the garbage marks -/

/-- Loop of `restore_proof_garbage_marks` over the entries of the log.  The
result is `none` when an entry has no clause to dereference (an entry that
owns its literals or has a null reference, where the C++ asserts `c`). -/
def restore_marks (ops : HostOps) : List DrupperClause → Internal → Option Internal
  | [], s => some s
  | dc :: rest, s =>
    match dc.variant with
    | Variant.CLAUSE (some c) =>
      let s1 := if dc.deleted then mark_garbage ops s c else mark_active ops s c
      let s2 := if dc.deleted = false ∧ (s1.deref c).size > 1 then ops.watch_clause s1 c else s1
      restore_marks ops rest s2
    | _ => none

/-- The statement `if (c) mark_garbage (c);` for a pointer that may be null. -/
def mark_garbage_opt (ops : HostOps) (s : Internal) (o : Option Nat) : Internal :=
  match o with
  | some c => mark_garbage ops s c
  | none => s

/-- The `void Drupper::restore_proof_garbage_marks ()`; the `isolated` lock is
taken on entry and released on exit.  The result is `none` when a null
pointer would be dereferenced: in the loop, or in `mark_garbage
(final_conflict)` when `overconstrained` is set and `final_conflict` is null. -/
def restore_proof_garbage_marks (ops : HostOps) (d : Drupper) : Option Drupper :=
  match restore_marks ops d.proof d.internal with
  | none => none
  | some s =>
    let s1 := mark_garbage_opt ops s d.failed_constraint
    if d.overconstrained then
      match d.final_conflict with
      | some c =>
        some { d with internal := mark_garbage ops s1 c, final_conflict := none,
                      failed_constraint := none, isolated := false }
      | none => none
    else
      some { d with internal := s1, final_conflict := none, failed_constraint := none,
                    isolated := false }

/-- The `deleted` flag of the last (highest-index) entry of the log that
refers to clause `c`, if there is one. -/
def last_deleted : List DrupperClause → Nat → Option Bool
  | [], _ => none
  | e :: P, c =>
    match last_deleted P c with
    | some b => some b
    | none => if e.variant = Variant.CLAUSE (some c) then some e.deleted else none

/-- What `mark_garbage` has moved between the host counters for a clause that
is garbage now, in the order of `IStats.accounting`; nothing for an active
clause and for a clause of size 1. -/
def clause_credit (ops : HostOps) (cl : Clause) : Int × Int × Int × Int × Int × Int × Int :=
  if cl.garbage = true ∧ cl.size ≠ 1 then
    if cl.redundant then (1, 0, 0, -(ops.bytes cl.size : Int), -1, -(cl.size : Int), 0)
    else (0, 1, (cl.size : Int), -(ops.bytes cl.size : Int), -1, -(cl.size : Int), 0)
  else 0

/-- The accounting counters as they would stand with every clause active. -/
def settled_accounting (ops : HostOps) (s : Internal) : Int × Int × Int × Int × Int × Int × Int :=
  s.stats.accounting + Finset.sum (Finset.range s.heap.length) fun p => clause_credit ops (s.deref p)

/-- The host counters that `mark_garbage` and `mark_active` do not write. -/
def IStats.rest (st : IStats) : Int × Int × Int × Int :=
  (st.now_fixed, st.reactivated, st.inactive, st.active)

/-- A state in which the last entry of the log is the deletion of clause 1,
which is the final conflict of an overconstrained formula. -/
def overconstrainedState : Drupper :=
  { internal := { heap := [ { literals := [1, 2] }, { literals := [-1, -2], garbage := true } ],
                  clauses := [0, 1] },
    proof := [DrupperClause.ofClause 0 false, DrupperClause.ofClause 1 true],
    final_conflict := some 1, overconstrained := true }

/-- A state in which the failed constraint is clause 0, whose only entry in
the log is a derivation. -/
def constraintState : Drupper :=
  { internal := { heap := [ { literals := [1, 2] }, { literals := [-1, -2] } ],
                  clauses := [0, 1] },
    proof := [DrupperClause.ofClause 0 false], failed_constraint := some 0 }

/-! ## The conflict marks and the last steps of `trim` -/

/-- The `void Drupper::mark_conflict_lit (const int l)`. -/
def mark_conflict_lit (s : Internal) (l : Int) : Internal :=
  match (s.var l).reason with
  | some r => mark_core s r
  | none => s

/-- The `void Drupper::mark_conflict ()`.  `failing` is the host's
`Internal::failing ()`, which notifies the Drupper of the failing
assumptions.  The result is `none` when `internal->unsat` is set and
`final_conflict` is null: the C++ asserts `final_conflict` and dereferences
it. -/
def mark_conflict (ops : HostOps) (failing : Drupper → Drupper) (d : Drupper) : Option Drupper :=
  if d.internal.unsat then
    match d.final_conflict with
    | some c =>
      let s1 := mark_core d.internal c
      some { d with internal := (s1.deref c).literals.foldl mark_conflict_lit s1 }
    | none => none
  else
    let d1 :=
      if d.internal.unsat_constraint = true ∧ d.internal.constraint.length > 1 then
        let a := new_redundant_clause d.internal d.internal.constraint
        let s1 := mark_core a.1 a.2
        { d with internal := ops.watch_clause s1 a.2, failed_constraint := some a.2 }
      else d
    if !d1.internal.marked_failed then
      let d2 := failing d1
      some { d2 with internal := { d2.internal with marked_failed := true } }
    else some d1

/-- The `void Drupper::unmark_core ()`. -/
def unmark_core (d : Drupper) : Drupper :=
  let clear := fun (s : Internal) (c : Nat) => s.modify c fun x => { x with drup_core := false }
  let s1 := d.internal.clauses.foldl clear d.internal
  let s2 := d.unit_clauses.foldl clear s1
  { d with internal := s2,
           stats := { d.stats with core := { clauses := 0, lemmas := 0, vars := 0 } } }

/-- The `void Drupper::restore_trail ()`; the `isolated` lock is taken on
entry and released on exit.  `search_assign` and `propagate` are the host's;
under the lock their notifications to the Drupper are no-ops, so they act on
the host state only. -/
def restore_trail (search_assign : Internal → Int → Nat → Internal)
    (propagate : Internal → Internal) (d : Drupper) : Drupper :=
  let step := fun (s : Internal) (c : Nat) =>
    if s.val (s.deref c).lit0 ≠ 0 then s else propagate (search_assign s (s.deref c).lit0 c)
  { d with internal := d.unit_clauses.foldl step d.internal, isolated := false }

/-- The last steps of `trim`, from `restore_proof_garbage_marks ()` to the
exit.  Modelled from the spec: on exit the scope guards release `validating`
and restore `internal->unsat` to `unsat0`, the value saved on entry
(`save_scope` and `lock_scope` are declared outside `drupper.cpp`). -/
def trim_finish (ops : HostOps) (search_assign : Internal → Int → Nat → Internal)
    (propagate : Internal → Internal) (unsat0 : Bool) (proof_sz : Nat) (d : Drupper) :
    Option Drupper :=
  match restore_proof_garbage_marks ops d with
  | none => none
  | some d1 =>
    let d2 := if d1.settings.unmark_core then unmark_core d1 else d1
    match (if d2.settings.reconstruct then reconstruct ops d2 proof_sz else some d2) with
    | none => none
    | some d3 =>
      let d4 := restore_trail search_assign propagate d3
      some { d4 with validating := false, internal := { d4.internal with unsat := unsat0 } }

/-- The two-unit formula `(1)`, `(-1)` at the entry of `trim`: the host is
UNSAT, the final conflict is the unit `(-1)`, the log is empty. -/
def refutedState : Drupper :=
  { internal := { heap := [ { literals := [1], keep := true }, { literals := [-1], keep := true } ],
                  unsat := true },
    unit_clauses := [0, 1], final_conflict := some 1 }

/-- The same formula where the backward loop of `trim` has ended: both units
are core, `validating` is held and the conflict has been cleaned. -/
def trimmedState : Drupper :=
  { internal := { heap := [ { literals := [1], keep := true, drup_core := true },
                            { literals := [-1], keep := true, drup_core := true } ],
                  unsat := false },
    unit_clauses := [0, 1], final_conflict := some 1, validating := true }

/-! ## Core marks along the trail -/

/-- The loop `for (int lit : *reason) mark_core (internal->var (lit).reason);`. -/
def mark_reasons (s : Internal) (lits : List Int) : Internal :=
  lits.foldl (fun s l => mark_core_opt s (s.var l).reason) s

/-- Body of the loop of `mark_core_trail_antecedents` at position `i`.  A
literal without reason (where the C++ asserts) is left alone. -/
def mark_antecedents_at (s : Internal) (i : Nat) : Internal :=
  match (s.var (s.trail.getD i 0)).reason with
  | some r =>
    if (s.deref r).drup_core then
      let s1 := mark_reasons s (s.deref r).literals
      { s1 with propagated := i }
    else s
  | none => s

/-- The loop of `mark_core_trail_antecedents` over the positions `n - 1`
down to 0. -/
def mark_antecedents_loop : Nat → Internal → Internal
  | 0, s => s
  | i + 1, s => mark_antecedents_loop i (mark_antecedents_at s i)

/-- The `void Drupper::mark_core_trail_antecedents ()`. -/
def mark_core_trail_antecedents (s : Internal) : Internal :=
  mark_antecedents_loop s.trail.length s

/-- The reason of the trail literal at position `i` is core-marked. -/
def reason_core (s : Internal) (i : Nat) : Prop :=
  ∃ r, (s.var (s.trail.getD i 0)).reason = some r ∧ (s.deref r).drup_core = true

/-- The trail has no variable twice, and each of its literals has a reason
clause, allocated, whose first literal is that literal and whose other
literals are the negations of literals earlier on the trail. -/
def TrailReasons (s : Internal) : Prop :=
  (∀ i j, i < s.trail.length → j < s.trail.length →
    (s.trail.getD i 0).natAbs = (s.trail.getD j 0).natAbs → i = j) ∧
  ∀ i, i < s.trail.length → ∃ r, (s.var (s.trail.getD i 0)).reason = some r ∧
    r < s.heap.length ∧ (s.deref r).literals.head? = some (s.trail.getD i 0) ∧
    ∀ l ∈ (s.deref r).literals.tail, ∃ k, k < i ∧ s.trail.getD k 0 = -l

/-- The host state `t` differs from `s` at most in core marks that were
added and in `propagated`. -/
structure SameTrail (s t : Internal) : Prop where
  vtab : t.vtab = s.vtab
  trail : t.trail = s.trail
  heap : t.heap.length = s.heap.length
  literals : ∀ p, (t.deref p).literals = (s.deref p).literals
  core : ∀ p, (s.deref p).drup_core = true → (t.deref p).drup_core = true

/-- A level-0 trail `1, 2, 3` with the reasons `(1)`, `(2 -1)`, `(3 -2)`, of
which only the last is core-marked. -/
def trailState : Internal :=
  { heap := [ { literals := [1] }, { literals := [2, -1] },
              { literals := [3, -2], drup_core := true } ],
    trail := [1, 2, 3], propagated := 3,
    vtab := fun v => if v = 1 then { trail := 0, reason := some 0 }
      else if v = 2 then { trail := 1, reason := some 1 }
      else if v = 3 then { trail := 2, reason := some 2 } else {},
    vals := fun l => if l = 1 ∨ l = 2 ∨ l = 3 then 1
      else if l = -1 ∨ l = -2 ∨ l = -3 then -1 else 0 }

/-- The core marks are closed under antecedents at trail position `i`: if
the reason of the literal there is core, every literal of that reason clause
has a core reason. -/
def AntecedentsClosed (s : Internal) (i : Nat) : Prop :=
  ∀ r, (s.var (s.trail.getD i 0)).reason = some r → (s.deref r).drup_core = true →
    ∀ l ∈ (s.deref r).literals, ∃ q, (s.var l).reason = some q ∧ (s.deref q).drup_core = true

/-- The marker `propagated` is the smallest trail index from `j` on whose
literal has a core reason, and `p0` if there is none. -/
def PropagatedLeast (p0 j : Nat) (s : Internal) : Prop :=
  ((∀ i, j ≤ i → i < s.trail.length → ¬ reason_core s i) → s.propagated = p0) ∧
  ∀ m, j ≤ m → m < s.trail.length → reason_core s m →
    (∀ i, j ≤ i → i < m → ¬ reason_core s i) → s.propagated = m

/-! ## Popping the trail -/

/-- The `void Drupper::reactivate_fixed (int l)`. -/
def reactivate_fixed (s : Internal) (l : Int) : Internal :=
  let st := { s.stats with now_fixed := s.stats.now_fixed - 1, reactivated := s.stats.reactivated + 1, inactive := s.stats.inactive - 1, active := s.stats.active + 1 }
  { s with fstatus := Function.update s.fstatus l.natAbs FlagStatus.ACTIVE, stats := st }

/-- The `void Drupper::undo_trail_literal (const int lit)`; `unassign` is the
host's `Internal::unassign`. -/
def undo_trail_literal (unassign : Internal → Int → Internal) (s : Internal) (lit : Int) :
    Internal :=
  let s1 := if s.fstatus lit.natAbs ≠ FlagStatus.ACTIVE then reactivate_fixed s lit else s
  unassign s1 lit

/-- The loop `for (int j = ...) mark_core (internal->var (r->literals[j]).reason);`
over the literals `lits`; `none` when one of them has no reason, where
`mark_core` would write through a null pointer. -/
def mark_reasons_req : Internal → List Int → Option Internal
  | s, [] => some s
  | s, l :: ls =>
    match (s.var l).reason with
    | none => none
    | some r => mark_reasons_req (mark_core s r) ls

/-- Body of the loop of `undo_trail_core` for the literal `l` with the
reason `r`. -/
def undo_trail_step (unassign : Internal → Int → Internal) (core_units : Bool) (s : Internal)
    (l : Int) (r : Nat) : Option Internal :=
  let s1 := undo_trail_literal unassign s l
  let s2 := if core_units then mark_core s1 r else s1
  if (s2.deref r).drup_core then mark_reasons_req s2 (s2.deref r).literals.tail else some s2

/-- The loop and the final call of `undo_trail_core`, started with
`trail_sz = n`.  The result is `none` when `--trail_sz` would leave the trail
(at 0 the unsigned counter wraps) or when a null reason would be dereferenced;
otherwise the final host state and the final `trail_sz`. -/
def undo_trail_loop (unassign : Internal → Int → Internal) (core_units : Bool) (clit : Int) :
    Nat → Internal → Option (Internal × Nat)
  | 0, _ => none
  | n + 1, s =>
    match s.trail.get? n with
    | none => none
    | some l =>
      if l ≠ clit then
        match (s.var l).reason with
        | none => none
        | some r =>
          match undo_trail_step unassign core_units s l r with
          | none => none
          | some s4 => undo_trail_loop unassign core_units clit n s4
      else some (undo_trail_literal unassign s clit, n)

/-- The `void Drupper::undo_trail_core (Clause *c, unsigned &trail_sz)`: the
new state and the new value of `trail_sz`. -/
def undo_trail_core (unassign : Internal → Int → Internal) (d : Drupper) (c : Nat)
    (trail_sz : Nat) : Option (Drupper × Nat) :=
  match undo_trail_loop unassign d.settings.core_units (d.internal.deref c).lit0 trail_sz
      d.internal with
  | some (s, n) => some ({ d with internal := s }, n)
  | none => none

/-- What the Drupper relies on of the host's `Internal::unassign`: it clears
the value of the variable of its argument and changes neither another value
nor the trail, the variable table, the flags or the clauses. -/
structure UnassignSpec (unassign : Internal → Int → Internal) : Prop where
  cleared : ∀ s l m, m.natAbs = l.natAbs → (unassign s l).vals m = 0
  others : ∀ s l m, m.natAbs ≠ l.natAbs → (unassign s l).vals m = s.vals m
  vtab : ∀ s l, (unassign s l).vtab = s.vtab
  trail : ∀ s l, (unassign s l).trail = s.trail
  fstatus : ∀ s l, (unassign s l).fstatus = s.fstatus
  heap : ∀ s l, (unassign s l).heap = s.heap

/-- No variable is on the trail twice. -/
def TrailDistinct (s : Internal) : Prop :=
  ∀ i j, i < s.trail.length → j < s.trail.length →
    (s.trail.getD i 0).natAbs = (s.trail.getD j 0).natAbs → i = j

/-- Every trail literal at a position above `p` and below `n` has an
allocated reason clause, and each further literal of that clause has a
reason. -/
def PoppedReasons (s : Internal) (p n : Nat) : Prop :=
  ∀ k, p < k → k < n → ∃ r, (s.var (s.trail.getD k 0)).reason = some r ∧
    r < s.heap.length ∧ ∀ x ∈ (s.deref r).literals.tail, (s.var x).reason ≠ none

/-- The least host `unassign`: it clears the two values of the variable. -/
def clear_val (s : Internal) (lit : Int) : Internal :=
  { s with vals := fun m => if m.natAbs = lit.natAbs then 0 else s.vals m }

/-- The trail `1, 2, 3` of `trailState` with the variable 3 fixed. -/
def fixedTrailState : Drupper :=
  { internal := { trailState with fstatus := fun v => if v = 3 then FlagStatus.FIXED else FlagStatus.ACTIVE },
    settings := { core_units := true } }

/-! ## Conflict analysis -/

/-- Body of both literal loops of `conflict_analysis_core`: a literal that
got its value by propagation (its trail position is above `mark`, the trail
mark of the last decision) is seen-marked, and otherwise the reason of a
level-0 literal is marked core; `none` when that reason is null. -/
def analyze_literal (mark : Int) (s : Internal) (lit : Int) : Option Internal :=
  if (s.var lit).trail > mark then
    some { s with seen := Function.update s.seen lit.natAbs true }
  else if (s.var lit).level = 0 then
    match (s.var lit).reason with
    | some r => some (mark_core s r)
    | none => none
  else some s

/-- Run `analyze_literal` over the literals in order. -/
def analyze_literals (mark : Int) : Internal → List Int → Option Internal
  | s, [] => some s
  | s, l :: ls =>
    match analyze_literal mark s l with
    | none => none
    | some t => analyze_literals mark t ls

/-- Body of the trail loop of `conflict_analysis_core` at position `i`:
`none` when a seen literal has no reason. -/
def analyze_trail_at (mark : Int) (s : Internal) (i : Nat) : Option Internal :=
  let lit := s.trail.getD i 0
  if !s.seen lit.natAbs then some s
  else
    let s1 := { s with seen := Function.update s.seen lit.natAbs false }
    match (s1.var lit).reason with
    | none => none
    | some c =>
      let s2 := mark_core s1 c
      analyze_literals mark s2 (s2.deref c).literals.tail

/-- The trail loop `for (int i = ...; i > mark; i--)` of
`conflict_analysis_core`, with `i = n - 1`; the `none` at 0 is the read of
`trail[-1]`. -/
def analyze_trail_loop (mark : Int) : Nat → Internal → Option Internal
  | 0, s => if (-1 : Int) > mark then none else some s
  | n + 1, s =>
    if (n : Int) > mark then
      match analyze_trail_at mark s n with
      | none => none
      | some t => analyze_trail_loop mark n t
    else some s

/-- The `void Drupper::conflict_analysis_core ()` on the host state; `none`
when there is no conflict, no control frame, or a null reason is
dereferenced. -/
def conflict_analysis_core (s : Internal) : Option Internal :=
  match s.conflict, s.control.getLast? with
  | some c, some mark =>
    let s1 := mark_core s c
    match analyze_literals mark s1 (s1.deref c).literals with
    | none => none
    | some s2 => analyze_trail_loop mark s2.trail.length s2
  | _, _ => none

/-- The trail and reason invariants of the host relative to the trail mark
`mark` of the last decision: the variable table records the trail position
of every trail literal; every trail literal above the mark has an allocated
reason clause whose first literal is that literal and whose other literals
are the negations of literals earlier on the trail; and every level-0 literal
at or below the mark has an allocated reason. -/
structure TrailInv (s : Internal) (mark : Int) : Prop where
  mark_nonneg : 0 ≤ mark
  indexed : ∀ i, i < s.trail.length → (s.var (s.trail.getD i 0)).trail = (i : Int)
  reasons : ∀ i, i < s.trail.length → mark < (i : Int) →
    ∃ r, (s.var (s.trail.getD i 0)).reason = some r ∧ r < s.heap.length ∧
      (s.deref r).literals.head? = some (s.trail.getD i 0) ∧
      ∀ l ∈ (s.deref r).literals.tail, ∃ k, k < i ∧ s.trail.getD k 0 = -l
  level0 : ∀ i, i < s.trail.length → (i : Int) ≤ mark →
    (s.var (s.trail.getD i 0)).level = 0 →
    ∃ r, (s.var (s.trail.getD i 0)).reason = some r ∧ r < s.heap.length

/-- Every literal of the clause `c` is falsified: its negation is on the
trail. -/
def Falsified (s : Internal) (c : Nat) : Prop :=
  ∀ l ∈ (s.deref c).literals, ∃ k, k < s.trail.length ∧ s.trail.getD k 0 = -l

/-- The literals that occur in the clause `c` or in the reason clause, after
its first literal, of an occurring literal assigned above the trail position
`m`. -/
inductive Reached (s : Internal) (c : Nat) (m : Int) : Int → Prop
  | conflict {l : Int} : l ∈ (s.deref c).literals → Reached s c m l
  | reason {x l : Int} {r : Nat} : Reached s c m x → m < (s.var x).trail →
      (s.var x).reason = some r → l ∈ (s.deref r).literals.tail → Reached s c m l

/-- The reason clause of the variable of `x` is core-marked. -/
def CoreReason (s : Internal) (x : Int) : Prop :=
  ∃ r, (s.var x).reason = some r ∧ (s.deref r).drup_core = true

/-- State of the literal `x` when the trail loop of `conflict_analysis_core`
has visited the positions from `n` on: assigned above the mark, it is seen
when its position is still to come and has a core reason when its position
was visited; at level 0 and not above the mark, it has a core reason. -/
def AnalysisGood (mark : Int) (n : Nat) (t : Internal) (x : Int) : Prop :=
  (mark < (t.var x).trail →
    ((t.var x).trail < (n : Int) → t.seen x.natAbs = true) ∧
    ((n : Int) ≤ (t.var x).trail → CoreReason t x)) ∧
  (¬ mark < (t.var x).trail → (t.var x).level = 0 → CoreReason t x)

/-- Level 0 holds the unit 1, the decision 2 opens level 1 at trail position
1, and 3 and 4 are propagated by `(3 -2 -1)` and `(4 -3)`; the conflict is
`(-4 -3 -1)`. -/
def conflictState : Internal :=
  { heap := [ { literals := [1] }, { literals := [3, -2, -1] }, { literals := [4, -3] },
              { literals := [-4, -3, -1] } ],
    trail := [1, 2, 3, 4], control := [0, 1], level := 1, conflict := some 3,
    vtab := fun v => if v = 1 then { level := 0, trail := 0, reason := some 0 }
      else if v = 2 then { level := 1, trail := 1, reason := none }
      else if v = 3 then { level := 1, trail := 2, reason := some 1 }
      else if v = 4 then { level := 1, trail := 3, reason := some 2 } else {},
    vals := fun l => if l = 1 ∨ l = 2 ∨ l = 3 ∨ l = 4 then 1
      else if l = -1 ∨ l = -2 ∨ l = -3 ∨ l = -4 then -1 else 0 }

/-! # Theorems -/

/-! ## Traversal: basic facts -/

section traversal
variable {σ : Type}

@[simp] theorem see_variable_it (t : Traversal σ) (l : Int) : (see_variable t l).it = t.it := by
  unfold see_variable; split <;> rfl

@[simp] theorem see_variable_eclause (t : Traversal σ) (l : Int) :
    (see_variable t l).eclause = t.eclause := by
  unfold see_variable; split <;> rfl

@[simp] theorem push_literal_it (ext : Int → Int) (t : Traversal σ) (l : Int) :
    (push_literal ext t l).it = t.it := by
  simp [push_literal]

@[simp] theorem push_literal_eclause (ext : Int → Int) (t : Traversal σ) (l : Int) :
    (push_literal ext t l).eclause = t.eclause ++ [ext l] := by
  simp [push_literal]

@[simp] theorem foldl_push_literal_it (ext : Int → Int) (ls : List Int) (t : Traversal σ) :
    (ls.foldl (push_literal ext) t).it = t.it := by
  induction ls generalizing t with
  | nil => rfl
  | cons a ls ih => simp [ih]

@[simp] theorem foldl_push_literal_eclause (ext : Int → Int) (ls : List Int) (t : Traversal σ) :
    (ls.foldl (push_literal ext) t).eclause = t.eclause ++ ls.map ext := by
  induction ls generalizing t with
  | nil => simp
  | cons a ls ih => simp [ih]

@[simp] theorem count_clause_it (t : Traversal σ) : (count_clause t).it = t.it := rfl
@[simp] theorem count_clause_eclause (t : Traversal σ) : (count_clause t).eclause = t.eclause := rfl
@[simp] theorem count_lemma_it (t : Traversal σ) : (count_lemma t).it = t.it := rfl
@[simp] theorem count_lemma_eclause (t : Traversal σ) : (count_lemma t).eclause = t.eclause := rfl

theorem foldl_snoc_map (ext : Int → Int) (ls e : List Int) :
    ls.foldl (fun e ilit => e ++ [ext ilit]) e = e ++ ls.map ext := by
  induction ls generalizing e with
  | nil => simp
  | cons a ls ih => simp [ih]

@[simp] theorem traced_clause_res (it : CoreIterator σ) (s : List (Callback × Bool) × σ)
    (l : List Int) : ((traced it).clause s l).1 = (it.clause s.2 l).1 := rfl
@[simp] theorem traced_clause_log (it : CoreIterator σ) (s : List (Callback × Bool) × σ)
    (l : List Int) :
    ((traced it).clause s l).2.1 = s.1 ++ [(Callback.clause l, (it.clause s.2 l).1)] := rfl
@[simp] theorem traced_clause_state (it : CoreIterator σ) (s : List (Callback × Bool) × σ)
    (l : List Int) : ((traced it).clause s l).2.2 = (it.clause s.2 l).2 := rfl
@[simp] theorem traced_assumption_res (it : CoreIterator σ) (s : List (Callback × Bool) × σ)
    (a : Int) : ((traced it).assumption s a).1 = (it.assumption s.2 a).1 := rfl
@[simp] theorem traced_assumption_log (it : CoreIterator σ) (s : List (Callback × Bool) × σ)
    (a : Int) :
    ((traced it).assumption s a).2.1 =
      s.1 ++ [(Callback.assumption a, (it.assumption s.2 a).1)] := rfl
@[simp] theorem traced_assumption_state (it : CoreIterator σ) (s : List (Callback × Bool) × σ)
    (a : Int) : ((traced it).assumption s a).2.2 = (it.assumption s.2 a).2 := rfl
@[simp] theorem traced_constraint_res (it : CoreIterator σ) (s : List (Callback × Bool) × σ)
    (l : List Int) : ((traced it).constraint s l).1 = (it.constraint s.2 l).1 := rfl
@[simp] theorem traced_constraint_log (it : CoreIterator σ) (s : List (Callback × Bool) × σ)
    (l : List Int) :
    ((traced it).constraint s l).2.1 = s.1 ++ [(Callback.constraint l, (it.constraint s.2 l).1)] :=
  rfl
@[simp] theorem traced_constraint_state (it : CoreIterator σ) (s : List (Callback × Bool) × σ)
    (l : List Int) : ((traced it).constraint s l).2.2 = (it.constraint s.2 l).2 := rfl

theorem traced_alwaysTrue {it : CoreIterator σ} (h : it.AlwaysTrue) : (traced it).AlwaysTrue :=
  ⟨fun s l => h.1 s.2 l, fun s a => h.2.1 s.2 a, fun s l => h.2.2 s.2 l⟩

theorem traverse_clauses_journal (ext : Int → Int) (it : CoreIterator σ) (h : it.AlwaysTrue)
    (d : Drupper) (cs : List Nat) (t : Traversal (List (Callback × Bool) × σ))
    (he : t.eclause = []) :
    (traverse_clauses ext (traced it) d cs t).1 = true ∧
    (traverse_clauses ext (traced it) d cs t).2.eclause = [] ∧
    (traverse_clauses ext (traced it) d cs t).2.it.1 =
      t.it.1 ++ (pool_calls ext d cs).map fun c => (c, true) := by
  induction cs generalizing t with
  | nil => simp [traverse_clauses, pool_calls, he]
  | cons c cs ih =>
    unfold traverse_clauses
    by_cases hc : (d.internal.deref c).drup_core = true
    · by_cases hf : some c = d.failed_constraint
      · have := ih t he
        simpa [hc, hf, pool_calls] using this
      · by_cases hl : (d.internal.deref c).drup_islem = true
        · have := ih (count_lemma t) (by simpa using he)
          simpa [hc, hf, hl, pool_calls] using this
        · have hcall := h.1
          have := ih { (List.foldl (push_literal ext) (count_clause t) (d.internal.deref c).literals) with
            it := ((traced it).clause (List.foldl (push_literal ext) (count_clause t)
              (d.internal.deref c).literals).it (List.foldl (push_literal ext) (count_clause t)
              (d.internal.deref c).literals).eclause).2, eclause := [] } rfl
          simp only [Bool.not_eq_true] at hl
          simp [hc, hf, hl, pool_calls, traced, hcall, he] at this ⊢
          simpa [pool_calls] using this
    · have := ih t he
      simpa [hc, pool_calls] using this

theorem traverse_units_journal (ext : Int → Int) (it : CoreIterator σ) (h : it.AlwaysTrue)
    (d : Drupper) (cs : List Nat) (t : Traversal (List (Callback × Bool) × σ))
    (he : t.eclause = []) :
    (traverse_units ext (traced it) d cs t).1 = true ∧
    (traverse_units ext (traced it) d cs t).2.eclause = [] ∧
    (traverse_units ext (traced it) d cs t).2.it.1 =
      t.it.1 ++ (unit_calls ext d cs).map fun c => (c, true) := by
  induction cs generalizing t with
  | nil => simp [traverse_units, unit_calls, he]
  | cons c cs ih =>
    unfold traverse_units
    by_cases hc : (d.internal.deref c).drup_core = true
    · by_cases hl : (d.internal.deref c).drup_islem = true
      · have := ih (count_lemma t) (by simpa using he)
        simpa [hc, hl, unit_calls] using this
      · have hcall := h.1
        have := ih { (push_literal ext (count_clause t) (d.internal.deref c).lit0) with
          it := ((traced it).clause (push_literal ext (count_clause t)
            (d.internal.deref c).lit0).it (push_literal ext (count_clause t)
            (d.internal.deref c).lit0).eclause).2, eclause := [] } rfl
        simp only [Bool.not_eq_true] at hl
        simp [hc, hl, unit_calls, traced, hcall, he] at this ⊢
        simpa [unit_calls] using this
    · have := ih t he
      simpa [hc, unit_calls] using this

theorem traverse_assumptions_journal (ext : Int → Int) (it : CoreIterator σ)
    (h : it.AlwaysTrue) (as : List Int) (t : Traversal (List (Callback × Bool) × σ))
    (he : t.eclause = []) :
    (traverse_assumptions ext (traced it) as t).1 = true ∧
    (traverse_assumptions ext (traced it) as t).2.eclause = [] ∧
    (traverse_assumptions ext (traced it) as t).2.it.1 =
      t.it.1 ++ as.map fun a => (Callback.assumption (ext a), true) := by
  induction as generalizing t with
  | nil => simp [traverse_assumptions, he]
  | cons a as ih =>
    unfold traverse_assumptions
    have hcall := h.2.1
    have := ih (see_variable { t with it := ((traced it).assumption t.it (ext a)).2 } a)
      (by simpa using he)
    simp [traced, hcall] at this ⊢
    simpa using this

theorem traverse_constraint_journal (ext : Int → Int) (it : CoreIterator σ)
    (h : it.AlwaysTrue) (d : Drupper) (t : Traversal (List (Callback × Bool) × σ))
    (he : t.eclause = []) :
    (traverse_constraint ext (traced it) d t).1 = true ∧
    (traverse_constraint ext (traced it) d t).2.it.1 =
      t.it.1 ++ (if d.internal.unsat_constraint then
        [(Callback.constraint (d.internal.constraint.map ext), true)] else []) := by
  unfold traverse_constraint
  have hcall := h.2.2
  by_cases hu : d.internal.unsat_constraint = true
  · simp [hu, traced, hcall, he]
  · simp [hu]

/-- With a visitor that accepts every call, the non-const traversal returns
`true` and its journal is `core_callbacks`, every call answered `true`. -/
theorem journal_of_alwaysTrue (ops : HostOps) (it : CoreIterator σ) (h : it.AlwaysTrue)
    (d : Drupper) (v : σ) :
    (traverse_core ops (traced it) d ([], v)).1 = true ∧
    journal ops it d v = (core_callbacks ops.externalize d).map fun c => (c, true) := by
  have h1 := traverse_clauses_journal ops.externalize it h d d.internal.clauses
    { eclause := [], seen := List.replicate (d.internal.max_var + 1) false,
      stats := d.stats, it := ([], v) } rfl
  have h2 := traverse_units_journal ops.externalize it h d d.unit_clauses _ h1.2.1
  have h3 := traverse_assumptions_journal ops.externalize it h d.internal.assumptions _ h2.2.1
  have h4 := traverse_constraint_journal ops.externalize it h d _ h3.2.1
  unfold journal traverse_core
  simp only [h1.1, h2.1, h3.1, h4.1, Bool.not_true, Bool.false_eq_true, if_false]
  refine ⟨trivial, ?_⟩
  rw [h4.2, h3.2.2, h2.2.2, h1.2.2]
  unfold core_callbacks pool_calls unit_calls
  by_cases hu : d.internal.unsat_constraint = true <;> simp [hu]

/-! Keeping a journal does not change what the traversal does. -/

@[simp] theorem untrace_see_variable (t : Traversal (List (Callback × Bool) × σ)) (l : Int) :
    untrace (see_variable t l) = see_variable (untrace t) l := by
  unfold see_variable untrace
  split <;> simp_all

@[simp] theorem untrace_push_literal (ext : Int → Int)
    (t : Traversal (List (Callback × Bool) × σ)) (l : Int) :
    untrace (push_literal ext t l) = push_literal ext (untrace t) l := by
  unfold push_literal
  rw [untrace_see_variable]
  rfl

@[simp] theorem untrace_foldl_push_literal (ext : Int → Int) (ls : List Int)
    (t : Traversal (List (Callback × Bool) × σ)) :
    untrace (ls.foldl (push_literal ext) t) = ls.foldl (push_literal ext) (untrace t) := by
  induction ls generalizing t with
  | nil => rfl
  | cons a ls ih => simp [ih]

@[simp] theorem untrace_count_clause (t : Traversal (List (Callback × Bool) × σ)) :
    untrace (count_clause t) = count_clause (untrace t) := rfl

@[simp] theorem untrace_count_lemma (t : Traversal (List (Callback × Bool) × σ)) :
    untrace (count_lemma t) = count_lemma (untrace t) := rfl

theorem traverse_clauses_untrace (ext : Int → Int) (it : CoreIterator σ) (d : Drupper)
    (cs : List Nat) (t : Traversal (List (Callback × Bool) × σ)) :
    traverse_clauses ext it d cs (untrace t) =
      ((traverse_clauses ext (traced it) d cs t).1,
        untrace (traverse_clauses ext (traced it) d cs t).2) := by
  induction cs generalizing t with
  | nil => simp [traverse_clauses]
  | cons c cs ih =>
    unfold traverse_clauses
    by_cases hc : (d.internal.deref c).drup_core = true
    · by_cases hf : some c = d.failed_constraint
      · simpa [hc, hf] using ih t
      · by_cases hl : (d.internal.deref c).drup_islem = true
        · simpa [hc, hf, hl] using ih (count_lemma t)
        · simp only [Bool.not_eq_true] at hl
          simp only [hc, hf, hl, if_true, if_false, Bool.false_eq_true]
          rw [← untrace_count_clause, ← untrace_foldl_push_literal]
          generalize List.foldl (push_literal ext) (count_clause t)
            (d.internal.deref c).literals = t1
          by_cases hr : (it.clause t1.it.2 t1.eclause).1 = true
          · have := ih { t1 with it := ((traced it).clause t1.it t1.eclause).2, eclause := [] }
            simpa [hr, traced, untrace] using this
          · simp [hr, traced, untrace]
    · simpa [hc] using ih t

theorem traverse_units_untrace (ext : Int → Int) (it : CoreIterator σ) (d : Drupper)
    (cs : List Nat) (t : Traversal (List (Callback × Bool) × σ)) :
    traverse_units ext it d cs (untrace t) =
      ((traverse_units ext (traced it) d cs t).1,
        untrace (traverse_units ext (traced it) d cs t).2) := by
  induction cs generalizing t with
  | nil => simp [traverse_units]
  | cons c cs ih =>
    unfold traverse_units
    by_cases hc : (d.internal.deref c).drup_core = true
    · by_cases hl : (d.internal.deref c).drup_islem = true
      · simpa [hc, hl] using ih (count_lemma t)
      · simp only [Bool.not_eq_true] at hl
        simp only [hc, hl, if_true, if_false, Bool.false_eq_true]
        rw [← untrace_count_clause, ← untrace_push_literal]
        generalize push_literal ext (count_clause t) (d.internal.deref c).lit0 = t1
        by_cases hr : (it.clause t1.it.2 t1.eclause).1 = true
        · have := ih { t1 with it := ((traced it).clause t1.it t1.eclause).2, eclause := [] }
          simpa [hr, traced, untrace] using this
        · simp [hr, traced, untrace]
    · simpa [hc] using ih t

theorem traverse_assumptions_untrace (ext : Int → Int) (it : CoreIterator σ)
    (as : List Int) (t : Traversal (List (Callback × Bool) × σ)) :
    traverse_assumptions ext it as (untrace t) =
      ((traverse_assumptions ext (traced it) as t).1,
        untrace (traverse_assumptions ext (traced it) as t).2) := by
  induction as generalizing t with
  | nil => simp [traverse_assumptions]
  | cons a as ih =>
    unfold traverse_assumptions
    by_cases hr : (it.assumption t.it.2 (ext a)).1 = true
    · have := ih (see_variable { t with it := ((traced it).assumption t.it (ext a)).2 } a)
      simp only [untrace_see_variable] at this
      simpa [hr, traced, untrace] using this
    · simp [hr, traced, untrace]

theorem traverse_constraint_untrace (ext : Int → Int) (it : CoreIterator σ) (d : Drupper)
    (t : Traversal (List (Callback × Bool) × σ)) :
    traverse_constraint ext it d (untrace t) =
      ((traverse_constraint ext (traced it) d t).1,
        untrace (traverse_constraint ext (traced it) d t).2) := by
  unfold traverse_constraint
  by_cases hu : d.internal.unsat_constraint = true
  · simp only [hu, if_true]
    rw [← untrace_count_clause, ← untrace_foldl_push_literal]
    generalize List.foldl (push_literal ext) (count_clause t) d.internal.constraint = t1
    by_cases hr : (it.constraint t1.it.2 t1.eclause).1 = true
    · simp [hr, traced, untrace]
    · simp [hr, traced, untrace]
  · simp [hu]

/-- Running the traversal on the journalled visitor gives the same result,
the same final visitor state and the same Drupper as running it on the
visitor itself. -/
theorem traverse_core_traced (ops : HostOps) (it : CoreIterator σ) (d : Drupper) (v : σ)
    (l : List (Callback × Bool)) :
    traverse_core ops it d v =
      ((traverse_core ops (traced it) d (l, v)).1,
        (traverse_core ops (traced it) d (l, v)).2.1.2,
        (traverse_core ops (traced it) d (l, v)).2.2) := by
  unfold traverse_core
  have e0 : Traversal.mk [] (List.replicate (d.internal.max_var + 1) false) d.stats v =
      untrace (Traversal.mk [] (List.replicate (d.internal.max_var + 1) false) d.stats (l, v)) :=
    rfl
  simp only [e0]
  rw [traverse_clauses_untrace]
  generalize traverse_clauses ops.externalize (traced it) d d.internal.clauses _ = r1
  by_cases h1 : r1.1 = true
  · simp only [h1, Bool.not_true, Bool.false_eq_true, if_false]
    rw [traverse_units_untrace]
    generalize traverse_units ops.externalize (traced it) d d.unit_clauses _ = r2
    by_cases h2 : r2.1 = true
    · simp only [h2, Bool.not_true, Bool.false_eq_true, if_false]
      rw [traverse_assumptions_untrace]
      generalize traverse_assumptions ops.externalize (traced it) d.internal.assumptions _ = r3
      by_cases h3 : r3.1 = true
      · simp only [h3, Bool.not_true, Bool.false_eq_true, if_false]
        rw [traverse_constraint_untrace]
        generalize traverse_constraint ops.externalize (traced it) d r3.2 = r4
        by_cases h4 : r4.1 = true
        · simp [h4, untrace]
        · simp [h4, untrace]
      · simp [h3, untrace]
    · simp [h2, untrace]
  · simp [h1, untrace]

/-! Short-circuiting. -/

theorem ShortCircuit.refl (l : List (Callback × Bool)) : ShortCircuit true l l :=
  ⟨[], by simp, by simp, by simp⟩

theorem ShortCircuit.stop (l : List (Callback × Bool)) (c : Callback) :
    ShortCircuit false l (l ++ [(c, false)]) :=
  ⟨[(c, false)], rfl, by simp, fun _ => ⟨[], c, by simp, by simp⟩⟩

theorem ShortCircuit.step {res : Bool} {l l1 : List (Callback × Bool)} (c : Callback)
    (h : ShortCircuit res (l ++ [(c, true)]) l1) : ShortCircuit res l l1 := by
  obtain ⟨x, hx, ht, hf⟩ := h
  refine ⟨(c, true) :: x, by simp [hx], ?_, ?_⟩
  · intro hr e he
    rcases List.mem_cons.1 he with rfl | he
    · rfl
    · exact ht hr e he
  · intro hr
    obtain ⟨pre, c1, hp, hall⟩ := hf hr
    refine ⟨(c, true) :: pre, c1, by simp [hp], ?_⟩
    intro e he
    rcases List.mem_cons.1 he with rfl | he
    · rfl
    · exact hall e he

theorem ShortCircuit.trans {res : Bool} {l0 l1 l2 : List (Callback × Bool)}
    (h1 : ShortCircuit true l0 l1) (h2 : ShortCircuit res l1 l2) : ShortCircuit res l0 l2 := by
  obtain ⟨x, hx, htx, -⟩ := h1
  obtain ⟨y, hy, hty, hfy⟩ := h2
  refine ⟨x ++ y, by simp [hy, hx], ?_, ?_⟩
  · intro hr e he
    rcases List.mem_append.1 he with he | he
    · exact htx rfl e he
    · exact hty hr e he
  · intro hr
    obtain ⟨pre, c, hp, hall⟩ := hfy hr
    refine ⟨x ++ pre, c, by simp [hp], ?_⟩
    intro e he
    rcases List.mem_append.1 he with he | he
    · exact htx rfl e he
    · exact hall e he

/-- What a short-circuit journal says about the result and about the calls
after a refusal. -/
theorem ShortCircuit.spec {res : Bool} {l : List (Callback × Bool)}
    (h : ShortCircuit res [] l) :
    (res = false ↔ ∃ e ∈ l, e.2 = false) ∧
    (res = true ↔ ∀ e ∈ l, e.2 = true) ∧
    (∀ pre e post, l = pre ++ e :: post → e.2 = false → post = []) := by
  obtain ⟨x, hx, ht, hf⟩ := h
  simp only [List.nil_append] at hx
  subst hx
  cases res with
  | true =>
    have hall := ht rfl
    refine ⟨?_, ?_, ?_⟩
    · constructor
      · intro h; cases h
      · rintro ⟨e, he, hfe⟩
        rw [hall e he] at hfe; cases hfe
    · simp only [true_iff]; exact hall
    · intro pre e post hl he
      have := hall e (by rw [hl]; simp)
      rw [this] at he; cases he
  | false =>
    obtain ⟨pre, c, hp, hall⟩ := hf rfl
    subst hp
    refine ⟨?_, ?_, ?_⟩
    · simp only [true_iff]
      exact ⟨(c, false), by simp, rfl⟩
    · constructor
      · intro h; cases h
      · intro h
        have := h (c, false) (by simp)
        cases this
    · intro pre1 e post hl he
      by_contra hne
      obtain ⟨q, z, hq⟩ : ∃ q z, post = q ++ [z] := by
        rcases List.eq_nil_or_concat post with h | ⟨q, z, h⟩
        · exact absurd h hne
        · exact ⟨q, z, by simpa using h⟩
      subst hq
      have h2 : pre ++ [(c, false)] = (pre1 ++ e :: q) ++ [z] := by simpa using hl
      have h3 := List.append_inj_left' h2 rfl
      have := hall e (by rw [h3]; simp)
      rw [this] at he; cases he

theorem traverse_clauses_short (ext : Int → Int) (it : CoreIterator σ) (d : Drupper)
    (cs : List Nat) (t : Traversal (List (Callback × Bool) × σ)) :
    ShortCircuit (traverse_clauses ext (traced it) d cs t).1 t.it.1
      (traverse_clauses ext (traced it) d cs t).2.it.1 := by
  induction cs generalizing t with
  | nil => simpa [traverse_clauses] using ShortCircuit.refl _
  | cons c cs ih =>
    unfold traverse_clauses
    by_cases hc : (d.internal.deref c).drup_core = true
    · by_cases hf : some c = d.failed_constraint
      · simpa [hc, hf] using ih t
      · by_cases hl : (d.internal.deref c).drup_islem = true
        · simpa [hc, hf, hl] using ih (count_lemma t)
        · simp only [Bool.not_eq_true] at hl
          simp only [hc, hf, hl, if_true, if_false, Bool.false_eq_true]
          have hit : (List.foldl (push_literal ext) (count_clause t)
            (d.internal.deref c).literals).it = t.it := by simp
          generalize List.foldl (push_literal ext) (count_clause t)
            (d.internal.deref c).literals = t1 at hit
          by_cases hr : (it.clause t.it.2 t1.eclause).1 = true
          · have := ih { t1 with it := ((traced it).clause t1.it t1.eclause).2, eclause := [] }
            simp only [traced_clause_log, hit, hr] at this
            have := ShortCircuit.step _ this
            simpa [hr, hit] using this
          · simp only [Bool.not_eq_true] at hr
            simpa [hr, hit] using ShortCircuit.stop t.it.1 (Callback.clause t1.eclause)
    · simpa [hc] using ih t

theorem traverse_units_short (ext : Int → Int) (it : CoreIterator σ) (d : Drupper)
    (cs : List Nat) (t : Traversal (List (Callback × Bool) × σ)) :
    ShortCircuit (traverse_units ext (traced it) d cs t).1 t.it.1
      (traverse_units ext (traced it) d cs t).2.it.1 := by
  induction cs generalizing t with
  | nil => simpa [traverse_units] using ShortCircuit.refl _
  | cons c cs ih =>
    unfold traverse_units
    by_cases hc : (d.internal.deref c).drup_core = true
    · by_cases hl : (d.internal.deref c).drup_islem = true
      · simpa [hc, hl] using ih (count_lemma t)
      · simp only [Bool.not_eq_true] at hl
        simp only [hc, hl, if_true, if_false, Bool.false_eq_true]
        have hit : (push_literal ext (count_clause t) (d.internal.deref c).lit0).it = t.it := by
          simp
        generalize push_literal ext (count_clause t) (d.internal.deref c).lit0 = t1 at hit
        by_cases hr : (it.clause t.it.2 t1.eclause).1 = true
        · have := ih { t1 with it := ((traced it).clause t1.it t1.eclause).2, eclause := [] }
          simp only [traced_clause_log, hit, hr] at this
          have := ShortCircuit.step _ this
          simpa [hr, hit] using this
        · simp only [Bool.not_eq_true] at hr
          simpa [hr, hit] using ShortCircuit.stop t.it.1 (Callback.clause t1.eclause)
    · simpa [hc] using ih t

theorem traverse_assumptions_short (ext : Int → Int) (it : CoreIterator σ)
    (as : List Int) (t : Traversal (List (Callback × Bool) × σ)) :
    ShortCircuit (traverse_assumptions ext (traced it) as t).1 t.it.1
      (traverse_assumptions ext (traced it) as t).2.it.1 := by
  induction as generalizing t with
  | nil => simpa [traverse_assumptions] using ShortCircuit.refl _
  | cons a as ih =>
    unfold traverse_assumptions
    by_cases hr : (it.assumption t.it.2 (ext a)).1 = true
    · have := ih (see_variable { t with it := ((traced it).assumption t.it (ext a)).2 } a)
      simp only [see_variable_it, traced_assumption_log, hr] at this
      have := ShortCircuit.step _ this
      simpa [hr] using this
    · simp only [Bool.not_eq_true] at hr
      simpa [hr] using ShortCircuit.stop t.it.1 (Callback.assumption (ext a))

theorem traverse_constraint_short (ext : Int → Int) (it : CoreIterator σ) (d : Drupper)
    (t : Traversal (List (Callback × Bool) × σ)) :
    ShortCircuit (traverse_constraint ext (traced it) d t).1 t.it.1
      (traverse_constraint ext (traced it) d t).2.it.1 := by
  unfold traverse_constraint
  by_cases hu : d.internal.unsat_constraint = true
  · simp only [hu, if_true]
    have hit : (List.foldl (push_literal ext) (count_clause t) d.internal.constraint).it =
        t.it := by simp
    generalize List.foldl (push_literal ext) (count_clause t) d.internal.constraint = t1 at hit
    by_cases hr : (it.constraint t.it.2 t1.eclause).1 = true
    · have := ShortCircuit.step (Callback.constraint t1.eclause)
        (ShortCircuit.refl (t.it.1 ++ [(Callback.constraint t1.eclause, true)]))
      simpa [hr, hit] using this
    · simp only [Bool.not_eq_true] at hr
      simpa [hr, hit] using ShortCircuit.stop t.it.1 (Callback.constraint t1.eclause)
  · simpa [hu] using ShortCircuit.refl _

theorem traverse_core_short (ops : HostOps) (it : CoreIterator σ) (d : Drupper) (v : σ) :
    ShortCircuit (traverse_core ops (traced it) d ([], v)).1 [] (journal ops it d v) := by
  unfold journal traverse_core
  have s1 := traverse_clauses_short ops.externalize it d d.internal.clauses
    (Traversal.mk [] (List.replicate (d.internal.max_var + 1) false) d.stats ([], v))
  simp only
  generalize traverse_clauses ops.externalize (traced it) d d.internal.clauses _ = r1 at s1
  by_cases h1 : r1.1 = true
  · have s2 := traverse_units_short ops.externalize it d d.unit_clauses r1.2
    rw [h1] at s1
    generalize traverse_units ops.externalize (traced it) d d.unit_clauses r1.2 = r2 at s2
    by_cases h2 : r2.1 = true
    · have s3 := traverse_assumptions_short ops.externalize it d.internal.assumptions r2.2
      rw [h2] at s2
      generalize traverse_assumptions ops.externalize (traced it) d.internal.assumptions r2.2 =
        r3 at s3
      by_cases h3 : r3.1 = true
      · have s4 := traverse_constraint_short ops.externalize it d r3.2
        rw [h3] at s3
        generalize traverse_constraint ops.externalize (traced it) d r3.2 = r4 at s4
        have s := (s1.trans s2).trans (s3.trans s4)
        by_cases h4 : r4.1 = true
        · simpa [h1, h2, h3, h4] using s
        · simp only [Bool.not_eq_true] at h4
          simpa [h1, h2, h3, h4] using s
      · simp only [Bool.not_eq_true] at h3
        have s := s1.trans (s2.trans s3)
        simpa [h1, h2, h3] using s
    · simp only [Bool.not_eq_true] at h2
      have s := s1.trans s2
      simpa [h1, h2] using s
  · simp only [Bool.not_eq_true] at h1
    simpa [h1] using s1

theorem traverse_clauses_const_short (ext : Int → Int) (it : CoreIterator σ) (d : Drupper)
    (cs : List Nat) (s : List (Callback × Bool) × σ) :
    ShortCircuit (traverse_clauses_const ext (traced it) d cs s).1 s.1
      (traverse_clauses_const ext (traced it) d cs s).2.1 := by
  induction cs generalizing s with
  | nil => simpa [traverse_clauses_const] using ShortCircuit.refl _
  | cons c cs ih =>
    unfold traverse_clauses_const
    by_cases hc : (d.internal.deref c).drup_core = true
    · by_cases hl : ((d.internal.deref c).drup_islem || decide (some c = d.failed_constraint))
          = true
      · simpa [hc, hl] using ih s
      · simp only [hc, hl, if_true, if_false, Bool.false_eq_true]
        generalize List.foldl (fun e ilit => e ++ [ext ilit]) []
          (d.internal.deref c).literals = e
        by_cases hr : (it.clause s.2 e).1 = true
        · have := ih ((traced it).clause s e).2
          simp only [traced_clause_log, hr] at this
          have := ShortCircuit.step _ this
          simpa [hr] using this
        · simp only [Bool.not_eq_true] at hr
          simpa [hr] using ShortCircuit.stop s.1 (Callback.clause e)
    · simpa [hc] using ih s

theorem traverse_units_const_short (ext : Int → Int) (it : CoreIterator σ) (d : Drupper)
    (cs : List Nat) (s : List (Callback × Bool) × σ) :
    ShortCircuit (traverse_units_const ext (traced it) d cs s).1 s.1
      (traverse_units_const ext (traced it) d cs s).2.1 := by
  induction cs generalizing s with
  | nil => simpa [traverse_units_const] using ShortCircuit.refl _
  | cons c cs ih =>
    unfold traverse_units_const
    by_cases hc : (d.internal.deref c).drup_core = true
    · by_cases hl : (d.internal.deref c).drup_islem = true
      · simpa [hc, hl] using ih s
      · simp only [Bool.not_eq_true] at hl
        simp only [hc, hl, if_true, if_false, Bool.false_eq_true]
        by_cases hr : (it.clause s.2 [ext (d.internal.deref c).lit0]).1 = true
        · have := ih ((traced it).clause s [ext (d.internal.deref c).lit0]).2
          simp only [traced_clause_log, hr] at this
          have := ShortCircuit.step _ this
          simpa [hr] using this
        · simp only [Bool.not_eq_true] at hr
          simpa [hr] using ShortCircuit.stop s.1 (Callback.clause [ext (d.internal.deref c).lit0])
    · simpa [hc] using ih s

theorem traverse_assumptions_const_short (ext : Int → Int) (it : CoreIterator σ)
    (as : List Int) (s : List (Callback × Bool) × σ) :
    ShortCircuit (traverse_assumptions_const ext (traced it) as s).1 s.1
      (traverse_assumptions_const ext (traced it) as s).2.1 := by
  induction as generalizing s with
  | nil => simpa [traverse_assumptions_const] using ShortCircuit.refl _
  | cons a as ih =>
    unfold traverse_assumptions_const
    by_cases hr : (it.assumption s.2 (ext a)).1 = true
    · have := ih ((traced it).assumption s (ext a)).2
      simp only [traced_assumption_log, hr] at this
      have := ShortCircuit.step _ this
      simpa [hr] using this
    · simp only [Bool.not_eq_true] at hr
      simpa [hr] using ShortCircuit.stop s.1 (Callback.assumption (ext a))

theorem traverse_core_const_short (ops : HostOps) (it : CoreIterator σ) (d : Drupper) (v : σ) :
    ShortCircuit (traverse_core_const ops (traced it) d ([], v)).1 []
      (journal_const ops it d v) := by
  unfold journal_const traverse_core_const
  have s1 := traverse_clauses_const_short ops.externalize it d d.internal.clauses ([], v)
  simp only
  generalize traverse_clauses_const ops.externalize (traced it) d d.internal.clauses _ = r1 at s1
  by_cases h1 : r1.1 = true
  · have s2 := traverse_units_const_short ops.externalize it d d.unit_clauses r1.2
    rw [h1] at s1
    generalize traverse_units_const ops.externalize (traced it) d d.unit_clauses r1.2 = r2 at s2
    by_cases h2 : r2.1 = true
    · have s3 := traverse_assumptions_const_short ops.externalize it d.internal.assumptions r2.2
      rw [h2] at s2
      generalize traverse_assumptions_const ops.externalize (traced it)
        d.internal.assumptions r2.2 = r3 at s3
      by_cases h3 : r3.1 = true
      · rw [h3] at s3
        have s := (s1.trans s2).trans s3
        by_cases hu : d.internal.unsat_constraint = true
        · generalize List.foldl (fun e ilit => e ++ [ops.externalize ilit]) []
            d.internal.constraint = e
          by_cases hr : (it.constraint r3.2.2 e).1 = true
          · have := s.trans (ShortCircuit.step (Callback.constraint e)
              (ShortCircuit.refl (r3.2.1 ++ [(Callback.constraint e, true)])))
            simpa [h1, h2, h3, hu, hr] using this
          · simp only [Bool.not_eq_true] at hr
            have := s.trans (ShortCircuit.stop r3.2.1 (Callback.constraint e))
            simpa [h1, h2, h3, hu, hr] using this
        · simpa [h1, h2, h3, hu] using s
      · simp only [Bool.not_eq_true] at h3
        have s := s1.trans (s2.trans s3)
        simpa [h1, h2, h3] using s
    · simp only [Bool.not_eq_true] at h2
      have s := s1.trans s2
      simpa [h1, h2] using s
  · simp only [Bool.not_eq_true] at h1
    simpa [h1] using s1

theorem traverse_clauses_const_untrace (ext : Int → Int) (it : CoreIterator σ) (d : Drupper)
    (cs : List Nat) (s : List (Callback × Bool) × σ) :
    traverse_clauses_const ext it d cs s.2 =
      ((traverse_clauses_const ext (traced it) d cs s).1,
        (traverse_clauses_const ext (traced it) d cs s).2.2) := by
  induction cs generalizing s with
  | nil => simp [traverse_clauses_const]
  | cons c cs ih =>
    unfold traverse_clauses_const
    by_cases hc : (d.internal.deref c).drup_core = true
    · by_cases hl : ((d.internal.deref c).drup_islem || decide (some c = d.failed_constraint))
          = true
      · simpa [hc, hl] using ih s
      · simp only [hc, hl, if_true, if_false, Bool.false_eq_true]
        generalize List.foldl (fun e ilit => e ++ [ext ilit]) []
          (d.internal.deref c).literals = e
        by_cases hr : (it.clause s.2 e).1 = true
        · simpa [hr] using ih ((traced it).clause s e).2
        · simp [hr]
    · simpa [hc] using ih s

theorem traverse_units_const_untrace (ext : Int → Int) (it : CoreIterator σ) (d : Drupper)
    (cs : List Nat) (s : List (Callback × Bool) × σ) :
    traverse_units_const ext it d cs s.2 =
      ((traverse_units_const ext (traced it) d cs s).1,
        (traverse_units_const ext (traced it) d cs s).2.2) := by
  induction cs generalizing s with
  | nil => simp [traverse_units_const]
  | cons c cs ih =>
    unfold traverse_units_const
    by_cases hc : (d.internal.deref c).drup_core = true
    · by_cases hl : (d.internal.deref c).drup_islem = true
      · simpa [hc, hl] using ih s
      · simp only [Bool.not_eq_true] at hl
        simp only [hc, hl, if_true, if_false, Bool.false_eq_true]
        by_cases hr : (it.clause s.2 [ext (d.internal.deref c).lit0]).1 = true
        · simpa [hr] using ih ((traced it).clause s [ext (d.internal.deref c).lit0]).2
        · simp [hr]
    · simpa [hc] using ih s

theorem traverse_assumptions_const_untrace (ext : Int → Int) (it : CoreIterator σ)
    (as : List Int) (s : List (Callback × Bool) × σ) :
    traverse_assumptions_const ext it as s.2 =
      ((traverse_assumptions_const ext (traced it) as s).1,
        (traverse_assumptions_const ext (traced it) as s).2.2) := by
  induction as generalizing s with
  | nil => simp [traverse_assumptions_const]
  | cons a as ih =>
    unfold traverse_assumptions_const
    by_cases hr : (it.assumption s.2 (ext a)).1 = true
    · simpa [hr] using ih ((traced it).assumption s (ext a)).2
    · simp [hr]

/-- Journalling does not change the const traversal either. -/
theorem traverse_core_const_traced (ops : HostOps) (it : CoreIterator σ) (d : Drupper) (v : σ)
    (l : List (Callback × Bool)) :
    traverse_core_const ops it d v =
      ((traverse_core_const ops (traced it) d (l, v)).1,
        (traverse_core_const ops (traced it) d (l, v)).2.2) := by
  unfold traverse_core_const
  have e1 := traverse_clauses_const_untrace ops.externalize it d d.internal.clauses (l, v)
  simp only at e1
  rw [e1]
  generalize traverse_clauses_const ops.externalize (traced it) d d.internal.clauses _ = r1
  by_cases h1 : r1.1 = true
  · simp only [h1, Bool.not_true, Bool.false_eq_true, if_false]
    rw [traverse_units_const_untrace]
    generalize traverse_units_const ops.externalize (traced it) d d.unit_clauses _ = r2
    by_cases h2 : r2.1 = true
    · simp only [h2, Bool.not_true, Bool.false_eq_true, if_false]
      rw [traverse_assumptions_const_untrace]
      generalize traverse_assumptions_const ops.externalize (traced it)
        d.internal.assumptions _ = r3
      by_cases h3 : r3.1 = true
      · by_cases hu : d.internal.unsat_constraint = true
        · by_cases hr : (it.constraint r3.2.2 (List.foldl
            (fun e ilit => e ++ [ops.externalize ilit]) [] d.internal.constraint)).1 = true
          · simp [h3, hu, hr]
          · simp [h3, hu, hr]
        · simp [h3, hu]
      · simp [h3]
    · simp [h2]
  · simp [h1]

/-! Statistics. -/

theorem dedup_length_snoc (L : List Nat) (a : Nat) :
    (L ++ [a]).dedup.length = if a ∈ L then L.dedup.length else L.dedup.length + 1 := by
  rw [← List.card_toFinset, ← List.card_toFinset]
  by_cases h : a ∈ L
  · have : (L ++ [a]).toFinset = L.toFinset := by
      ext x; simp only [List.toFinset_append, List.toFinset_cons, List.toFinset_nil,
        Finset.mem_union, List.mem_toFinset, Finset.mem_insert, Finset.not_mem_empty, or_false]
      constructor
      · rintro (hx | rfl)
        · exact hx
        · exact h
      · exact Or.inl
    simp [h, this]
  · have : (L ++ [a]).toFinset = insert a L.toFinset := by
      ext x; simp only [List.toFinset_append, List.toFinset_cons, List.toFinset_nil,
        Finset.mem_union, List.mem_toFinset, Finset.mem_insert, Finset.not_mem_empty, or_false]
      exact or_comm
    rw [this, Finset.card_insert_of_not_mem (by simpa using h)]
    simp [h]

theorem see_variable_pos (t : Traversal σ) (l : Int)
    (hs : t.seen.getD l.natAbs false = true) : see_variable t l = t := by
  unfold see_variable; rw [if_pos hs]

theorem see_variable_neg (t : Traversal σ) (l : Int)
    (hs : ¬ t.seen.getD l.natAbs false = true) :
    see_variable t l =
      Traversal.mk t.eclause (t.seen.set l.natAbs true)
        (DrupperStats.mk t.stats.trims t.stats.derived t.stats.deleted t.stats.revived
          t.stats.units (CoreStats.mk t.stats.core.clauses t.stats.core.lemmas
            (t.stats.core.vars + 1))) t.it := by
  unfold see_variable; rw [if_neg hs]

theorem Tracked.see_variable {mv : Nat} {t : Traversal σ} {nc nl : Nat} {L : List Int}
    (h : Tracked mv t nc nl L) (l : Int) (hl : l.natAbs ≤ mv) :
    Tracked mv (see_variable t l) nc nl (L ++ [l]) := by
  obtain ⟨h1, h2, h3, h4, h5⟩ := h
  by_cases hs : t.seen.getD l.natAbs false = true
  · have hm := (h4 _).1 hs
    rw [see_variable_pos t l hs]
    refine ⟨h1, h2, h3, ?_, ?_⟩
    · intro n
      simp only [List.map_append, List.map_cons, List.map_nil, List.mem_append,
        List.mem_singleton]
      rw [h4 n]
      constructor
      · exact Or.inl
      · rintro (hn | rfl)
        · exact hn
        · exact hm
    · simp only [List.map_append, List.map_cons, List.map_nil]
      rw [dedup_length_snoc, if_pos hm]; exact h5
  · have hm : l.natAbs ∉ L.map Int.natAbs := fun hm => hs ((h4 _).2 hm)
    rw [see_variable_neg t l hs]
    refine ⟨h1, h2, by simpa using h3, ?_, ?_⟩
    · intro n
      simp only [List.map_append, List.map_cons, List.map_nil, List.mem_append,
        List.mem_singleton]
      rw [← h4 n]
      by_cases hn : n = l.natAbs
      · subst hn
        have : l.natAbs < t.seen.length := by omega
        simp [List.getD_eq_getElem?_getD, List.getElem?_set, this]
      · have hn2 : ¬ l.natAbs = n := fun h => hn h.symm
        simp [List.getD_eq_getElem?_getD, List.getElem?_set, hn, hn2]
    · simp only [List.map_append, List.map_cons, List.map_nil]
      rw [dedup_length_snoc, if_neg hm, h5]
      push_cast; ring

theorem Tracked.push_literal {mv : Nat} {t : Traversal σ} {nc nl : Nat} {L : List Int}
    (ext : Int → Int) (h : Tracked mv t nc nl L) (l : Int) (hl : l.natAbs ≤ mv) :
    Tracked mv (push_literal ext t l) nc nl (L ++ [l]) := by
  unfold CaDiCaL.push_literal
  exact Tracked.see_variable (t := { t with eclause := t.eclause ++ [ext l] }) h l hl

theorem Tracked.foldl_push_literal {mv : Nat} {nc nl : Nat} (ext : Int → Int) (ls : List Int)
    {t : Traversal σ} {L : List Int} (h : Tracked mv t nc nl L)
    (hl : ∀ l ∈ ls, l.natAbs ≤ mv) :
    Tracked mv (ls.foldl (CaDiCaL.push_literal ext) t) nc nl (L ++ ls) := by
  induction ls generalizing t L with
  | nil => simpa using h
  | cons a ls ih =>
    have := ih (h.push_literal ext a (hl a (by simp))) (fun l hm => hl l (by simp [hm]))
    simpa using this

theorem Tracked.count_clause {mv : Nat} {t : Traversal σ} {nc nl : Nat} {L : List Int}
    (h : Tracked mv t nc nl L) : Tracked mv (count_clause t) (nc + 1) nl L := by
  obtain ⟨h1, h2, h3, h4, h5⟩ := h
  refine ⟨?_, h2, h3, h4, h5⟩
  show t.stats.core.clauses + 1 = ((nc + 1 : Nat) : Int)
  rw [h1]; push_cast; rfl

theorem Tracked.count_lemma {mv : Nat} {t : Traversal σ} {nc nl : Nat} {L : List Int}
    (h : Tracked mv t nc nl L) : Tracked mv (count_lemma t) nc (nl + 1) L := by
  obtain ⟨h1, h2, h3, h4, h5⟩ := h
  refine ⟨h1, ?_, h3, h4, h5⟩
  show t.stats.core.lemmas + 1 = ((nl + 1 : Nat) : Int)
  rw [h2]; push_cast; rfl

theorem Tracked.set_it {τ : Type} {mv : Nat} {t : Traversal σ} {nc nl : Nat} {L : List Int}
    (h : Tracked mv t nc nl L) (e : List Int) (v : τ) :
    Tracked mv (Traversal.mk e t.seen t.stats v) nc nl L := h

theorem traverse_clauses_tracked (ext : Int → Int) (it : CoreIterator σ) (h : it.AlwaysTrue)
    (d : Drupper) (mv : Nat) (cs : List Nat) (t : Traversal σ) (nc nl : Nat) (L : List Int)
    (ht : Tracked mv t nc nl L) (hb : ∀ l ∈ pool_literals d cs, l.natAbs ≤ mv) :
    Tracked mv (traverse_clauses ext it d cs t).2 (nc + (pool_calls ext d cs).length)
      (nl + (pool_lemmas d cs).length) (L ++ pool_literals d cs) := by
  induction cs generalizing t nc nl L with
  | nil => simpa [traverse_clauses, pool_calls, pool_lemmas, pool_literals] using ht
  | cons c cs ih =>
    unfold traverse_clauses
    by_cases hc : (d.internal.deref c).drup_core = true
    · by_cases hf : some c = d.failed_constraint
      · have := ih t nc nl L ht (by simpa [pool_literals, hc, hf] using hb)
        simpa [hc, hf, pool_calls, pool_lemmas, pool_literals] using this
      · by_cases hl : (d.internal.deref c).drup_islem = true
        · have := ih (count_lemma t) nc (nl + 1) L ht.count_lemma
            (by simpa [pool_literals, hc, hf, hl] using hb)
          simpa [hc, hf, hl, pool_calls, pool_lemmas, pool_literals, Nat.add_assoc,
            Nat.add_comm 1] using this
        · simp only [Bool.not_eq_true] at hl
          have hb1 : ∀ l ∈ (d.internal.deref c).literals, l.natAbs ≤ mv := by
            intro l hm
            apply hb
            simp [pool_literals, hc, hf, hl, hm]
          have hcons : pool_literals d (c :: cs) =
              (d.internal.deref c).literals ++ pool_literals d cs := by
            simp [pool_literals, hc, hf, hl]
          have hb2 : ∀ l ∈ pool_literals d cs, l.natAbs ≤ mv := by
            intro l hm
            apply hb
            rw [hcons]
            exact List.mem_append_right _ hm
          have ht1 := Tracked.foldl_push_literal ext (d.internal.deref c).literals
            ht.count_clause hb1
          have hcall := h.1
          have := ih _ (nc + 1) nl _ (ht1.set_it []
            (it.clause (List.foldl (push_literal ext) (count_clause t)
              (d.internal.deref c).literals).it (List.foldl (push_literal ext) (count_clause t)
              (d.internal.deref c).literals).eclause).2) hb2
          simp only [hc, hf, hl, hcall, if_true, if_false, Bool.false_eq_true, Bool.not_true]
          simpa [pool_calls, pool_lemmas, pool_literals, hc, hf, hl, Nat.add_assoc,
            Nat.add_comm 1] using this
    · have := ih t nc nl L ht (by simpa [pool_literals, hc] using hb)
      simpa [hc, pool_calls, pool_lemmas, pool_literals] using this

theorem traverse_units_tracked (ext : Int → Int) (it : CoreIterator σ) (h : it.AlwaysTrue)
    (d : Drupper) (mv : Nat) (cs : List Nat) (t : Traversal σ) (nc nl : Nat) (L : List Int)
    (ht : Tracked mv t nc nl L) (hb : ∀ l ∈ unit_literals d cs, l.natAbs ≤ mv) :
    Tracked mv (traverse_units ext it d cs t).2 (nc + (unit_calls ext d cs).length)
      (nl + (unit_lemmas d cs).length) (L ++ unit_literals d cs) := by
  induction cs generalizing t nc nl L with
  | nil => simpa [traverse_units, unit_calls, unit_lemmas, unit_literals] using ht
  | cons c cs ih =>
    unfold traverse_units
    by_cases hc : (d.internal.deref c).drup_core = true
    · by_cases hl : (d.internal.deref c).drup_islem = true
      · have := ih (count_lemma t) nc (nl + 1) L ht.count_lemma
          (by simpa [unit_literals, hc, hl] using hb)
        simpa [hc, hl, unit_calls, unit_lemmas, unit_literals, Nat.add_assoc,
          Nat.add_comm 1] using this
      · simp only [Bool.not_eq_true] at hl
        have hb1 : (d.internal.deref c).lit0.natAbs ≤ mv := by
          apply hb
          simp [unit_literals, hc, hl]
        have hcons : unit_literals d (c :: cs) =
            (d.internal.deref c).lit0 :: unit_literals d cs := by
          simp [unit_literals, hc, hl]
        have hb2 : ∀ l ∈ unit_literals d cs, l.natAbs ≤ mv := by
          intro l hm
          apply hb
          rw [hcons]
          exact List.mem_cons_of_mem _ hm
        have ht1 := Tracked.push_literal ext ht.count_clause (d.internal.deref c).lit0 hb1
        have hcall := h.1
        have := ih _ (nc + 1) nl _ (ht1.set_it []
          (it.clause (push_literal ext (count_clause t) (d.internal.deref c).lit0).it
            (push_literal ext (count_clause t) (d.internal.deref c).lit0).eclause).2) hb2
        simp only [hc, hl, hcall, if_true, if_false, Bool.false_eq_true, Bool.not_true]
        simpa [unit_calls, unit_lemmas, unit_literals, hc, hl, Nat.add_assoc,
          Nat.add_comm 1] using this
    · have := ih t nc nl L ht (by simpa [unit_literals, hc] using hb)
      simpa [hc, unit_calls, unit_lemmas, unit_literals] using this

theorem traverse_assumptions_tracked (ext : Int → Int) (it : CoreIterator σ)
    (h : it.AlwaysTrue) (mv : Nat) (as : List Int) (t : Traversal σ) (nc nl : Nat)
    (L : List Int) (ht : Tracked mv t nc nl L) (hb : ∀ l ∈ as, l.natAbs ≤ mv) :
    Tracked mv (traverse_assumptions ext it as t).2 nc nl (L ++ as) := by
  induction as generalizing t L with
  | nil => simpa [traverse_assumptions] using ht
  | cons a as ih =>
    unfold traverse_assumptions
    have hcall := h.2.1
    have ht1 := Tracked.see_variable (ht.set_it t.eclause (it.assumption t.it (ext a)).2) a
      (hb a (by simp))
    have := ih _ _ ht1 (fun l hm => hb l (by simp [hm]))
    simp only [hcall, Bool.not_true, Bool.false_eq_true, if_false]
    simpa using this

theorem traverse_constraint_tracked (ext : Int → Int) (it : CoreIterator σ)
    (h : it.AlwaysTrue) (d : Drupper) (mv : Nat) (t : Traversal σ) (nc nl : Nat)
    (L : List Int) (ht : Tracked mv t nc nl L)
    (hb : d.internal.unsat_constraint = true → ∀ l ∈ d.internal.constraint, l.natAbs ≤ mv) :
    Tracked mv (traverse_constraint ext it d t).2
      (nc + if d.internal.unsat_constraint then 1 else 0) nl
      (L ++ if d.internal.unsat_constraint then d.internal.constraint else []) := by
  unfold traverse_constraint
  have hcall := h.2.2
  by_cases hu : d.internal.unsat_constraint = true
  · have ht1 := Tracked.foldl_push_literal ext d.internal.constraint ht.count_clause (hb hu)
    simp only [hu, if_true, hcall, Bool.not_true, Bool.false_eq_true, if_false]
    exact ht1.set_it [] _
  · simpa [hu] using ht

theorem Tracked.init (mv : Nat) (st : DrupperStats) (v : σ) (hz : st.core = {}) :
    Tracked mv (Traversal.mk [] (List.replicate (mv + 1) false) st v) 0 0 [] := by
  refine ⟨by simp [hz], by simp [hz], by simp, ?_, by simp [hz]⟩
  intro n
  simp [List.getD_eq_getElem?_getD, List.getElem?_replicate]
  split <;> simp

/-- Core statistics after the non-const traversal with an accepting visitor,
in terms of the Drupper state. -/
theorem traverse_core_stats (ops : HostOps) (it : CoreIterator σ) (h : it.AlwaysTrue)
    (d : Drupper) (v : σ) (hz : d.stats.core = {})
    (hb : ∀ l ∈ core_internal_literals d, l.natAbs ≤ d.internal.max_var)
    (hsave : ∀ st, (ops.save_core_phase_stats st).core = st.core) :
    (traverse_core ops (traced it) d ([], v)).2.2.stats.core.clauses =
      (((pool_calls ops.externalize d d.internal.clauses).length +
        (unit_calls ops.externalize d d.unit_clauses).length +
        (if d.internal.unsat_constraint then 1 else 0) : Nat) : Int) ∧
    (traverse_core ops (traced it) d ([], v)).2.2.stats.core.lemmas =
      (((pool_lemmas d d.internal.clauses).length +
        (unit_lemmas d d.unit_clauses).length : Nat) : Int) ∧
    (traverse_core ops (traced it) d ([], v)).2.2.stats.core.vars =
      ((((core_internal_literals d).map Int.natAbs).dedup.length : Nat) : Int) := by
  have hT := traced_alwaysTrue h
  have j1 := traverse_clauses_journal ops.externalize it h d d.internal.clauses
    (Traversal.mk [] (List.replicate (d.internal.max_var + 1) false) d.stats ([], v)) rfl
  have k1 := traverse_clauses_tracked ops.externalize (traced it) hT d d.internal.max_var
    d.internal.clauses _ 0 0 [] (Tracked.init d.internal.max_var d.stats ([], v) hz)
    (fun l hm => hb l (by simp [core_internal_literals, hm]))
  have j2 := traverse_units_journal ops.externalize it h d d.unit_clauses _ j1.2.1
  have k2 := traverse_units_tracked ops.externalize (traced it) hT d d.internal.max_var
    d.unit_clauses _ _ _ _ k1 (fun l hm => hb l (by simp [core_internal_literals, hm]))
  have j3 := traverse_assumptions_journal ops.externalize it h d.internal.assumptions _ j2.2.1
  have k3 := traverse_assumptions_tracked ops.externalize (traced it) hT d.internal.max_var
    d.internal.assumptions _ _ _ _ k2 (fun l hm => hb l (by simp [core_internal_literals, hm]))
  have j4 := traverse_constraint_journal ops.externalize it h d _ j3.2.1
  have k4 := traverse_constraint_tracked ops.externalize (traced it) hT d d.internal.max_var
    _ _ _ _ k3 (fun hu l hm => hb l (by simp [core_internal_literals, hu, hm]))
  unfold traverse_core
  simp only [j1.1, j2.1, j3.1, j4.1, Bool.not_true, Bool.false_eq_true, if_false, hsave]
  obtain ⟨c1, c2, -, -, c5⟩ := k4
  refine ⟨?_, ?_, ?_⟩
  · rw [c1]; simp
  · rw [c2]; simp
  · rw [c5]; simp [core_internal_literals]

theorem flatten_map_singleton {α β : Type} (f : α → β) (L : List α) :
    (L.map fun x => [f x]).flatten = L.map f := by
  induction L with
  | nil => rfl
  | cons a L ih => simp [ih]

theorem core_callbacks_literals (ext : Int → Int) (d : Drupper) :
    ((core_callbacks ext d).map Callback.literals).flatten =
      (core_internal_literals d).map ext := by
  unfold core_callbacks core_internal_literals pool_literals unit_literals
  by_cases hu : d.internal.unsat_constraint = true
  · simp [hu, List.map_flatten, Callback.literals, Function.comp_def, List.flatten_append,
      flatten_map_singleton]
  · simp [hu, List.map_flatten, Callback.literals, Function.comp_def, List.flatten_append,
      flatten_map_singleton]

theorem dedup_length_map_congr {α : Type} (f g : α → Nat)
    (hfg : ∀ a b, f a = f b ↔ g a = g b) (L : List α) :
    (L.map f).dedup.length = (L.map g).dedup.length := by
  induction L with
  | nil => rfl
  | cons a L ih =>
    have hmem : f a ∈ L.map f ↔ g a ∈ L.map g := by
      simp only [List.mem_map]
      constructor
      · rintro ⟨b, hb, e⟩; exact ⟨b, hb, (hfg b a).1 e⟩
      · rintro ⟨b, hb, e⟩; exact ⟨b, hb, (hfg b a).2 e⟩
    by_cases hm : f a ∈ L.map f
    · simp only [List.map_cons]
      rw [List.dedup_cons_of_mem hm, List.dedup_cons_of_mem (hmem.1 hm), ih]
    · simp only [List.map_cons]
      rw [List.dedup_cons_of_not_mem hm, List.dedup_cons_of_not_mem (fun h => hm (hmem.2 h))]
      simp [ih]

theorem core_callbacks_clause_calls (ext : Int → Int) (d : Drupper) :
    ((core_callbacks ext d).filter Callback.isClauseCall).length =
      (pool_calls ext d d.internal.clauses).length + (unit_calls ext d d.unit_clauses).length := by
  unfold core_callbacks pool_calls unit_calls
  by_cases hu : d.internal.unsat_constraint = true
  · simp [hu, List.filter_append, List.filter_map, Function.comp_def, Callback.isClauseCall]
  · simp [hu, List.filter_append, List.filter_map, Function.comp_def, Callback.isClauseCall]

theorem core_callbacks_constraint_calls (ext : Int → Int) (d : Drupper) :
    ((core_callbacks ext d).filter Callback.isConstraintCall).length =
      if d.internal.unsat_constraint then 1 else 0 := by
  unfold core_callbacks
  by_cases hu : d.internal.unsat_constraint = true
  · simp [hu, List.filter_append, List.filter_map, Function.comp_def,
      Callback.isConstraintCall]
  · simp [hu, List.filter_append, List.filter_map, Function.comp_def,
      Callback.isConstraintCall]

theorem statsCollector_alwaysTrue : statsCollector.AlwaysTrue :=
  ⟨fun _ _ => rfl, fun _ _ => rfl, fun _ _ => rfl⟩

end traversal








/-! ## The proof log: length and statistics -/

section log

@[simp] theorem modifyEntry_length (d : Drupper) (i : Nat) (f : DrupperClause → DrupperClause) :
    (d.modifyEntry i f).proof.length = d.proof.length := by
  simp [Drupper.modifyEntry]

@[simp] theorem modifyEntry_stats (d : Drupper) (i : Nat) (f : DrupperClause → DrupperClause) :
    (d.modifyEntry i f).stats = d.stats := rfl

@[simp] theorem modifyEntry_internal (d : Drupper) (i : Nat) (f : DrupperClause → DrupperClause) :
    (d.modifyEntry i f).internal = d.internal := rfl

@[simp] theorem modifyEntry_isolated (d : Drupper) (i : Nat) (f : DrupperClause → DrupperClause) :
    (d.modifyEntry i f).isolated = d.isolated := rfl

@[simp] theorem append_lemma_length (d : Drupper) (dc : DrupperClause) :
    (append_lemma d dc).proof.length = d.proof.length + 1 := by
  unfold append_lemma
  cases h : dc.variant with
  | CLAUSE c => cases c <;> simp
  | LITERALS l => simp

theorem append_lemma_stats (d : Drupper) (dc : DrupperClause) :
    (append_lemma d dc).stats =
      if dc.deleted then { d.stats with deleted := d.stats.deleted + 1 }
      else { d.stats with derived := d.stats.derived + 1 } := by
  unfold append_lemma
  cases h : dc.variant with
  | CLAUSE c => cases c <;> rfl
  | LITERALS l => rfl

theorem append_lemma_sum (d : Drupper) (dc : DrupperClause) :
    (append_lemma d dc).stats.derived + (append_lemma d dc).stats.deleted =
      d.stats.derived + d.stats.deleted + 1 := by
  rw [append_lemma_stats]
  split <;> simp <;> ring

theorem append_lemma_well_formed (d : Drupper) (dc : DrupperClause) (h : well_formed d) :
    well_formed (append_lemma d dc) := by
  unfold well_formed at *
  rw [append_lemma_sum, append_lemma_length, ← h]
  push_cast; rfl

@[simp] theorem new_unit_clause_proof (d : Drupper) (lit : Int) (o : Bool) :
    (new_unit_clause d lit o).1.proof = d.proof := rfl

@[simp] theorem new_unit_clause_derived (d : Drupper) (lit : Int) (o : Bool) :
    (new_unit_clause d lit o).1.stats.derived = d.stats.derived := rfl

@[simp] theorem new_unit_clause_deleted (d : Drupper) (lit : Int) (o : Bool) :
    (new_unit_clause d lit o).1.stats.deleted = d.stats.deleted := rfl

theorem well_formed_congr {d e : Drupper} (hp : e.proof.length = d.proof.length)
    (h1 : e.stats.derived = d.stats.derived) (h2 : e.stats.deleted = d.stats.deleted)
    (h : well_formed d) : well_formed e := by
  unfold well_formed at *
  rw [hp, h1, h2]; exact h

theorem modifyEntry_well_formed (d : Drupper) (i : Nat) (f : DrupperClause → DrupperClause)
    (h : well_formed d) : well_formed (d.modifyEntry i f) :=
  well_formed_congr (d := d) (by simp) rfl rfl h

theorem set_internal_well_formed (d : Drupper) (s : Internal) (h : well_formed d) :
    well_formed { d with internal := s } := h

theorem revive_materialize_log (ops : HostOps) (d : Drupper) (i : Nat) :
    (revive_materialize ops d i).1.proof.length = d.proof.length ∧
    (revive_materialize ops d i).1.stats = d.stats ∧
    (revive_materialize ops d i).1.isolated = d.isolated := by
  unfold revive_materialize
  cases (d.entry i).variant with
  | CLAUSE c => simp
  | LITERALS l => simp

theorem revive_activate_log (ops : HostOps) (d : Drupper) (c : Option Nat) :
    (revive_activate ops d c).proof = d.proof ∧
    (revive_activate ops d c).stats = d.stats ∧
    (revive_activate ops d c).isolated = d.isolated := by
  cases c <;> simp [revive_activate]

theorem revive_clause_log (ops : HostOps) (d : Drupper) (i : Nat) :
    (revive_clause ops d i).proof.length = d.proof.length ∧
    (revive_clause ops d i).stats.derived = d.stats.derived ∧
    (revive_clause ops d i).stats.deleted = d.stats.deleted := by
  have h1 := revive_materialize_log ops d i
  have h2 := revive_activate_log ops (revive_materialize ops d i).1 (revive_materialize ops d i).2
  unfold revive_clause
  by_cases hr : (d.entry i).revive_at ≠ 0
  · simp [hr, h1.1, h1.2.1, h2.1, h2.2.1]
  · simp [hr, h1.1, h1.2.1, h2.1, h2.2.1]

theorem add_derived_clause_well_formed (d : Drupper) (c : Nat) (h : well_formed d) :
    well_formed (add_derived_clause d c) := by
  unfold add_derived_clause
  split
  · exact h
  · exact append_lemma_well_formed _ _ h

theorem delete_clause_well_formed (d : Drupper) (c : Nat) (h : well_formed d) :
    well_formed (delete_clause d c) := by
  unfold delete_clause
  split
  · exact h
  · exact append_lemma_well_formed _ _ h

theorem add_derived_unit_clause_well_formed (d : Drupper) (lit : Int) (o : Bool)
    (h : well_formed d) : well_formed (add_derived_unit_clause d lit o) := by
  unfold add_derived_unit_clause
  by_cases hi : d.isolated = true
  · simpa [hi] using h
  · simp only [hi, Bool.false_eq_true, if_false]
    by_cases hr : (d.internal.var lit).reason = none
    · cases o with
      | true => simpa [hr] using well_formed_congr (d := d) rfl rfl rfl h
      | false =>
        simp only [hr, if_true, Bool.not_false]
        exact append_lemma_well_formed _ _ (well_formed_congr (d := d) rfl rfl rfl h)
    · cases o with
      | true => simpa [hr] using h
      | false =>
        simp only [hr, if_false, Bool.not_false, if_true]
        exact append_lemma_well_formed _ _ (well_formed_congr (d := d) rfl rfl rfl h)

theorem add_derived_empty_clause_well_formed (d : Drupper) (h : well_formed d) :
    well_formed (add_derived_empty_clause d) := by
  unfold add_derived_empty_clause
  split
  · exact h
  · exact h

theorem append_failed_well_formed (d : Drupper) (c : List Int) (h : well_formed d) :
    well_formed (append_failed d c) := by
  unfold append_failed
  exact modifyEntry_well_formed _ _ _
    (append_lemma_well_formed _ _ (append_lemma_well_formed _ _ h))

theorem add_failing_assumption_well_formed (d : Drupper) (c : List Int) (h : well_formed d) :
    well_formed (add_failing_assumption d c) := by
  unfold add_failing_assumption
  by_cases hi : d.isolated = true
  · simpa [hi] using h
  · simp only [hi, Bool.false_eq_true, if_false]
    split
    · split
      · exact append_failed_well_formed _ _ h
      · exact h
    · exact h

theorem add_updated_clause_well_formed (d : Drupper) (c : Nat) (h : well_formed d) :
    well_formed (add_updated_clause d c) := by
  unfold add_updated_clause
  by_cases hi : d.isolated = true
  · simpa [hi] using h
  · simp only [hi, Bool.false_eq_true, if_false]
    apply append_lemma_well_formed
    apply append_lemma_well_formed
    split
    · exact modifyEntry_well_formed _ _ _ h
    · exact h

theorem delete_clause_lits_well_formed (d : Drupper) (c : List Int) (o : Bool)
    (h : well_formed d) : well_formed (delete_clause_lits d c o) := by
  unfold delete_clause_lits
  by_cases hi : d.isolated = true
  · simpa [hi] using h
  · simp only [hi, Bool.false_eq_true, if_false]
    split
    · exact append_lemma_well_formed _ _ h
    · exact h

theorem deallocate_clause_well_formed (d : Drupper) (c : Nat) (h : well_formed d) :
    well_formed (deallocate_clause d c) := by
  unfold deallocate_clause
  by_cases hi : d.isolated = true
  · simpa [hi] using h
  · simp only [hi, Bool.false_eq_true, if_false]
    split
    · exact h
    · split
      · exact modifyEntry_well_formed _ _ _ (modifyEntry_well_formed _ _ _ h)
      · exact modifyEntry_well_formed _ _ _ h

theorem update_moved_entry_well_formed (d : Drupper) (i : Nat) (h : well_formed d) :
    well_formed (update_moved_entry d i) := by
  unfold update_moved_entry
  dsimp only
  cases (d.entry i).variant with
  | LITERALS l => exact h
  | CLAUSE c =>
    cases c with
    | none => exact h
    | some c =>
      dsimp only
      split
      · exact h
      · split
        · exact modifyEntry_well_formed _ _ _ (modifyEntry_well_formed _ _ _
            (set_internal_well_formed d _ h))
        · exact modifyEntry_well_formed _ _ _ (set_internal_well_formed d _ h)

theorem foldl_well_formed {α : Type} (f : Drupper → α → Drupper)
    (hf : ∀ d a, well_formed d → well_formed (f d a)) (l : List α) (d : Drupper)
    (h : well_formed d) : well_formed (l.foldl f d) := by
  induction l generalizing d with
  | nil => exact h
  | cons a l ih => exact ih _ (hf d a h)

theorem update_moved_counterparts_well_formed (d : Drupper) (h : well_formed d) :
    well_formed (update_moved_counterparts d) := by
  unfold update_moved_counterparts
  split
  · exact h
  · exact foldl_well_formed _ update_moved_entry_well_formed _ _ h

theorem add_falsified_original_clause_well_formed (ops : HostOps) (d : Drupper)
    (cl : List Int) (derived : Bool) (h : well_formed d) :
    well_formed (add_falsified_original_clause ops d cl derived) := by
  unfold add_falsified_original_clause
  by_cases hi : d.isolated = true
  · simpa [hi] using h
  · simp only [hi, Bool.false_eq_true, if_false]
    have key : ∀ e : Drupper, well_formed e → well_formed
        (match e.final_conflict with
          | some c => { e with internal := e.internal.modify c fun x =>
              { x with drup_islem := false } }
          | none => e) := by
      intro e he
      cases e.final_conflict <;> exact he
    apply key
    cases derived with
    | true =>
      simp only [if_true]
      split
      · have := modifyEntry_well_formed
          (new_unit_clause d ((d.entry (d.proof.length - 1)).lits.headD 0) false).1
          (d.proof.length - 1) (fun e => e.set_variant (Variant.CLAUSE (some
            (new_unit_clause d ((d.entry (d.proof.length - 1)).lits.headD 0) false).2)))
          (well_formed_congr (d := d) rfl rfl rfl h)
        exact this
      · have := revive_clause_log ops d (d.proof.length - 1)
        exact well_formed_congr (d := d) this.1 this.2.1 this.2.2 h
    | false =>
      simp only [Bool.false_eq_true, if_false]
      split
      · exact well_formed_congr (d := d) rfl rfl rfl h
      · exact well_formed_congr (d := d) rfl rfl rfl h

theorem reconstruct_pop_well_formed (n : Nat) : ∀ (d d1 : Drupper), well_formed d →
    reconstruct_pop n d = some d1 → well_formed d1 := by
  induction n with
  | zero =>
    intro d d1 h hr
    injection hr with hr
    rw [← hr]
    exact h
  | succ n ih =>
    intro d d1 h hr
    unfold reconstruct_pop at hr
    cases hl : d.proof.getLast? with
    | none => rw [hl] at hr; cases hr
    | some dc =>
      rw [hl] at hr
      dsimp only at hr
      cases hc : dc.clause with
      | none => rw [hc] at hr; cases hr
      | some c =>
        rw [hc] at hr
        dsimp only at hr
        refine ih _ d1 ?_ hr
        have hne : d.proof ≠ [] := by
          intro he; rw [he] at hl; simp at hl
        have hlen : d.proof.length ≠ 0 := fun h0 => hne (List.length_eq_zero.1 h0)
        unfold well_formed at *
        by_cases hd : dc.deleted = true
        · simp only [hd, if_true, List.length_dropLast]
          have : ((d.proof.length - 1 : Nat) : Int) = (d.proof.length : Int) - 1 := by omega
          rw [this, h]; ring
        · simp only [hd, Bool.false_eq_true, if_false, List.length_dropLast]
          have : ((d.proof.length - 1 : Nat) : Int) = (d.proof.length : Int) - 1 := by omega
          rw [this, h]; ring

theorem reconstruct_entry_well_formed (d d1 : Drupper) (i : Nat) (h : well_formed d)
    (hr : reconstruct_entry d i = some d1) : well_formed d1 := by
  unfold reconstruct_entry at hr
  dsimp only at hr
  split at hr
  · split at hr
    · cases hr
    · split at hr
      · split at hr
        · injection hr with hr
          rw [← hr]
          exact modifyEntry_well_formed _ _ _ (modifyEntry_well_formed _ _ _
            (set_internal_well_formed d _ h))
        · cases hr
      · injection hr with hr
        rw [← hr]
        exact modifyEntry_well_formed _ _ _ (set_internal_well_formed d _ h)
  · injection hr with hr
    rw [← hr]
    exact h

theorem reconstruct_entries_well_formed (l : List Nat) : ∀ (d d1 : Drupper), well_formed d →
    reconstruct_entries l d = some d1 → well_formed d1 := by
  induction l with
  | nil =>
    intro d d1 h hr
    injection hr with hr
    rw [← hr]
    exact h
  | cons a l ih =>
    intro d d1 h hr
    unfold reconstruct_entries at hr
    cases he : reconstruct_entry d a with
    | none => rw [he] at hr; cases hr
    | some d2 =>
      rw [he] at hr
      exact ih d2 d1 (reconstruct_entry_well_formed d d2 a h he) hr

theorem reconstruct_well_formed (ops : HostOps) (d d1 : Drupper) (n : Nat) (h : well_formed d)
    (hr : reconstruct ops d n = some d1) : well_formed d1 := by
  unfold reconstruct at hr
  dsimp only at hr
  have h0 : well_formed { d with isolated := true } := h
  split at hr
  · cases hr
  · next d2 hd2 =>
    have h2 : well_formed d2 := by
      split at hd2
      · exact reconstruct_pop_well_formed _ _ d2 h0 hd2
      · injection hd2 with hd2
        rw [← hd2]
        exact h0
    split at hr
    · cases hr
    · next d3 hd3 =>
      injection hr with hr
      rw [← hr]
      exact reconstruct_entries_well_formed _ _ d3 (set_internal_well_formed d2 _ h2) hd3

theorem Event.run_well_formed (ops : HostOps) (d : Drupper) (e : Event) (h : well_formed d) :
    well_formed (e.run ops d) := by
  cases e with
  | add_derived_clause c => exact add_derived_clause_well_formed d c h
  | add_derived_unit_clause lit o => exact add_derived_unit_clause_well_formed d lit o h
  | add_derived_empty_clause => exact add_derived_empty_clause_well_formed d h
  | add_falsified_original_clause cl dv =>
    exact add_falsified_original_clause_well_formed ops d cl dv h
  | add_failing_assumption c => exact add_failing_assumption_well_formed d c h
  | add_updated_clause c => exact add_updated_clause_well_formed d c h
  | delete_clause_lits c o => exact delete_clause_lits_well_formed d c o h
  | delete_clause c => exact delete_clause_well_formed d c h
  | deallocate_clause c => exact deallocate_clause_well_formed d c h
  | update_moved_counterparts => exact update_moved_counterparts_well_formed d h

end log

/-! ## Log invariants: list-level lemmas -/

section invariants

theorem ent_append_left (P : List DrupperClause) (e : DrupperClause) (k : Nat)
    (h : k < P.length) : ent (P ++ [e]) k = ent P k := by
  simp [ent, List.getD_eq_getElem?_getD, List.getElem?_append_left h]

theorem ent_append_last (P : List DrupperClause) (e : DrupperClause) :
    ent (P ++ [e]) P.length = e := by
  simp [ent, List.getD_eq_getElem?_getD]

theorem ent_set_same (P : List DrupperClause) (e : DrupperClause) (k : Nat)
    (h : k < P.length) : ent (P.set k e) k = e := by
  simp [ent, List.getD_eq_getElem?_getD, List.getElem?_set, h]

theorem ent_set_ne (P : List DrupperClause) (e : DrupperClause) (k i : Nat) (h : i ≠ k) :
    ent (P.set k e) i = ent P i := by
  have h2 : ¬ k = i := fun hh => h hh.symm
  simp [ent, List.getD_eq_getElem?_getD, List.getElem?_set, h2]

theorem ent_beyond (P : List DrupperClause) (k : Nat) (h : P.length ≤ k) :
    ent P k = { variant := Variant.CLAUSE none } := by
  simp [ent, List.getD_eq_getElem?_getD, List.getElem?_eq_none h]

theorem ent_set_beyond (P : List DrupperClause) (e : DrupperClause) (k : Nat)
    (h : P.length ≤ k) : P.set k e = P := by
  apply List.ext_getElem?
  intro i
  rw [List.getElem?_set]
  split
  · next hki =>
    subst hki
    have : ¬ k < P.length := by omega
    simp [this, List.getElem?_eq_none h]
  · rfl

theorem IndexRoundtrip.push_clause {idx : Nat → Nat} {P : List DrupperClause}
    {dead : List Nat} (c : Nat) (e : DrupperClause)
    (h : ∀ p k, p ∉ dead → p ≠ c → idx p = k + 1 →
      k < P.length ∧ (ent P k).variant = Variant.CLAUSE (some p))
    (he : e.variant = Variant.CLAUSE (some c)) :
    IndexRoundtrip (Function.update idx c (P.length + 1)) (P ++ [e]) dead := by
  intro p k hp hk
  by_cases hpc : p = c
  · subst hpc
    simp only [Function.update_same] at hk
    have : k = P.length := by omega
    subst this
    exact ⟨by simp, by rw [ent_append_last]; exact he⟩
  · rw [Function.update_noteq hpc] at hk
    obtain ⟨h1, h2⟩ := h p k hp hpc hk
    exact ⟨by simp; omega, by rw [ent_append_left _ _ _ h1]; exact h2⟩

theorem IndexRoundtrip.push_other {idx : Nat → Nat} {P : List DrupperClause}
    {dead : List Nat} (e : DrupperClause) (h : IndexRoundtrip idx P dead) :
    IndexRoundtrip idx (P ++ [e]) dead := by
  intro p k hp hk
  obtain ⟨h1, h2⟩ := h p k hp hk
  exact ⟨by simp; omega, by rw [ent_append_left _ _ _ h1]; exact h2⟩

theorem IndexRoundtrip.except {idx : Nat → Nat} {P : List DrupperClause}
    {dead : List Nat} (h : IndexRoundtrip idx P dead) (c : Nat) :
    ∀ p k, p ∉ dead → p ≠ c → idx p = k + 1 →
      k < P.length ∧ (ent P k).variant = Variant.CLAUSE (some p) :=
  fun p k hp _ hk => h p k hp hk

/-- Clearing or flipping the entry that `c` points to keeps the roundtrip
for every other clause. -/
theorem IndexRoundtrip.set_own {idx : Nat → Nat} {P : List DrupperClause}
    {D : List Nat} (c k : Nat) (e : DrupperClause)
    (h : ∀ p k1, p ∉ D → p ≠ c → idx p = k1 + 1 →
      k1 < P.length ∧ (ent P k1).variant = Variant.CLAUSE (some p))
    (hk : (ent P k).variant = Variant.CLAUSE (some c) ∨ (ent P k).variant = Variant.CLAUSE none
      ∨ ∃ l, (ent P k).variant = Variant.LITERALS l) :
    ∀ p k1, p ∉ D → p ≠ c → idx p = k1 + 1 →
      k1 < (P.set k e).length ∧ (ent (P.set k e) k1).variant = Variant.CLAUSE (some p) := by
  intro p k1 hp hpc hk1
  obtain ⟨h1, h2⟩ := h p k1 hp hpc hk1
  have hne : k1 ≠ k := by
    intro heq
    subst heq
    rw [h2] at hk
    rcases hk with hk | hk | ⟨l, hk⟩
    · injection hk with hk; injection hk with hk; exact hpc hk
    · injection hk with hk; cases hk
    · cases hk
  exact ⟨by simpa using h1, by rw [ent_set_ne _ _ _ _ hne]; exact h2⟩

/-- Overwriting an entry that is not a clause reference keeps the roundtrip. -/
theorem IndexRoundtrip.set_unreferenced {idx : Nat → Nat} {P : List DrupperClause}
    {dead : List Nat} (h : IndexRoundtrip idx P dead) (k : Nat) (e : DrupperClause)
    (hk : ∀ p, (ent P k).variant ≠ Variant.CLAUSE (some p)) :
    IndexRoundtrip idx (P.set k e) dead := by
  intro p k1 hp hk1
  obtain ⟨h1, h2⟩ := h p k1 hp hk1
  have hne : k1 ≠ k := by
    intro heq; subst heq; exact hk p h2
  exact ⟨by simpa using h1, by rw [ent_set_ne _ _ _ _ hne]; exact h2⟩

theorem IndexLatest.latest_push_clause {idx : Nat → Nat} {P : List DrupperClause} (c : Nat)
    (e : DrupperClause) (h : IndexLatest idx P) (he : e.variant = Variant.CLAUSE (some c)) :
    IndexLatest (Function.update idx c (P.length + 1)) (P ++ [e]) := by
  intro i p hi hv
  simp only [List.length_append, List.length_singleton] at hi
  by_cases hpc : p = c
  · subst hpc
    simp only [Function.update_same]; omega
  · rw [Function.update_noteq hpc]
    by_cases hlt : i < P.length
    · rw [ent_append_left _ _ _ hlt] at hv
      exact h i p hlt hv
    · have : i = P.length := by omega
      subst this
      rw [ent_append_last, he] at hv
      injection hv with hv; injection hv with hv
      exact absurd hv.symm hpc

theorem IndexLatest.latest_push_other {idx : Nat → Nat} {P : List DrupperClause}
    (e : DrupperClause) (h : IndexLatest idx P) (he : ∀ c, e.variant ≠ Variant.CLAUSE (some c)) :
    IndexLatest idx (P ++ [e]) := by
  intro i p hi hv
  simp only [List.length_append, List.length_singleton] at hi
  by_cases hlt : i < P.length
  · rw [ent_append_left _ _ _ hlt] at hv
    exact h i p hlt hv
  · have : i = P.length := by omega
    subst this
    rw [ent_append_last] at hv
    exact absurd hv (he p)

theorem IndexLatest.set_entry {idx : Nat → Nat} {P : List DrupperClause} (k : Nat)
    (e : DrupperClause) (h : IndexLatest idx P) (he : ∀ c, e.variant ≠ Variant.CLAUSE (some c)) :
    IndexLatest idx (P.set k e) := by
  intro i p hi hv
  simp only [List.length_set] at hi
  by_cases hik : i = k
  · subst hik
    rw [ent_set_same _ _ _ hi] at hv
    exact absurd hv (he p)
  · rw [ent_set_ne _ _ _ _ hik] at hv
    exact h i p hi hv

theorem BackLinks.derivation_no_link {P : List DrupperClause} (h : BackLinks P) (i : Nat)
    (hi : i < P.length) (hd : (ent P i).deleted = false) : (ent P i).revive_at = 0 := by
  cases hr : (ent P i).revive_at with
  | zero => rfl
  | succ j =>
    have := (h i j hi hr).1
    rw [hd] at this; cases this

theorem BackLinks.push {P : List DrupperClause} (h : BackLinks P) (e : DrupperClause)
    (he : e.revive_at = 0 ∨ ∃ j, e.revive_at = j + 1 ∧ e.deleted = true ∧ j < P.length ∧
      (ent P j).deleted = false ∧ (ent P j).revive_at = 0 ∧
      ((ent P j).variant = Variant.CLAUSE none ∨ (ent P j).variant = e.variant)) :
    BackLinks (P ++ [e]) := by
  intro i j hi hr
  simp only [List.length_append, List.length_singleton] at hi
  by_cases hlt : i < P.length
  · rw [ent_append_left _ _ _ hlt] at hr ⊢
    obtain ⟨h1, h2, h3, h4, h5⟩ := h i j hlt hr
    have hj : j < P.length := by omega
    rw [ent_append_left _ _ _ hj]
    exact ⟨h1, h2, h3, h4, h5⟩
  · have hil : i = P.length := by omega
    subst hil
    rw [ent_append_last] at hr ⊢
    rcases he with he | ⟨j1, e1, e2, e3, e4, e5, e6⟩
    · rw [he] at hr; cases hr
    · have : j = j1 := by omega
      subst this
      rw [ent_append_left _ _ _ e3]
      exact ⟨e2, e3, e4, e5, e6⟩

/-- Changing only the variants of entries keeps the back links, provided the
variant condition survives for every linked pair. -/
theorem BackLinks.of_pointwise {P Q : List DrupperClause} (h : BackLinks P)
    (hl : Q.length = P.length)
    (hsame : ∀ x, (ent Q x).deleted = (ent P x).deleted ∧
      (ent Q x).revive_at = (ent P x).revive_at)
    (hvar : ∀ i j, i < P.length → (ent P i).revive_at = j + 1 →
      ((ent P j).variant = Variant.CLAUSE none ∨ (ent P j).variant = (ent P i).variant) →
      ((ent Q j).variant = Variant.CLAUSE none ∨ (ent Q j).variant = (ent Q i).variant)) :
    BackLinks Q := by
  intro i j hi hr
  rw [hl] at hi
  rw [(hsame i).2] at hr
  obtain ⟨h1, h2, h3, h4, h5⟩ := h i j hi hr
  rw [(hsame i).1, (hsame j).1, (hsame j).2]
  exact ⟨h1, h2, h3, h4, hvar i j hi hr h5⟩

theorem ent_set_variant_fields (P : List DrupperClause) (k : Nat) (v : Variant) (x : Nat) :
    (ent (P.set k ((ent P k).set_variant v)) x).deleted = (ent P x).deleted ∧
    (ent (P.set k ((ent P k).set_variant v)) x).revive_at = (ent P x).revive_at := by
  by_cases hx : x = k
  · subst hx
    by_cases hlt : x < P.length
    · rw [ent_set_same _ _ _ hlt]; exact ⟨rfl, rfl⟩
    · rw [ent_set_beyond _ _ _ (by omega)]; exact ⟨rfl, rfl⟩
  · rw [ent_set_ne _ _ _ _ hx]; exact ⟨rfl, rfl⟩

theorem ent_set_variant_same (P : List DrupperClause) (k : Nat) (v : Variant)
    (h : k < P.length) : (ent (P.set k ((ent P k).set_variant v)) k).variant = v := by
  rw [ent_set_same _ _ _ h]; rfl

/-- Clearing the clause reference of an entry without back link. -/
theorem BackLinks.clear {P : List DrupperClause} (h : BackLinks P) (k : Nat)
    (hk : (ent P k).revive_at = 0) :
    BackLinks (P.set k ((ent P k).set_variant (Variant.CLAUSE none))) := by
  by_cases hlt : k < P.length
  · refine h.of_pointwise (by simp) (ent_set_variant_fields P k _) ?_
    intro i j hi hr hv
    have hik : i ≠ k := by
      intro heq; subst heq; rw [hk] at hr; cases hr
    by_cases hjk : j = k
    · subst hjk
      left; exact ent_set_variant_same P j _ hlt
    · rw [ent_set_ne _ _ _ _ hjk, ent_set_ne _ _ _ _ hik]; exact hv
  · rw [ent_set_beyond _ _ _ (by omega)]; exact h

/-- Replacing the variant of an entry `k` that has no back link and that no
entry links to. -/
theorem BackLinks.flip_unlinked {P : List DrupperClause} (h : BackLinks P) (k : Nat)
    (v : Variant) (hnone : ∀ i, i < P.length → (ent P i).revive_at ≠ k + 1)
    (hr0 : (ent P k).revive_at = 0) :
    BackLinks (P.set k ((ent P k).set_variant v)) := by
  refine h.of_pointwise (by simp) (ent_set_variant_fields P k _) ?_
  intro i j hi hr hv
  have hjk : j ≠ k := by
    intro heq; subst heq; exact hnone i hi hr
  have hik : i ≠ k := by
    intro heq; subst heq; rw [hr0] at hr; cases hr
  rw [ent_set_ne _ _ _ _ hjk, ent_set_ne _ _ _ _ hik]; exact hv

/-- Replacing the variant of an entry `k` that no entry links to, and
clearing the entry `j` that `k` links to. -/
theorem BackLinks.flip_linked {P : List DrupperClause} (h : BackLinks P) (k j : Nat)
    (v : Variant) (hk : k < P.length) (hnone : ∀ i, i < P.length → (ent P i).revive_at ≠ k + 1)
    (hr : (ent P k).revive_at = j + 1) :
    BackLinks ((P.set k ((ent P k).set_variant v)).set j
      ((ent (P.set k ((ent P k).set_variant v)) j).set_variant (Variant.CLAUSE none))) := by
  obtain ⟨-, hjk, hjd, -, -⟩ := h k j hk hr
  have hjne : j ≠ k := by omega
  have hjlt : j < (P.set k ((ent P k).set_variant v)).length := by simp; omega
  refine h.of_pointwise (by simp) ?_ ?_
  · intro x
    have a := ent_set_variant_fields (P.set k ((ent P k).set_variant v)) j
      (Variant.CLAUSE none) x
    have b := ent_set_variant_fields P k v x
    exact ⟨a.1.trans b.1, a.2.trans b.2⟩
  · intro i j1 hi hr1 hv
    have hj1k : j1 ≠ k := by
      intro heq; subst heq; exact hnone i hi hr1
    by_cases hj1 : j1 = j
    · subst hj1
      left
      exact ent_set_variant_same _ _ _ hjlt
    · have hik : i ≠ k := by
        intro heq; subst heq; rw [hr] at hr1; omega
      have hij : i ≠ j := by
        intro heq; subst heq
        have := (h i j1 hi hr1).1
        rw [hjd] at this; cases this
      rw [ent_set_ne _ _ _ _ hj1, ent_set_ne _ _ _ _ hj1k, ent_set_ne _ _ _ _ hij,
        ent_set_ne _ _ _ _ hik]
      exact hv

/-! Effect of the log operations on indices and entries. -/

theorem deref_modify (s : Internal) (c : Nat) (f : Clause → Clause) (p : Nat) :
    (s.modify c f).deref p =
      if p = c ∧ c < s.heap.length then f (s.deref c) else s.deref p := by
  unfold Internal.modify Internal.store Internal.deref
  by_cases hp : p = c
  · subst hp
    by_cases hlt : p < s.heap.length
    · simp [hlt, List.getD_eq_getElem?_getD, List.getElem?_set]
    · have hn : s.heap[p]? = none := List.getElem?_eq_none (by omega)
      simp [hlt, List.getD_eq_getElem?_getD, List.getElem?_set, hn]
  · have : ¬ c = p := fun h => hp h.symm
    simp [hp, this, List.getD_eq_getElem?_getD, List.getElem?_set]

@[simp] theorem modify_heap_length (s : Internal) (c : Nat) (f : Clause → Clause) :
    (s.modify c f).heap.length = s.heap.length := by
  simp [Internal.modify, Internal.store]

theorem wrap30_of_lt (n : Nat) (h : n < 2 ^ 30) : wrap30 n = n := Nat.mod_eq_of_lt h

theorem idx_beyond (d : Drupper) (c : Nat) (h : d.internal.heap.length ≤ c) : d.idx c = 0 := by
  unfold Drupper.idx Internal.deref
  simp [List.getD_eq_getElem?_getD, List.getElem?_eq_none h]
  rfl

theorem entry_eq_ent (d : Drupper) (k : Nat) : d.entry k = ent d.proof k := rfl

theorem append_lemma_effect (d : Drupper) (dc : DrupperClause)
    (hb : d.proof.length + 1 < 2 ^ 30) :
    (append_lemma d dc).proof = d.proof ++ [linked d dc] ∧
    (append_lemma d dc).idx = reindexed d dc ∧
    (append_lemma d dc).isolated = d.isolated ∧
    (append_lemma d dc).internal.heap.length = d.internal.heap.length := by
  unfold append_lemma linked reindexed
  cases hv : dc.variant with
  | LITERALS l => exact ⟨rfl, rfl, rfl, rfl⟩
  | CLAUSE c =>
    cases c with
    | none => exact ⟨rfl, rfl, rfl, rfl⟩
    | some c =>
      refine ⟨?_, ?_, rfl, by simp⟩
      · simp [Drupper.idx]
      · funext p
        simp only [Drupper.idx, deref_modify]
        by_cases hlt : c < d.internal.heap.length
        · by_cases hp : p = c
          · subst hp
            simp [hlt, wrap30_of_lt _ hb]
          · simp [hlt, hp, Function.update_noteq hp, Drupper.idx]
        · simp [hlt, Drupper.idx]

theorem linked_variant (d : Drupper) (dc : DrupperClause) :
    (linked d dc).variant = dc.variant := by
  unfold linked
  cases hv : dc.variant with
  | LITERALS l => simp [hv]
  | CLAUSE c =>
    cases c with
    | none => simp [hv]
    | some c =>
      simp only []
      split <;> simp [hv]

theorem IndexRoundtrip.of_append_lemma (d : Drupper) (dc : DrupperClause) (dead : List Nat)
    (hb : d.proof.length + 1 < 2 ^ 30)
    (hex : ∀ p k, p ∉ dead → dc.variant ≠ Variant.CLAUSE (some p) → d.idx p = k + 1 →
      k < d.proof.length ∧ (ent d.proof k).variant = Variant.CLAUSE (some p)) :
    IndexRoundtrip (CaDiCaL.append_lemma d dc).idx (CaDiCaL.append_lemma d dc).proof dead := by
  obtain ⟨e1, e2, -, -⟩ := append_lemma_effect d dc hb
  rw [e1, e2]
  have hfull : (∀ c, dc.variant = Variant.CLAUSE (some c) → d.internal.heap.length ≤ c) →
      IndexRoundtrip d.idx d.proof dead := by
    intro hc p k hp hk
    apply hex p k hp _ hk
    intro hv
    have := idx_beyond d p (hc p hv)
    omega
  unfold reindexed
  cases hv : dc.variant with
  | LITERALS l =>
    exact (hfull (fun c hc => by rw [hv] at hc; cases hc)).push_other _
  | CLAUSE c =>
    cases c with
    | none => exact (hfull (fun c hc => by rw [hv] at hc; cases hc)).push_other _
    | some c =>
      simp only []
      by_cases hlt : c < d.internal.heap.length
      · rw [if_pos hlt]
        apply IndexRoundtrip.push_clause c
        · intro p k hp hpc hk
          apply hex p k hp _ hk
          rw [hv]
          intro h; injection h with h; injection h with h; exact hpc h.symm
        · rw [linked_variant, hv]
      · rw [if_neg hlt]
        apply IndexRoundtrip.push_other
        apply hfull
        intro c1 hc1
        rw [hv] at hc1; injection hc1 with hc1; injection hc1 with hc1
        subst hc1; omega

theorem alloc_deref_idx (s : Internal) (cl : Clause) (h : cl.drup_idx = 0) (p : Nat) :
    ((s.alloc cl).1.deref p).drup_idx = (s.deref p).drup_idx := by
  unfold Internal.alloc Internal.deref
  simp only [List.getD_eq_getElem?_getD]
  rcases Nat.lt_trichotomy p s.heap.length with hlt | heq | hgt
  · rw [List.getElem?_append_left hlt]
  · subst heq
    have h2 : s.heap[s.heap.length]? = none := List.getElem?_eq_none (le_refl _)
    rw [h2]
    simp only [List.getElem?_concat_length, Option.getD_some, Option.getD_none, h]
    rfl
  · have hlen : (s.heap ++ [cl]).length ≤ p := by
      rw [List.length_append, List.length_singleton]; omega
    have h1 : (s.heap ++ [cl])[p]? = none := List.getElem?_eq_none hlen
    have h2 : s.heap[p]? = none := List.getElem?_eq_none (by omega)
    rw [h1, h2]

theorem new_unit_clause_idx (d : Drupper) (lit : Int) (o : Bool) :
    (new_unit_clause d lit o).1.idx = d.idx := by
  funext p
  exact alloc_deref_idx d.internal _ rfl p

/-- Shape of `add_derived_unit_clause` outside the `isolated` lock: units are
allocated and the reason is set, which changes neither the log nor any
footer index, and then possibly one derivation entry for a fresh unit is
appended. -/
theorem add_derived_unit_clause_shape (d : Drupper) (lit : Int) (o : Bool)
    (hi : d.isolated = false) :
    ∃ e : Drupper, ∃ u : Nat, e.idx = d.idx ∧ e.proof = d.proof ∧ e.isolated = false ∧
      d.internal.heap.length ≤ e.internal.heap.length ∧
      (add_derived_unit_clause d lit o = e ∨
        (add_derived_unit_clause d lit o = append_lemma e (DrupperClause.ofClause u false) ∧
          u < e.internal.heap.length ∧ d.internal.heap.length ≤ u)) := by
  unfold add_derived_unit_clause
  simp only [hi, Bool.false_eq_true, if_false]
  by_cases hr : (d.internal.var lit).reason = none
  · simp only [hr, if_true]
    cases o with
    | true =>
      refine ⟨_, 0, ?_, ?_, ?_, ?_, Or.inl rfl⟩
      · exact new_unit_clause_idx d lit true
      · rfl
      · exact hi
      · simp [new_unit_clause, Internal.alloc, Internal.set_reason]
    | false =>
      refine ⟨_, d.internal.heap.length, ?_, ?_, ?_, ?_, Or.inr ⟨rfl, ?_, le_refl _⟩⟩
      · exact new_unit_clause_idx d lit false
      · rfl
      · exact hi
      · simp [new_unit_clause, Internal.alloc, Internal.set_reason]
      · simp [new_unit_clause, Internal.alloc, Internal.set_reason]
  · simp only [hr, if_false]
    cases o with
    | true => exact ⟨d, 0, rfl, rfl, hi, le_refl _, Or.inl rfl⟩
    | false =>
      refine ⟨_, d.internal.heap.length, ?_, ?_, ?_, ?_, Or.inr ⟨rfl, ?_, le_refl _⟩⟩
      · exact new_unit_clause_idx d lit false
      · rfl
      · exact hi
      · simp [new_unit_clause, Internal.alloc, Internal.set_reason]
      · simp [new_unit_clause, Internal.alloc, Internal.set_reason]

theorem IndexRoundtrip.of_add_derived_clause (d : Drupper) (c : Nat) (dead : List Nat)
    (h : IndexRoundtrip d.idx d.proof dead)
    (hb : within_index_range (CaDiCaL.add_derived_clause d c)) :
    IndexRoundtrip (CaDiCaL.add_derived_clause d c).idx (CaDiCaL.add_derived_clause d c).proof
      dead := by
  unfold CaDiCaL.add_derived_clause at hb ⊢
  by_cases hi : d.isolated = true
  · simpa [hi] using h
  · simp only [hi, Bool.false_eq_true, if_false] at hb ⊢
    unfold within_index_range at hb
    rw [append_lemma_length] at hb
    exact IndexRoundtrip.of_append_lemma d _ dead hb (fun p k hp _ hk => h p k hp hk)

theorem IndexRoundtrip.of_delete_clause (d : Drupper) (c : Nat) (dead : List Nat)
    (h : IndexRoundtrip d.idx d.proof dead)
    (hb : within_index_range (CaDiCaL.delete_clause d c)) :
    IndexRoundtrip (CaDiCaL.delete_clause d c).idx (CaDiCaL.delete_clause d c).proof dead := by
  unfold CaDiCaL.delete_clause at hb ⊢
  by_cases hi : d.isolated = true
  · simpa [hi] using h
  · simp only [hi, Bool.false_eq_true, if_false] at hb ⊢
    unfold within_index_range at hb
    rw [append_lemma_length] at hb
    exact IndexRoundtrip.of_append_lemma d _ dead hb (fun p k hp _ hk => h p k hp hk)

theorem IndexRoundtrip.of_add_derived_unit_clause (d : Drupper) (lit : Int) (o : Bool)
    (dead : List Nat) (h : IndexRoundtrip d.idx d.proof dead)
    (hb : within_index_range (CaDiCaL.add_derived_unit_clause d lit o)) :
    IndexRoundtrip (CaDiCaL.add_derived_unit_clause d lit o).idx
      (CaDiCaL.add_derived_unit_clause d lit o).proof dead := by
  by_cases hi : d.isolated = true
  · have : CaDiCaL.add_derived_unit_clause d lit o = d := by
      simp [CaDiCaL.add_derived_unit_clause, hi]
    rw [this]; exact h
  · simp only [Bool.not_eq_true] at hi
    obtain ⟨e, u, e1, e2, -, -, hr | ⟨hr, -, -⟩⟩ := add_derived_unit_clause_shape d lit o hi
    · rw [hr, e1, e2]; exact h
    · rw [hr] at hb ⊢
      unfold within_index_range at hb
      rw [append_lemma_length] at hb
      apply IndexRoundtrip.of_append_lemma e _ dead hb
      intro p k hp _ hk
      rw [e1] at hk; rw [e2]
      exact h p k hp hk

theorem modifyEntry_idx (d : Drupper) (i : Nat) (f : DrupperClause → DrupperClause) :
    (d.modifyEntry i f).idx = d.idx := rfl

theorem modifyEntry_proof (d : Drupper) (i : Nat) (f : DrupperClause → DrupperClause) :
    (d.modifyEntry i f).proof = d.proof.set i (f (ent d.proof i)) := rfl

/-- First step of `add_updated_clause`: the entry that `c` points to has its
reference cleared; every other clause keeps its roundtrip. -/
theorem IndexRoundtrip.of_clear_own (d : Drupper) (c : Nat) (dead : List Nat) (hc : c ∉ dead)
    (h : IndexRoundtrip d.idx d.proof dead) :
    ∃ d1 : Drupper,
      d1 = (if (d.internal.deref c).drup_idx ≠ 0 then
        d.modifyEntry ((d.internal.deref c).drup_idx - 1) fun e =>
          e.set_variant (Variant.CLAUSE none) else d) ∧
      d1.proof.length = d.proof.length ∧ d1.idx = d.idx ∧ d1.internal = d.internal ∧
      ∀ p k, p ∉ dead → p ≠ c → d1.idx p = k + 1 →
        k < d1.proof.length ∧ (ent d1.proof k).variant = Variant.CLAUSE (some p) := by
  refine ⟨_, rfl, ?_, ?_, ?_, ?_⟩
  · split <;> simp
  · split <;> rfl
  · split <;> rfl
  · by_cases hz : (d.internal.deref c).drup_idx ≠ 0
    · simp only [hz, if_true, ne_eq, not_false_eq_true]
      obtain ⟨k0, hk0⟩ : ∃ k0, d.idx c = k0 + 1 := ⟨d.idx c - 1, by
        unfold Drupper.idx; omega⟩
      have hk0' : (d.internal.deref c).drup_idx - 1 = k0 := by
        unfold Drupper.idx at hk0; omega
      rw [hk0', modifyEntry_idx, modifyEntry_proof]
      exact IndexRoundtrip.set_own c k0 _ (h.except c) (Or.inl (h c k0 hc hk0).2)
    · simp only [hz, if_false]
      exact h.except c

theorem IndexRoundtrip.of_add_updated_clause (d : Drupper) (c : Nat) (dead : List Nat)
    (hc : c ∉ dead) (h : IndexRoundtrip d.idx d.proof dead)
    (hb : within_index_range (CaDiCaL.add_updated_clause d c)) :
    IndexRoundtrip (CaDiCaL.add_updated_clause d c).idx (CaDiCaL.add_updated_clause d c).proof
      dead := by
  unfold CaDiCaL.add_updated_clause at hb ⊢
  by_cases hi : d.isolated = true
  · simpa [hi] using h
  · simp only [hi, Bool.false_eq_true, if_false] at hb ⊢
    obtain ⟨d1, hd1, hlen, -, -, h1⟩ := IndexRoundtrip.of_clear_own d c dead hc h
    rw [← hd1] at hb ⊢
    unfold within_index_range at hb
    rw [append_lemma_length, append_lemma_length] at hb
    have h2 := IndexRoundtrip.of_append_lemma d1 (DrupperClause.ofClause c false) dead
      (by omega) (fun p k hp hne hk => h1 p k hp (fun hpc => hne (by rw [hpc]; rfl)) hk)
    exact IndexRoundtrip.of_append_lemma _ _ dead (by rw [append_lemma_length]; omega)
      (fun p k hp _ hk => h2 p k hp hk)

/-- Index roundtrip (invariant 3 of the log) holds in every state reachable
by the four hooks. -/
theorem Reachable.roundtrip {d : Drupper} (h : Reachable d) :
    IndexRoundtrip d.idx d.proof [] := by
  induction h with
  | init d hp hi =>
    intro c k _ hk
    rw [hi c] at hk; cases hk
  | host d t _ hs ih =>
    have : ({ d with internal := t } : Drupper).idx = d.idx := by
      funext p; exact hs.2 p
    rw [this]; exact ih
  | add_derived_clause d c _ hb ih => exact IndexRoundtrip.of_add_derived_clause d c [] ih hb
  | add_derived_unit_clause d lit o _ hb ih =>
    exact IndexRoundtrip.of_add_derived_unit_clause d lit o [] ih hb
  | delete_clause d c _ hb ih => exact IndexRoundtrip.of_delete_clause d c [] ih hb
  | add_updated_clause d c _ hb ih =>
    exact IndexRoundtrip.of_add_updated_clause d c [] (by simp) ih hb

/-! The remaining invariants under `append_lemma`. -/

theorem linked_of_derivation (d : Drupper) (dc : DrupperClause) (h : dc.deleted = false) :
    linked d dc = dc := by
  unfold linked
  cases hv : dc.variant with
  | LITERALS l => rfl
  | CLAUSE c =>
    cases c with
    | none => rfl
    | some c => simp [h]

theorem linked_of_literals (d : Drupper) (dc : DrupperClause) (l : List Int)
    (h : dc.variant = Variant.LITERALS l) : linked d dc = dc := by
  unfold linked
  rw [h]

theorem linked_deletion (d : Drupper) (c : Nat) :
    linked d (DrupperClause.ofClause c true) =
      { deleted := true, revive_at := d.idx c, variant := Variant.CLAUSE (some c) } := by
  unfold linked DrupperClause.ofClause
  by_cases h : d.idx c = 0
  · simp [h]
  · simp [h]

theorem IndexLatest.latest_append_lemma (d : Drupper) (dc : DrupperClause)
    (hb : d.proof.length + 1 < 2 ^ 30) (h : IndexLatest d.idx d.proof)
    (hvalid : ∀ c, dc.variant = Variant.CLAUSE (some c) → c < d.internal.heap.length) :
    IndexLatest (CaDiCaL.append_lemma d dc).idx (CaDiCaL.append_lemma d dc).proof := by
  obtain ⟨e1, e2, -, -⟩ := append_lemma_effect d dc hb
  rw [e1, e2]
  unfold reindexed
  cases hv : dc.variant with
  | LITERALS l =>
    exact h.latest_push_other _ (fun c => by rw [linked_variant, hv]; intro hh; cases hh)
  | CLAUSE c =>
    cases c with
    | none => exact h.latest_push_other _ (fun c => by rw [linked_variant, hv]; intro hh; cases hh)
    | some c =>
      simp only []
      rw [if_pos (hvalid c hv)]
      exact h.latest_push_clause c _ (by rw [linked_variant, hv])

theorem BackLinks.links_append_lemma (d : Drupper) (dc : DrupperClause)
    (hb : d.proof.length + 1 < 2 ^ 30) (h : BackLinks d.proof)
    (he : (linked d dc).revive_at = 0 ∨ ∃ j, (linked d dc).revive_at = j + 1 ∧
      (linked d dc).deleted = true ∧ j < d.proof.length ∧
      (ent d.proof j).deleted = false ∧ (ent d.proof j).revive_at = 0 ∧
      ((ent d.proof j).variant = Variant.CLAUSE none ∨
        (ent d.proof j).variant = (linked d dc).variant)) :
    BackLinks (CaDiCaL.append_lemma d dc).proof := by
  obtain ⟨e1, -, -, -⟩ := append_lemma_effect d dc hb
  rw [e1]
  exact h.push _ he

/-! Preservation of `LogInv` by the hooks. -/

theorem LogInv.of_same {dead : List Nat} {d e : Drupper} (h : LogInv dead d)
    (h1 : e.idx = d.idx) (h2 : e.proof = d.proof)
    (h3 : d.internal.heap.length ≤ e.internal.heap.length) : LogInv dead e :=
  ⟨by rw [h1, h2]; exact h.roundtrip, by rw [h1, h2]; exact h.latest,
    by rw [h2]; exact h.links, fun p hp => lt_of_lt_of_le (h.dead_valid p hp) h3⟩

/-- Appending a derivation of an allocated clause. -/
theorem LogInv.append_derivation {dead : List Nat} {d : Drupper} (h : LogInv dead d) (c : Nat)
    (hc : c < d.internal.heap.length) (hb : d.proof.length + 1 < 2 ^ 30) :
    LogInv dead (append_lemma d (DrupperClause.ofClause c false)) := by
  refine ⟨?_, ?_, ?_, ?_⟩
  · exact IndexRoundtrip.of_append_lemma d _ dead hb (fun p k hp _ hk => h.roundtrip p k hp hk)
  · apply IndexLatest.latest_append_lemma d _ hb h.latest
    intro c1 hv
    injection hv with hv; injection hv with hv; subst hv; exact hc
  · apply BackLinks.links_append_lemma d _ hb h.links
    left
    rw [linked_of_derivation _ _ rfl]; rfl
  · intro p hp
    rw [(append_lemma_effect d _ hb).2.2.2]
    exact h.dead_valid p hp

/-- Appending an entry that owns its literals and has no back link. -/
theorem LogInv.append_literals {dead : List Nat} {d : Drupper} (h : LogInv dead d)
    (l : List Int) (del : Bool) (hb : d.proof.length + 1 < 2 ^ 30) :
    LogInv dead (append_lemma d (DrupperClause.ofLits l del)) := by
  refine ⟨?_, ?_, ?_, ?_⟩
  · exact IndexRoundtrip.of_append_lemma d _ dead hb (fun p k hp _ hk => h.roundtrip p k hp hk)
  · apply IndexLatest.latest_append_lemma d _ hb h.latest
    intro c1 hv
    cases hv
  · apply BackLinks.links_append_lemma d _ hb h.links
    left
    rw [linked_of_literals _ _ l rfl]; rfl
  · intro p hp
    rw [(append_lemma_effect d _ hb).2.2.2]
    exact h.dead_valid p hp

theorem LogInv.inv_add_derived_clause {dead : List Nat} {d : Drupper} (h : LogInv dead d) (c : Nat)
    (hc : c < d.internal.heap.length)
    (hb : within_index_range (CaDiCaL.add_derived_clause d c)) :
    LogInv dead (CaDiCaL.add_derived_clause d c) := by
  unfold CaDiCaL.add_derived_clause at hb ⊢
  by_cases hi : d.isolated = true
  · simpa [hi] using h
  · simp only [hi, Bool.false_eq_true, if_false] at hb ⊢
    unfold within_index_range at hb
    rw [append_lemma_length] at hb
    exact h.append_derivation c hc hb

theorem LogInv.inv_delete_clause {dead : List Nat} {d : Drupper} (h : LogInv dead d) (c : Nat)
    (hc : c < d.internal.heap.length) (hl : c ∉ dead) (hn : not_deleted_yet d c)
    (hb : within_index_range (CaDiCaL.delete_clause d c)) :
    LogInv dead (CaDiCaL.delete_clause d c) := by
  unfold CaDiCaL.delete_clause at hb ⊢
  by_cases hi : d.isolated = true
  · simpa [hi] using h
  · simp only [hi, Bool.false_eq_true, if_false] at hb ⊢
    unfold within_index_range at hb
    rw [append_lemma_length] at hb
    refine ⟨?_, ?_, ?_, ?_⟩
    · exact IndexRoundtrip.of_append_lemma d _ dead hb (fun p k hp _ hk => h.roundtrip p k hp hk)
    · apply IndexLatest.latest_append_lemma d _ hb h.latest
      intro c1 hv
      injection hv with hv; injection hv with hv; subst hv; exact hc
    · apply BackLinks.links_append_lemma d _ hb h.links
      rw [linked_deletion]
      by_cases hz : d.idx c = 0
      · left; exact hz
      · right
        obtain ⟨j, hj⟩ : ∃ j, d.idx c = j + 1 := ⟨d.idx c - 1, by omega⟩
        obtain ⟨r1, r2⟩ := h.roundtrip c j hl hj
        have hdel : (ent d.proof j).deleted = false := by
          rcases hn with hn | hn
          · exact absurd hn hz
          · rw [hj] at hn; exact hn
        exact ⟨j, hj, rfl, r1, hdel, h.links.derivation_no_link j r1 hdel, Or.inr r2⟩
    · intro p hp
      rw [(append_lemma_effect d _ hb).2.2.2]
      exact h.dead_valid p hp

theorem LogInv.inv_add_derived_unit_clause {dead : List Nat} {d : Drupper} (h : LogInv dead d)
    (lit : Int) (o : Bool)
    (hb : within_index_range (CaDiCaL.add_derived_unit_clause d lit o)) :
    LogInv dead (CaDiCaL.add_derived_unit_clause d lit o) := by
  by_cases hi : d.isolated = true
  · have : CaDiCaL.add_derived_unit_clause d lit o = d := by
      simp [CaDiCaL.add_derived_unit_clause, hi]
    rw [this]; exact h
  · simp only [Bool.not_eq_true] at hi
    obtain ⟨e, u, e1, e2, -, e4, hr | ⟨hr, hu, -⟩⟩ := add_derived_unit_clause_shape d lit o hi
    · rw [hr]; exact h.of_same e1 e2 e4
    · rw [hr] at hb ⊢
      unfold within_index_range at hb
      rw [append_lemma_length] at hb
      exact (h.of_same e1 e2 e4).append_derivation u hu hb

/-- First step of `add_updated_clause` under the protocol. -/
theorem LogInv.inv_clear_own {dead : List Nat} {d : Drupper} (h : LogInv dead d) (c : Nat)
    (hl : c ∉ dead) (hn : not_deleted_yet d c) :
    ∃ d1 : Drupper,
      d1 = (if (d.internal.deref c).drup_idx ≠ 0 then
        d.modifyEntry ((d.internal.deref c).drup_idx - 1) fun e =>
          e.set_variant (Variant.CLAUSE none) else d) ∧
      d1.proof.length = d.proof.length ∧ d1.idx = d.idx ∧ d1.internal = d.internal ∧
      (∀ p k, p ∉ dead → p ≠ c → d1.idx p = k + 1 →
        k < d1.proof.length ∧ (ent d1.proof k).variant = Variant.CLAUSE (some p)) ∧
      IndexLatest d1.idx d1.proof ∧ BackLinks d1.proof ∧
      (∀ j, d.idx c = j + 1 → j < d.proof.length ∧ (ent d1.proof j).deleted = false ∧
        (ent d1.proof j).revive_at = 0 ∧ (ent d1.proof j).variant = Variant.CLAUSE none) := by
  obtain ⟨d1, hd1, a1, a2, a3, a4⟩ := IndexRoundtrip.of_clear_own d c dead hl h.roundtrip
  refine ⟨d1, hd1, a1, a2, a3, a4, ?_, ?_, ?_⟩
  · rw [hd1]
    by_cases hz : (d.internal.deref c).drup_idx ≠ 0
    · simp only [hz, if_true, ne_eq, not_false_eq_true, modifyEntry_idx, modifyEntry_proof]
      exact h.latest.set_entry _ _ (fun c1 hh => by cases hh)
    · simp only [hz, if_false]; exact h.latest
  · rw [hd1]
    by_cases hz : (d.internal.deref c).drup_idx ≠ 0
    · simp only [hz, if_true, ne_eq, not_false_eq_true, modifyEntry_proof]
      obtain ⟨j, hj⟩ : ∃ j, d.idx c = j + 1 := ⟨d.idx c - 1, by unfold Drupper.idx; omega⟩
      have hj' : (d.internal.deref c).drup_idx - 1 = j := by
        unfold Drupper.idx at hj; omega
      rw [hj']
      have hdel : (ent d.proof j).deleted = false := by
        rcases hn with hn | hn
        · rw [hn] at hj; cases hj
        · rw [hj] at hn; exact hn
      exact h.links.clear j (h.links.derivation_no_link j (h.roundtrip c j hl hj).1 hdel)
    · simp only [hz, if_false]; exact h.links
  · intro j hj
    have hz : (d.internal.deref c).drup_idx ≠ 0 := by unfold Drupper.idx at hj; omega
    have hj' : (d.internal.deref c).drup_idx - 1 = j := by
      unfold Drupper.idx at hj; omega
    have hlt := (h.roundtrip c j hl hj).1
    have hdel : (ent d.proof j).deleted = false := by
      rcases hn with hn | hn
      · rw [hn] at hj; cases hj
      · rw [hj] at hn; exact hn
    have hrev := h.links.derivation_no_link j hlt hdel
    rw [hd1]
    simp only [hz, if_true, ne_eq, not_false_eq_true, modifyEntry_proof, hj']
    rw [ent_set_same _ _ _ hlt]
    exact ⟨hlt, hdel, hrev, rfl⟩

theorem LogInv.inv_add_updated_clause {dead : List Nat} {d : Drupper} (h : LogInv dead d) (c : Nat)
    (hc : c < d.internal.heap.length) (hl : c ∉ dead) (hn : not_deleted_yet d c)
    (hb : within_index_range (CaDiCaL.add_updated_clause d c)) :
    LogInv dead (CaDiCaL.add_updated_clause d c) := by
  have hround := IndexRoundtrip.of_add_updated_clause d c dead hl h.roundtrip hb
  unfold CaDiCaL.add_updated_clause at hb hround ⊢
  by_cases hi : d.isolated = true
  · simpa [hi] using h
  · simp only [hi, Bool.false_eq_true, if_false] at hb hround ⊢
    obtain ⟨d1, hd1, hlen, hidx, hint, -, hlat, hlk, hent⟩ := h.inv_clear_own c hl hn
    rw [← hd1] at hb hround ⊢
    unfold within_index_range at hb
    rw [append_lemma_length, append_lemma_length] at hb
    have hb1 : d1.proof.length + 1 < 2 ^ 30 := by omega
    have hb2 : (append_lemma d1 (DrupperClause.ofClause c false)).proof.length + 1 < 2 ^ 30 := by
      rw [append_lemma_length]; omega
    have hc1 : c < d1.internal.heap.length := by rw [hint]; exact hc
    obtain ⟨f1, -, -, f4⟩ := append_lemma_effect d1 (DrupperClause.ofClause c false) hb1
    have lat2 := IndexLatest.latest_append_lemma d1 (DrupperClause.ofClause c false) hb1 hlat
      (fun c1 hv => by injection hv with hv; injection hv with hv; subst hv; exact hc1)
    have lk2 := BackLinks.links_append_lemma d1 (DrupperClause.ofClause c false) hb1 hlk
      (Or.inl (by rw [linked_of_derivation _ _ rfl]; rfl))
    refine ⟨hround, ?_, ?_, ?_⟩
    · exact IndexLatest.latest_append_lemma _ _ hb2 lat2 (fun c1 hv => by cases hv)
    · apply BackLinks.links_append_lemma _ _ hb2 lk2
      rw [linked_of_literals _ _ _ rfl]
      by_cases hz : (d.internal.deref c).drup_idx = 0
      · left; exact hz
      · right
        obtain ⟨j, hj⟩ : ∃ j, d.idx c = j + 1 := ⟨d.idx c - 1, by unfold Drupper.idx; omega⟩
        obtain ⟨g1, g2, g3, g4⟩ := hent j hj
        have hjlt : j < d1.proof.length := by omega
        refine ⟨j, hj, rfl, by rw [append_lemma_length]; omega, ?_, ?_, Or.inl ?_⟩
        · rw [f1, ent_append_left _ _ _ hjlt]; exact g2
        · rw [f1, ent_append_left _ _ _ hjlt]; exact g3
        · rw [f1, ent_append_left _ _ _ hjlt]; exact g4
    · intro p hp
      rw [(append_lemma_effect _ _ hb2).2.2.2, f4, hint]
      exact h.dead_valid p hp

theorem set_last (P : List DrupperClause) (b e : DrupperClause) :
    (P ++ [b]).set P.length e = P ++ [e] := by
  induction P with
  | nil => rfl
  | cons a P ih => simp [ih]

theorem append_failed_effect (d : Drupper) (c : List Int)
    (hb : d.proof.length + 2 < 2 ^ 30) :
    (append_failed d c).proof =
      (d.proof ++ [DrupperClause.ofLits c false]) ++
        [{ deleted := true, revive_at := d.proof.length + 1, variant := Variant.LITERALS c }] ∧
    (append_failed d c).idx = d.idx ∧
    (append_failed d c).internal = d.internal := by
  unfold append_failed
  have hb1 : d.proof.length + 1 < 2 ^ 30 := by omega
  obtain ⟨a1, -, -, -⟩ := append_lemma_effect d (DrupperClause.ofLits c false) hb1
  have hb2 : (append_lemma d (DrupperClause.ofLits c false)).proof.length + 1 < 2 ^ 30 := by
    rw [append_lemma_length]; omega
  obtain ⟨b1, -, -, -⟩ := append_lemma_effect (append_lemma d (DrupperClause.ofLits c false))
    (DrupperClause.ofLits c true) hb2
  rw [linked_of_literals _ _ c rfl] at a1 b1
  refine ⟨?_, rfl, rfl⟩
  simp only [modifyEntry_proof, append_lemma_length, Nat.add_sub_cancel]
  rw [b1, a1]
  have hlen : (d.proof ++ [DrupperClause.ofLits c false]).length = d.proof.length + 1 := by
    simp
  rw [← hlen, set_last, ent_append_last, hlen, wrap30_of_lt _ (by omega)]
  rfl

theorem LogInv.inv_append_failed {dead : List Nat} {d : Drupper} (h : LogInv dead d)
    (c : List Int) (hb : d.proof.length + 2 < 2 ^ 30) :
    LogInv dead (CaDiCaL.append_failed d c) := by
  obtain ⟨e1, e2, e3⟩ := append_failed_effect d c hb
  refine ⟨?_, ?_, ?_, ?_⟩
  · rw [e1, e2]
    exact (h.roundtrip.push_other _).push_other _
  · rw [e1, e2]
    exact (h.latest.latest_push_other _ (fun c1 hh => by cases hh)).latest_push_other _
      (fun c1 hh => by cases hh)
  · rw [e1]
    apply (h.links.push _ (Or.inl rfl)).push
    right
    refine ⟨d.proof.length, rfl, rfl, by simp, ?_, ?_, Or.inr ?_⟩
    · rw [ent_append_last]; rfl
    · rw [ent_append_last]; rfl
    · rw [ent_append_last]; rfl
  · rw [e3]; exact h.dead_valid

theorem mark_core_opt_idx (s : Internal) (r : Option Nat) (p : Nat) :
    ((mark_core_opt s r).deref p).drup_idx = (s.deref p).drup_idx := by
  cases r with
  | none => rfl
  | some c =>
    simp only [mark_core_opt, mark_core, deref_modify]
    split
    · next hh => rw [hh.1]
    · rfl

theorem mark_core_opt_heap_length (s : Internal) (r : Option Nat) :
    (mark_core_opt s r).heap.length = s.heap.length := by
  cases r with
  | none => rfl
  | some c => simp [mark_core_opt, mark_core]

theorem LogInv.inv_add_failing_assumption {dead : List Nat} {d : Drupper} (h : LogInv dead d)
    (c : List Int) (hb : within_index_range (CaDiCaL.add_failing_assumption d c)) :
    LogInv dead (CaDiCaL.add_failing_assumption d c) := by
  unfold CaDiCaL.add_failing_assumption at hb ⊢
  by_cases hi : d.isolated = true
  · simpa [hi] using h
  · simp only [hi, Bool.false_eq_true, if_false] at hb ⊢
    by_cases hl : c.length > 1
    · simp only [hl, if_true] at hb ⊢
      by_cases ht : trivially_satisfied c = true
      · simpa [ht] using h
      · simp only [Bool.not_eq_true] at ht
        simp only [ht, Bool.not_false, if_true] at hb ⊢
        apply h.inv_append_failed
        unfold within_index_range CaDiCaL.append_failed at hb
        simp only [modifyEntry_length, append_lemma_length] at hb
        omega
    · simp only [hl, if_false]
      refine h.of_same ?_ rfl ?_
      · funext p; exact mark_core_opt_idx _ _ p
      · exact le_of_eq (mark_core_opt_heap_length _ _).symm

theorem unmark_heap (s : Internal) (l : Int) : (s.unmark l).heap = s.heap := rfl

theorem foldl_unmark_heap (ls : List Int) (s : Internal) :
    (ls.foldl Internal.unmark s).heap = s.heap := by
  induction ls generalizing s with
  | nil => rfl
  | cons a ls ih => simp only [List.foldl_cons]; rw [ih]; rfl

theorem remove_duplicates_scan_heap (c : List Int) (s : Internal) (u : List Int) :
    (remove_duplicates_scan c s u).1.heap = s.heap := by
  induction c generalizing s u with
  | nil => rfl
  | cons a c ih =>
    unfold remove_duplicates_scan
    split
    · exact ih s u
    · rw [ih]; rfl

theorem remove_duplicates_heap (s : Internal) (c : List Int) :
    (remove_duplicates s c).1.heap = s.heap := by
  unfold remove_duplicates
  simp only []
  rw [foldl_unmark_heap, remove_duplicates_scan_heap]

theorem LogInv.inv_delete_clause_lits {dead : List Nat} {d : Drupper} (h : LogInv dead d)
    (c : List Int) (o : Bool)
    (hb : within_index_range (CaDiCaL.delete_clause_lits d c o)) :
    LogInv dead (CaDiCaL.delete_clause_lits d c o) := by
  unfold CaDiCaL.delete_clause_lits at hb ⊢
  by_cases hi : d.isolated = true
  · simpa [hi] using h
  · rw [if_neg hi] at hb ⊢
    have h1 : LogInv dead { d with internal := (remove_duplicates d.internal c).1 } := by
      refine h.of_same ?_ rfl ?_
      · funext p
        show ((remove_duplicates d.internal c).1.deref p).drup_idx = _
        unfold Internal.deref
        rw [remove_duplicates_heap]
        rfl
      · show d.internal.heap.length ≤ (remove_duplicates d.internal c).1.heap.length
        rw [remove_duplicates_heap]
    by_cases hg : (remove_duplicates d.internal c).2.length = c.length ∨
        (remove_duplicates d.internal c).2.length > 1
    · simp only [hg, if_true] at hb ⊢
      unfold within_index_range at hb
      rw [append_lemma_length] at hb
      exact h1.append_literals _ true hb
    · simp only [hg, if_false]
      exact h1

theorem LogInv.kill {dead : List Nat} {d : Drupper} (h : LogInv dead d) (c : Nat)
    (hc : c < d.internal.heap.length) : LogInv (c :: dead) d :=
  ⟨fun p k hp hk => h.roundtrip p k (fun hm => hp (List.mem_cons_of_mem _ hm)) hk,
    h.latest, h.links, fun p hp => by
      rcases List.mem_cons.1 hp with rfl | hp
      · exact hc
      · exact h.dead_valid p hp⟩

theorem LogInv.of_parts {dead : List Nat} {d : Drupper} (idx : Nat → Nat)
    (P : List DrupperClause) (hi : d.idx = idx) (hp : d.proof = P)
    (r : IndexRoundtrip idx P dead) (l : IndexLatest idx P) (b : BackLinks P)
    (v : ∀ p ∈ dead, p < d.internal.heap.length) : LogInv dead d :=
  ⟨by rw [hi, hp]; exact r, by rw [hi, hp]; exact l, by rw [hp]; exact b, v⟩

theorem LogInv.inv_deallocate_clause {dead : List Nat} {d : Drupper} (h : LogInv dead d) (c : Nat)
    (hc : c < d.internal.heap.length) (hl : c ∉ dead) (hx : d.idx c ≠ 0) :
    LogInv (c :: dead) (CaDiCaL.deallocate_clause d c) := by
  unfold CaDiCaL.deallocate_clause
  by_cases hi : d.isolated = true
  · rw [if_pos hi]; exact h.kill c hc
  · rw [if_neg hi]
    obtain ⟨k, hk⟩ : ∃ k, d.idx c = k + 1 := ⟨d.idx c - 1, by omega⟩
    obtain ⟨hklt, hkv⟩ := h.roundtrip c k hl hk
    have hk' : (d.internal.deref c).drup_idx = k + 1 := hk
    dsimp only
    rw [hk', if_neg (by omega), Nat.add_sub_cancel, entry_eq_ent]
    have hflip : flip_variant d.internal (ent d.proof k) =
        (ent d.proof k).set_variant (Variant.LITERALS (d.internal.deref c).literals) := by
      unfold flip_variant
      rw [hkv]
    have hP : (d.modifyEntry k (flip_variant d.internal)).proof =
        d.proof.set k ((ent d.proof k).set_variant
          (Variant.LITERALS (d.internal.deref c).literals)) := by
      rw [modifyEntry_proof, hflip]
    have hnone : ∀ i, i < d.proof.length → (ent d.proof i).revive_at ≠ k + 1 := by
      intro i hi2 hr
      obtain ⟨-, hlt, -, -, hv⟩ := h.links i k hi2 hr
      rcases hv with hv | hv
      · rw [hkv] at hv; cases hv
      · rw [hkv] at hv
        have := h.latest i c hi2 hv.symm
        omega
    have r1 := IndexRoundtrip.set_own (D := dead) c k
      ((ent d.proof k).set_variant (Variant.LITERALS (d.internal.deref c).literals))
      (h.roundtrip.except c) (Or.inl hkv)
    have l1 := h.latest.set_entry k
      ((ent d.proof k).set_variant (Variant.LITERALS (d.internal.deref c).literals))
      (fun c1 hh => by cases hh)
    have hv : ∀ p ∈ c :: dead, p < d.internal.heap.length := by
      intro p hp
      rcases List.mem_cons.1 hp with rfl | hp
      · exact hc
      · exact h.dead_valid p hp
    by_cases hr : (ent d.proof k).revive_at ≠ 0
    · rw [if_pos hr]
      obtain ⟨j, hj⟩ : ∃ j, (ent d.proof k).revive_at = j + 1 :=
        ⟨(ent d.proof k).revive_at - 1, by omega⟩
      have hj' : (ent d.proof k).revive_at - 1 = j := by omega
      rw [hj']
      obtain ⟨-, hjk, -, -, hjv⟩ := h.links k j hklt hj
      have hjne : j ≠ k := by omega
      refine LogInv.of_parts d.idx _ rfl (by rw [modifyEntry_proof, hP]) ?_ ?_ ?_ hv
      · intro p k1 hp hk1
        have hp1 : p ≠ c := fun hh => hp (by rw [hh]; exact List.mem_cons_self _ _)
        have hp2 : p ∉ dead := fun hm => hp (List.mem_cons_of_mem _ hm)
        refine IndexRoundtrip.set_own (D := dead) c j _ r1 ?_ p k1 hp2 hp1 hk1
        rw [ent_set_ne _ _ _ _ hjne]
        rcases hjv with hjv | hjv
        · exact Or.inr (Or.inl hjv)
        · exact Or.inl (hjv.trans hkv)
      · exact l1.set_entry j _ (fun c1 hh => by cases hh)
      · exact h.links.flip_linked k j _ hklt hnone hj
    · rw [if_neg hr]
      have hr0 : (ent d.proof k).revive_at = 0 := by omega
      refine LogInv.of_parts d.idx _ rfl hP ?_ l1 (h.links.flip_unlinked k _ hnone hr0) hv
      intro p k1 hp hk1
      have hp1 : p ≠ c := fun hh => hp (by rw [hh]; exact List.mem_cons_self _ _)
      have hp2 : p ∉ dead := fun hm => hp (List.mem_cons_of_mem _ hm)
      exact r1 p k1 hp2 hp1 hk1

/-- The log invariants hold in every state reachable under the protocol. -/
theorem Protocol.inv {dead : List Nat} {d : Drupper} (h : Protocol dead d) : LogInv dead d := by
  induction h with
  | init d hp hi =>
    refine ⟨?_, ?_, ?_, ?_⟩
    · intro c k _ hk; rw [hi c] at hk; cases hk
    · intro i c hlt; rw [hp] at hlt; cases hlt
    · intro i j hlt; rw [hp] at hlt; cases hlt
    · intro p hp2; cases hp2
  | host dead d t _ hs ih =>
    exact ih.of_same (by funext p; exact hs.2 p) rfl hs.1
  | add_derived_clause dead d c _ hc _ hb ih => exact ih.inv_add_derived_clause c hc hb
  | add_derived_unit_clause dead d lit o _ hb ih => exact ih.inv_add_derived_unit_clause lit o hb
  | add_failing_assumption dead d c _ hb ih => exact ih.inv_add_failing_assumption c hb
  | add_updated_clause dead d c _ hc hl hn hb ih => exact ih.inv_add_updated_clause c hc hl hn hb
  | delete_clause_lits dead d c o _ hb ih => exact ih.inv_delete_clause_lits c o hb
  | delete_clause dead d c _ hc hl hn hb ih => exact ih.inv_delete_clause c hc hl hn hb
  | deallocate_clause dead d c _ hc hl hx ih => exact ih.inv_deallocate_clause c hc hl hx

end invariants










/-! ## Claims about the core traversal -/

/-- C2: with a visitor whose callbacks all return true, the non-const
`traverse_core` returns true and the calls it makes are exactly, in order: one
`clause` call per pool clause that is core, not a lemma and not the failed
constraint (literals externalized in clause order), one `clause` call per
core non-lemma unit, one `assumption` call per assumption, and one
`constraint` call exactly when `unsat_constraint` is set. -/
theorem traverse_core_callback_sequence {σ : Type} (ops : HostOps) (it : CoreIterator σ)
    (d : Drupper) (v : σ) (h : it.AlwaysTrue) :
    (traverse_core ops it d v).1 = true ∧
    (journal ops it d v).map Prod.fst = core_callbacks ops.externalize d := by
  have hj := journal_of_alwaysTrue ops it h d v
  refine ⟨?_, ?_⟩
  · rw [traverse_core_traced ops it d v []]; exact hj.1
  · rw [hj.2]; simp [Function.comp_def]

theorem traverse_core_callback_sequence_witness :
    statsCollector.AlwaysTrue ∧
    ((traverse_core exampleOps statsCollector exampleCore ()).1 = true ∧
      (journal exampleOps statsCollector exampleCore ()).map Prod.fst =
        core_callbacks exampleOps.externalize exampleCore) ∧
    core_callbacks exampleOps.externalize exampleCore =
      [Callback.clause [1, 2], Callback.clause [4], Callback.assumption (-3),
        Callback.constraint [-2, -3]] :=
  ⟨statsCollector_alwaysTrue,
    traverse_core_callback_sequence exampleOps statsCollector exampleCore ()
      statsCollector_alwaysTrue, by decide⟩

/-- C3: for every visitor, both `traverse_core` variants return false exactly
when some callback returned false, return true exactly when every callback
returned true, and a callback that returned false is the last call made. -/
theorem traverse_core_short_circuit {σ : Type} (ops : HostOps) (it : CoreIterator σ)
    (d : Drupper) (v : σ) :
    (((traverse_core ops it d v).1 = false ↔ ∃ e ∈ journal ops it d v, e.2 = false) ∧
      ((traverse_core ops it d v).1 = true ↔ ∀ e ∈ journal ops it d v, e.2 = true) ∧
      (∀ pre e post, journal ops it d v = pre ++ e :: post → e.2 = false → post = [])) ∧
    (((traverse_core_const ops it d v).1 = false ↔
        ∃ e ∈ journal_const ops it d v, e.2 = false) ∧
      ((traverse_core_const ops it d v).1 = true ↔
        ∀ e ∈ journal_const ops it d v, e.2 = true) ∧
      (∀ pre e post, journal_const ops it d v = pre ++ e :: post → e.2 = false →
        post = [])) := by
  constructor
  · rw [traverse_core_traced ops it d v []]
    exact (traverse_core_short ops it d v).spec
  · rw [traverse_core_const_traced ops it d v []]
    exact (traverse_core_const_short ops it d v).spec

/-- C4: starting from zero core statistics, with an accepting visitor, all
tracked literals within `max_var`, an externalization that keeps distinct
variables distinct and a `save_core_phase_stats` that leaves the core
counters alone, the non-const `traverse_core` ends with `stats.core.clauses`
equal to the number of `clause` calls plus the number of `constraint` calls,
`stats.core.lemmas` equal to the number of core-marked lemmas in the pool
(failed constraint excluded) and the unit list, and `stats.core.variables`
equal to the number of distinct variables in the emitted clauses, assumptions
and constraint. -/
theorem traverse_core_statistics {σ : Type} (ops : HostOps) (it : CoreIterator σ)
    (d : Drupper) (v : σ) (h : it.AlwaysTrue) (hz : d.stats.core = {})
    (hb : ∀ l ∈ core_internal_literals d, l.natAbs ≤ d.internal.max_var)
    (hext : ∀ a b : Int, (ops.externalize a).natAbs = (ops.externalize b).natAbs ↔
      a.natAbs = b.natAbs)
    (hsave : ∀ st, (ops.save_core_phase_stats st).core = st.core) :
    (traverse_core ops it d v).2.2.stats.core.clauses =
      ((((journal ops it d v).map Prod.fst).filter Callback.isClauseCall).length : Int) +
      ((((journal ops it d v).map Prod.fst).filter Callback.isConstraintCall).length : Int) ∧
    (traverse_core ops it d v).2.2.stats.core.lemmas = (core_lemma_count d : Int) ∧
    (traverse_core ops it d v).2.2.stats.core.vars =
      ((distinct_variables ((journal ops it d v).map Prod.fst)).length : Int) := by
  have hj := journal_of_alwaysTrue ops it h d v
  have hs := traverse_core_stats ops it h d v hz hb hsave
  have hcalls : (journal ops it d v).map Prod.fst = core_callbacks ops.externalize d := by
    rw [hj.2]; simp [Function.comp_def]
  rw [traverse_core_traced ops it d v [], hcalls, core_callbacks_clause_calls,
    core_callbacks_constraint_calls]
  refine ⟨?_, ?_, ?_⟩
  · rw [hs.1]; push_cast; rfl
  · rw [hs.2.1]; rfl
  · rw [hs.2.2]
    unfold distinct_variables
    rw [core_callbacks_literals, List.map_map]
    have := dedup_length_map_congr (fun l : Int => l.natAbs)
      (fun l : Int => (ops.externalize l).natAbs) (fun a b => (hext a b).symm)
      (core_internal_literals d)
    simp only [Function.comp_def]
    rw [this]

theorem traverse_core_statistics_witness :
    (statsCollector.AlwaysTrue ∧ scenarioS4.stats.core = {} ∧
      (∀ l ∈ core_internal_literals scenarioS4, l.natAbs ≤ scenarioS4.internal.max_var)) ∧
    ((traverse_core exampleOps statsCollector scenarioS4 ()).2.2.stats.core.clauses =
        ((((journal exampleOps statsCollector scenarioS4 ()).map Prod.fst).filter
          Callback.isClauseCall).length : Int) +
        ((((journal exampleOps statsCollector scenarioS4 ()).map Prod.fst).filter
          Callback.isConstraintCall).length : Int) ∧
      (traverse_core exampleOps statsCollector scenarioS4 ()).2.2.stats.core.lemmas =
        (core_lemma_count scenarioS4 : Int) ∧
      (traverse_core exampleOps statsCollector scenarioS4 ()).2.2.stats.core.vars =
        ((distinct_variables ((journal exampleOps statsCollector scenarioS4 ()).map
          Prod.fst)).length : Int)) ∧
    (traverse_core exampleOps statsCollector scenarioS4 ()).2.2.stats.core =
      { clauses := 3, lemmas := 0, vars := 2 } :=
  ⟨⟨statsCollector_alwaysTrue, rfl, by decide⟩,
    traverse_core_statistics exampleOps statsCollector scenarioS4 ()
      statsCollector_alwaysTrue rfl (by decide) (fun _ _ => Iff.rfl) (fun _ => rfl),
    by decide⟩

/-! ## Claims about the notification hooks -/

/-- Under the `isolated` lock every notification hook returns the state it
was given. -/
theorem hooks_isolated (ops : HostOps) (d : Drupper) (h : d.isolated = true) :
    (∀ c, add_derived_clause d c = d) ∧
    (∀ lit original, add_derived_unit_clause d lit original = d) ∧
    add_derived_empty_clause d = d ∧
    (∀ clause derived, add_falsified_original_clause ops d clause derived = d) ∧
    (∀ c, add_failing_assumption d c = d) ∧
    (∀ c, add_updated_clause d c = d) ∧
    (∀ c original, delete_clause_lits d c original = d) ∧
    (∀ c, delete_clause d c = d) ∧
    (∀ c, deallocate_clause d c = d) ∧
    update_moved_counterparts d = d := by
  refine ⟨?_, ?_, ?_, ?_, ?_, ?_, ?_, ?_, ?_, ?_⟩
  · intro c; simp [add_derived_clause, h]
  · intro l o; simp [add_derived_unit_clause, h]
  · simp [add_derived_empty_clause, h]
  · intro c dv; simp [add_falsified_original_clause, h]
  · intro c; simp [add_failing_assumption, h]
  · intro c; simp [add_updated_clause, h]
  · intro c o; simp [delete_clause_lits, h]
  · intro c; simp [delete_clause, h]
  · intro c; simp [deallocate_clause, h]
  · simp [update_moved_counterparts, h]

/-- C5: when `isolated` is set, each notification hook (`add_derived_clause`,
`add_derived_unit_clause`, `add_derived_empty_clause`,
`add_falsified_original_clause`, `add_failing_assumption`,
`add_updated_clause`, both `delete_clause` overloads, `deallocate_clause`,
`update_moved_counterparts`) is a no-op: the whole state, Drupper and host,
is unchanged, for every argument. -/
theorem isolated_hooks_are_noops (ops : HostOps) (d : Drupper) (h : d.isolated = true)
    (c : Nat) (lit : Int) (lits : List Int) (flag : Bool) :
    add_derived_clause d c = d ∧
    add_derived_unit_clause d lit flag = d ∧
    add_derived_empty_clause d = d ∧
    add_falsified_original_clause ops d lits flag = d ∧
    add_failing_assumption d lits = d ∧
    add_updated_clause d c = d ∧
    delete_clause_lits d lits flag = d ∧
    delete_clause d c = d ∧
    deallocate_clause d c = d ∧
    update_moved_counterparts d = d :=
  have a := hooks_isolated ops d h
  ⟨a.1 c, a.2.1 lit flag, a.2.2.1, a.2.2.2.1 lits flag, a.2.2.2.2.1 lits, a.2.2.2.2.2.1 c,
    a.2.2.2.2.2.2.1 lits flag, a.2.2.2.2.2.2.2.1 c, a.2.2.2.2.2.2.2.2.1 c, a.2.2.2.2.2.2.2.2.2⟩

theorem isolated_hooks_are_noops_witness :
    isolatedState.isolated = true ∧
    (add_derived_clause isolatedState 0 = isolatedState ∧
      add_derived_unit_clause isolatedState 3 false = isolatedState ∧
      add_derived_empty_clause isolatedState = isolatedState ∧
      add_falsified_original_clause exampleOps isolatedState [1, 2] false = isolatedState ∧
      add_failing_assumption isolatedState [1, 2] = isolatedState ∧
      add_updated_clause isolatedState 0 = isolatedState ∧
      delete_clause_lits isolatedState [1, 2] false = isolatedState ∧
      delete_clause isolatedState 0 = isolatedState ∧
      deallocate_clause isolatedState 0 = isolatedState ∧
      update_moved_counterparts isolatedState = isolatedState) :=
  ⟨rfl, isolated_hooks_are_noops exampleOps isolatedState rfl 0 3 [1, 2] false⟩

/-- C6, as stated, fails: with `validating` set and `isolated` clear,
`add_derived_clause`, `delete_clause` and `add_failing_assumption` do not
exit early; they extend the log and bump `stats.derived` / `stats.deleted`. -/
theorem validating_hooks_counterexample :
    validatingState.validating = true ∧ validatingState.isolated = false ∧
    (add_derived_clause validatingState 0).proof ≠ validatingState.proof ∧
    (add_derived_clause validatingState 0).stats.derived ≠ validatingState.stats.derived ∧
    (delete_clause validatingState 0).proof ≠ validatingState.proof ∧
    (delete_clause validatingState 0).stats.deleted ≠ validatingState.stats.deleted ∧
    (add_failing_assumption validatingState [1, 2]).proof ≠ validatingState.proof := by
  decide

/-- C6, amended: the hooks do not consult `validating`.  With `validating`
set, a hook leaves the log, `stats.derived` and `stats.deleted` unchanged
when `isolated` is set too; when `isolated` is clear, `add_derived_clause`
and `delete_clause` each append one entry and `add_failing_assumption` of a
non-tautological vector of more than one literal appends two, with the
matching statistics increments; `validating` stays set. -/
theorem validating_hooks_follow_isolated (ops : HostOps) (d : Drupper) (c : Nat)
    (lits : List Int) (hv : d.validating = true) :
    (d.isolated = true → ∀ e : Event,
      (e.run ops d).proof = d.proof ∧ (e.run ops d).stats.derived = d.stats.derived ∧
      (e.run ops d).stats.deleted = d.stats.deleted) ∧
    (d.isolated = false →
      ((add_derived_clause d c).proof.length = d.proof.length + 1 ∧
        (add_derived_clause d c).stats.derived = d.stats.derived + 1 ∧
        (add_derived_clause d c).stats.deleted = d.stats.deleted ∧
        (add_derived_clause d c).validating = true) ∧
      ((delete_clause d c).proof.length = d.proof.length + 1 ∧
        (delete_clause d c).stats.deleted = d.stats.deleted + 1 ∧
        (delete_clause d c).stats.derived = d.stats.derived ∧
        (delete_clause d c).validating = true) ∧
      (lits.length > 1 → trivially_satisfied lits = false →
        (add_failing_assumption d lits).proof.length = d.proof.length + 2 ∧
        (add_failing_assumption d lits).stats.derived = d.stats.derived + 1 ∧
        (add_failing_assumption d lits).stats.deleted = d.stats.deleted + 1 ∧
        (add_failing_assumption d lits).validating = true)) := by
  constructor
  · intro hi e
    have a := hooks_isolated ops d hi
    cases e with
    | add_derived_clause c => simp [Event.run, a.1 c]
    | add_derived_unit_clause lit o => simp [Event.run, a.2.1 lit o]
    | add_derived_empty_clause => simp [Event.run, a.2.2.1]
    | add_falsified_original_clause cl dv => simp [Event.run, a.2.2.2.1 cl dv]
    | add_failing_assumption c => simp [Event.run, a.2.2.2.2.1 c]
    | add_updated_clause c => simp [Event.run, a.2.2.2.2.2.1 c]
    | delete_clause_lits c o => simp [Event.run, a.2.2.2.2.2.2.1 c o]
    | delete_clause c => simp [Event.run, a.2.2.2.2.2.2.2.1 c]
    | deallocate_clause c => simp [Event.run, a.2.2.2.2.2.2.2.2.1 c]
    | update_moved_counterparts => simp [Event.run, a.2.2.2.2.2.2.2.2.2]
  · intro hi
    refine ⟨?_, ?_, ?_⟩
    · simp only [add_derived_clause, hi, Bool.false_eq_true, if_false]
      refine ⟨by simp, by simp [append_lemma_stats, DrupperClause.ofClause],
        by simp [append_lemma_stats, DrupperClause.ofClause], ?_⟩
      simpa [append_lemma, DrupperClause.ofClause] using hv
    · simp only [delete_clause, hi, Bool.false_eq_true, if_false]
      refine ⟨by simp, by simp [append_lemma_stats, DrupperClause.ofClause],
        by simp [append_lemma_stats, DrupperClause.ofClause], ?_⟩
      simpa [append_lemma, DrupperClause.ofClause] using hv
    · intro hl ht
      simp only [add_failing_assumption, hi, Bool.false_eq_true, if_false, hl, if_true, ht,
        Bool.not_false, append_failed]
      refine ⟨by simp, by simp [append_lemma_stats, DrupperClause.ofLits],
        by simp [append_lemma_stats, DrupperClause.ofLits], ?_⟩
      simpa [append_lemma, Drupper.modifyEntry, DrupperClause.ofLits] using hv

theorem validating_hooks_follow_isolated_witness :
    validatingState.validating = true ∧
    ((validatingState.isolated = true → ∀ e : Event,
      (e.run exampleOps validatingState).proof = validatingState.proof ∧
      (e.run exampleOps validatingState).stats.derived = validatingState.stats.derived ∧
      (e.run exampleOps validatingState).stats.deleted = validatingState.stats.deleted) ∧
    (validatingState.isolated = false →
      ((add_derived_clause validatingState 0).proof.length = validatingState.proof.length + 1 ∧
        (add_derived_clause validatingState 0).stats.derived =
          validatingState.stats.derived + 1 ∧
        (add_derived_clause validatingState 0).stats.deleted = validatingState.stats.deleted ∧
        (add_derived_clause validatingState 0).validating = true) ∧
      ((delete_clause validatingState 0).proof.length = validatingState.proof.length + 1 ∧
        (delete_clause validatingState 0).stats.deleted = validatingState.stats.deleted + 1 ∧
        (delete_clause validatingState 0).stats.derived = validatingState.stats.derived ∧
        (delete_clause validatingState 0).validating = true) ∧
      (([1, 2] : List Int).length > 1 → trivially_satisfied [1, 2] = false →
        (add_failing_assumption validatingState [1, 2]).proof.length =
          validatingState.proof.length + 2 ∧
        (add_failing_assumption validatingState [1, 2]).stats.derived =
          validatingState.stats.derived + 1 ∧
        (add_failing_assumption validatingState [1, 2]).stats.deleted =
          validatingState.stats.deleted + 1 ∧
        (add_failing_assumption validatingState [1, 2]).validating = true))) :=
  ⟨rfl, validating_hooks_follow_isolated exampleOps validatingState 0 [1, 2] rfl⟩

theorem ent_take (P : List DrupperClause) (n i : Nat) (h : i < n) :
    ent (P.take n) i = ent P i := by
  unfold ent
  rw [List.getD_eq_getElem?_getD, List.getD_eq_getElem?_getD, List.getElem?_take_of_lt h]

theorem getLast?_entry (d : Drupper) (h : 0 < d.proof.length) :
    d.proof.getLast? = some (d.entry (d.proof.length - 1)) := by
  unfold Drupper.entry
  rw [List.getLast?_eq_getElem?, List.getD_eq_getElem?_getD,
    List.getElem?_eq_getElem (by omega)]
  rfl

theorem clause_of_variant {dc : DrupperClause} {c : Nat}
    (h : dc.variant = Variant.CLAUSE (some c)) : dc.clause = some c := by
  unfold DrupperClause.clause
  rw [h]

/-- The popping loop of `reconstruct` runs through when the entries it pops
hold a clause. -/
theorem reconstruct_pop_returns (k : Nat) : ∀ d : Drupper, k ≤ d.proof.length →
    (∀ i, d.proof.length - k ≤ i → i < d.proof.length →
      ∃ c, (d.entry i).variant = Variant.CLAUSE (some c)) →
    ∃ d1, reconstruct_pop k d = some d1 ∧ d1.proof = d.proof.take (d.proof.length - k) := by
  induction k with
  | zero =>
    intro d _ _
    exact ⟨d, rfl, by rw [Nat.sub_zero, List.take_of_length_le (le_refl _)]⟩
  | succ k ih =>
    intro d hk hc
    have hpos : 0 < d.proof.length := by omega
    obtain ⟨c, hv⟩ := hc (d.proof.length - 1) (by omega) (by omega)
    have key : ∀ X : Drupper, X.proof = d.proof.dropLast →
        ∃ d1, reconstruct_pop k X = some d1 ∧
          d1.proof = d.proof.take (d.proof.length - (k + 1)) := by
      intro X hX
      have hlen : X.proof.length = d.proof.length - 1 := by rw [hX, List.length_dropLast]
      obtain ⟨d1, e1, e2⟩ := ih X (by omega) (by
        intro i i1 i2
        rw [entry_eq_ent, hX, List.dropLast_eq_take, ent_take _ _ _ (by omega), ← entry_eq_ent]
        exact hc i (by omega) (by omega))
      refine ⟨d1, e1, ?_⟩
      rw [e2, hlen, hX, List.dropLast_eq_take, List.take_take]
      congr 1
      omega
    unfold reconstruct_pop
    rw [getLast?_entry d hpos]
    dsimp only
    rw [clause_of_variant hv]
    exact key _ rfl

theorem flip_variant_fields (s : Internal) (dc : DrupperClause) :
    (flip_variant s dc).deleted = dc.deleted ∧ (flip_variant s dc).revive_at = dc.revive_at := by
  unfold flip_variant
  split <;> exact ⟨rfl, rfl⟩

theorem ent_flip (P : List DrupperClause) (s : Internal) (k i : Nat) (hk : k < P.length) :
    (ent (P.set k (flip_variant s (ent P k))) i).deleted = (ent P i).deleted ∧
    (ent (P.set k (flip_variant s (ent P k))) i).revive_at = (ent P i).revive_at ∧
    (i ≠ k → (ent (P.set k (flip_variant s (ent P k))) i).variant = (ent P i).variant) := by
  by_cases hik : i = k
  · subst hik
    rw [ent_set_same _ _ _ hk]
    exact ⟨(flip_variant_fields s _).1, (flip_variant_fields s _).2, fun h => absurd rfl h⟩
  · rw [ent_set_ne _ _ _ _ hik]
    exact ⟨rfl, rfl, fun _ => rfl⟩

theorem ent_flip_then_clear (P : List DrupperClause) (s : Internal) (k r i : Nat)
    (hk : k < P.length) :
    (ent ((P.set k (flip_variant s (ent P k))).set r
      ((ent (P.set k (flip_variant s (ent P k))) r).set_variant (Variant.CLAUSE none))) i).deleted =
      (ent P i).deleted ∧
    (ent ((P.set k (flip_variant s (ent P k))).set r
      ((ent (P.set k (flip_variant s (ent P k))) r).set_variant (Variant.CLAUSE none))) i).revive_at =
      (ent P i).revive_at ∧
    (i ≠ k → i ≠ r →
      (ent ((P.set k (flip_variant s (ent P k))).set r
        ((ent (P.set k (flip_variant s (ent P k))) r).set_variant (Variant.CLAUSE none))) i).variant =
        (ent P i).variant) := by
  obtain ⟨f1, f2⟩ := ent_set_variant_fields (P.set k (flip_variant s (ent P k))) r
    (Variant.CLAUSE none) i
  obtain ⟨g1, g2, g3⟩ := ent_flip P s k i hk
  refine ⟨f1.trans g1, f2.trans g2, fun hik hir => ?_⟩
  rw [ent_set_ne _ _ _ _ hir]
  exact g3 hik

/-- One round of the backward loop of `reconstruct` runs through on an entry
that is not deleted or holds a clause and links back into the log; it keeps
the length of the log, every `deleted` flag and back link, and the variant of
every entry but its own and the one it links to. -/
theorem reconstruct_entry_returns (d : Drupper) (k : Nat) (hk : k < d.proof.length)
    (h : (d.entry k).deleted = true →
      (∃ c, (d.entry k).variant = Variant.CLAUSE (some c)) ∧
      ∀ j, (d.entry k).revive_at = j + 1 → j < k) :
    ∃ d1, reconstruct_entry d k = some d1 ∧ d1.proof.length = d.proof.length ∧
      ∀ i, (d1.entry i).deleted = (d.entry i).deleted ∧
        (d1.entry i).revive_at = (d.entry i).revive_at ∧
        (i ≠ k → ((d.entry k).deleted = true → (d.entry k).revive_at ≠ i + 1) →
          (d1.entry i).variant = (d.entry i).variant) := by
  unfold reconstruct_entry
  dsimp only
  by_cases hd : (d.entry k).deleted = true
  · rw [if_pos hd]
    obtain ⟨⟨c, hv⟩, hj⟩ := h hd
    rw [clause_of_variant hv]
    dsimp only
    by_cases hr : (d.entry k).revive_at ≠ 0
    · rw [if_pos hr]
      obtain ⟨j, hjr⟩ := Nat.exists_eq_succ_of_ne_zero hr
      have hjk := hj j hjr
      rw [if_pos (by omega)]
      refine ⟨_, rfl, ?_, ?_⟩
      · simp [Drupper.modifyEntry]
      · intro i
        have key := ent_flip_then_clear d.proof
          (d.internal.modify c fun x => { x with drup_idx := 0 }) k
          ((d.entry k).revive_at - 1) i hk
        refine ⟨key.1, key.2.1, fun hik hne => key.2.2 hik ?_⟩
        have := hne hd
        omega
    · rw [if_neg hr]
      refine ⟨_, rfl, ?_, ?_⟩
      · simp [Drupper.modifyEntry]
      · intro i
        have key := ent_flip d.proof (d.internal.modify c fun x => { x with drup_idx := 0 }) k i hk
        exact ⟨key.1, key.2.1, fun hik _ => key.2.2 hik⟩
  · rw [if_neg hd]
    exact ⟨d, rfl, rfl, fun i => ⟨rfl, rfl, fun _ _ => rfl⟩⟩

/-- The backward loop of `reconstruct` runs through when every deleted entry
holds a clause and links back to an earlier entry that is not deleted. -/
theorem reconstruct_entries_returns : ∀ (k : Nat) (d : Drupper), k ≤ d.proof.length →
    (∀ i, i < k → (d.entry i).deleted = true →
      (∃ c, (d.entry i).variant = Variant.CLAUSE (some c)) ∧
      ∀ j, (d.entry i).revive_at = j + 1 → j < i ∧ (d.entry j).deleted = false) →
    ∃ d1, reconstruct_entries (List.range k).reverse d = some d1 := by
  intro k
  induction k with
  | zero => intro d _ _; exact ⟨d, rfl⟩
  | succ k ih =>
    intro d hk h
    have hrange : (List.range (k + 1)).reverse = k :: (List.range k).reverse := by
      rw [List.range_succ, List.reverse_append]; rfl
    rw [hrange]
    unfold reconstruct_entries
    obtain ⟨d1, e1, e2, e3⟩ := reconstruct_entry_returns d k hk (fun hd =>
      ⟨(h k (Nat.lt_succ_self _) hd).1, fun j hj => ((h k (Nat.lt_succ_self _) hd).2 j hj).1⟩)
    rw [e1]
    dsimp only
    apply ih d1 (by omega)
    intro i hi hdi
    rw [(e3 i).1] at hdi
    obtain ⟨⟨c, hv⟩, hl⟩ := h i (Nat.lt_succ_of_lt hi) hdi
    have hvar : (d1.entry i).variant = (d.entry i).variant := by
      refine (e3 i).2.2 (by omega) ?_
      intro hdk hrk
      have := ((h k (Nat.lt_succ_self _) hdk).2 i hrk).2
      rw [hdi] at this
      cases this
    refine ⟨⟨c, by rw [hvar]; exact hv⟩, ?_⟩
    intro j hj
    rw [(e3 i).2.1] at hj
    obtain ⟨j1, j2⟩ := hl j hj
    exact ⟨j1, by rw [(e3 j).1]; exact j2⟩

/-- The function `reconstruct` runs through on a log that is
`ReconstructReady`. -/
theorem reconstruct_returns (ops : HostOps) (d : Drupper) (n : Nat)
    (h : ReconstructReady d n) : ∃ d2, reconstruct ops d n = some d2 := by
  have hpop : ∃ d1, (if ({ d with isolated := true } : Drupper).proof.length > n then
      reconstruct_pop (({ d with isolated := true } : Drupper).proof.length - n)
        { d with isolated := true } else some { d with isolated := true }) = some d1 ∧
      d1.proof = d.proof.take n := by
    by_cases hn : d.proof.length > n
    · rw [if_pos hn]
      obtain ⟨d1, e1, e2⟩ := reconstruct_pop_returns (d.proof.length - n)
        { d with isolated := true } (Nat.sub_le _ _) (by
          intro i i1 i2
          exact (h i i2).1 (Or.inl (by
            have : ({ d with isolated := true } : Drupper).proof.length = d.proof.length := rfl
            omega)))
      refine ⟨d1, e1, ?_⟩
      rw [e2]
      show d.proof.take (d.proof.length - (d.proof.length - n)) = _
      congr 1
      omega
    · rw [if_neg hn]
      exact ⟨_, rfl, (List.take_of_length_le (by
        have : ({ d with isolated := true } : Drupper).proof.length = d.proof.length := rfl
        omega)).symm⟩
  obtain ⟨d1, e1, e2⟩ := hpop
  have hloop : ∀ s : Internal,
      reconstruct_entries (List.range d1.proof.length).reverse { d1 with internal := s } ≠
        none := by
    intro s hnone
    generalize hYd : ({ d1 with internal := s } : Drupper) = Y at hnone
    have hY : Y.proof = d1.proof := by rw [← hYd]
    rw [← hY] at hnone
    suffices hs : ∃ d3, reconstruct_entries (List.range Y.proof.length).reverse Y = some d3 by
      obtain ⟨d3, e3⟩ := hs
      rw [e3] at hnone
      cases hnone
    have hlen : Y.proof.length = min n d.proof.length := by
      rw [hY, e2, List.length_take]
    have hent : ∀ i, i < n → Y.entry i = d.entry i := by
      intro i hi
      rw [entry_eq_ent, hY, e2, ent_take _ _ _ hi, ← entry_eq_ent]
    apply reconstruct_entries_returns _ Y (le_refl _)
    intro i hi hdi
    rw [hlen] at hi
    have hin : i < n := lt_of_lt_of_le hi (min_le_left _ _)
    have hil : i < d.proof.length := lt_of_lt_of_le hi (min_le_right _ _)
    rw [hent i hin] at hdi ⊢
    obtain ⟨r1, r2⟩ := h i hil
    refine ⟨r1 (Or.inr hdi), fun j hj => ?_⟩
    obtain ⟨j1, j2⟩ := r2 hin hdi j hj
    exact ⟨j1, by rw [hent j (lt_trans j1 hin)]; exact j2⟩
  unfold reconstruct
  dsimp only
  split
  · next heq =>
    have := e1.symm.trans heq
    cases this
  · next d1x heq =>
    have hd : d1x = d1 := Option.some.inj (heq.symm.trans e1)
    subst hd
    split
    · next heq2 => exact absurd heq2 (hloop _)
    · exact ⟨_, rfl⟩

theorem run_calls_well_formed (ops : HostOps) (cs : List Call) : ∀ d d1 : Drupper,
    well_formed d → run_calls ops d cs = some d1 → well_formed d1 := by
  induction cs with
  | nil =>
    intro d d1 h hr
    injection hr with hr
    rw [← hr]
    exact h
  | cons c cs ih =>
    intro d d1 h hr
    unfold run_calls at hr
    cases hc : c.run ops d with
    | none => rw [hc] at hr; cases hr
    | some d2 =>
      rw [hc] at hr
      refine ih d2 d1 ?_ hr
      cases c with
      | notify e =>
        injection hc with hc
        rw [← hc]
        exact Event.run_well_formed ops d e h
      | reconstruct n => exact reconstruct_well_formed ops d d2 n h hc

/-- C7: starting from an empty log with zero `stats.derived` and
`stats.deleted`, after any sequence of notification hooks and calls of
`reconstruct` that ran through, the log length equals
`stats.derived + stats.deleted`; and from the state reached, `reconstruct`
runs through, with that equation again, whenever the entries it dereferences
hold a clause. -/
theorem proof_length_matches_statistics (ops : HostOps) (d d1 : Drupper) (cs : List Call)
    (hp : d.proof = []) (h1 : d.stats.derived = 0) (h2 : d.stats.deleted = 0)
    (hr : run_calls ops d cs = some d1) :
    well_formed d1 ∧
    ((d1.proof.length : Int) = d1.stats.derived + d1.stats.deleted) ∧
    ∀ proof_sz, ReconstructReady d1 proof_sz →
      ∃ d2, reconstruct ops d1 proof_sz = some d2 ∧
        (d2.proof.length : Int) = d2.stats.derived + d2.stats.deleted := by
  have h0 : well_formed d := by
    unfold well_formed; rw [hp, h1, h2]; rfl
  have hw := run_calls_well_formed ops cs d d1 h0 hr
  refine ⟨hw, hw, fun n hn => ?_⟩
  obtain ⟨d2, e⟩ := reconstruct_returns ops d1 n hn
  exact ⟨d2, e, reconstruct_well_formed ops d1 d2 n hw e⟩

theorem proof_length_matches_statistics_witness :
    (garbageLogState.proof = [] ∧ garbageLogState.stats.derived = 0 ∧
      garbageLogState.stats.deleted = 0) ∧
    ∃ d1, run_calls exampleOps garbageLogState
        [Call.notify (Event.add_derived_clause 0), Call.notify (Event.delete_clause 0),
          Call.notify (Event.add_derived_clause 1), Call.reconstruct 2,
          Call.notify (Event.add_derived_clause 1)] = some d1 ∧
      d1.proof =
        [{ deleted := false, revive_at := 0, variant := Variant.CLAUSE none },
         { deleted := true, revive_at := 1, variant := Variant.LITERALS [1, 2] },
         { deleted := false, revive_at := 0, variant := Variant.CLAUSE (some 1) }] ∧
      (well_formed d1 ∧
      ((d1.proof.length : Int) = d1.stats.derived + d1.stats.deleted) ∧
      ∀ proof_sz, ReconstructReady d1 proof_sz →
        ∃ d2, reconstruct exampleOps d1 proof_sz = some d2 ∧
          (d2.proof.length : Int) = d2.stats.derived + d2.stats.deleted) :=
  ⟨⟨rfl, rfl, rfl⟩, _, rfl, by decide,
    proof_length_matches_statistics exampleOps garbageLogState _
      [Call.notify (Event.add_derived_clause 0), Call.notify (Event.delete_clause 0),
        Call.notify (Event.add_derived_clause 1), Call.reconstruct 2,
        Call.notify (Event.add_derived_clause 1)] rfl rfl rfl rfl⟩

/-! ## Claims about the log invariants -/

theorem emptyLogState_idx (p : Nat) : emptyLogState.idx p = 0 :=
  match p with
  | 0 => rfl
  | 1 => rfl
  | _ + 2 => rfl

theorem derivedState_reachable : Reachable derivedState :=
  Reachable.add_derived_clause emptyLogState 0
    (Reachable.init emptyLogState rfl emptyLogState_idx) (by decide)

theorem derivedState_protocol : Protocol [] derivedState :=
  Protocol.add_derived_clause [] emptyLogState 0
    (Protocol.init emptyLogState rfl emptyLogState_idx) (by decide) (by simp) (by decide)

theorem deletedState_protocol : Protocol [] deletedState :=
  Protocol.delete_clause [] derivedState 0 derivedState_protocol (by decide) (by simp)
    (Or.inr (by decide)) (by decide)

theorem deallocatedState_protocol : Protocol [0] deallocatedState :=
  Protocol.deallocate_clause [] deletedState 0 deletedState_protocol (by decide) (by simp)
    (by decide)

/-- After appending an entry for an allocated clause `c`, the footer index of
`c` is the new log length and points to the entry just pushed. -/
theorem append_clause_entry (d : Drupper) (c : Nat) (del : Bool)
    (hc : c < d.internal.heap.length) (hb : d.proof.length + 1 < 2 ^ 30) :
    (append_lemma d (DrupperClause.ofClause c del)).idx c = d.proof.length + 1 ∧
    (append_lemma d (DrupperClause.ofClause c del)).entry
      ((append_lemma d (DrupperClause.ofClause c del)).idx c - 1) =
        linked d (DrupperClause.ofClause c del) ∧
    (append_lemma d (DrupperClause.ofClause c del)).proof =
      d.proof ++ [linked d (DrupperClause.ofClause c del)] := by
  obtain ⟨e1, e2, -, -⟩ := append_lemma_effect d (DrupperClause.ofClause c del) hb
  have hidx : (append_lemma d (DrupperClause.ofClause c del)).idx c = d.proof.length + 1 := by
    rw [e2]
    unfold reindexed
    simp [DrupperClause.ofClause, hc]
  refine ⟨hidx, ?_, e1⟩
  rw [hidx, entry_eq_ent, e1, Nat.add_sub_cancel, ent_append_last]

/-- C8, as stated, fails: after `add_derived_clause (c)`, `delete_clause (c)`
and `deallocate_clause (c)`, a sequence within the host protocol, the deletion
entry `P[1]` holds the literals `1 2` with `revive_at = 1`, while the paired
derivation `P[0]` has had its clause reference cleared and refers to no
literals. -/
theorem back_link_symmetry_counterexample :
    Protocol [0] deallocatedState ∧ ¬ BackLinkSymmetry deallocatedState := by
  refine ⟨deallocatedState_protocol, ?_⟩
  intro h
  have h1 := (h.1 1 0 (by decide) (by decide) (by decide)).2.2.2
  exact absurd h1 (by decide)

/-- C8, amended: in every state reachable through the hooks under the host
protocol, an entry `P[i]` with `revive_at = j + 1` is a deletion, `j < i`,
`P[j]` is a derivation with `revive_at = 0`, and `P[j]` either has had its
clause reference cleared or holds the same variant as `P[i]` (hence refers to
the same literals); every derivation entry has `revive_at = 0`. -/
theorem back_links_under_protocol (dead : List Nat) (d : Drupper) (h : Protocol dead d) :
    (∀ i j, i < d.proof.length → (d.entry i).revive_at = j + 1 →
      (d.entry i).deleted = true ∧ j < i ∧ (d.entry j).deleted = false ∧
      (d.entry j).revive_at = 0 ∧
      ((d.entry j).variant = Variant.CLAUSE none ∨
        ((d.entry j).variant = (d.entry i).variant ∧
          entry_literals d.internal (d.entry j) = entry_literals d.internal (d.entry i)))) ∧
    (∀ i, i < d.proof.length → (d.entry i).deleted = false → (d.entry i).revive_at = 0) := by
  have inv := h.inv
  constructor
  · intro i j hi hr
    obtain ⟨h1, h2, h3, h4, h5⟩ := inv.links i j hi hr
    refine ⟨h1, h2, h3, h4, ?_⟩
    rcases h5 with h5 | h5
    · exact Or.inl h5
    · refine Or.inr ⟨h5, ?_⟩
      unfold entry_literals
      rw [entry_eq_ent, entry_eq_ent, h5]
  · intro i hi hd
    exact inv.links.derivation_no_link i hi hd

theorem back_links_under_protocol_witness :
    Protocol [0] deallocatedState ∧
    ((∀ i j, i < deallocatedState.proof.length → (deallocatedState.entry i).revive_at = j + 1 →
      (deallocatedState.entry i).deleted = true ∧ j < i ∧
      (deallocatedState.entry j).deleted = false ∧ (deallocatedState.entry j).revive_at = 0 ∧
      ((deallocatedState.entry j).variant = Variant.CLAUSE none ∨
        ((deallocatedState.entry j).variant = (deallocatedState.entry i).variant ∧
          entry_literals deallocatedState.internal (deallocatedState.entry j) =
            entry_literals deallocatedState.internal (deallocatedState.entry i)))) ∧
    (∀ i, i < deallocatedState.proof.length → (deallocatedState.entry i).deleted = false →
      (deallocatedState.entry i).revive_at = 0)) ∧
    deallocatedState.proof =
      [{ deleted := false, revive_at := 0, variant := Variant.CLAUSE none },
       { deleted := true, revive_at := 1, variant := Variant.LITERALS [1, 2] }] :=
  ⟨deallocatedState_protocol,
    back_links_under_protocol [0] deallocatedState deallocatedState_protocol, by decide⟩

/-- C9: in every state reachable by `add_derived_clause`,
`add_derived_unit_clause`, `delete_clause (Clause *)` and
`add_updated_clause`, a clause `c` with footer `idx = k + 1` has `k` within
the log and `P[k]` is a `CLAUSE` entry whose `clause ()` is `c`; and right
after `add_derived_clause (c)` of an allocated clause, `P[c.idx - 1]` is the
entry just appended. -/
theorem index_roundtrip (d : Drupper) (h : Reachable d) :
    (∀ c k, d.idx c = k + 1 →
      k < d.proof.length ∧ (d.entry k).isClause = true ∧ (d.entry k).clause = some c) ∧
    (∀ c, d.isolated = false → c < d.internal.heap.length →
      within_index_range (add_derived_clause d c) →
      (add_derived_clause d c).idx c = d.proof.length + 1 ∧
      (add_derived_clause d c).entry ((add_derived_clause d c).idx c - 1) =
        DrupperClause.ofClause c false ∧
      (add_derived_clause d c).proof = d.proof ++ [DrupperClause.ofClause c false]) := by
  constructor
  · intro c k hk
    obtain ⟨h1, h2⟩ := h.roundtrip c k (by simp) hk
    rw [entry_eq_ent]
    exact ⟨h1, by simp [DrupperClause.isClause, h2], by simp [DrupperClause.clause, h2]⟩
  · intro c hi hc hb
    unfold add_derived_clause at hb ⊢
    simp only [hi, Bool.false_eq_true, if_false] at hb ⊢
    unfold within_index_range at hb
    rw [append_lemma_length] at hb
    have := append_clause_entry d c false hc hb
    rw [linked_of_derivation _ _ rfl] at this
    exact this

theorem index_roundtrip_witness :
    Reachable derivedState ∧
    ((∀ c k, derivedState.idx c = k + 1 →
      k < derivedState.proof.length ∧ (derivedState.entry k).isClause = true ∧
        (derivedState.entry k).clause = some c) ∧
    (∀ c, derivedState.isolated = false → c < derivedState.internal.heap.length →
      within_index_range (add_derived_clause derivedState c) →
      (add_derived_clause derivedState c).idx c = derivedState.proof.length + 1 ∧
      (add_derived_clause derivedState c).entry ((add_derived_clause derivedState c).idx c - 1) =
        DrupperClause.ofClause c false ∧
      (add_derived_clause derivedState c).proof =
        derivedState.proof ++ [DrupperClause.ofClause c false])) ∧
    (derivedState.idx 0 = 1 ∧ derivedState.entry 0 = DrupperClause.ofClause 0 false) :=
  ⟨derivedState_reachable, index_roundtrip derivedState derivedState_reachable, by decide⟩

/-- C10, as stated, fails: after `add_derived_clause (c)` and
`delete_clause (c)` the footer index of `c` is 2 and `P[1]` is the deletion
entry (`deleted = true`), not a derivation. -/
theorem index_points_to_derivation_counterexample :
    Protocol [] deletedState ∧ deletedState.idx 0 = 2 ∧
    (deletedState.entry 1).deleted = true ∧ ¬ IndexPointsToDerivation deletedState := by
  refine ⟨deletedState_protocol, by decide, by decide, ?_⟩
  intro h
  have h1 := (h 0 1 (by decide)).2.2
  exact absurd h1 (by decide)

/-- C10, amended: in every state reachable through the hooks under the host
protocol, a clause `c` that has not been deallocated and has footer
`idx = k + 1` finds at `P[k]` a `CLAUSE` entry for `c`, and no entry after
`P[k]` refers to `c`: the index points to the most recent entry of `c`.  Right
after `add_derived_clause (c)` that entry is a derivation; right after
`delete_clause (c)` it is the deletion entry itself, and its `revive_at` is
the index `c` had before: under the protocol it points back to the derivation
of `c`, a `CLAUSE` entry for `c` that is not deleted (it is 0 when `c` had no
entry). -/
theorem index_points_to_latest_entry (dead : List Nat) (d : Drupper) (h : Protocol dead d) :
    (∀ c k, c ∉ dead → d.idx c = k + 1 →
      k < d.proof.length ∧ (d.entry k).variant = Variant.CLAUSE (some c) ∧
      ∀ i, i < d.proof.length → (d.entry i).variant = Variant.CLAUSE (some c) → i ≤ k) ∧
    (∀ c, d.isolated = false → c < d.internal.heap.length →
      within_index_range (add_derived_clause d c) →
      (add_derived_clause d c).idx c = d.proof.length + 1 ∧
      ((add_derived_clause d c).entry ((add_derived_clause d c).idx c - 1)).deleted = false) ∧
    (∀ c, d.isolated = false → c < d.internal.heap.length →
      within_index_range (delete_clause d c) →
      (delete_clause d c).idx c = d.proof.length + 1 ∧
      ((delete_clause d c).entry ((delete_clause d c).idx c - 1)).deleted = true ∧
      ((delete_clause d c).entry ((delete_clause d c).idx c - 1)).variant =
        Variant.CLAUSE (some c) ∧
      ((delete_clause d c).entry ((delete_clause d c).idx c - 1)).revive_at = d.idx c ∧
      (c ∉ dead → not_deleted_yet d c → ∀ j, d.idx c = j + 1 →
        j < d.proof.length ∧
        ((delete_clause d c).entry ((delete_clause d c).idx c - 1)).revive_at = j + 1 ∧
        ((delete_clause d c).entry j).variant = Variant.CLAUSE (some c) ∧
        ((delete_clause d c).entry j).deleted = false)) := by
  have inv := h.inv
  refine ⟨?_, ?_, ?_⟩
  · intro c k hc hk
    obtain ⟨h1, h2⟩ := inv.roundtrip c k hc hk
    refine ⟨h1, h2, ?_⟩
    intro i hi hv
    have := inv.latest i c hi hv
    omega
  · intro c hi hc hb
    unfold add_derived_clause at hb ⊢
    simp only [hi, Bool.false_eq_true, if_false] at hb ⊢
    unfold within_index_range at hb
    rw [append_lemma_length] at hb
    obtain ⟨a1, a2, -⟩ := append_clause_entry d c false hc hb
    rw [a2, linked_of_derivation _ _ rfl]
    exact ⟨a1, rfl⟩
  · intro c hi hc hb
    unfold delete_clause at hb ⊢
    simp only [hi, Bool.false_eq_true, if_false] at hb ⊢
    unfold within_index_range at hb
    rw [append_lemma_length] at hb
    obtain ⟨a1, a2, a3⟩ := append_clause_entry d c true hc hb
    rw [a2, linked_deletion]
    refine ⟨a1, rfl, rfl, rfl, ?_⟩
    intro hcd hn j hj
    obtain ⟨r1, r2⟩ := inv.roundtrip c j hcd hj
    have he : (append_lemma d (DrupperClause.ofClause c true)).entry j = d.entry j := by
      rw [entry_eq_ent, a3, ent_append_left _ _ _ r1, ← entry_eq_ent]
    rw [he]
    refine ⟨r1, hj, r2, ?_⟩
    rcases hn with h0 | h1
    · rw [hj] at h0
      cases h0
    · rw [hj, Nat.add_sub_cancel] at h1
      exact h1

theorem index_points_to_latest_entry_witness :
    Protocol [] deletedState ∧
    ((∀ c k, c ∉ ([] : List Nat) → deletedState.idx c = k + 1 →
      k < deletedState.proof.length ∧
      (deletedState.entry k).variant = Variant.CLAUSE (some c) ∧
      ∀ i, i < deletedState.proof.length →
        (deletedState.entry i).variant = Variant.CLAUSE (some c) → i ≤ k) ∧
    (∀ c, deletedState.isolated = false → c < deletedState.internal.heap.length →
      within_index_range (add_derived_clause deletedState c) →
      (add_derived_clause deletedState c).idx c = deletedState.proof.length + 1 ∧
      ((add_derived_clause deletedState c).entry
        ((add_derived_clause deletedState c).idx c - 1)).deleted = false) ∧
    (∀ c, deletedState.isolated = false → c < deletedState.internal.heap.length →
      within_index_range (delete_clause deletedState c) →
      (delete_clause deletedState c).idx c = deletedState.proof.length + 1 ∧
      ((delete_clause deletedState c).entry
        ((delete_clause deletedState c).idx c - 1)).deleted = true ∧
      ((delete_clause deletedState c).entry
        ((delete_clause deletedState c).idx c - 1)).variant = Variant.CLAUSE (some c) ∧
      ((delete_clause deletedState c).entry
        ((delete_clause deletedState c).idx c - 1)).revive_at = deletedState.idx c ∧
      (c ∉ ([] : List Nat) → not_deleted_yet deletedState c → ∀ j, deletedState.idx c = j + 1 →
        j < deletedState.proof.length ∧
        ((delete_clause deletedState c).entry
          ((delete_clause deletedState c).idx c - 1)).revive_at = j + 1 ∧
        ((delete_clause deletedState c).entry j).variant = Variant.CLAUSE (some c) ∧
        ((delete_clause deletedState c).entry j).deleted = false))) ∧
    deletedState.proof =
      [{ deleted := false, revive_at := 0, variant := Variant.CLAUSE (some 0) },
       { deleted := true, revive_at := 1, variant := Variant.CLAUSE (some 0) }] :=
  ⟨deletedState_protocol,
    index_points_to_latest_entry [] deletedState deletedState_protocol, by decide⟩

/-! ## Tautology check -/

section tautology

theorem sorter_iff (a b : Int) : sorter a b = true ↔ literal_rank a < literal_rank b := by
  unfold sorter literal_rank
  simp only [Bool.or_eq_true, Bool.and_eq_true, decide_eq_true_eq]
  constructor
  · rintro (h | ⟨h1, h2⟩)
    · split <;> split <;> omega
    · split <;> split <;> omega
  · intro h
    split at h <;> split at h <;> omega

theorem sorter_false_iff (a b : Int) : sorter b a = false ↔ literal_rank a ≤ literal_rank b := by
  rw [← Bool.not_eq_true, sorter_iff]; omega

theorem literal_rank_injective {a b : Int} (h : literal_rank a = literal_rank b) : a = b := by
  unfold literal_rank at h
  split at h <;> split at h <;> omega

instance sorter_total : IsTotal Int (fun a b => sorter b a = false) :=
  ⟨fun a b => by
    simp only [sorter_false_iff]; omega⟩

instance sorter_trans : IsTrans Int (fun a b => sorter b a = false) :=
  ⟨fun a b c => by
    simp only [sorter_false_iff]; omega⟩

theorem sort_literals_perm (c : List Int) : (sort_literals c).Perm c :=
  List.perm_insertionSort _ c

theorem sort_literals_sorted (c : List Int) :
    (sort_literals c).Pairwise (fun a b => literal_rank a ≤ literal_rank b) := by
  have h := List.sorted_insertionSort (fun a b : Int => sorter b a = false) c
  unfold sort_literals
  exact List.Pairwise.imp (fun {a b} hab => (sorter_false_iff a b).1 hab) h

/-- The sorted vector is determined by the comparison: any arrangement of `c`
that is ordered by `sorter` is `sort_literals c`. -/
theorem sort_literals_unique (c s : List Int) (hp : s.Perm c)
    (hs : s.Pairwise (fun a b => sorter b a = false)) : s = sort_literals c := by
  have h1 : (sort_literals c).Pairwise (fun a b => sorter b a = false) :=
    List.sorted_insertionSort (fun a b : Int => sorter b a = false) c
  have hanti : ∀ a b : Int, sorter b a = false → sorter a b = false → a = b := by
    intro a b h1 h2
    rw [sorter_false_iff] at h1 h2
    exact literal_rank_injective (by omega)
  haveI : IsAntisymm Int (fun a b => sorter b a = false) := ⟨hanti⟩
  exact List.eq_of_perm_of_sorted (hp.trans (sort_literals_perm c).symm) hs h1

theorem adjacent_complement_sound (l : List Int) (h : adjacent_complement l = true) :
    has_complementary_pair l := by
  induction l with
  | nil => simp [adjacent_complement] at h
  | cons a t ih =>
    cases t with
    | nil => simp [adjacent_complement] at h
    | cons b t =>
      unfold adjacent_complement at h
      by_cases hb : b = -a
      · exact ⟨a, by simp, by simp [hb]⟩
      · rw [if_neg hb] at h
        obtain ⟨x, hx1, hx2⟩ := ih h
        exact ⟨x, List.mem_cons_of_mem _ hx1, List.mem_cons_of_mem _ hx2⟩

theorem adjacent_complement_complete (l : List Int) (v : Int) (hv : 0 < v)
    (hs : l.Pairwise (fun a b => literal_rank a ≤ literal_rank b))
    (h1 : -v ∈ l) (h2 : v ∈ l) : adjacent_complement l = true := by
  induction l with
  | nil => cases h1
  | cons a t ih =>
    cases t with
    | nil =>
      simp only [List.mem_singleton] at h1 h2
      omega
    | cons b t =>
      unfold adjacent_complement
      by_cases hb : b = -a
      · rw [if_pos hb]
      · rw [if_neg hb]
        rw [List.pairwise_cons] at hs
        obtain ⟨ha, hs'⟩ := hs
        have rneg : literal_rank (-v) = 2 * v.natAbs := by
          unfold literal_rank; split <;> omega
        have rpos : literal_rank v = 2 * v.natAbs + 1 := by
          unfold literal_rank; split <;> omega
        rcases List.mem_cons.1 h1 with e1 | m1
        · rcases List.mem_cons.1 h2 with e2 | m2
          · omega
          · -- a = -v, v in the tail
            by_cases m1' : -v ∈ b :: t
            · exact ih hs' m1' m2
            · exfalso
              have hab := ha b (by simp)
              have hbv : literal_rank b ≤ literal_rank v := by
                rcases List.mem_cons.1 m2 with e | m
                · rw [e]
                · exact (List.pairwise_cons.1 hs').1 v m
              rw [← e1, rneg] at hab
              rw [rpos] at hbv
              have : b = -v ∨ b = v := by
                rcases Nat.lt_or_ge (literal_rank b) (2 * v.natAbs + 1) with hlt | hge
                · left; apply literal_rank_injective; rw [rneg]; omega
                · right; apply literal_rank_injective; rw [rpos]; omega
              rcases this with e | e
              · exact m1' (by rw [e]; simp)
              · exact hb (by rw [e, ← e1]; simp)
        · rcases List.mem_cons.1 h2 with e2 | m2
          · exfalso
            have := ha (-v) m1
            rw [← e2, rpos, rneg] at this
            omega
          · exact ih hs' m1 m2

theorem trivially_satisfied_of_pair (c : List Int) (hnz : ∀ x ∈ c, x ≠ 0)
    (h : has_complementary_pair c) : trivially_satisfied c = true := by
  obtain ⟨x, hx1, hx2⟩ := h
  have hx0 := hnz x hx1
  have hp := sort_literals_perm c
  unfold trivially_satisfied
  rcases lt_or_gt_of_ne hx0 with hneg | hpos
  · apply adjacent_complement_complete _ (-x) (by omega) (sort_literals_sorted c)
    · rw [neg_neg]; exact hp.mem_iff.2 hx1
    · exact hp.mem_iff.2 hx2
  · apply adjacent_complement_complete _ x hpos (sort_literals_sorted c)
    · exact hp.mem_iff.2 hx2
    · exact hp.mem_iff.2 hx1

theorem pair_of_trivially_satisfied (c : List Int) (h : trivially_satisfied c = true) :
    has_complementary_pair c := by
  obtain ⟨x, hx1, hx2⟩ := adjacent_complement_sound _ h
  have hp := sort_literals_perm c
  exact ⟨x, hp.mem_iff.1 hx1, hp.mem_iff.1 hx2⟩

theorem not_trivially_satisfied (c : List Int) (h : ¬ has_complementary_pair c) :
    trivially_satisfied c = false := by
  cases ht : trivially_satisfied c with
  | false => rfl
  | true => exact absurd (pair_of_trivially_satisfied c ht) h

end tautology

/-! ## Claims about failing assumptions and the tautology check -/

/-- C13: for a vector of nonzero literals, `trivially_satisfied` returns true
exactly when some literal occurs together with its negation; the test works
on a sorted copy, which is the arrangement of the vector ordered by
`(|lit|, lit)`, and the vector itself is only read. -/
theorem trivially_satisfied_iff_complementary (c : List Int) (hnz : ∀ x ∈ c, x ≠ 0) :
    (trivially_satisfied c = true ↔ has_complementary_pair c) ∧
    (sort_literals c).Perm c ∧
    (sort_literals c).Pairwise (fun a b => sorter b a = false) :=
  ⟨⟨pair_of_trivially_satisfied c, trivially_satisfied_of_pair c hnz⟩,
    sort_literals_perm c,
    List.sorted_insertionSort (fun a b : Int => sorter b a = false) c⟩

theorem trivially_satisfied_iff_complementary_witness :
    (∀ x ∈ ([3, -1, 2, 1] : List Int), x ≠ 0) ∧
    ((trivially_satisfied [3, -1, 2, 1] = true ↔ has_complementary_pair [3, -1, 2, 1]) ∧
      (sort_literals [3, -1, 2, 1]).Perm [3, -1, 2, 1] ∧
      (sort_literals [3, -1, 2, 1]).Pairwise (fun a b => sorter b a = false)) ∧
    (trivially_satisfied [3, -1, 2, 1] = true ∧ sort_literals [3, -1, 2, 1] = [-1, 1, 2, 3] ∧
      trivially_satisfied [3, -1, 2] = false) :=
  ⟨by decide, trivially_satisfied_iff_complementary [3, -1, 2, 1] (by decide), by decide⟩

/-- C11: outside the `isolated` lock, for a vector `C` of more than one
literal without a complementary pair, `add_failing_assumption (C)` appends
exactly two entries to a log of length `n` (the log staying within the index
range): a derivation owning `C` with `revive_at = 0` and a deletion owning `C`
with `revive_at = n + 1`; `stats.derived` and `stats.deleted` grow by one
each, and the earlier entries and the host state are unchanged. -/
theorem add_failing_assumption_appends_pair (d : Drupper) (C : List Int)
    (hi : d.isolated = false) (hl : C.length > 1) (hc : ¬ has_complementary_pair C)
    (hb : d.proof.length + 2 < 2 ^ 30) :
    (add_failing_assumption d C).proof =
      d.proof ++
        [{ deleted := false, revive_at := 0, variant := Variant.LITERALS C },
         { deleted := true, revive_at := d.proof.length + 1, variant := Variant.LITERALS C }] ∧
    (add_failing_assumption d C).stats.derived = d.stats.derived + 1 ∧
    (add_failing_assumption d C).stats.deleted = d.stats.deleted + 1 ∧
    (add_failing_assumption d C).internal = d.internal := by
  have ht := not_trivially_satisfied C hc
  obtain ⟨e1, -, e3⟩ := append_failed_effect d C hb
  unfold add_failing_assumption
  simp only [hi, Bool.false_eq_true, if_false, hl, if_true, ht, Bool.not_false]
  refine ⟨?_, ?_, ?_, e3⟩
  · rw [e1]; simp [DrupperClause.ofLits]
  · simp [append_failed, append_lemma_stats, DrupperClause.ofLits]
  · simp [append_failed, append_lemma_stats, DrupperClause.ofLits]

theorem add_failing_assumption_appends_pair_witness :
    (emptyLogState.isolated = false ∧ ([4, 5] : List Int).length > 1 ∧
      ¬ has_complementary_pair [4, 5] ∧ emptyLogState.proof.length + 2 < 2 ^ 30) ∧
    ((add_failing_assumption emptyLogState [4, 5]).proof =
      emptyLogState.proof ++
        [{ deleted := false, revive_at := 0, variant := Variant.LITERALS [4, 5] },
         { deleted := true, revive_at := emptyLogState.proof.length + 1,
           variant := Variant.LITERALS [4, 5] }] ∧
    (add_failing_assumption emptyLogState [4, 5]).stats.derived =
      emptyLogState.stats.derived + 1 ∧
    (add_failing_assumption emptyLogState [4, 5]).stats.deleted =
      emptyLogState.stats.deleted + 1 ∧
    (add_failing_assumption emptyLogState [4, 5]).internal = emptyLogState.internal) :=
  have hc : ¬ has_complementary_pair [4, 5] := by
    rintro ⟨x, h1, h2⟩
    simp at h1 h2
    omega
  ⟨⟨rfl, by decide, hc, by decide⟩,
    add_failing_assumption_appends_pair emptyLogState [4, 5] rfl (by decide) hc (by decide)⟩

/-- C12: for a vector `C` of (nonzero) literals that contains a literal and
its negation, `add_failing_assumption (C)` leaves the log, `stats.derived` and
`stats.deleted` unchanged; and outside the `isolated` lock the log grows, by
exactly two entries, if and only if `C` has more than one literal and no
complementary pair (otherwise it is unchanged). -/
theorem tautology_invariance (d : Drupper) (C : List Int) (hnz : ∀ x ∈ C, x ≠ 0) :
    (has_complementary_pair C →
      (add_failing_assumption d C).proof = d.proof ∧
      (add_failing_assumption d C).stats.derived = d.stats.derived ∧
      (add_failing_assumption d C).stats.deleted = d.stats.deleted) ∧
    (d.isolated = false →
      ((add_failing_assumption d C).proof.length > d.proof.length ↔
        (C.length > 1 ∧ ¬ has_complementary_pair C)) ∧
      ((C.length > 1 ∧ ¬ has_complementary_pair C) →
        (add_failing_assumption d C).proof.length = d.proof.length + 2) ∧
      (¬ (C.length > 1 ∧ ¬ has_complementary_pair C) →
        (add_failing_assumption d C).proof = d.proof)) := by
  have hsame : ¬ (C.length > 1 ∧ ¬ has_complementary_pair C) →
      (add_failing_assumption d C).proof = d.proof ∧
      (add_failing_assumption d C).stats.derived = d.stats.derived ∧
      (add_failing_assumption d C).stats.deleted = d.stats.deleted := by
    intro hn
    unfold add_failing_assumption
    by_cases hi : d.isolated = true
    · simp [hi]
    · rw [if_neg hi]
      by_cases hl : C.length > 1
      · have hp : has_complementary_pair C := by
          by_contra hh; exact hn ⟨hl, hh⟩
        have ht := trivially_satisfied_of_pair C hnz hp
        simp [hl, ht]
      · simp [hl]
  have hgrow : d.isolated = false → (C.length > 1 ∧ ¬ has_complementary_pair C) →
      (add_failing_assumption d C).proof.length = d.proof.length + 2 := by
    intro hi ⟨hl, hc⟩
    have ht := not_trivially_satisfied C hc
    unfold add_failing_assumption
    simp [hi, hl, ht, append_failed]
  refine ⟨fun hp => hsame (fun h => h.2 hp), fun hi => ⟨?_, hgrow hi, fun hn => (hsame hn).1⟩⟩
  constructor
  · intro hg
    by_contra hn
    rw [(hsame hn).1] at hg
    omega
  · intro hc
    rw [hgrow hi hc]; omega

theorem tautology_invariance_witness :
    (∀ x ∈ ([1, 2, -1] : List Int), x ≠ 0) ∧
    ((has_complementary_pair [1, 2, -1] →
      (add_failing_assumption emptyLogState [1, 2, -1]).proof = emptyLogState.proof ∧
      (add_failing_assumption emptyLogState [1, 2, -1]).stats.derived =
        emptyLogState.stats.derived ∧
      (add_failing_assumption emptyLogState [1, 2, -1]).stats.deleted =
        emptyLogState.stats.deleted) ∧
    (emptyLogState.isolated = false →
      ((add_failing_assumption emptyLogState [1, 2, -1]).proof.length >
          emptyLogState.proof.length ↔
        (([1, 2, -1] : List Int).length > 1 ∧ ¬ has_complementary_pair [1, 2, -1])) ∧
      ((([1, 2, -1] : List Int).length > 1 ∧ ¬ has_complementary_pair [1, 2, -1]) →
        (add_failing_assumption emptyLogState [1, 2, -1]).proof.length =
          emptyLogState.proof.length + 2) ∧
      (¬ (([1, 2, -1] : List Int).length > 1 ∧ ¬ has_complementary_pair [1, 2, -1]) →
        (add_failing_assumption emptyLogState [1, 2, -1]).proof = emptyLogState.proof))) ∧
    (has_complementary_pair [1, 2, -1] ∧
      (add_failing_assumption emptyLogState [1, 2, -1]).proof = []) :=
  ⟨by decide, tautology_invariance emptyLogState [1, 2, -1] (by decide),
    ⟨1, by simp, by simp⟩, by decide⟩


/-! ## Claims about duplicate removal and falsified literals -/

/-- C14 as stated fails at the vector `1 -1 2` (no mark set, tracker active,
`original` false): the deletion is logged with the literals `1 2`, which are
not a permutation of the distinct literals `1 -1 2`; the literal `-1` is
dropped because the mark is per variable and its variable is already marked. -/
theorem delete_clause_drops_negation :
    emptyLogState.isolated = false ∧ (∀ v, emptyLogState.internal.marks v = 0) ∧
    (remove_duplicates emptyLogState.internal [1, -1, 2]).2 = [1, 2] ∧
    (delete_clause_lits emptyLogState [1, -1, 2] false).proof =
      [{ deleted := true, revive_at := 0, variant := Variant.LITERALS [1, 2] }] ∧
    ¬ ([1, 2] : List Int).Perm ([1, -1, 2] : List Int).dedup := by
  refine ⟨rfl, fun _ => rfl, by decide, by decide, by decide⟩

/-- C15 at the failing input: with 1 and 3 falsified and 2 unassigned, the
vector `1 2 3` becomes `3 2 1`: the falsified literal 3 stands before the
unassigned literal 2. -/
theorem swap_leaves_falsified_in_front :
    swap_falsified_literals_right falsified13 [1, 2, 3] = [3, 2, 1] ∧
    falsified13.val 3 < 0 ∧ ¬ falsified13.val 2 < 0 := by
  refine ⟨?_, by decide, by decide⟩
  simp [swap_falsified_literals_right, swap_falsified_loop, falsified13, Internal.val]

/-! ## Garbage marks and host accounting -/

theorem deref_with_stats (s : Internal) (st : IStats) (p : Nat) :
    ({ s with stats := st } : Internal).deref p = s.deref p := rfl

theorem heap_length_with_stats (s : Internal) (st : IStats) :
    ({ s with stats := st } : Internal).heap.length = s.heap.length := rfl

theorem deref_modify_same (s : Internal) (c : Nat) (f : Clause → Clause)
    (hc : c < s.heap.length) : (s.modify c f).deref c = f (s.deref c) := by
  rw [deref_modify]; simp [hc]

theorem deref_modify_other (s : Internal) (c p : Nat) (f : Clause → Clause) (hp : p ≠ c) :
    (s.modify c f).deref p = s.deref p := by
  rw [deref_modify]; simp [hp]

theorem mark_garbage_deref (ops : HostOps) (s : Internal) (c : Nat) (hc : c < s.heap.length)
    (h : (s.deref c).garbage = false) :
    (mark_garbage ops s c).deref c =
      if (s.deref c).size = 1 then { s.deref c with garbage := true }
      else { s.deref c with garbage := true, used := 0 } := by
  unfold mark_garbage
  by_cases h1 : (s.deref c).size = 1
  · simp only [h, Bool.false_eq_true, if_false, h1, if_true]
    rw [deref_modify_same s c _ hc]
  · simp only [h, Bool.false_eq_true, if_false, h1]
    rw [deref_modify_same _ c _ (by rw [heap_length_with_stats]; simpa using hc),
      deref_with_stats, deref_modify_same s c _ hc]

theorem mark_garbage_deref_other (ops : HostOps) (s : Internal) (c p : Nat) (hp : p ≠ c) :
    (mark_garbage ops s c).deref p = s.deref p := by
  unfold mark_garbage
  by_cases h : (s.deref c).garbage = true
  · simp only [h, if_true]
  · by_cases h1 : (s.deref c).size = 1
    · simp only [h, Bool.false_eq_true, if_false, h1, if_true]
      rw [deref_modify_other s c p _ hp]
    · simp only [h, Bool.false_eq_true, if_false, h1]
      rw [deref_modify_other _ c p _ hp, deref_with_stats, deref_modify_other s c p _ hp]

theorem mark_active_deref (ops : HostOps) (s : Internal) (c : Nat) (hc : c < s.heap.length)
    (h : (s.deref c).garbage = true) :
    (mark_active ops s c).deref c = { s.deref c with garbage := false } := by
  unfold mark_active
  by_cases h1 : (s.deref c).size = 1
  · simp only [h, Bool.not_true, Bool.false_eq_true, if_false, h1, if_true]
    rw [deref_modify_same s c _ hc]
  · simp only [h, Bool.not_true, Bool.false_eq_true, if_false, h1]
    rw [deref_with_stats, deref_modify_same s c _ hc]

theorem mark_active_deref_other (ops : HostOps) (s : Internal) (c p : Nat) (hp : p ≠ c) :
    (mark_active ops s c).deref p = s.deref p := by
  unfold mark_active
  by_cases h : (s.deref c).garbage = true
  · by_cases h1 : (s.deref c).size = 1
    · simp only [h, Bool.not_true, Bool.false_eq_true, if_false, h1, if_true]
      rw [deref_modify_other s c p _ hp]
    · simp only [h, Bool.not_true, Bool.false_eq_true, if_false, h1]
      rw [deref_with_stats, deref_modify_other s c p _ hp]
  · simp only [h, Bool.not_false, if_true]

theorem modify_stats (s : Internal) (c : Nat) (f : Clause → Clause) :
    (s.modify c f).stats = s.stats := rfl

theorem mark_garbage_stats (ops : HostOps) (s : Internal) (c : Nat)
    (h : (s.deref c).garbage = false) :
    (mark_garbage ops s c).stats.accounting =
      if (s.deref c).size = 1 then s.stats.accounting
      else if (s.deref c).redundant then
        (s.stats.current_redundant - 1, s.stats.current_irredundant, s.stats.irrlits,
          s.stats.garbage_bytes + ops.bytes (s.deref c).size, s.stats.garbage_clauses + 1,
          s.stats.garbage_literals + (s.deref c).size, s.stats.added_redundant)
      else
        (s.stats.current_redundant, s.stats.current_irredundant - 1,
          s.stats.irrlits - (s.deref c).size,
          s.stats.garbage_bytes + ops.bytes (s.deref c).size, s.stats.garbage_clauses + 1,
          s.stats.garbage_literals + (s.deref c).size, s.stats.added_redundant) := by
  unfold mark_garbage
  by_cases h1 : (s.deref c).size = 1
  · simp only [h, Bool.false_eq_true, if_false, h1, if_true, modify_stats]
  · by_cases h2 : (s.deref c).redundant = true
    · simp only [h, Bool.false_eq_true, if_false, h1, h2, if_true, modify_stats]
      rfl
    · simp only [h, Bool.false_eq_true, if_false, h1, h2, modify_stats]
      rfl

theorem mark_active_stats (ops : HostOps) (s : Internal) (c : Nat)
    (h : (s.deref c).garbage = true) :
    (mark_active ops s c).stats.accounting =
      if (s.deref c).size = 1 then s.stats.accounting
      else if (s.deref c).redundant then
        (s.stats.current_redundant + 1, s.stats.current_irredundant, s.stats.irrlits,
          s.stats.garbage_bytes - ops.bytes (s.deref c).size, s.stats.garbage_clauses - 1,
          s.stats.garbage_literals - (s.deref c).size, s.stats.added_redundant)
      else
        (s.stats.current_redundant, s.stats.current_irredundant + 1,
          s.stats.irrlits + (s.deref c).size,
          s.stats.garbage_bytes - ops.bytes (s.deref c).size, s.stats.garbage_clauses - 1,
          s.stats.garbage_literals - (s.deref c).size, s.stats.added_redundant) := by
  unfold mark_active
  by_cases h1 : (s.deref c).size = 1
  · simp only [h, Bool.not_true, Bool.false_eq_true, if_false, h1, if_true, modify_stats]
  · by_cases h2 : (s.deref c).redundant = true
    · simp only [h, Bool.not_true, Bool.false_eq_true, if_false, h1, h2, if_true, modify_stats]
      rfl
    · simp only [h, Bool.not_true, Bool.false_eq_true, if_false, h1, h2, modify_stats]
      rfl

theorem mark_garbage_of_garbage (ops : HostOps) (s : Internal) (c : Nat)
    (h : (s.deref c).garbage = true) : mark_garbage ops s c = s := by
  unfold mark_garbage; simp [h]

theorem mark_active_of_active (ops : HostOps) (s : Internal) (c : Nat)
    (h : (s.deref c).garbage = false) : mark_active ops s c = s := by
  unfold mark_active; simp [h]

theorem mark_garbage_size_one (ops : HostOps) (s : Internal) (c : Nat)
    (h1 : (s.deref c).size = 1) : (mark_garbage ops s c).stats = s.stats := by
  unfold mark_garbage
  by_cases h : (s.deref c).garbage = true
  · simp only [h, if_true]
  · simp only [h, Bool.false_eq_true, if_false, h1, if_true, modify_stats]

theorem mark_active_size_one (ops : HostOps) (s : Internal) (c : Nat)
    (h1 : (s.deref c).size = 1) : (mark_active ops s c).stats = s.stats := by
  unfold mark_active
  by_cases h : (s.deref c).garbage = true
  · simp only [h, Bool.not_true, Bool.false_eq_true, if_false, h1, if_true, modify_stats]
  · simp only [h, Bool.not_false, if_true]

/-- C18: `mark_garbage` on a garbage clause and `mark_active` on an active
clause change nothing; applied twice they do what they do once; on a clause
of size 1 they change only the `garbage` flag of that clause and no host
counter. -/
theorem mark_garbage_active_idempotent (ops : HostOps) (s : Internal) (c : Nat)
    (hc : c < s.heap.length) :
    ((s.deref c).garbage = true → mark_garbage ops s c = s) ∧
    ((s.deref c).garbage = false → mark_active ops s c = s) ∧
    mark_garbage ops (mark_garbage ops s c) c = mark_garbage ops s c ∧
    mark_active ops (mark_active ops s c) c = mark_active ops s c ∧
    ((s.deref c).size = 1 →
      (mark_garbage ops s c).stats = s.stats ∧ (mark_active ops s c).stats = s.stats ∧
      ((s.deref c).garbage = false →
        (mark_garbage ops s c).deref c = { s.deref c with garbage := true }) ∧
      ((s.deref c).garbage = true →
        (mark_active ops s c).deref c = { s.deref c with garbage := false }) ∧
      ∀ p, p ≠ c → (mark_garbage ops s c).deref p = s.deref p ∧
        (mark_active ops s c).deref p = s.deref p) := by
  refine ⟨mark_garbage_of_garbage ops s c, mark_active_of_active ops s c, ?_, ?_, ?_⟩
  · cases hg : (s.deref c).garbage with
    | true => rw [mark_garbage_of_garbage ops s c hg, mark_garbage_of_garbage ops s c hg]
    | false =>
      apply mark_garbage_of_garbage
      rw [mark_garbage_deref ops s c hc hg]
      split <;> rfl
  · cases hg : (s.deref c).garbage with
    | false => rw [mark_active_of_active ops s c hg, mark_active_of_active ops s c hg]
    | true =>
      apply mark_active_of_active
      rw [mark_active_deref ops s c hc hg]
  · intro h1
    refine ⟨mark_garbage_size_one ops s c h1, mark_active_size_one ops s c h1, ?_, ?_, ?_⟩
    · intro hg
      rw [mark_garbage_deref ops s c hc hg, if_pos h1]
    · intro hg
      exact mark_active_deref ops s c hc hg
    · intro p hp
      exact ⟨mark_garbage_deref_other ops s c p hp, mark_active_deref_other ops s c p hp⟩

theorem mark_garbage_heap_length (ops : HostOps) (s : Internal) (c : Nat) :
    (mark_garbage ops s c).heap.length = s.heap.length := by
  unfold mark_garbage
  by_cases h : (s.deref c).garbage = true
  · simp only [h, if_true]
  · by_cases h1 : (s.deref c).size = 1
    · simp only [h, Bool.false_eq_true, if_false, h1, if_true, modify_heap_length]
    · simp only [h, Bool.false_eq_true, if_false, h1, modify_heap_length]

/-- After `mark_garbage` of a non-garbage clause, `mark_active` of that clause
in any state with the same counters and the same size and redundancy of the
clause restores the accounting counters. -/
theorem mark_active_restores (ops : HostOps) (s t : Internal) (c : Nat)
    (hg : (s.deref c).garbage = false)
    (hst : t.stats = (mark_garbage ops s c).stats)
    (hg1 : (t.deref c).garbage = true)
    (hsz : (t.deref c).size = (s.deref c).size)
    (hrd : (t.deref c).redundant = (s.deref c).redundant) :
    (mark_active ops t c).stats.accounting = s.stats.accounting := by
  rw [mark_active_stats ops _ c hg1, hsz, hrd, hst]
  have hs := mark_garbage_stats ops s c hg
  by_cases h1 : (s.deref c).size = 1
  · simp only [h1, if_true] at hs ⊢; exact hs
  · by_cases h2 : (s.deref c).redundant = true
    · simp only [h1, h2, if_false, if_true] at hs ⊢
      simp only [IStats.accounting, Prod.mk.injEq] at hs ⊢
      obtain ⟨a1, a2, a3, a4, a5, a6, a7⟩ := hs
      rw [a1, a4, a5, a6]
      refine ⟨by ring, a2, a3, by ring, by ring, by ring, a7⟩
    · simp only [h1, h2, if_false, Bool.false_eq_true] at hs ⊢
      simp only [IStats.accounting, Prod.mk.injEq] at hs ⊢
      obtain ⟨a1, a2, a3, a4, a5, a6, a7⟩ := hs
      rw [a2, a3, a4, a5, a6]
      refine ⟨a1, by ring, by ring, by ring, by ring, by ring, a7⟩

/-- Marking a non-garbage clause garbage and then active again restores the
accounting counters and the `garbage` flag; only `used` may have been reset. -/
theorem mark_garbage_then_active (ops : HostOps) (s : Internal) (c : Nat)
    (hc : c < s.heap.length) (hg : (s.deref c).garbage = false) :
    (mark_active ops (mark_garbage ops s c) c).stats.accounting = s.stats.accounting ∧
    ((mark_active ops (mark_garbage ops s c) c).deref c).garbage = false ∧
    ∀ p, p ≠ c → (mark_active ops (mark_garbage ops s c) c).deref p = s.deref p := by
  have hd := mark_garbage_deref ops s c hc hg
  have hg1 : ((mark_garbage ops s c).deref c).garbage = true := by
    rw [hd]; split <;> rfl
  have hsz : ((mark_garbage ops s c).deref c).size = (s.deref c).size := by
    rw [hd]; split <;> rfl
  have hrd : ((mark_garbage ops s c).deref c).redundant = (s.deref c).redundant := by
    rw [hd]; split <;> rfl
  have hc1 : c < (mark_garbage ops s c).heap.length := by
    rw [mark_garbage_heap_length]; exact hc
  refine ⟨mark_active_restores ops s _ c hg rfl hg1 hsz hrd, ?_, ?_⟩
  · rw [mark_active_deref ops _ c hc1 hg1]
  · intro p hp
    rw [mark_active_deref_other ops _ c p hp, mark_garbage_deref_other ops s c p hp]

theorem reactivate_eliminated_accounting (ops : HostOps)
    (hr : ∀ s l, (ops.reactivate s l).stats.accounting = s.stats.accounting)
    (lits : List Int) (s : Internal) :
    (reactivate_eliminated ops s lits).stats.accounting = s.stats.accounting := by
  unfold reactivate_eliminated
  induction lits generalizing s with
  | nil => rfl
  | cons a lits ih =>
    simp only [List.foldl_cons]
    rw [ih]
    split
    · exact hr s a
    · rfl

theorem new_redundant_clause_deref (s : Internal) (L : List Int) :
    (new_redundant_clause s L).2 = s.heap.length ∧
    (new_redundant_clause s L).1.heap.length = s.heap.length + 1 ∧
    ((new_redundant_clause s L).1.deref s.heap.length).garbage = false ∧
    ((new_redundant_clause s L).1.deref s.heap.length).literals = L ∧
    (new_redundant_clause s L).1.stats.accounting =
      (s.stats.current_redundant + 1, s.stats.current_irredundant, s.stats.irrlits,
        s.stats.garbage_bytes, s.stats.garbage_clauses, s.stats.garbage_literals,
        s.stats.added_redundant + 1) := by
  unfold new_redundant_clause Internal.alloc Internal.deref
  simp [IStats.accounting, List.getD_eq_getElem?_getD]

/-- Host counters after reviving an entry that owns its literals. -/
theorem revive_clause_accounting (ops : HostOps) (d : Drupper) (i : Nat) (L : List Int)
    (hw : ∀ s c, (ops.watch_clause s c).stats.accounting = s.stats.accounting)
    (hr : ∀ s l, (ops.reactivate s l).stats.accounting = s.stats.accounting)
    (hv : (d.entry i).variant = Variant.LITERALS L) :
    (revive_clause ops d i).internal.stats.accounting =
      (d.internal.stats.current_redundant + 1, d.internal.stats.current_irredundant,
        d.internal.stats.irrlits, d.internal.stats.garbage_bytes,
        d.internal.stats.garbage_clauses, d.internal.stats.garbage_literals,
        d.internal.stats.added_redundant + 1) := by
  obtain ⟨n1, n2, n3, -, n5⟩ := new_redundant_clause_deref d.internal L
  have hc : (new_redundant_clause d.internal L).2 < (new_redundant_clause d.internal L).1.heap.length := by
    rw [n1, n2]; omega
  have hg : ((new_redundant_clause d.internal L).1.deref (new_redundant_clause d.internal L).2).garbage
      = false := by rw [n1]; exact n3
  have hd := mark_garbage_deref ops _ _ hc hg
  have hc1 : (new_redundant_clause d.internal L).2 <
      (mark_garbage ops (new_redundant_clause d.internal L).1
        (new_redundant_clause d.internal L).2).heap.length := by
    rw [mark_garbage_heap_length]; exact hc
  have hi : (revive_clause ops d i).internal =
      (revive_activate ops (revive_materialize ops d i).1 (revive_materialize ops d i).2).internal := by
    unfold revive_clause
    dsimp only
    split <;> simp only [modifyEntry_internal]
  rw [hi]
  unfold revive_materialize
  rw [hv]
  dsimp only
  unfold revive_activate
  dsimp only
  rw [reactivate_eliminated_accounting ops hr, hw, modifyEntry_internal, modify_stats]
  dsimp only
  rw [← n5]
  apply mark_active_restores ops _ _ _ hg
  · rw [modify_stats]
  · rw [deref_modify_same _ _ _ hc1, hd]; split <;> rfl
  · rw [deref_modify_same _ _ _ hc1, hd]; split <;> rfl
  · rw [deref_modify_same _ _ _ hc1, hd]; split <;> rfl

/-- Idempotence of `mark_garbage` at clause 0 of the two-clause example state. -/
theorem mark_garbage_active_idempotent_witness :
    mark_garbage exampleOps (mark_garbage exampleOps emptyLogState.internal 0) 0 =
      mark_garbage exampleOps emptyLogState.internal 0 :=
  (mark_garbage_active_idempotent exampleOps emptyLogState.internal 0 (by decide)).2.2.1

/-- C19: for a non-garbage clause `c`, `mark_garbage (c)` followed by
`mark_active (c)` restores the `garbage` flag and the counters
`current.redundant`, `current.irredundant`, `irrlits`, `garbage.bytes`,
`garbage.clauses`, `garbage.literals` (and `added.redundant`); and reviving
an entry that owns its literals changes these counters only by
`current.redundant + 1` and `added.redundant + 1`, provided the host's
`watch_clause` and `reactivate` leave them alone. -/
theorem accounting_balances (ops : HostOps) (d : Drupper) (c i : Nat) (L : List Int)
    (hc : c < d.internal.heap.length) (hg : (d.internal.deref c).garbage = false)
    (hw : ∀ s p, (ops.watch_clause s p).stats.accounting = s.stats.accounting)
    (hr : ∀ s l, (ops.reactivate s l).stats.accounting = s.stats.accounting)
    (hv : (d.entry i).variant = Variant.LITERALS L) :
    (mark_active ops (mark_garbage ops d.internal c) c).stats.accounting =
      d.internal.stats.accounting ∧
    ((mark_active ops (mark_garbage ops d.internal c) c).deref c).garbage = false ∧
    (revive_clause ops d i).internal.stats.accounting =
      (d.internal.stats.current_redundant + 1, d.internal.stats.current_irredundant,
        d.internal.stats.irrlits, d.internal.stats.garbage_bytes,
        d.internal.stats.garbage_clauses, d.internal.stats.garbage_literals,
        d.internal.stats.added_redundant + 1) :=
  ⟨(mark_garbage_then_active ops d.internal c hc hg).1,
    (mark_garbage_then_active ops d.internal c hc hg).2.1,
    revive_clause_accounting ops d i L hw hr hv⟩

/-- Balanced accounting at the example state in which entry 1 owns the literals of the
deallocated clause 0, with clause 1 as the non-garbage clause. -/
theorem accounting_balances_witness :
    (mark_active exampleOps (mark_garbage exampleOps deallocatedState.internal 1) 1).stats.accounting =
      deallocatedState.internal.stats.accounting ∧
    ((mark_active exampleOps (mark_garbage exampleOps deallocatedState.internal 1) 1).deref 1).garbage
      = false ∧
    (revive_clause exampleOps deallocatedState 1).internal.stats.accounting =
      (deallocatedState.internal.stats.current_redundant + 1,
        deallocatedState.internal.stats.current_irredundant,
        deallocatedState.internal.stats.irrlits, deallocatedState.internal.stats.garbage_bytes,
        deallocatedState.internal.stats.garbage_clauses,
        deallocatedState.internal.stats.garbage_literals,
        deallocatedState.internal.stats.added_redundant + 1) :=
  accounting_balances exampleOps deallocatedState 1 1 [1, 2] (by decide) (by decide)
    (fun _ _ => rfl) (fun _ _ => rfl) (by decide)

/-! ## Updated clauses -/

/-- The log after `add_updated_clause`, written out. -/
theorem add_updated_clause_proof (d : Drupper) (c : Nat) (hi : d.isolated = false)
    (hc : c < d.internal.heap.length) (hb : d.proof.length + 2 < 2 ^ 30) :
    (add_updated_clause d c).proof =
      ((if d.idx c ≠ 0 then
          d.proof.set (d.idx c - 1) ((ent d.proof (d.idx c - 1)).set_variant (Variant.CLAUSE none))
        else d.proof) ++ [DrupperClause.ofClause c false]) ++
        [{ deleted := true, revive_at := d.idx c,
           variant := Variant.LITERALS (d.internal.deref c).literals }] ∧
    (add_updated_clause d c).idx = Function.update d.idx c (d.proof.length + 1) ∧
    (add_updated_clause d c).stats =
      { d.stats with derived := d.stats.derived + 1, deleted := d.stats.deleted + 1 } := by
  have key : ∀ d1 : Drupper, d1.internal = d.internal → d1.proof.length = d.proof.length →
      d1.stats = d.stats →
      (append_lemma (append_lemma d1 (DrupperClause.ofClause c false))
        { DrupperClause.ofLits
            ((append_lemma d1 (DrupperClause.ofClause c false)).internal.deref c).literals true
          with revive_at := d.idx c }).proof =
        (d1.proof ++ [DrupperClause.ofClause c false]) ++
          [{ deleted := true, revive_at := d.idx c,
             variant := Variant.LITERALS (d.internal.deref c).literals }] ∧
      (append_lemma (append_lemma d1 (DrupperClause.ofClause c false))
        { DrupperClause.ofLits
            ((append_lemma d1 (DrupperClause.ofClause c false)).internal.deref c).literals true
          with revive_at := d.idx c }).idx = Function.update d.idx c (d.proof.length + 1) ∧
      (append_lemma (append_lemma d1 (DrupperClause.ofClause c false))
        { DrupperClause.ofLits
            ((append_lemma d1 (DrupperClause.ofClause c false)).internal.deref c).literals true
          with revive_at := d.idx c }).stats =
        { d.stats with derived := d.stats.derived + 1, deleted := d.stats.deleted + 1 } := by
    intro d1 h1 h2 h3
    have hb1 : d1.proof.length + 1 < 2 ^ 30 := by omega
    have hc1 : c < d1.internal.heap.length := by rw [h1]; exact hc
    obtain ⟨e1, e2, e3⟩ := append_clause_entry d1 c false hc1 hb1
    rw [linked_of_derivation _ _ rfl] at e3
    have hlit : ((append_lemma d1 (DrupperClause.ofClause c false)).internal.deref c).literals =
        (d.internal.deref c).literals := by
      unfold append_lemma DrupperClause.ofClause
      dsimp only
      rw [deref_modify_same _ _ _ hc1, h1]
    rw [hlit]
    have hb2 : (append_lemma d1 (DrupperClause.ofClause c false)).proof.length + 1 < 2 ^ 30 := by
      rw [append_lemma_length]; omega
    obtain ⟨f1, f2, -, -⟩ := append_lemma_effect (append_lemma d1 (DrupperClause.ofClause c false))
      { DrupperClause.ofLits (d.internal.deref c).literals true with revive_at := d.idx c } hb2
    rw [linked_of_literals _ _ _ rfl] at f1
    refine ⟨?_, ?_, ?_⟩
    · rw [f1, e3]; rfl
    · rw [f2]
      show (append_lemma d1 (DrupperClause.ofClause c false)).idx = _
      rw [(append_lemma_effect d1 (DrupperClause.ofClause c false) hb1).2.1]
      have hd : d1.idx = d.idx := by
        unfold Drupper.idx; rw [h1]
      unfold reindexed DrupperClause.ofClause
      simp only [hc1, if_true]
      rw [hd, h2]
    · rw [append_lemma_stats, append_lemma_stats, h3]
      rfl
  unfold add_updated_clause
  rw [if_neg (by simp [hi])]
  dsimp only
  by_cases hz : d.idx c = 0
  · have hz' : (d.internal.deref c).drup_idx = 0 := hz
    simp only [hz', ne_eq, not_true_eq_false, if_false]
    have := key d rfl rfl rfl
    simpa [hz, hz'] using this
  · have hz' : (d.internal.deref c).drup_idx ≠ 0 := hz
    simp only [hz', ne_eq, not_false_eq_true, if_true]
    have := key (d.modifyEntry ((d.internal.deref c).drup_idx - 1)
      fun e => e.set_variant (Variant.CLAUSE none)) rfl (by simp [modifyEntry_length]) rfl
    simp only [hz, ne_eq, not_false_eq_true, if_true]
    exact this

/-- C17: on an active tracker with a log of length `n`, `add_updated_clause (c)`
appends exactly two entries: entry `n` is a derivation referring to `c`, and
entry `n + 1` is a deletion that owns the literals `c` has when the hook is
called, with `revive_at` equal to the footer index `c` had; the footer index
of `c` becomes `n + 1`; the entry that the footer index pointed to has its
clause reference cleared, and every other earlier entry is unchanged (so no
earlier entry changes when the index was 0). -/
theorem add_updated_clause_appends_pair (d : Drupper) (c : Nat) (hi : d.isolated = false)
    (hc : c < d.internal.heap.length) (hb : d.proof.length + 2 < 2 ^ 30) :
    (add_updated_clause d c).proof.length = d.proof.length + 2 ∧
    (add_updated_clause d c).entry d.proof.length =
      { deleted := false, revive_at := 0, variant := Variant.CLAUSE (some c) } ∧
    (add_updated_clause d c).entry (d.proof.length + 1) =
      { deleted := true, revive_at := d.idx c,
        variant := Variant.LITERALS (d.internal.deref c).literals } ∧
    (add_updated_clause d c).idx c = d.proof.length + 1 ∧
    (∀ k, d.idx c = k + 1 → (d.entry k).variant = Variant.CLAUSE (some c) →
      (add_updated_clause d c).entry k = (d.entry k).set_variant (Variant.CLAUSE none)) ∧
    (∀ j, j < d.proof.length → d.idx c ≠ j + 1 →
      (add_updated_clause d c).entry j = d.entry j) ∧
    (add_updated_clause d c).stats =
      { d.stats with derived := d.stats.derived + 1, deleted := d.stats.deleted + 1 } := by
  obtain ⟨hP, hidx, hst⟩ := add_updated_clause_proof d c hi hc hb
  have hlen : (if d.idx c ≠ 0 then
        d.proof.set (d.idx c - 1) ((ent d.proof (d.idx c - 1)).set_variant (Variant.CLAUSE none))
      else d.proof).length = d.proof.length := by
    split <;> simp
  have hown : ∀ k, d.idx c = k + 1 → k < d.proof.length →
      ent (if d.idx c ≠ 0 then
        d.proof.set (d.idx c - 1) ((ent d.proof (d.idx c - 1)).set_variant (Variant.CLAUSE none))
      else d.proof) k = (ent d.proof k).set_variant (Variant.CLAUSE none) := by
    intro k hk hklt
    rw [if_pos (by omega), hk, Nat.add_sub_cancel, ent_set_same _ _ _ hklt]
  have hoth : ∀ j, d.idx c ≠ j + 1 →
      ent (if d.idx c ≠ 0 then
        d.proof.set (d.idx c - 1) ((ent d.proof (d.idx c - 1)).set_variant (Variant.CLAUSE none))
      else d.proof) j = ent d.proof j := by
    intro j hne
    split
    · rw [ent_set_ne _ _ _ _ (by omega)]
    · rfl
  generalize (if d.idx c ≠ 0 then
        d.proof.set (d.idx c - 1) ((ent d.proof (d.idx c - 1)).set_variant (Variant.CLAUSE none))
      else d.proof) = P1 at hP hlen hown hoth
  have hl1 : (P1 ++ [DrupperClause.ofClause c false]).length = d.proof.length + 1 := by
    rw [List.length_append, List.length_singleton, hlen]
  refine ⟨?_, ?_, ?_, ?_, ?_, ?_, hst⟩
  · rw [hP, List.length_append, List.length_singleton, hl1]
  · rw [entry_eq_ent, hP, ent_append_left _ _ _ (by omega), ← hlen, ent_append_last]
    rfl
  · rw [entry_eq_ent, hP, ← hl1, ent_append_last]
  · rw [hidx, Function.update_same]
  · intro k hk hv
    have hklt : k < d.proof.length := by
      by_contra hn
      rw [entry_eq_ent, ent_beyond _ _ (by omega)] at hv
      cases hv
    rw [entry_eq_ent, hP, ent_append_left _ _ _ (by omega),
      ent_append_left _ _ _ (by omega), hown k hk hklt]
    rfl
  · intro j hj hne
    rw [entry_eq_ent, hP, ent_append_left _ _ _ (by omega),
      ent_append_left _ _ _ (by omega), hoth j hne]
    rfl

/-- An update at the example state in which clause 0 has footer index 1 and entry 0
is its derivation. -/
theorem add_updated_clause_appends_pair_witness :
    (add_updated_clause derivedState 0).proof.length = 3 ∧
    (add_updated_clause derivedState 0).entry 2 =
      { deleted := true, revive_at := 1, variant := Variant.LITERALS [1, 2] } ∧
    (add_updated_clause derivedState 0).entry 0 =
      { deleted := false, revive_at := 0, variant := Variant.CLAUSE none } :=
  ⟨(add_updated_clause_appends_pair derivedState 0 (by decide) (by decide) (by decide)).1,
    (add_updated_clause_appends_pair derivedState 0 (by decide) (by decide) (by decide)).2.2.1,
    (add_updated_clause_appends_pair derivedState 0 (by decide) (by decide) (by decide)).2.2.2.2.1
      0 (by decide) (by decide)⟩

/-! ## Clause references in the log under the host protocol -/

theorem ent_revive_lt (P : List DrupperClause) (k : Nat) (h : (ent P k).revive_at ≠ 0) :
    k < P.length := by
  by_contra hk
  rw [ent_beyond P k (by omega)] at h
  exact h rfl

theorem ent_clause_lt (P : List DrupperClause) (i c : Nat)
    (h : (ent P i).variant = Variant.CLAUSE (some c)) : i < P.length := by
  by_contra hk
  rw [ent_beyond P i (by omega)] at h
  cases h

theorem OnlyRefs.refs_push_clause {idx : Nat → Nat} {P : List DrupperClause}
    (h : OnlyRefs idx P) (e : DrupperClause) (c : Nat)
    (hv : e.variant = Variant.CLAUSE (some c))
    (hr : ∀ i, i < P.length → (ent P i).variant = Variant.CLAUSE (some c) →
      e.revive_at = i + 1) :
    OnlyRefs (Function.update idx c (P.length + 1)) (P ++ [e]) := by
  intro i c1 hi hv1
  by_cases hin : i = P.length
  · subst hin
    rw [ent_append_last, hv] at hv1
    injection hv1 with hv1; injection hv1 with hv1; subst hv1
    exact ⟨P.length, Function.update_same _ _ _, Or.inl rfl⟩
  · have hlt : i < P.length := by
      rw [List.length_append, List.length_singleton] at hi; omega
    rw [ent_append_left _ _ _ hlt] at hv1
    by_cases hcc : c1 = c
    · subst hcc
      exact ⟨P.length, Function.update_same _ _ _,
        Or.inr (by rw [ent_append_last]; exact hr i hlt hv1)⟩
    · obtain ⟨k, hk, hor⟩ := h i c1 hlt hv1
      refine ⟨k, by rw [Function.update_noteq hcc]; exact hk, ?_⟩
      rcases hor with hor | hor
      · exact Or.inl hor
      · have hklt : k < P.length := ent_revive_lt P k (by omega)
        right; rw [ent_append_left _ _ _ hklt]; exact hor

theorem OnlyRefs.refs_push_other {idx : Nat → Nat} {P : List DrupperClause}
    (h : OnlyRefs idx P) (e : DrupperClause)
    (hv : ∀ c, e.variant ≠ Variant.CLAUSE (some c)) : OnlyRefs idx (P ++ [e]) := by
  intro i c1 hi hv1
  by_cases hin : i = P.length
  · subst hin
    rw [ent_append_last] at hv1
    exact absurd hv1 (hv c1)
  · have hlt : i < P.length := by
      rw [List.length_append, List.length_singleton] at hi; omega
    rw [ent_append_left _ _ _ hlt] at hv1
    obtain ⟨k, hk, hor⟩ := h i c1 hlt hv1
    refine ⟨k, hk, ?_⟩
    rcases hor with hor | hor
    · exact Or.inl hor
    · have hklt : k < P.length := ent_revive_lt P k (by omega)
      right; rw [ent_append_left _ _ _ hklt]; exact hor

theorem OnlyRefs.refs_set {idx : Nat → Nat} {P : List DrupperClause}
    (h : OnlyRefs idx P) (k : Nat) (e : DrupperClause)
    (hr : e.revive_at = (ent P k).revive_at)
    (hv : ∀ c, e.variant = Variant.CLAUSE (some c) →
      (ent P k).variant = Variant.CLAUSE (some c)) : OnlyRefs idx (P.set k e) := by
  intro i c1 hi hv1
  rw [List.length_set] at hi
  have href : (ent P i).variant = Variant.CLAUSE (some c1) := by
    by_cases hik : i = k
    · subst hik
      rw [ent_set_same _ _ _ hi] at hv1
      exact hv c1 hv1
    · rw [ent_set_ne _ _ _ _ hik] at hv1; exact hv1
  obtain ⟨k1, hk1, hor⟩ := h i c1 hi href
  refine ⟨k1, hk1, ?_⟩
  rcases hor with hor | hor
  · exact Or.inl hor
  · right
    by_cases hkk : k1 = k
    · subst hkk
      have hklt : k1 < P.length := ent_revive_lt P k1 (by omega)
      rw [ent_set_same _ _ _ hklt, hr]; exact hor
    · rw [ent_set_ne _ _ _ _ hkk]; exact hor

theorem NoDeadRefs.dead_push {dead : List Nat} {P : List DrupperClause}
    (h : NoDeadRefs dead P) (e : DrupperClause)
    (hv : ∀ c, c ∈ dead → e.variant ≠ Variant.CLAUSE (some c)) :
    NoDeadRefs dead (P ++ [e]) := by
  intro c hc i hv1
  have hi := ent_clause_lt _ _ _ hv1
  by_cases hin : i = P.length
  · subst hin
    rw [ent_append_last] at hv1
    exact hv c hc hv1
  · have hlt : i < P.length := by
      rw [List.length_append, List.length_singleton] at hi; omega
    rw [ent_append_left _ _ _ hlt] at hv1
    exact h c hc i hv1

theorem NoDeadRefs.dead_set {dead : List Nat} {P : List DrupperClause}
    (h : NoDeadRefs dead P) (k : Nat) (e : DrupperClause)
    (hv : ∀ c, c ∈ dead → e.variant ≠ Variant.CLAUSE (some c)) :
    NoDeadRefs dead (P.set k e) := by
  intro c hc i hv1
  have hi := ent_clause_lt _ _ _ hv1
  rw [List.length_set] at hi
  by_cases hik : i = k
  · subst hik
    rw [ent_set_same _ _ _ hi] at hv1
    exact hv c hc hv1
  · rw [ent_set_ne _ _ _ _ hik] at hv1
    exact h c hc i hv1

theorem RefInv.refs_of_same {dead : List Nat} {d e : Drupper} (h : RefInv dead d)
    (h1 : e.idx = d.idx) (h2 : e.proof = d.proof) : RefInv dead e :=
  ⟨by rw [h1, h2]; exact h.only, by rw [h2]; exact h.nodead⟩

theorem RefInv.refs_append_clause {dead : List Nat} {d : Drupper} (h : RefInv dead d)
    (c : Nat) (del : Bool) (hc : c < d.internal.heap.length) (hl : c ∉ dead)
    (hb : d.proof.length + 1 < 2 ^ 30)
    (hr : ∀ i, i < d.proof.length → (ent d.proof i).variant = Variant.CLAUSE (some c) →
      (linked d (DrupperClause.ofClause c del)).revive_at = i + 1) :
    RefInv dead (append_lemma d (DrupperClause.ofClause c del)) := by
  obtain ⟨e1, e2, -, -⟩ := append_lemma_effect d (DrupperClause.ofClause c del) hb
  have hre : reindexed d (DrupperClause.ofClause c del) =
      Function.update d.idx c (d.proof.length + 1) := by
    unfold reindexed DrupperClause.ofClause
    simp [hc]
  refine ⟨?_, ?_⟩
  · rw [e2, hre, e1]
    exact h.only.refs_push_clause _ c (by rw [linked_variant]; rfl) hr
  · rw [e1]
    apply h.nodead.dead_push
    intro p hp hv
    rw [linked_variant] at hv
    injection hv with hv; injection hv with hv
    subst hv
    exact hl hp

theorem RefInv.refs_append_literals {dead : List Nat} {d : Drupper} (h : RefInv dead d)
    (dc : DrupperClause) (l : List Int) (hv : dc.variant = Variant.LITERALS l)
    (hb : d.proof.length + 1 < 2 ^ 30) : RefInv dead (append_lemma d dc) := by
  obtain ⟨e1, e2, -, -⟩ := append_lemma_effect d dc hb
  have hre : reindexed d dc = d.idx := by
    unfold reindexed
    rw [hv]
  rw [linked_of_literals _ _ l hv] at e1
  refine ⟨?_, ?_⟩
  · rw [e2, hre, e1]
    exact h.only.refs_push_other _ (fun c hh => by rw [hv] at hh; cases hh)
  · rw [e1]
    exact h.nodead.dead_push _ (fun c _ hh => by rw [hv] at hh; cases hh)

theorem RefInv.refs_add_derived_clause {dead : List Nat} {d : Drupper} (h : RefInv dead d)
    (c : Nat) (hc : c < d.internal.heap.length) (hl : c ∉ dead) (hf : d.idx c = 0)
    (hb : within_index_range (CaDiCaL.add_derived_clause d c)) :
    RefInv dead (CaDiCaL.add_derived_clause d c) := by
  unfold CaDiCaL.add_derived_clause at hb ⊢
  by_cases hi : d.isolated = true
  · simpa [hi] using h
  · simp only [hi, Bool.false_eq_true, if_false] at hb ⊢
    unfold within_index_range at hb
    rw [append_lemma_length] at hb
    apply h.refs_append_clause c false hc hl hb
    intro i hi2 hv
    obtain ⟨k, hk, -⟩ := h.only i c hi2 hv
    rw [hf] at hk; cases hk

/-- The only entry that refers to a clause which has not been deleted yet is
the one its footer index points to. -/
theorem RefInv.single_ref {dead : List Nat} {d : Drupper} (h : RefInv dead d)
    (g : LogInv dead d) (c : Nat) (hl : c ∉ dead) (hn : not_deleted_yet d c) (i : Nat)
    (hi : i < d.proof.length) (hv : (ent d.proof i).variant = Variant.CLAUSE (some c)) :
    d.idx c = i + 1 := by
  obtain ⟨k, hk, hor⟩ := h.only i c hi hv
  rcases hor with hor | hor
  · rw [hor]; exact hk
  · exfalso
    have hklt := (g.roundtrip c k hl hk).1
    have hdel : (ent d.proof k).deleted = false := by
      rcases hn with hn | hn
      · rw [hn] at hk; cases hk
      · rw [hk] at hn; exact hn
    have := g.links.derivation_no_link k hklt hdel
    omega

theorem RefInv.refs_delete_clause {dead : List Nat} {d : Drupper} (h : RefInv dead d)
    (g : LogInv dead d) (c : Nat) (hc : c < d.internal.heap.length) (hl : c ∉ dead)
    (hn : not_deleted_yet d c) (hb : within_index_range (CaDiCaL.delete_clause d c)) :
    RefInv dead (CaDiCaL.delete_clause d c) := by
  unfold CaDiCaL.delete_clause at hb ⊢
  by_cases hi : d.isolated = true
  · simpa [hi] using h
  · simp only [hi, Bool.false_eq_true, if_false] at hb ⊢
    unfold within_index_range at hb
    rw [append_lemma_length] at hb
    apply h.refs_append_clause c true hc hl hb
    intro i hi2 hv
    rw [linked_deletion]
    exact h.single_ref g c hl hn i hi2 hv

theorem RefInv.refs_add_derived_unit_clause {dead : List Nat} {d : Drupper}
    (h : RefInv dead d) (g : LogInv dead d) (lit : Int) (o : Bool)
    (hb : within_index_range (CaDiCaL.add_derived_unit_clause d lit o)) :
    RefInv dead (CaDiCaL.add_derived_unit_clause d lit o) := by
  by_cases hi : d.isolated = true
  · have : CaDiCaL.add_derived_unit_clause d lit o = d := by
      simp [CaDiCaL.add_derived_unit_clause, hi]
    rw [this]; exact h
  · simp only [Bool.not_eq_true] at hi
    obtain ⟨e, u, e1, e2, -, e4, hr | ⟨hr, hu, hfresh⟩⟩ := add_derived_unit_clause_shape d lit o hi
    · rw [hr]; exact h.refs_of_same e1 e2
    · rw [hr] at hb ⊢
      unfold within_index_range at hb
      rw [append_lemma_length] at hb
      have he := h.refs_of_same e1 e2
      apply he.refs_append_clause u false hu
        (fun hm => by have := g.dead_valid u hm; omega) hb
      intro i hi2 hv
      obtain ⟨k, hk, -⟩ := he.only i u hi2 hv
      rw [e1, idx_beyond d u hfresh] at hk; cases hk

theorem RefInv.refs_add_failing_assumption {dead : List Nat} {d : Drupper} (h : RefInv dead d)
    (c : List Int) (hb : within_index_range (CaDiCaL.add_failing_assumption d c)) :
    RefInv dead (CaDiCaL.add_failing_assumption d c) := by
  unfold CaDiCaL.add_failing_assumption at hb ⊢
  by_cases hi : d.isolated = true
  · simpa [hi] using h
  · simp only [hi, Bool.false_eq_true, if_false] at hb ⊢
    by_cases hl : c.length > 1
    · simp only [hl, if_true] at hb ⊢
      by_cases ht : trivially_satisfied c = true
      · simpa [ht] using h
      · simp only [Bool.not_eq_true] at ht
        simp only [ht, Bool.not_false, if_true] at hb ⊢
        have hb2 : d.proof.length + 2 < 2 ^ 30 := by
          unfold within_index_range CaDiCaL.append_failed at hb
          simp only [modifyEntry_length, append_lemma_length] at hb
          omega
        obtain ⟨e1, e2, -⟩ := append_failed_effect d c hb2
        refine ⟨?_, ?_⟩
        · rw [e1, e2]
          exact (h.only.refs_push_other _ (fun c hh => by cases hh)).refs_push_other _
            (fun c hh => by cases hh)
        · rw [e1]
          exact (h.nodead.dead_push _ (fun c _ hh => by cases hh)).dead_push _
            (fun c _ hh => by cases hh)
    · simp only [hl, if_false]
      refine h.refs_of_same ?_ rfl
      funext p; exact mark_core_opt_idx _ _ p

theorem RefInv.refs_delete_clause_lits {dead : List Nat} {d : Drupper} (h : RefInv dead d)
    (c : List Int) (o : Bool)
    (hb : within_index_range (CaDiCaL.delete_clause_lits d c o)) :
    RefInv dead (CaDiCaL.delete_clause_lits d c o) := by
  unfold CaDiCaL.delete_clause_lits at hb ⊢
  by_cases hi : d.isolated = true
  · simpa [hi] using h
  · rw [if_neg hi] at hb ⊢
    have h1 : RefInv dead { d with internal := (remove_duplicates d.internal c).1 } := by
      refine h.refs_of_same ?_ rfl
      funext p
      show ((remove_duplicates d.internal c).1.deref p).drup_idx = _
      unfold Internal.deref
      rw [remove_duplicates_heap]
      rfl
    by_cases hg : (remove_duplicates d.internal c).2.length = c.length ∨
        (remove_duplicates d.internal c).2.length > 1
    · simp only [hg, if_true] at hb ⊢
      unfold within_index_range at hb
      rw [append_lemma_length] at hb
      exact h1.refs_append_literals _ _ rfl hb
    · simp only [hg, if_false]
      exact h1

theorem add_updated_clause_length (d : Drupper) (c : Nat) (hi : d.isolated = false) :
    (add_updated_clause d c).proof.length = d.proof.length + 2 := by
  unfold add_updated_clause
  rw [if_neg (by simp [hi])]
  dsimp only
  rw [append_lemma_length, append_lemma_length]
  split <;> simp [modifyEntry_length]

theorem RefInv.refs_add_updated_clause {dead : List Nat} {d : Drupper} (h : RefInv dead d)
    (g : LogInv dead d) (c : Nat) (hc : c < d.internal.heap.length) (hl : c ∉ dead)
    (hn : not_deleted_yet d c) (hb : within_index_range (CaDiCaL.add_updated_clause d c)) :
    RefInv dead (CaDiCaL.add_updated_clause d c) := by
  by_cases hi : d.isolated = true
  · have : CaDiCaL.add_updated_clause d c = d := by simp [CaDiCaL.add_updated_clause, hi]
    rw [this]; exact h
  · simp only [Bool.not_eq_true] at hi
    unfold within_index_range at hb
    rw [add_updated_clause_length d c hi] at hb
    obtain ⟨hP, hidx, -⟩ := add_updated_clause_proof d c hi hc hb
    have hlen : (if d.idx c ≠ 0 then
          d.proof.set (d.idx c - 1) ((ent d.proof (d.idx c - 1)).set_variant (Variant.CLAUSE none))
        else d.proof).length = d.proof.length := by
      split <;> simp
    have honly : OnlyRefs d.idx (if d.idx c ≠ 0 then
          d.proof.set (d.idx c - 1) ((ent d.proof (d.idx c - 1)).set_variant (Variant.CLAUSE none))
        else d.proof) := by
      split
      · exact h.only.refs_set _ _ rfl (fun p hh => by cases hh)
      · exact h.only
    have hdead : NoDeadRefs dead (if d.idx c ≠ 0 then
          d.proof.set (d.idx c - 1) ((ent d.proof (d.idx c - 1)).set_variant (Variant.CLAUSE none))
        else d.proof) := by
      split
      · exact h.nodead.dead_set _ _ (fun p _ hh => by cases hh)
      · exact h.nodead
    have hnone : ∀ i, i < d.proof.length → (ent (if d.idx c ≠ 0 then
          d.proof.set (d.idx c - 1) ((ent d.proof (d.idx c - 1)).set_variant (Variant.CLAUSE none))
        else d.proof) i).variant ≠ Variant.CLAUSE (some c) := by
      intro i hilt hv
      by_cases hz : d.idx c ≠ 0
      · rw [if_pos hz] at hv
        by_cases hik : i = d.idx c - 1
        · rw [hik, ent_set_same _ _ _ (by rw [← hik]; exact hilt)] at hv
          cases hv
        · rw [ent_set_ne _ _ _ _ hik] at hv
          have := h.single_ref g c hl hn i hilt hv
          omega
      · rw [if_neg hz] at hv
        obtain ⟨k, hk, -⟩ := h.only i c hilt hv
        omega
    generalize (if d.idx c ≠ 0 then
          d.proof.set (d.idx c - 1) ((ent d.proof (d.idx c - 1)).set_variant (Variant.CLAUSE none))
        else d.proof) = P1 at hP hlen honly hdead hnone
    refine ⟨?_, ?_⟩
    · rw [hP, hidx, ← hlen]
      apply OnlyRefs.refs_push_other _ _ (fun p hh => by cases hh)
      apply honly.refs_push_clause _ c rfl
      intro i hilt hv
      exact absurd hv (hnone i (by omega))
    · rw [hP]
      apply NoDeadRefs.dead_push _ _ (fun p _ hh => by cases hh)
      apply hdead.dead_push
      intro p hp hv
      injection hv with hv; injection hv with hv
      subst hv
      exact hl hp

/-- The log after `deallocate_clause`, written out. -/
theorem deallocate_clause_proof (d : Drupper) (c k : Nat) (hi : d.isolated = false)
    (hk : d.idx c = k + 1) (hv : (ent d.proof k).variant = Variant.CLAUSE (some c)) :
    (deallocate_clause d c).proof =
      (if (ent d.proof k).revive_at ≠ 0 then
        (d.proof.set k ((ent d.proof k).set_variant
            (Variant.LITERALS (d.internal.deref c).literals))).set ((ent d.proof k).revive_at - 1)
          ((ent (d.proof.set k ((ent d.proof k).set_variant
            (Variant.LITERALS (d.internal.deref c).literals)))
              ((ent d.proof k).revive_at - 1)).set_variant (Variant.CLAUSE none))
      else d.proof.set k ((ent d.proof k).set_variant
            (Variant.LITERALS (d.internal.deref c).literals))) ∧
    (deallocate_clause d c).internal = d.internal := by
  have hklt := ent_clause_lt _ _ _ hv
  have hk1 : (d.internal.deref c).drup_idx = k + 1 := hk
  have hflip : flip_variant d.internal (ent d.proof k) =
      (ent d.proof k).set_variant (Variant.LITERALS (d.internal.deref c).literals) := by
    unfold flip_variant
    rw [hv]
  unfold deallocate_clause
  rw [if_neg (by simp [hi])]
  dsimp only
  rw [hk1, if_neg (by omega), Nat.add_sub_cancel, entry_eq_ent]
  split
  · rw [modifyEntry_proof, modifyEntry_proof, hflip]
    exact ⟨rfl, rfl⟩
  · rw [modifyEntry_proof, hflip]
    exact ⟨rfl, rfl⟩

/-- Entries of the log after `deallocate_clause`. -/
theorem deallocate_clause_entries (d : Drupper) (c k : Nat) (hi : d.isolated = false)
    (hk : d.idx c = k + 1) (hv : (ent d.proof k).variant = Variant.CLAUSE (some c))
    (hjk : ∀ j, (ent d.proof k).revive_at = j + 1 → j < k) :
    (deallocate_clause d c).proof.length = d.proof.length ∧
    ent (deallocate_clause d c).proof k =
      (ent d.proof k).set_variant (Variant.LITERALS (d.internal.deref c).literals) ∧
    (∀ j, (ent d.proof k).revive_at = j + 1 →
      ent (deallocate_clause d c).proof j = (ent d.proof j).set_variant (Variant.CLAUSE none)) ∧
    (∀ i, i ≠ k → (ent d.proof k).revive_at ≠ i + 1 →
      ent (deallocate_clause d c).proof i = ent d.proof i) := by
  have hklt := ent_clause_lt _ _ _ hv
  obtain ⟨hP, -⟩ := deallocate_clause_proof d c k hi hk hv
  rw [hP]
  by_cases hr : (ent d.proof k).revive_at ≠ 0
  · rw [if_pos hr]
    obtain ⟨j, hj⟩ : ∃ j, (ent d.proof k).revive_at = j + 1 :=
      ⟨(ent d.proof k).revive_at - 1, by omega⟩
    have hjlt := hjk j hj
    rw [hj, Nat.add_sub_cancel]
    refine ⟨by simp, ?_, ?_, ?_⟩
    · rw [ent_set_ne _ _ _ _ (by omega), ent_set_same _ _ _ hklt]
    · intro j1 hj1
      have : j1 = j := by omega
      subst this
      rw [ent_set_same _ _ _ (by rw [List.length_set]; omega), ent_set_ne _ _ _ _ (by omega)]
    · intro i hik hij
      rw [ent_set_ne _ _ _ _ (by omega), ent_set_ne _ _ _ _ hik]
  · rw [if_neg hr]
    refine ⟨by simp, ?_, ?_, ?_⟩
    · rw [ent_set_same _ _ _ hklt]
    · intro j hj; omega
    · intro i hik _
      rw [ent_set_ne _ _ _ _ hik]

/-- After `deallocate_clause (c)` no entry refers to `c`. -/
theorem RefInv.no_refs_after_deallocate {dead : List Nat} {d : Drupper} (h : RefInv dead d)
    (g : LogInv dead d) (c k : Nat) (hi : d.isolated = false)
    (hk : d.idx c = k + 1) (hv : (ent d.proof k).variant = Variant.CLAUSE (some c)) (i : Nat) :
    (ent (deallocate_clause d c).proof i).variant ≠ Variant.CLAUSE (some c) := by
  have hklt := ent_clause_lt _ _ _ hv
  have hjk : ∀ j, (ent d.proof k).revive_at = j + 1 → j < k :=
    fun j hj => (g.links k j hklt hj).2.1
  obtain ⟨e0, e1, e2, e3⟩ := deallocate_clause_entries d c k hi hk hv hjk
  intro hvi
  have hilt := ent_clause_lt _ _ _ hvi
  rw [e0] at hilt
  by_cases hik : i = k
  · subst hik
    rw [e1] at hvi; cases hvi
  · by_cases hij : (ent d.proof k).revive_at = i + 1
    · rw [e2 i hij] at hvi; cases hvi
    · rw [e3 i hik hij] at hvi
      obtain ⟨k1, hk1, hor⟩ := h.only i c hilt hvi
      have : k1 = k := by omega
      subst this
      rcases hor with hor | hor
      · exact hik hor
      · exact hij hor

theorem RefInv.refs_deallocate_clause {dead : List Nat} {d : Drupper} (h : RefInv dead d)
    (g : LogInv dead d) (c : Nat) (hi : d.isolated = false) (hl : c ∉ dead)
    (hx : d.idx c ≠ 0) : RefInv (c :: dead) (CaDiCaL.deallocate_clause d c) := by
  obtain ⟨k, hk⟩ : ∃ k, d.idx c = k + 1 := ⟨d.idx c - 1, by omega⟩
  obtain ⟨hklt, hv⟩ := g.roundtrip c k hl hk
  have hno := h.no_refs_after_deallocate g c k hi hk hv
  obtain ⟨hP, hint⟩ := deallocate_clause_proof d c k hi hk hv
  have hidx : (CaDiCaL.deallocate_clause d c).idx = d.idx := by
    unfold Drupper.idx; rw [hint]
  have h1 : OnlyRefs d.idx (d.proof.set k ((ent d.proof k).set_variant
      (Variant.LITERALS (d.internal.deref c).literals))) :=
    h.only.refs_set _ _ rfl (fun p hh => by cases hh)
  have h2 : NoDeadRefs dead (d.proof.set k ((ent d.proof k).set_variant
      (Variant.LITERALS (d.internal.deref c).literals))) :=
    h.nodead.dead_set _ _ (fun p _ hh => by cases hh)
  have h3 : NoDeadRefs dead (CaDiCaL.deallocate_clause d c).proof := by
    rw [hP]
    split
    · exact h2.dead_set _ _ (fun p _ hh => by cases hh)
    · exact h2
  refine ⟨?_, ?_⟩
  · rw [hidx, hP]
    split
    · exact h1.refs_set _ _ rfl (fun p hh => by cases hh)
    · exact h1
  · intro p hp i
    rcases List.mem_cons.1 hp with rfl | hp
    · exact hno i
    · exact h3 p hp i

theorem RefInv.of_empty (dead : List Nat) (d : Drupper) (hp : d.proof = []) : RefInv dead d := by
  refine ⟨?_, ?_⟩
  · intro i c hi; rw [hp] at hi; cases hi
  · intro c _ i hv
    rw [hp] at hv
    have := ent_clause_lt _ _ _ hv
    cases this

theorem append_lemma_isolated (d : Drupper) (dc : DrupperClause) :
    (append_lemma d dc).isolated = d.isolated := by
  unfold append_lemma
  cases h : dc.variant with
  | CLAUSE c => cases c <;> rfl
  | LITERALS l => rfl

/-- An active tracker stays active under the notification hooks. -/
theorem hooks_keep_active (d : Drupper) (hi : d.isolated = false) :
    (∀ c, (add_derived_clause d c).isolated = false) ∧
    (∀ lit o, (add_derived_unit_clause d lit o).isolated = false) ∧
    (∀ c, (add_failing_assumption d c).isolated = false) ∧
    (∀ c, (add_updated_clause d c).isolated = false) ∧
    (∀ c o, (delete_clause_lits d c o).isolated = false) ∧
    (∀ c, (delete_clause d c).isolated = false) ∧
    (∀ c, (deallocate_clause d c).isolated = false) := by
  refine ⟨?_, ?_, ?_, ?_, ?_, ?_, ?_⟩
  · intro c
    unfold add_derived_clause
    rw [if_neg (by simp [hi]), append_lemma_isolated]; exact hi
  · intro lit o
    obtain ⟨e, u, -, -, e3, -, hr | ⟨hr, -, -⟩⟩ := add_derived_unit_clause_shape d lit o hi
    · rw [hr]; exact e3
    · rw [hr, append_lemma_isolated]; exact e3
  · intro c
    unfold add_failing_assumption
    rw [if_neg (by simp [hi])]
    split
    · split
      · unfold append_failed
        dsimp only
        rw [modifyEntry_isolated, append_lemma_isolated, append_lemma_isolated]; exact hi
      · exact hi
    · exact hi
  · intro c
    unfold add_updated_clause
    rw [if_neg (by simp [hi])]
    dsimp only
    rw [append_lemma_isolated, append_lemma_isolated]
    split
    · exact hi
    · exact hi
  · intro c o
    unfold delete_clause_lits
    rw [if_neg (by simp [hi])]
    dsimp only
    split
    · rw [append_lemma_isolated]; exact hi
    · exact hi
  · intro c
    unfold delete_clause
    rw [if_neg (by simp [hi]), append_lemma_isolated]; exact hi
  · intro c
    unfold deallocate_clause
    rw [if_neg (by simp [hi])]
    dsimp only
    split
    · exact hi
    · split
      · exact hi
      · exact hi

theorem FreshProtocol.toProtocol {dead : List Nat} {d : Drupper} (h : FreshProtocol dead d) :
    Protocol dead d := by
  induction h with
  | init d hp hi => exact Protocol.init d hp hi
  | host dead d t _ hs ih => exact Protocol.host dead d t ih hs
  | add_derived_clause dead d c _ hc hl _ hb ih =>
    exact Protocol.add_derived_clause dead d c ih hc hl hb
  | add_derived_unit_clause dead d lit o _ hb ih =>
    exact Protocol.add_derived_unit_clause dead d lit o ih hb
  | add_failing_assumption dead d c _ hb ih =>
    exact Protocol.add_failing_assumption dead d c ih hb
  | add_updated_clause dead d c _ hc hl hn hb ih =>
    exact Protocol.add_updated_clause dead d c ih hc hl hn hb
  | delete_clause_lits dead d c o _ hb ih =>
    exact Protocol.delete_clause_lits dead d c o ih hb
  | delete_clause dead d c _ hc hl hn hb ih =>
    exact Protocol.delete_clause dead d c ih hc hl hn hb
  | deallocate_clause dead d c _ hc hl hx ih =>
    exact Protocol.deallocate_clause dead d c ih hc hl hx

/-- The reference invariants hold in every state reachable under
`FreshProtocol`, and an isolated tracker has an empty log. -/
theorem FreshProtocol.refs {dead : List Nat} {d : Drupper} (h : FreshProtocol dead d) :
    RefInv dead d ∧ (d.isolated = true → d.proof = []) := by
  induction h with
  | init d hp hi => exact ⟨RefInv.of_empty _ d hp, fun _ => hp⟩
  | host dead d t _ hs ih =>
    exact ⟨ih.1.refs_of_same (by funext p; exact hs.2 p) rfl, ih.2⟩
  | add_derived_clause dead d c _ hc hl hf hb ih =>
    by_cases hi : d.isolated = true
    · rw [(hooks_isolated exampleOps d hi).1 c]; exact ih
    · simp only [Bool.not_eq_true] at hi
      exact ⟨ih.1.refs_add_derived_clause c hc hl hf hb,
        fun hh => by rw [(hooks_keep_active d hi).1 c] at hh; cases hh⟩
  | add_derived_unit_clause dead d lit o hd hb ih =>
    by_cases hi : d.isolated = true
    · rw [(hooks_isolated exampleOps d hi).2.1 lit o]; exact ih
    · simp only [Bool.not_eq_true] at hi
      exact ⟨ih.1.refs_add_derived_unit_clause hd.toProtocol.inv lit o hb,
        fun hh => by rw [(hooks_keep_active d hi).2.1 lit o] at hh; cases hh⟩
  | add_failing_assumption dead d c _ hb ih =>
    by_cases hi : d.isolated = true
    · rw [(hooks_isolated exampleOps d hi).2.2.2.2.1 c]; exact ih
    · simp only [Bool.not_eq_true] at hi
      exact ⟨ih.1.refs_add_failing_assumption c hb,
        fun hh => by rw [(hooks_keep_active d hi).2.2.1 c] at hh; cases hh⟩
  | add_updated_clause dead d c hd hc hl hn hb ih =>
    by_cases hi : d.isolated = true
    · rw [(hooks_isolated exampleOps d hi).2.2.2.2.2.1 c]; exact ih
    · simp only [Bool.not_eq_true] at hi
      exact ⟨ih.1.refs_add_updated_clause hd.toProtocol.inv c hc hl hn hb,
        fun hh => by rw [(hooks_keep_active d hi).2.2.2.1 c] at hh; cases hh⟩
  | delete_clause_lits dead d c o _ hb ih =>
    by_cases hi : d.isolated = true
    · rw [(hooks_isolated exampleOps d hi).2.2.2.2.2.2.1 c o]; exact ih
    · simp only [Bool.not_eq_true] at hi
      exact ⟨ih.1.refs_delete_clause_lits c o hb,
        fun hh => by rw [(hooks_keep_active d hi).2.2.2.2.1 c o] at hh; cases hh⟩
  | delete_clause dead d c hd hc hl hn hb ih =>
    by_cases hi : d.isolated = true
    · rw [(hooks_isolated exampleOps d hi).2.2.2.2.2.2.2.1 c]; exact ih
    · simp only [Bool.not_eq_true] at hi
      exact ⟨ih.1.refs_delete_clause hd.toProtocol.inv c hc hl hn hb,
        fun hh => by rw [(hooks_keep_active d hi).2.2.2.2.2.1 c] at hh; cases hh⟩
  | deallocate_clause dead d c hd hc hl hx ih =>
    by_cases hi : d.isolated = true
    · rw [(hooks_isolated exampleOps d hi).2.2.2.2.2.2.2.2.1 c]
      exact ⟨RefInv.of_empty _ d (ih.2 hi), ih.2⟩
    · simp only [Bool.not_eq_true] at hi
      exact ⟨ih.1.refs_deallocate_clause hd.toProtocol.inv c hi hl hx,
        fun hh => by rw [(hooks_keep_active d hi).2.2.2.2.2.2 c] at hh; cases hh⟩

theorem deletedState_fresh : FreshProtocol [] deletedState :=
  FreshProtocol.delete_clause [] derivedState 0
    (FreshProtocol.add_derived_clause [] emptyLogState 0
      (FreshProtocol.init emptyLogState rfl emptyLogState_idx) (by decide) (by simp) (by decide)
      (by decide))
    (by decide) (by simp) (Or.inr (by decide)) (by decide)

/-- C16: in every state reachable under the host protocol (each allocated
clause notified as derived once), for a clause `c` with footer index `k + 1`
whose entry `k` refers to `c`, `deallocate_clause (c)` keeps the length of the
log, turns entry `k` into an entry owning exactly the literals of `c` in
order, with `deleted` and `revive_at` unchanged, clears the clause reference
of the paired entry `revive_at - 1` when `revive_at` is nonzero, and
afterwards no entry of the log refers to `c`. -/
theorem deallocate_clause_flips_entry {dead : List Nat} {d : Drupper}
    (h : FreshProtocol dead d) (c k : Nat) (hk : d.idx c = k + 1)
    (hv : (d.entry k).variant = Variant.CLAUSE (some c)) :
    (deallocate_clause d c).proof.length = d.proof.length ∧
    (deallocate_clause d c).entry k =
      { deleted := (d.entry k).deleted, revive_at := (d.entry k).revive_at,
        variant := Variant.LITERALS (d.internal.deref c).literals } ∧
    (∀ j, (d.entry k).revive_at = j + 1 →
      (deallocate_clause d c).entry j =
        { deleted := (d.entry j).deleted, revive_at := (d.entry j).revive_at,
          variant := Variant.CLAUSE none }) ∧
    (∀ i, ((deallocate_clause d c).entry i).variant ≠ Variant.CLAUSE (some c)) := by
  rw [entry_eq_ent] at hv
  have hklt := ent_clause_lt _ _ _ hv
  have hi : d.isolated = false := by
    cases hiso : d.isolated with
    | false => rfl
    | true =>
      rw [h.refs.2 hiso] at hklt
      cases hklt
  have g := h.toProtocol.inv
  have hjk : ∀ j, (ent d.proof k).revive_at = j + 1 → j < k :=
    fun j hj => (g.links k j hklt hj).2.1
  obtain ⟨e0, e1, e2, -⟩ := deallocate_clause_entries d c k hi hk hv hjk
  refine ⟨e0, ?_, ?_, ?_⟩
  · rw [entry_eq_ent, e1]; rfl
  · intro j hj
    rw [entry_eq_ent, e2 j hj]; rfl
  · intro i
    exact h.refs.1.no_refs_after_deallocate g c k hi hk hv i

/-- A deallocation at the example state in which clause 0 has been derived and deleted:
its footer index is 2, entry 1 is its deletion and links back to entry 0. -/
theorem deallocate_clause_flips_entry_witness :
    (deallocate_clause deletedState 0).entry 1 =
      { deleted := true, revive_at := 1, variant := Variant.LITERALS [1, 2] } ∧
    (deallocate_clause deletedState 0).entry 0 =
      { deleted := false, revive_at := 0, variant := Variant.CLAUSE none } ∧
    ∀ i, ((deallocate_clause deletedState 0).entry i).variant ≠ Variant.CLAUSE (some 0) :=
  ⟨(deallocate_clause_flips_entry deletedState_fresh 0 1 (by decide) (by decide)).2.1,
    (deallocate_clause_flips_entry deletedState_fresh 0 1 (by decide) (by decide)).2.2.1 0
      (by decide),
    (deallocate_clause_flips_entry deletedState_fresh 0 1 (by decide) (by decide)).2.2.2⟩

/-! ## Duplicate removal on vectors without complementary literals -/

theorem marked_ne_zero_iff (s : Internal) (lit : Int) :
    s.marked lit ≠ 0 ↔ s.marks lit.natAbs ≠ 0 := by
  unfold Internal.marked
  split <;> simp

theorem remove_duplicates_scan_distinct (c : List Int) :
    ∀ (s : Internal) (unique : List Int), (∀ l ∈ c, l ≠ 0) →
    (∀ v, s.marks v ≠ 0 ↔ ∃ l ∈ unique, l.natAbs = v) →
    ¬ has_complementary_pair (unique ++ c) →
    (remove_duplicates_scan c s unique).2 = distinct_from c unique ∧
    (∀ v, (remove_duplicates_scan c s unique).1.marks v ≠ 0 ↔
      ∃ l ∈ (remove_duplicates_scan c s unique).2, l.natAbs = v) ∧
    (remove_duplicates_scan c s unique).1 =
      { s with marks := (remove_duplicates_scan c s unique).1.marks } := by
  induction c with
  | nil => intro s unique _ hmi _; exact ⟨rfl, hmi, rfl⟩
  | cons a c ih =>
    intro s unique hz hmi hp
    have ha0 : a ≠ 0 := hz a (List.mem_cons_self _ _)
    have hz1 : ∀ l ∈ c, l ≠ 0 := fun l hl => hz l (List.mem_cons_of_mem _ hl)
    have hiff : s.marked a ≠ 0 ↔ a ∈ unique := by
      rw [marked_ne_zero_iff, hmi]
      constructor
      · rintro ⟨l, hl, hla⟩
        rcases Int.natAbs_eq_natAbs_iff.1 hla with h1 | h1
        · rw [← h1]; exact hl
        · exfalso
          apply hp
          refine ⟨a, by simp, ?_⟩
          rw [← h1]; simp [hl]
      · intro hm; exact ⟨a, hm, rfl⟩
    unfold remove_duplicates_scan distinct_from
    by_cases hm : a ∈ unique
    · rw [if_pos (hiff.2 hm), if_pos hm]
      apply ih s unique hz1 hmi
      rintro ⟨x, hx1, hx2⟩
      apply hp
      refine ⟨x, ?_, ?_⟩
      · rcases List.mem_append.1 hx1 with h | h
        · simp [h]
        · simp [h]
      · rcases List.mem_append.1 hx2 with h | h
        · simp [h]
        · simp [h]
    · rw [if_neg (fun hh => hm (hiff.1 hh)), if_neg hm]
      have hmi1 : ∀ v, (s.mark a).marks v ≠ 0 ↔ ∃ l ∈ unique ++ [a], l.natAbs = v := by
        intro v
        unfold Internal.mark
        by_cases hv : v = a.natAbs
        · subst hv
          simp only [Function.update_same]
          constructor
          · intro _; exact ⟨a, by simp, rfl⟩
          · intro _ hs
            exact ha0 (Int.sign_eq_zero_iff_zero.1 hs)
        · simp only [Function.update_noteq hv]
          rw [hmi v]
          constructor
          · rintro ⟨l, hl, hlv⟩; exact ⟨l, by simp [hl], hlv⟩
          · rintro ⟨l, hl, hlv⟩
            rcases List.mem_append.1 hl with h | h
            · exact ⟨l, h, hlv⟩
            · simp only [List.mem_singleton] at h
              subst h
              exact absurd hlv.symm hv
      have hp1 : ¬ has_complementary_pair ((unique ++ [a]) ++ c) := by
        rw [List.append_assoc]; exact hp
      obtain ⟨r1, r2, r3⟩ := ih (s.mark a) (unique ++ [a]) hz1 hmi1 hp1
      refine ⟨r1, r2, ?_⟩
      rw [r3]
      rfl

theorem foldl_unmark_marks (ls : List Int) :
    ∀ (s : Internal) (v : Nat), (ls.foldl Internal.unmark s).marks v =
      if ∃ l ∈ ls, l.natAbs = v then 0 else s.marks v := by
  induction ls with
  | nil => intro s v; simp
  | cons a ls ih =>
    intro s v
    rw [List.foldl_cons, ih]
    by_cases h1 : ∃ l ∈ ls, l.natAbs = v
    · rw [if_pos h1, if_pos]
      obtain ⟨l, hl, hlv⟩ := h1
      exact ⟨l, List.mem_cons_of_mem _ hl, hlv⟩
    · rw [if_neg h1]
      unfold Internal.unmark
      by_cases hv : v = a.natAbs
      · subst hv
        simp
      · simp only [Function.update_noteq hv]
        rw [if_neg]
        rintro ⟨l, hl, hlv⟩
        rcases List.mem_cons.1 hl with h | h
        · subst h; exact hv hlv.symm
        · exact h1 ⟨l, h, hlv⟩

theorem foldl_unmark_eq (ls : List Int) :
    ∀ s : Internal, ls.foldl Internal.unmark s =
      { s with marks := (ls.foldl Internal.unmark s).marks } := by
  induction ls with
  | nil => intro s; rfl
  | cons a ls ih =>
    intro s
    rw [List.foldl_cons, ih]
    rfl

/-- On a vector of nonzero literals without complementary pair, with no mark
set, `remove_duplicates` returns the distinct literals in first-occurrence
order and leaves the host state as it was. -/
theorem remove_duplicates_distinct (s : Internal) (c : List Int) (hz : ∀ l ∈ c, l ≠ 0)
    (hm : ∀ v, s.marks v = 0) (hp : ¬ has_complementary_pair c) :
    (remove_duplicates s c).2 = distinct_literals c ∧ (remove_duplicates s c).1 = s := by
  obtain ⟨r1, r2, r3⟩ := remove_duplicates_scan_distinct c s [] hz
    (fun v => by simp [hm v]) (by simpa using hp)
  unfold remove_duplicates
  dsimp only
  refine ⟨r1, ?_⟩
  rw [foldl_unmark_eq, r3]
  have hmarks : ((remove_duplicates_scan c s []).2.foldl Internal.unmark
      { s with marks := (remove_duplicates_scan c s []).1.marks }).marks = s.marks := by
    funext v
    rw [foldl_unmark_marks, hm v]
    split
    · rfl
    · next hno =>
      by_contra hne
      exact hno ((r2 v).1 hne)
  rw [hmarks]

theorem distinct_from_spec (c : List Int) :
    ∀ seen : List Int, seen.Nodup →
      (distinct_from c seen).Nodup ∧ (∀ x, x ∈ distinct_from c seen ↔ x ∈ seen ∨ x ∈ c) ∧
      seen.length ≤ (distinct_from c seen).length ∧
      (distinct_from c seen).length ≤ seen.length + c.length := by
  induction c with
  | nil => intro seen hn; exact ⟨hn, fun x => by simp [distinct_from], le_refl _, by simp [distinct_from]⟩
  | cons a c ih =>
    intro seen hn
    unfold distinct_from
    by_cases hm : a ∈ seen
    · rw [if_pos hm]
      obtain ⟨i1, i2, i3, i4⟩ := ih seen hn
      refine ⟨i1, ?_, i3, by simp only [List.length_cons]; omega⟩
      intro x
      rw [i2 x]
      constructor
      · rintro (h | h)
        · exact Or.inl h
        · exact Or.inr (List.mem_cons_of_mem _ h)
      · rintro (h | h)
        · exact Or.inl h
        · rcases List.mem_cons.1 h with h | h
          · subst h; exact Or.inl hm
          · exact Or.inr h
    · rw [if_neg hm]
      have hn1 : (seen ++ [a]).Nodup := by
        rw [List.nodup_append]
        refine ⟨hn, List.nodup_singleton a, ?_⟩
        intro x hx hx1
        simp only [List.mem_singleton] at hx1
        subst hx1
        exact hm hx
      obtain ⟨i1, i2, i3, i4⟩ := ih (seen ++ [a]) hn1
      simp only [List.length_append, List.length_singleton] at i3 i4
      refine ⟨i1, ?_, by omega, by simp only [List.length_cons]; omega⟩
      intro x
      rw [i2 x]
      simp only [List.mem_append, List.mem_singleton, List.mem_cons]
      tauto

theorem distinct_literals_perm_dedup (c : List Int) : (distinct_literals c).Perm c.dedup := by
  obtain ⟨h1, h2, -, -⟩ := distinct_from_spec c [] List.nodup_nil
  unfold distinct_literals
  rw [List.perm_ext_iff_of_nodup h1 (List.nodup_dedup c)]
  intro x
  rw [List.mem_dedup, h2 x]
  simp

theorem distinct_literals_length (c : List Int) (hne : c ≠ []) :
    1 ≤ (distinct_literals c).length ∧ (distinct_literals c).length ≤ c.length := by
  cases c with
  | nil => exact absurd rfl hne
  | cons a c =>
    obtain ⟨-, -, -, h4⟩ := distinct_from_spec (a :: c) [] List.nodup_nil
    obtain ⟨-, -, h3, -⟩ := distinct_from_spec c [a] (List.nodup_singleton a)
    refine ⟨?_, by simpa [distinct_literals] using h4⟩
    unfold distinct_literals distinct_from
    simpa using h3

theorem set_set_perm (xs : List Int) (i j : Nat) (hi : i < xs.length) (hj : j < xs.length) :
    ((xs.set j (xs.getD i 0)).set i (xs.getD j 0)).Perm xs := by
  rw [List.perm_iff_count]
  intro b
  have hi1 : i < (xs.set j (xs.getD i 0)).length := by rw [List.length_set]; exact hi
  rw [List.count_set _ _ _ _ hi1, List.count_set _ _ _ _ hj]
  have hgi : xs.getD i 0 = xs[i] := List.getD_eq_getElem _ _ hi
  have hgj : xs.getD j 0 = xs[j] := List.getD_eq_getElem _ _ hj
  have hci : (xs.set j (xs.getD i 0))[i] = xs[i] := by
    rw [List.getElem_set]
    split
    · exact hgi
    · rfl
  rw [hci, hgi, hgj]
  have hpos : xs[j] = b → 0 < xs.count b := by
    intro h
    rw [List.count_pos_iff, ← h]
    exact List.getElem_mem _
  by_cases h1 : xs[j] = b <;> by_cases h2 : xs[i] = b <;> simp [h1, h2]
  · have := hpos h1; omega
  · have := hpos h1; omega

theorem swap_falsified_loop_perm (val : Int → Int) :
    ∀ (n : Nat) (c : List Int) (i sz : Nat), sz - i ≤ n → sz ≤ c.length →
      (swap_falsified_loop val c i sz).Perm c := by
  intro n
  induction n with
  | zero =>
    intro c i sz hn _
    unfold swap_falsified_loop
    rw [if_neg (by omega)]
  | succ n ih =>
    intro c i sz hn hsz
    unfold swap_falsified_loop
    by_cases hlt : i < sz
    · rw [if_pos hlt]
      split
      · dsimp only
        refine (ih _ (i + 1) (sz - 1) (by omega) (by simp; omega)).trans ?_
        exact set_set_perm c i (sz - 1) (by omega) (by omega)
      · exact ih c (i + 1) sz (by omega) hsz
    · rw [if_neg hlt]

theorem swap_falsified_literals_right_perm (s : Internal) (c : List Int) :
    (swap_falsified_literals_right s c).Perm c :=
  swap_falsified_loop_perm s.val c.length c 0 c.length (by omega) (le_refl _)

theorem append_lemma_literals (d : Drupper) (m : List Int) :
    append_lemma d (DrupperClause.ofLits m true) =
      { d with stats := { d.stats with deleted := d.stats.deleted + 1 },
               proof := d.proof ++ [DrupperClause.ofLits m true] } := rfl

/-- C14, amended: on an active tracker with no literal marked, for a
non-empty vector `c` of nonzero literals that contains no literal together
with its negation, `delete_clause (c, original)` leaves the host state (and so
the marks) as it was, and appends exactly one deletion entry with
`revive_at = 0` that owns a permutation of the distinct literals of `c`,
exactly their first-occurrence order when `original` is false; except when
only one distinct literal is left and `c` had more than one, in which case
nothing changes. -/
theorem delete_clause_logs_distinct_literals (d : Drupper) (c : List Int) (original : Bool)
    (hi : d.isolated = false) (hne : c ≠ []) (hz : ∀ l ∈ c, l ≠ 0)
    (hm : ∀ v, d.internal.marks v = 0) (hp : ¬ has_complementary_pair c) :
    (delete_clause_lits d c original).internal = d.internal ∧
    (((distinct_literals c).length = 1 ∧ 1 < c.length) → delete_clause_lits d c original = d) ∧
    (¬ ((distinct_literals c).length = 1 ∧ 1 < c.length) →
      ∃ m : List Int, m.Perm c.dedup ∧ (original = false → m = distinct_literals c) ∧
        (delete_clause_lits d c original).proof =
          d.proof ++ [{ deleted := true, revive_at := 0, variant := Variant.LITERALS m }] ∧
        (delete_clause_lits d c original).stats =
          { d.stats with deleted := d.stats.deleted + 1 }) := by
  obtain ⟨r2, r1⟩ := remove_duplicates_distinct d.internal c hz hm hp
  obtain ⟨l1, l2⟩ := distinct_literals_length c hne
  have hE : delete_clause_lits d c original =
      if (distinct_literals c).length = c.length ∨ (distinct_literals c).length > 1 then
        append_lemma d (DrupperClause.ofLits
          (if original then swap_falsified_literals_right d.internal (distinct_literals c)
            else distinct_literals c) true)
      else d := by
    unfold delete_clause_lits
    rw [if_neg (by simp [hi])]
    dsimp only
    rw [r1, r2]
  rw [hE]
  by_cases hskip : (distinct_literals c).length = 1 ∧ 1 < c.length
  · have hno : ¬ ((distinct_literals c).length = c.length ∨ (distinct_literals c).length > 1) := by
      omega
    rw [if_neg hno]
    exact ⟨rfl, fun _ => rfl, fun h => absurd hskip h⟩
  · have hyes : (distinct_literals c).length = c.length ∨ (distinct_literals c).length > 1 := by
      omega
    rw [if_pos hyes, append_lemma_literals]
    refine ⟨rfl, fun h => absurd h hskip, fun _ => ?_⟩
    refine ⟨_, ?_, ?_, rfl, rfl⟩
    · cases original with
      | false => exact distinct_literals_perm_dedup c
      | true =>
        exact (swap_falsified_literals_right_perm _ _).trans (distinct_literals_perm_dedup c)
    · intro ho
      rw [ho]
      rfl

/-- Deletion of the vector `1 2 1` on the two-clause example state. -/
theorem delete_clause_logs_distinct_literals_witness :
    (delete_clause_lits emptyLogState [1, 2, 1] false).internal = emptyLogState.internal ∧
    ∃ m : List Int, m.Perm ([1, 2, 1] : List Int).dedup ∧
      (false = false → m = distinct_literals [1, 2, 1]) ∧
      (delete_clause_lits emptyLogState [1, 2, 1] false).proof =
        emptyLogState.proof ++
          [{ deleted := true, revive_at := 0, variant := Variant.LITERALS m }] ∧
      (delete_clause_lits emptyLogState [1, 2, 1] false).stats =
        { emptyLogState.stats with deleted := emptyLogState.stats.deleted + 1 } :=
  ⟨(delete_clause_logs_distinct_literals emptyLogState [1, 2, 1] false rfl (by simp)
      (by decide) (fun _ => rfl)
      (by rintro ⟨x, hx1, hx2⟩; simp at hx1 hx2; omega)).1,
    (delete_clause_logs_distinct_literals emptyLogState [1, 2, 1] false rfl (by simp)
      (by decide) (fun _ => rfl)
      (by rintro ⟨x, hx1, hx2⟩; simp at hx1 hx2; omega)).2.2 (by decide)⟩

/-! ## The CNF printer -/

/-- C20 at the failing input: `assumption (5)` writes the line `50`, which
reads as the single integer 50, while `clause` of the one literal 5 writes
`5 0`, which reads as 5 followed by the terminating 0. -/
theorem core_printer_assumption_glues_zero :
    (CorePrinter.visitor.assumption "" 5).2 = "50\n" ∧
    read_integers (CorePrinter.visitor.assumption "" 5).2 = [some 50] ∧
    (CorePrinter.visitor.clause "" [5]).2 = "5 0\n" ∧
    read_integers (CorePrinter.visitor.clause "" [5]).2 = [some 5, some 0] ∧
    CorePrinter.header "" 3 2 = "p cnf 3 2\n" := by
  refine ⟨by decide, by decide, by decide, by decide, by decide⟩

/-! ## The two variants of the core traversal -/

section equivalence
variable {σ : Type}

theorem traverse_clauses_sim (ext : Int → Int) (it : CoreIterator σ) (d : Drupper)
    (cs : List Nat) (t : Traversal σ) (he : t.eclause = []) :
    ((traverse_clauses ext it d cs t).1, (traverse_clauses ext it d cs t).2.it) =
      traverse_clauses_const ext it d cs t.it ∧
    ((traverse_clauses ext it d cs t).1 = true → (traverse_clauses ext it d cs t).2.eclause = []) := by
  induction cs generalizing t with
  | nil => simp [traverse_clauses, traverse_clauses_const, he]
  | cons c cs ih =>
    unfold traverse_clauses traverse_clauses_const
    by_cases hc : (d.internal.deref c).drup_core = true
    · by_cases hf : some c = d.failed_constraint
      · simpa [hc, hf] using ih t he
      · by_cases hl : (d.internal.deref c).drup_islem = true
        · simpa [hc, hf, hl] using ih (count_lemma t) (by simpa using he)
        · simp only [Bool.not_eq_true] at hl
          simp only [hc, hf, hl, if_true, if_false, Bool.false_or, decide_False,
            Bool.false_eq_true, foldl_push_literal_it, foldl_push_literal_eclause,
            count_clause_it, count_clause_eclause, he, List.nil_append, foldl_snoc_map]
          by_cases hr : (it.clause t.it (List.map ext (d.internal.deref c).literals)).1 = true
          · simp only [hr, Bool.not_true, Bool.false_eq_true, if_false]
            exact ih _ rfl
          · simp only [Bool.not_eq_true] at hr
            simp [hr]
    · simpa [hc] using ih t he

theorem traverse_units_sim (ext : Int → Int) (it : CoreIterator σ) (d : Drupper)
    (cs : List Nat) (t : Traversal σ) (he : t.eclause = []) :
    ((traverse_units ext it d cs t).1, (traverse_units ext it d cs t).2.it) =
      traverse_units_const ext it d cs t.it ∧
    ((traverse_units ext it d cs t).1 = true → (traverse_units ext it d cs t).2.eclause = []) := by
  induction cs generalizing t with
  | nil => simp [traverse_units, traverse_units_const, he]
  | cons c cs ih =>
    unfold traverse_units traverse_units_const
    by_cases hc : (d.internal.deref c).drup_core = true
    · by_cases hl : (d.internal.deref c).drup_islem = true
      · simpa [hc, hl] using ih (count_lemma t) (by simpa using he)
      · simp only [Bool.not_eq_true] at hl
        simp only [hc, hl, if_true, if_false, Bool.false_eq_true, push_literal_it,
          push_literal_eclause, count_clause_it, count_clause_eclause, he, List.nil_append]
        by_cases hr : (it.clause t.it [ext (d.internal.deref c).lit0]).1 = true
        · simp only [hr, Bool.not_true, Bool.false_eq_true, if_false]
          exact ih _ rfl
        · simp only [Bool.not_eq_true] at hr
          simp [hr]
    · simpa [hc] using ih t he

theorem traverse_assumptions_sim (ext : Int → Int) (it : CoreIterator σ)
    (ls : List Int) (t : Traversal σ) (he : t.eclause = []) :
    ((traverse_assumptions ext it ls t).1, (traverse_assumptions ext it ls t).2.it) =
      traverse_assumptions_const ext it ls t.it ∧
    ((traverse_assumptions ext it ls t).1 = true →
      (traverse_assumptions ext it ls t).2.eclause = []) := by
  induction ls generalizing t with
  | nil => simp [traverse_assumptions, traverse_assumptions_const, he]
  | cons a ls ih =>
    unfold traverse_assumptions traverse_assumptions_const
    by_cases hr : (it.assumption t.it (ext a)).1 = true
    · simp only [hr, Bool.not_true, Bool.false_eq_true, if_false]
      have := ih (see_variable { t with it := (it.assumption t.it (ext a)).2 } a)
        (by simpa using he)
      simpa using this
    · simp only [Bool.not_eq_true] at hr
      simp [hr]

/-- The two variants of `traverse_core` return the same Boolean and leave the
visitor in the same state. -/
theorem traverse_core_sim (ops : HostOps) (it : CoreIterator σ) (d : Drupper) (v : σ) :
    ((traverse_core ops it d v).1, (traverse_core ops it d v).2.1) =
      traverse_core_const ops it d v := by
  unfold traverse_core traverse_core_const
  obtain ⟨a1, a2⟩ := traverse_clauses_sim ops.externalize it d d.internal.clauses
    (Traversal.mk [] (List.replicate (d.internal.max_var + 1) false) d.stats v) rfl
  simp only at a1 a2 ⊢
  rw [← a1]
  generalize traverse_clauses ops.externalize it d d.internal.clauses _ = r1 at a1 a2 ⊢
  by_cases h1 : r1.1 = true
  · simp only [h1, Bool.not_true, Bool.false_eq_true, if_false]
    obtain ⟨b1, b2⟩ := traverse_units_sim ops.externalize it d d.unit_clauses r1.2 (a2 h1)
    rw [← b1]
    generalize traverse_units ops.externalize it d d.unit_clauses r1.2 = r2 at b1 b2 ⊢
    by_cases h2 : r2.1 = true
    · simp only [h2, Bool.not_true, Bool.false_eq_true, if_false]
      obtain ⟨c1, c2⟩ := traverse_assumptions_sim ops.externalize it d.internal.assumptions
        r2.2 (b2 h2)
      rw [← c1]
      generalize traverse_assumptions ops.externalize it d.internal.assumptions r2.2 = r3
        at c1 c2 ⊢
      by_cases h3 : r3.1 = true
      · simp only [h3, Bool.not_true, Bool.false_eq_true, if_false]
        unfold traverse_constraint
        by_cases hu : d.internal.unsat_constraint = true
        · simp only [hu, if_true, foldl_push_literal_it, foldl_push_literal_eclause,
            count_clause_it, count_clause_eclause, c2 h3, List.nil_append, foldl_snoc_map]
          by_cases h4 : (it.constraint r3.2.it (List.map ops.externalize d.internal.constraint)).1
              = true
          · simp [h4]
          · simp only [Bool.not_eq_true] at h4
            simp [h4]
        · simp [hu]
      · simp only [Bool.not_eq_true] at h3
        simp [h3]
    · simp only [Bool.not_eq_true] at h2
      simp [h2]
  · simp only [Bool.not_eq_true] at h1
    simp [h1]

end equivalence

/-- C30: for every Drupper state, every visitor and every visitor state, the
statistics-collecting `traverse_core` and the const `traverse_core` make the
same sequence of visitor calls with the same arguments and the same answers,
return the same Boolean and leave the visitor in the same state; the const
variant takes the Drupper by value and returns no Drupper, so it changes no
statistic. -/
theorem traverse_core_variants_equivalent {σ : Type} (ops : HostOps) (it : CoreIterator σ)
    (d : Drupper) (v : σ) :
    journal ops it d v = journal_const ops it d v ∧
    (traverse_core ops it d v).1 = (traverse_core_const ops it d v).1 ∧
    (traverse_core ops it d v).2.1 = (traverse_core_const ops it d v).2 := by
  have h1 := traverse_core_sim ops it d v
  have h2 := traverse_core_sim ops (traced it) d ([], v)
  refine ⟨?_, ?_, ?_⟩
  · unfold journal journal_const
    rw [← h2]
  · rw [← h1]
  · rw [← h1]

/-! ## The index limit -/

theorem fullLogState_length : fullLogState.proof.length = 2 ^ 30 - 1 :=
  List.length_replicate _ _

/-- At the largest log that passes the guard, the index stored in the clause
wraps to 0. -/
theorem append_lemma_idx_at_limit (d : Drupper) (c : Nat) (del : Bool)
    (hc : c < d.internal.heap.length) (hl : d.proof.length = 2 ^ 30 - 1) :
    (append_lemma d (DrupperClause.ofClause c del)).idx c = 0 := by
  unfold append_lemma DrupperClause.ofClause Drupper.idx
  dsimp only
  rw [deref_modify_same _ _ _ hc, hl]
  rfl

/-- C29 at the failing input: a log of `2^30 - 1` entries passes the guard of
`append_lemma`; after the push the log has `2^30` entries, and the value
`2^30` stored into the 30-bit index of the clause has wrapped to 0. -/
theorem append_lemma_guard_admits_overflow :
    append_lemma_guard fullLogState ∧
    (append_lemma fullLogState (DrupperClause.ofClause 0 false)).proof.length = 2 ^ 30 ∧
    ¬ (append_lemma fullLogState (DrupperClause.ofClause 0 false)).proof.length ≤ 2 ^ 30 - 1 ∧
    fullLogState.proof.length + 1 = 2 ^ 30 ∧
    (append_lemma fullLogState (DrupperClause.ofClause 0 false)).idx 0 = 0 := by
  have hl := fullLogState_length
  have hlen := append_lemma_length fullLogState (DrupperClause.ofClause 0 false)
  refine ⟨?_, ?_, ?_, ?_, ?_⟩
  · unfold append_lemma_guard; rw [hl]
  · rw [hlen, hl]; decide
  · rw [hlen, hl]; decide
  · rw [hl]; decide
  · exact append_lemma_idx_at_limit fullLogState 0 false (by decide) hl

/-! ## Watch reordering -/

theorem swap_entries_perm {α : Type} [DecidableEq α] (dflt : α) (xs : List α) (i j : Nat)
    (hi : i < xs.length) (hj : j < xs.length) :
    ((xs.set j (xs.getD i dflt)).set i (xs.getD j dflt)).Perm xs := by
  rw [List.perm_iff_count]
  intro b
  have hi1 : i < (xs.set j (xs.getD i dflt)).length := by rw [List.length_set]; exact hi
  rw [List.count_set _ _ _ _ hi1, List.count_set _ _ _ _ hj]
  have hgi : xs.getD i dflt = xs[i] := List.getD_eq_getElem _ _ hi
  have hgj : xs.getD j dflt = xs[j] := List.getD_eq_getElem _ _ hj
  have hci : (xs.set j (xs.getD i dflt))[i] = xs[i] := by
    rw [List.getElem_set]
    split
    · exact hgi
    · rfl
  rw [hci, hgi, hgj]
  have hpos : xs[j] = b → 0 < xs.count b := by
    intro h
    rw [List.count_pos_iff, ← h]
    exact List.getElem_mem _
  by_cases h1 : xs[j] = b <;> by_cases h2 : xs[i] = b <;> simp [h1, h2]
  · have := hpos h1; omega
  · have := hpos h1; omega

theorem getD_set_same {α : Type} (dflt : α) (xs : List α) (i : Nat) (a : α)
    (hi : i < xs.length) : (xs.set i a).getD i dflt = a := by
  simp [List.getD_eq_getElem?_getD, List.getElem?_set, hi]

theorem getD_set_ne {α : Type} (dflt : α) (xs : List α) (i k : Nat) (a : α) (h : k ≠ i) :
    (xs.set i a).getD k dflt = xs.getD k dflt := by
  have h2 : ¬ i = k := fun hh => h hh.symm
  simp [List.getD_eq_getElem?_getD, List.getElem?_set, h2]

theorem prefer_core_loop_spec (core : Nat → Bool) :
    ∀ (n : Nat) (ws : List (Int × Nat)) (l h : Nat), h - l ≤ n → l ≤ h → h < ws.length →
      (∀ i, i < l → core (ws.getD i default).2 = true) →
      (∀ i, h < i → i < ws.length → core (ws.getD i default).2 = false) →
      (prefer_core_loop core ws l h).Perm ws ∧
      ∃ m, (∀ i, i < m → core ((prefer_core_loop core ws l h).getD i default).2 = true) ∧
        (∀ i, m ≤ i → i < ws.length →
          core ((prefer_core_loop core ws l h).getD i default).2 = false) := by
  intro n
  induction n with
  | zero =>
    intro ws l h hn hlh hlen hlo hhi
    have : l = h := by omega
    subst this
    unfold prefer_core_loop
    rw [if_neg (by omega)]
    refine ⟨List.Perm.refl _, ?_⟩
    cases hc : core (ws.getD l default).2 with
    | true =>
      refine ⟨l + 1, ?_, ?_⟩
      · intro i hi
        by_cases hil : i = l
        · rw [hil]; exact hc
        · exact hlo i (by omega)
      · intro i hi hi2; exact hhi i (by omega) hi2
    | false =>
      refine ⟨l, hlo, ?_⟩
      intro i hi hi2
      by_cases hil : i = l
      · rw [hil]; exact hc
      · exact hhi i (by omega) hi2
  | succ n ih =>
    intro ws l h hn hlh hlen hlo hhi
    by_cases hlt : l < h
    · unfold prefer_core_loop
      rw [if_pos hlt]
      dsimp only
      cases hc : core (ws.getD h default).2 with
      | false =>
        simp only [Bool.not_false, if_true]
        apply ih ws l (h - 1) (by omega) (by omega) (by omega) hlo
        intro i hi hi2
        by_cases hih : i = h
        · rw [hih]; exact hc
        · exact hhi i (by omega) hi2
      | true =>
        simp only [Bool.not_true, Bool.false_eq_true, if_false]
        have hperm := swap_entries_perm default ws h l hlen (by omega)
        have hlen2 : ((ws.set l (ws.getD h default)).set h (ws.getD l default)).length =
            ws.length := by simp
        obtain ⟨p1, m, p2, p3⟩ := ih ((ws.set l (ws.getD h default)).set h (ws.getD l default))
          (l + 1) h (by omega) (by omega) (by rw [hlen2]; exact hlen)
          (by
            intro i hi
            rw [getD_set_ne _ _ _ _ _ (by omega)]
            by_cases hil : i = l
            · rw [hil, getD_set_same _ _ _ _ (by omega)]; exact hc
            · rw [getD_set_ne _ _ _ _ _ hil]; exact hlo i (by omega))
          (by
            intro i hi hi2
            rw [hlen2] at hi2
            rw [getD_set_ne _ _ _ _ _ (by omega), getD_set_ne _ _ _ _ _ (by omega)]
            exact hhi i hi hi2)
        refine ⟨p1.trans hperm, m, p2, ?_⟩
        intro i hi hi2
        exact p3 i hi (by rw [hlen2]; exact hi2)
    · have : l = h := by omega
      subst this
      exact ih ws l l (by omega) hlh hlen hlo hhi

/-- C24: `prefer_core_watches` is total; it leaves the watch list of `lit` a
permutation of its input in which no watch of a clause that is not
core-marked stands before a watch of a core-marked clause, and it changes
nothing else. -/
theorem prefer_core_watches_partitions (s : Internal) (lit : Int) :
    ((prefer_core_watches s lit).watches lit).Perm (s.watches lit) ∧
    (∀ i j, i < j → j < ((prefer_core_watches s lit).watches lit).length →
      (s.deref (((prefer_core_watches s lit).watches lit).getD j default).2).drup_core = true →
      (s.deref (((prefer_core_watches s lit).watches lit).getD i default).2).drup_core = true) ∧
    (∀ other, other ≠ lit → (prefer_core_watches s lit).watches other = s.watches other) ∧
    (prefer_core_watches s lit).heap = s.heap := by
  have hw : (prefer_core_watches s lit).watches lit =
      prefer_core_loop (fun c => (s.deref c).drup_core) (s.watches lit) 0
        ((s.watches lit).length - 1) := by
    unfold prefer_core_watches
    simp
  refine ⟨?_, ?_, ?_, rfl⟩
  · rw [hw]
    by_cases he : (s.watches lit).length = 0
    · unfold prefer_core_loop
      rw [if_neg (by omega)]
    · exact (prefer_core_loop_spec _ ((s.watches lit).length - 1) (s.watches lit) 0
        ((s.watches lit).length - 1) (by omega) (by omega) (by omega)
        (fun i hi => by omega) (fun i hi hi2 => by omega)).1
  · rw [hw]
    by_cases he : (s.watches lit).length = 0
    · intro i j hij hj
      have : prefer_core_loop (fun c => (s.deref c).drup_core) (s.watches lit) 0
          ((s.watches lit).length - 1) = s.watches lit := by
        unfold prefer_core_loop
        rw [if_neg (by omega)]
      rw [this] at hj
      omega
    · obtain ⟨p1, m, p2, p3⟩ := prefer_core_loop_spec (fun c => (s.deref c).drup_core)
        ((s.watches lit).length - 1) (s.watches lit) 0
        ((s.watches lit).length - 1) (by omega) (by omega) (by omega)
        (fun i hi => by omega) (fun i hi hi2 => by omega)
      intro i j hij hj hcj
      rw [p1.length_eq] at hj
      by_cases hjm : j < m
      · exact p2 i (by omega)
      · have := p3 j (by omega) hj
        rw [this] at hcj
        cases hcj
  · intro other ho
    unfold prefer_core_watches
    simp [Function.update_noteq ho]

/-- The reordering on the four-watch example. -/
theorem prefer_core_watches_example :
    (prefer_core_watches watchState 1).watches 1 = [(4, 2), (2, 0), (3, 1), (5, 3)] := by
  simp [prefer_core_watches, prefer_core_loop, watchState, Internal.deref]

/-! ## Revival of an entry that owns its literals -/

theorem modify_clauses (s : Internal) (c : Nat) (f : Clause → Clause) :
    (s.modify c f).clauses = s.clauses := rfl

theorem mark_garbage_clauses (ops : HostOps) (s : Internal) (c : Nat) :
    (mark_garbage ops s c).clauses = s.clauses := by
  unfold mark_garbage
  dsimp only
  split
  · rfl
  · split <;> rfl

theorem mark_active_clauses (ops : HostOps) (s : Internal) (c : Nat) :
    (mark_active ops s c).clauses = s.clauses := by
  unfold mark_active
  dsimp only
  split
  · rfl
  · split <;> rfl

theorem mark_active_heap_length (ops : HostOps) (s : Internal) (c : Nat) :
    (mark_active ops s c).heap.length = s.heap.length := by
  unfold mark_active
  by_cases h : (s.deref c).garbage = true
  · by_cases h1 : (s.deref c).size = 1
    · simp only [h, Bool.not_true, Bool.false_eq_true, if_false, h1, if_true, modify_heap_length]
    · simp only [h, Bool.not_true, Bool.false_eq_true, if_false, h1, heap_length_with_stats,
        modify_heap_length]
  · simp only [h, Bool.not_false, if_true]

theorem reactivate_eliminated_heap (ops : HostOps)
    (hr : ∀ s l, (ops.reactivate s l).heap = s.heap ∧ (ops.reactivate s l).clauses = s.clauses)
    (lits : List Int) (s : Internal) :
    (reactivate_eliminated ops s lits).heap = s.heap ∧
    (reactivate_eliminated ops s lits).clauses = s.clauses := by
  unfold reactivate_eliminated
  induction lits generalizing s with
  | nil => exact ⟨rfl, rfl⟩
  | cons a lits ih =>
    simp only [List.foldl_cons]
    obtain ⟨i1, i2⟩ := ih (if s.fstatus a.natAbs = FlagStatus.ELIMINATED then ops.reactivate s a else s)
    rw [i1, i2]
    split
    · exact hr s a
    · exact ⟨rfl, rfl⟩

theorem deref_of_heap_eq (s t : Internal) (h : t.heap = s.heap) (p : Nat) :
    t.deref p = s.deref p := by
  unfold Internal.deref; rw [h]

/-- The clause that `revive_clause` allocates for an entry owning the literals
`L`, and the host state around it. -/
theorem revive_clause_internal (ops : HostOps) (d : Drupper) (i : Nat) (L : List Int)
    (hw : ∀ s c, (ops.watch_clause s c).heap = s.heap ∧ (ops.watch_clause s c).clauses = s.clauses)
    (hr : ∀ s l, (ops.reactivate s l).heap = s.heap ∧ (ops.reactivate s l).clauses = s.clauses)
    (hv : (d.entry i).variant = Variant.LITERALS L) :
    (revive_materialize ops d i).2 = some d.internal.heap.length ∧
    (revive_materialize ops d i).1.proof =
      d.proof.set i ((ent d.proof i).set_variant (Variant.CLAUSE (some d.internal.heap.length))) ∧
    (revive_clause ops d i).internal.clauses = d.internal.clauses ++ [d.internal.heap.length] ∧
    ((revive_clause ops d i).internal.deref d.internal.heap.length).literals = L ∧
    ((revive_clause ops d i).internal.deref d.internal.heap.length).garbage = false ∧
    ((revive_clause ops d i).internal.deref d.internal.heap.length).drup_islem = false ∧
    ((revive_clause ops d i).internal.deref d.internal.heap.length).drup_core = false ∧
    ((revive_clause ops d i).internal.deref d.internal.heap.length).redundant = true ∧
    ((revive_clause ops d i).internal.deref d.internal.heap.length).drup_idx = wrap30 (i + 1) ∧
    (∀ p, p ≠ d.internal.heap.length →
      (revive_clause ops d i).internal.deref p = d.internal.deref p) := by
  obtain ⟨n1, n2, n3, n4, -⟩ := new_redundant_clause_deref d.internal L
  have hi : (revive_clause ops d i).internal =
      (revive_activate ops (revive_materialize ops d i).1 (revive_materialize ops d i).2).internal := by
    unfold revive_clause
    dsimp only
    split <;> simp only [modifyEntry_internal]
  have hc : (new_redundant_clause d.internal L).2 <
      (new_redundant_clause d.internal L).1.heap.length := by rw [n1, n2]; omega
  have hg : ((new_redundant_clause d.internal L).1.deref
      (new_redundant_clause d.internal L).2).garbage = false := by rw [n1]; exact n3
  have hX : (new_redundant_clause d.internal L).1.deref (new_redundant_clause d.internal L).2 =
      { conditioned := false, covered := false, enqueued := false, frozen := false,
        garbage := false, gate := false, hyper := false, instantiated := false,
        keep := false, moved := false, reason := false, redundant := true,
        transred := false, subsume := false, vivified := false, vivify := false,
        drup_core := false, drup_islem := true, drup_idx := 0, used := 0, glue := 0,
        pos := 2, literals := L } := by
    unfold new_redundant_clause Internal.alloc Internal.deref
    simp [List.getD_eq_getElem?_getD]
  have hother : ∀ p, p ≠ d.internal.heap.length →
      (new_redundant_clause d.internal L).1.deref p = d.internal.deref p := by
    intro p hp
    unfold new_redundant_clause Internal.alloc Internal.deref
    simp only [List.getD_eq_getElem?_getD]
    by_cases hlt : p < d.internal.heap.length
    · rw [List.getElem?_append_left hlt]
    · rw [List.getElem?_eq_none (by simp; omega), List.getElem?_eq_none (by omega)]
  have hcl : (new_redundant_clause d.internal L).1.clauses =
      d.internal.clauses ++ [d.internal.heap.length] := by
    unfold new_redundant_clause Internal.alloc
    rfl
  have hd := mark_garbage_deref ops _ _ hc hg
  have hc1 : (new_redundant_clause d.internal L).2 <
      (mark_garbage ops (new_redundant_clause d.internal L).1
        (new_redundant_clause d.internal L).2).heap.length := by
    rw [mark_garbage_heap_length]; exact hc
  refine ⟨?_, ?_, ?_⟩
  · unfold revive_materialize; rw [hv]; dsimp only; rw [n1]
  · unfold revive_materialize; rw [hv]; dsimp only; rw [n1]; rfl
  · rw [hi]
    unfold revive_materialize
    rw [hv]
    dsimp only
    unfold revive_activate
    dsimp only
    rw [modifyEntry_internal]
    dsimp only
    generalize hs2 : (mark_garbage ops (new_redundant_clause d.internal L).1
        (new_redundant_clause d.internal L).2).modify (new_redundant_clause d.internal L).2
          (fun x => { x with drup_idx := wrap30 (i + 1) }) = s2
    have hs2c : s2.deref (new_redundant_clause d.internal L).2 =
        { (mark_garbage ops (new_redundant_clause d.internal L).1
          (new_redundant_clause d.internal L).2).deref (new_redundant_clause d.internal L).2 with
          drup_idx := wrap30 (i + 1) } := by
      rw [← hs2, deref_modify_same _ _ _ hc1]
    have hs2l : (new_redundant_clause d.internal L).2 < s2.heap.length := by
      rw [← hs2, modify_heap_length]; exact hc1
    have hs2g : (s2.deref (new_redundant_clause d.internal L).2).garbage = true := by
      rw [hs2c, hd]; split <;> rfl
    have hma := mark_active_deref ops s2 _ hs2l hs2g
    have hml : (new_redundant_clause d.internal L).2 <
        (mark_active ops s2 (new_redundant_clause d.internal L).2).heap.length := by
      rw [mark_active_heap_length]; exact hs2l
    generalize ht3 : ops.watch_clause ((mark_active ops s2
        (new_redundant_clause d.internal L).2).modify (new_redundant_clause d.internal L).2
          (fun x => { x with drup_islem := false })) (new_redundant_clause d.internal L).2 = t3
    have hfin : ∀ p, (reactivate_eliminated ops t3
        (t3.deref (new_redundant_clause d.internal L).2).literals).deref p =
        ((mark_active ops s2 (new_redundant_clause d.internal L).2).modify
          (new_redundant_clause d.internal L).2 (fun x => { x with drup_islem := false })).deref p := by
      intro p
      rw [deref_of_heap_eq _ _ (reactivate_eliminated_heap ops hr _ t3).1, ← ht3,
        deref_of_heap_eq _ _ (hw _ _).1]
    have hfc : (reactivate_eliminated ops t3
        (t3.deref (new_redundant_clause d.internal L).2).literals).clauses =
        d.internal.clauses ++ [d.internal.heap.length] := by
      rw [(reactivate_eliminated_heap ops hr _ t3).2, ← ht3, (hw _ _).2, modify_clauses,
        mark_active_clauses, ← hs2, modify_clauses, mark_garbage_clauses, hcl]
    have hcv : (reactivate_eliminated ops t3
        (t3.deref (new_redundant_clause d.internal L).2).literals).deref
          (new_redundant_clause d.internal L).2 =
        { ({ s2.deref (new_redundant_clause d.internal L).2 with garbage := false } : Clause) with
          drup_islem := false } := by
      rw [hfin, deref_modify_same _ _ _ hml, hma]
    rw [← n1]
    refine ⟨by rw [hfc, n1], ?_, ?_, ?_, ?_, ?_, ?_, ?_⟩
    · rw [hcv, hs2c, hd, hX]; split <;> rfl
    · rw [hcv]
    · rw [hcv]
    · rw [hcv, hs2c, hd, hX]; split <;> rfl
    · rw [hcv, hs2c, hd, hX]; split <;> rfl
    · rw [hcv, hs2c, hd, hX]
    · intro p hp
      rw [hfin, deref_modify_other _ _ _ _ hp, mark_active_deref_other _ _ _ _ hp, ← hs2,
        deref_modify_other _ _ _ _ hp, mark_garbage_deref_other _ _ _ _ hp]
      exact hother p (by rw [← n1]; exact hp)

/-- C23: for an entry `i` of the log that owns the literals `L` (the log
within the index range; the host's `watch_clause` and `reactivate` leave the
clauses and the pool alone), `revive_clause (i)` makes entry `i` refer to a
fresh clause `c` that is appended to the host pool and has exactly the
literals `L`, `garbage = false`, `lemma = false`, `core = false` and
`idx = i + 1`; the entry that `revive_at` links to refers to `c` as well,
whatever it held before; `stats.revived` grows by one; the length of the log
and the `deleted` and `revive_at` fields of all entries are unchanged, as are
the other entries and the other clauses. -/
theorem revive_clause_materializes (ops : HostOps) (d : Drupper) (i : Nat) (L : List Int)
    (hw : ∀ s c, (ops.watch_clause s c).heap = s.heap ∧ (ops.watch_clause s c).clauses = s.clauses)
    (hr : ∀ s l, (ops.reactivate s l).heap = s.heap ∧ (ops.reactivate s l).clauses = s.clauses)
    (hi : i < d.proof.length) (hb : i + 1 < 2 ^ 30)
    (hv : (d.entry i).variant = Variant.LITERALS L) :
    ((revive_clause ops d i).entry i).variant = Variant.CLAUSE (some d.internal.heap.length) ∧
    (revive_clause ops d i).internal.clauses = d.internal.clauses ++ [d.internal.heap.length] ∧
    ((revive_clause ops d i).internal.deref d.internal.heap.length).literals = L ∧
    ((revive_clause ops d i).internal.deref d.internal.heap.length).garbage = false ∧
    ((revive_clause ops d i).internal.deref d.internal.heap.length).drup_islem = false ∧
    ((revive_clause ops d i).internal.deref d.internal.heap.length).drup_core = false ∧
    ((revive_clause ops d i).internal.deref d.internal.heap.length).drup_idx = i + 1 ∧
    (∀ j, (d.entry i).revive_at = j + 1 → j < d.proof.length →
      ((revive_clause ops d i).entry j).variant = Variant.CLAUSE (some d.internal.heap.length)) ∧
    (revive_clause ops d i).stats.revived = d.stats.revived + 1 ∧
    (revive_clause ops d i).proof.length = d.proof.length ∧
    (∀ k, ((revive_clause ops d i).entry k).deleted = (d.entry k).deleted ∧
      ((revive_clause ops d i).entry k).revive_at = (d.entry k).revive_at) ∧
    (∀ k, k ≠ i → (d.entry i).revive_at ≠ k + 1 → (revive_clause ops d i).entry k = d.entry k) ∧
    (∀ p, p ≠ d.internal.heap.length →
      (revive_clause ops d i).internal.deref p = d.internal.deref p) := by
  obtain ⟨m1, m2, c1, c2, c3, c4, c5, -, c7, c8⟩ := revive_clause_internal ops d i L hw hr hv
  have hact := revive_activate_log ops (revive_materialize ops d i).1 (revive_materialize ops d i).2
  have hlog := revive_materialize_log ops d i
  have hP : (revive_clause ops d i).proof =
      if (d.entry i).revive_at ≠ 0 then
        (d.proof.set i ((ent d.proof i).set_variant
          (Variant.CLAUSE (some d.internal.heap.length)))).set ((d.entry i).revive_at - 1)
          ((ent (d.proof.set i ((ent d.proof i).set_variant
            (Variant.CLAUSE (some d.internal.heap.length)))) ((d.entry i).revive_at - 1)).set_variant
              (Variant.CLAUSE (some d.internal.heap.length)))
      else d.proof.set i ((ent d.proof i).set_variant
          (Variant.CLAUSE (some d.internal.heap.length))) := by
    unfold revive_clause
    dsimp only
    split
    · rw [modifyEntry_proof, hact.1, m1, m2]
    · rw [hact.1, m2]
  have hst : (revive_clause ops d i).stats.revived = d.stats.revived + 1 := by
    unfold revive_clause
    dsimp only
    split
    · rw [modifyEntry_stats, hact.2.1, hlog.2.1]
    · rw [hact.2.1, hlog.2.1]
  have hfields : ∀ k, ((revive_clause ops d i).entry k).deleted = (d.entry k).deleted ∧
      ((revive_clause ops d i).entry k).revive_at = (d.entry k).revive_at := by
    intro k
    rw [entry_eq_ent, entry_eq_ent, hP]
    split
    · obtain ⟨a1, a2⟩ := ent_set_variant_fields (d.proof.set i ((ent d.proof i).set_variant
        (Variant.CLAUSE (some d.internal.heap.length)))) ((d.entry i).revive_at - 1)
        (Variant.CLAUSE (some d.internal.heap.length)) k
      obtain ⟨b1, b2⟩ := ent_set_variant_fields d.proof i
        (Variant.CLAUSE (some d.internal.heap.length)) k
      exact ⟨a1.trans b1, a2.trans b2⟩
    · exact ent_set_variant_fields d.proof i _ k
  refine ⟨?_, c1, c2, c3, c4, c5, ?_, ?_, hst, ?_, hfields, ?_, c8⟩
  · rw [entry_eq_ent, hP]
    split
    · by_cases hji : (d.entry i).revive_at - 1 = i
      · rw [hji, ent_set_same _ _ _ (by rw [List.length_set]; exact hi)]; rfl
      · rw [ent_set_ne _ _ _ _ (fun h => hji h.symm), ent_set_same _ _ _ hi]; rfl
    · rw [ent_set_same _ _ _ hi]; rfl
  · rw [c7, wrap30_of_lt _ hb]
  · intro j hj hjlt
    rw [entry_eq_ent, hP, if_pos (by omega), hj, Nat.add_sub_cancel,
      ent_set_same _ _ _ (by rw [List.length_set]; exact hjlt)]
    rfl
  · rw [hP]; split <;> simp
  · intro k hki hkr
    rw [entry_eq_ent, entry_eq_ent, hP]
    split
    · rw [ent_set_ne _ _ _ _ (by omega), ent_set_ne _ _ _ _ hki]
    · rw [ent_set_ne _ _ _ _ hki]

/-- A revival at the example state in which entry 1 owns the literals of the
deallocated clause 0 and links back to entry 0, whose reference was cleared. -/
theorem revive_clause_materializes_witness :
    ((revive_clause exampleOps deallocatedState 1).entry 1).variant = Variant.CLAUSE (some 2) ∧
    ((revive_clause exampleOps deallocatedState 1).internal.deref 2).literals = [1, 2] ∧
    ((revive_clause exampleOps deallocatedState 1).entry 0).variant = Variant.CLAUSE (some 2) ∧
    (deallocatedState.entry 0).variant = Variant.CLAUSE none :=
  ⟨(revive_clause_materializes exampleOps deallocatedState 1 [1, 2] (fun _ _ => ⟨rfl, rfl⟩)
      (fun _ _ => ⟨rfl, rfl⟩) (by decide) (by decide) (by decide)).1,
    (revive_clause_materializes exampleOps deallocatedState 1 [1, 2] (fun _ _ => ⟨rfl, rfl⟩)
      (fun _ _ => ⟨rfl, rfl⟩) (by decide) (by decide) (by decide)).2.2.1,
    (revive_clause_materializes exampleOps deallocatedState 1 [1, 2] (fun _ _ => ⟨rfl, rfl⟩)
      (fun _ _ => ⟨rfl, rfl⟩) (by decide) (by decide) (by decide)).2.2.2.2.2.2.2.1 0
      (by decide) (by decide),
    by decide⟩

/-! ## Restoring the garbage marks -/

theorem mark_garbage_rest (ops : HostOps) (s : Internal) (c : Nat) :
    (mark_garbage ops s c).stats.rest = s.stats.rest := by
  unfold mark_garbage
  dsimp only
  split
  · rfl
  · split
    · rfl
    · split <;> rfl

theorem mark_active_rest (ops : HostOps) (s : Internal) (c : Nat) :
    (mark_active ops s c).stats.rest = s.stats.rest := by
  unfold mark_active
  dsimp only
  split
  · rfl
  · split
    · rfl
    · split <;> rfl

theorem settled_accounting_step (ops : HostOps) (s t : Internal) (c : Nat)
    (hc : c < s.heap.length) (hl : t.heap.length = s.heap.length)
    (ho : ∀ p, p ≠ c → t.deref p = s.deref p)
    (hd : t.stats.accounting + clause_credit ops (t.deref c) =
      s.stats.accounting + clause_credit ops (s.deref c)) :
    settled_accounting ops t = settled_accounting ops s := by
  unfold settled_accounting
  rw [hl, ← Finset.add_sum_erase _ _ (Finset.mem_range.2 hc),
    ← Finset.add_sum_erase _ (fun p => clause_credit ops (s.deref p)) (Finset.mem_range.2 hc)]
  rw [← add_assoc, ← add_assoc, hd]
  congr 1
  apply Finset.sum_congr rfl
  intro x hx
  rw [ho x (Finset.ne_of_mem_erase hx)]

theorem clause_credit_active (ops : HostOps) (cl : Clause) (hg : cl.garbage = false) :
    clause_credit ops cl = 0 := by
  unfold clause_credit
  rw [if_neg (by simp [hg])]

theorem clause_credit_unit (ops : HostOps) (cl : Clause) (h1 : cl.size = 1) :
    clause_credit ops cl = 0 := by
  unfold clause_credit
  rw [if_neg (by simp [h1])]

theorem clause_credit_redundant (ops : HostOps) (cl : Clause) (hg : cl.garbage = true)
    (h1 : cl.size ≠ 1) (hr : cl.redundant = true) :
    clause_credit ops cl = (1, 0, 0, -(ops.bytes cl.size : Int), -1, -(cl.size : Int), 0) := by
  unfold clause_credit
  rw [if_pos ⟨hg, h1⟩, if_pos hr]

theorem clause_credit_irredundant (ops : HostOps) (cl : Clause) (hg : cl.garbage = true)
    (h1 : cl.size ≠ 1) (hr : cl.redundant = false) :
    clause_credit ops cl =
      (0, 1, (cl.size : Int), -(ops.bytes cl.size : Int), -1, -(cl.size : Int), 0) := by
  unfold clause_credit
  rw [if_pos ⟨hg, h1⟩, if_neg (by simp [hr])]

theorem mark_garbage_settled (ops : HostOps) (s : Internal) (c : Nat) (hc : c < s.heap.length) :
    settled_accounting ops (mark_garbage ops s c) = settled_accounting ops s := by
  cases hg : (s.deref c).garbage with
  | true => rw [mark_garbage_of_garbage ops s c hg]
  | false =>
    apply settled_accounting_step ops s _ c hc (mark_garbage_heap_length ops s c)
      (fun p hp => mark_garbage_deref_other ops s c p hp)
    have hd := mark_garbage_deref ops s c hc hg
    have hg1 : ((mark_garbage ops s c).deref c).garbage = true := by
      rw [hd]; split <;> rfl
    have hsz : ((mark_garbage ops s c).deref c).size = (s.deref c).size := by
      rw [hd]; split <;> rfl
    have hrd : ((mark_garbage ops s c).deref c).redundant = (s.deref c).redundant := by
      rw [hd]; split <;> rfl
    have hs := mark_garbage_stats ops s c hg
    rw [clause_credit_active ops _ hg, hs]
    by_cases h1 : (s.deref c).size = 1
    · rw [clause_credit_unit ops _ (by rw [hsz]; exact h1), if_pos h1]
    · rw [if_neg h1]
      cases h2 : (s.deref c).redundant with
      | true =>
        rw [clause_credit_redundant ops _ hg1 (by rw [hsz]; exact h1) (by rw [hrd]; exact h2),
          hsz]
        simp only [if_true, IStats.accounting, Prod.mk_add_mk, add_zero, Prod.mk.injEq]
        refine ⟨?_, ?_, ?_, ?_, ?_, ?_, ?_⟩ <;> first | rfl | simp
      | false =>
        rw [clause_credit_irredundant ops _ hg1 (by rw [hsz]; exact h1) (by rw [hrd]; exact h2),
          hsz]
        simp only [Bool.false_eq_true, if_false, IStats.accounting, Prod.mk_add_mk, add_zero,
          Prod.mk.injEq]
        refine ⟨?_, ?_, ?_, ?_, ?_, ?_, ?_⟩ <;> first | rfl | simp

theorem mark_active_settled (ops : HostOps) (s : Internal) (c : Nat) (hc : c < s.heap.length) :
    settled_accounting ops (mark_active ops s c) = settled_accounting ops s := by
  cases hg : (s.deref c).garbage with
  | false => rw [mark_active_of_active ops s c hg]
  | true =>
    apply settled_accounting_step ops s _ c hc (mark_active_heap_length ops s c)
      (fun p hp => mark_active_deref_other ops s c p hp)
    have hd := mark_active_deref ops s c hc hg
    have hg1 : ((mark_active ops s c).deref c).garbage = false := by rw [hd]
    have hs := mark_active_stats ops s c hg
    rw [clause_credit_active ops _ hg1, hs]
    by_cases h1 : (s.deref c).size = 1
    · rw [clause_credit_unit ops _ h1, if_pos h1]
    · rw [if_neg h1]
      cases h2 : (s.deref c).redundant with
      | true =>
        rw [clause_credit_redundant ops _ hg h1 h2]
        simp only [if_true, IStats.accounting, Prod.mk_add_mk, add_zero, Prod.mk.injEq]
        refine ⟨?_, ?_, ?_, ?_, ?_, ?_, ?_⟩ <;> first | rfl | simp
      | false =>
        rw [clause_credit_irredundant ops _ hg h1 h2]
        simp only [Bool.false_eq_true, if_false, IStats.accounting, Prod.mk_add_mk, add_zero,
          Prod.mk.injEq]
        refine ⟨?_, ?_, ?_, ?_, ?_, ?_, ?_⟩ <;> first | rfl | simp

theorem settled_of_eq (ops : HostOps) (s t : Internal) (hh : t.heap = s.heap)
    (hs : t.stats = s.stats) : settled_accounting ops t = settled_accounting ops s := by
  unfold settled_accounting Internal.deref
  rw [hh, hs]

theorem mark_garbage_shape (ops : HostOps) (s : Internal) (c : Nat) (hc : c < s.heap.length) :
    ((mark_garbage ops s c).deref c).garbage = true ∧
    ((mark_garbage ops s c).deref c).literals = (s.deref c).literals ∧
    ((mark_garbage ops s c).deref c).redundant = (s.deref c).redundant := by
  cases hg : (s.deref c).garbage with
  | true => rw [mark_garbage_of_garbage ops s c hg]; exact ⟨hg, rfl, rfl⟩
  | false =>
    rw [mark_garbage_deref ops s c hc hg]
    split <;> exact ⟨rfl, rfl, rfl⟩

theorem mark_active_shape (ops : HostOps) (s : Internal) (c : Nat) (hc : c < s.heap.length) :
    ((mark_active ops s c).deref c).garbage = false ∧
    ((mark_active ops s c).deref c).literals = (s.deref c).literals ∧
    ((mark_active ops s c).deref c).redundant = (s.deref c).redundant := by
  cases hg : (s.deref c).garbage with
  | false => rw [mark_active_of_active ops s c hg]; exact ⟨hg, rfl, rfl⟩
  | true =>
    rw [mark_active_deref ops s c hc hg]
    exact ⟨rfl, rfl, rfl⟩

/-- One round of the loop of `restore_proof_garbage_marks`. -/
theorem restore_step_spec (ops : HostOps)
    (hw : ∀ s c, (ops.watch_clause s c).heap = s.heap ∧ (ops.watch_clause s c).stats = s.stats)
    (s : Internal) (c : Nat) (b : Bool) (hc : c < s.heap.length) (t : Internal)
    (ht : t = if b = false ∧ ((if b = true then mark_garbage ops s c
        else mark_active ops s c).deref c).size > 1
      then ops.watch_clause (if b = true then mark_garbage ops s c else mark_active ops s c) c
      else (if b = true then mark_garbage ops s c else mark_active ops s c)) :
    t.heap.length = s.heap.length ∧ (t.deref c).garbage = b ∧
    (∀ p, p ≠ c → t.deref p = s.deref p) ∧
    (t.deref c).literals = (s.deref c).literals ∧
    (t.deref c).redundant = (s.deref c).redundant ∧
    settled_accounting ops t = settled_accounting ops s ∧ t.stats.rest = s.stats.rest := by
  cases b with
  | true =>
    simp only [Bool.true_eq_false, false_and, if_false, if_true] at ht
    subst ht
    obtain ⟨a1, a2, a3⟩ := mark_garbage_shape ops s c hc
    exact ⟨mark_garbage_heap_length ops s c, a1,
      fun p hp => mark_garbage_deref_other ops s c p hp, a2, a3,
      mark_garbage_settled ops s c hc, mark_garbage_rest ops s c⟩
  | false =>
    simp only [Bool.false_eq_true, if_false, true_and] at ht
    obtain ⟨a1, a2, a3⟩ := mark_active_shape ops s c hc
    have base : (mark_active ops s c).heap.length = s.heap.length ∧
        ((mark_active ops s c).deref c).garbage = false ∧
        (∀ p, p ≠ c → (mark_active ops s c).deref p = s.deref p) ∧
        ((mark_active ops s c).deref c).literals = (s.deref c).literals ∧
        ((mark_active ops s c).deref c).redundant = (s.deref c).redundant ∧
        settled_accounting ops (mark_active ops s c) = settled_accounting ops s ∧
        (mark_active ops s c).stats.rest = s.stats.rest :=
      ⟨mark_active_heap_length ops s c, a1,
        fun p hp => mark_active_deref_other ops s c p hp, a2, a3,
        mark_active_settled ops s c hc, mark_active_rest ops s c⟩
    by_cases hsz : ((mark_active ops s c).deref c).size > 1
    · rw [if_pos hsz] at ht
      subst ht
      obtain ⟨w1, w2⟩ := hw (mark_active ops s c) c
      have hd : ∀ p, (ops.watch_clause (mark_active ops s c) c).deref p =
          (mark_active ops s c).deref p := deref_of_heap_eq _ _ w1
      obtain ⟨b1, b2, b3, b4, b5, b6, b7⟩ := base
      refine ⟨by rw [w1]; exact b1, by rw [hd]; exact b2, fun p hp => by rw [hd]; exact b3 p hp,
        by rw [hd]; exact b4, by rw [hd]; exact b5,
        by rw [settled_of_eq ops _ _ w1 w2]; exact b6, by rw [w2]; exact b7⟩
    · rw [if_neg hsz] at ht
      subst ht
      exact base

theorem last_deleted_cons (e : DrupperClause) (P : List DrupperClause) (c : Nat) (g : Bool) :
    (last_deleted (e :: P) c).getD g =
      (last_deleted P c).getD (if e.variant = Variant.CLAUSE (some c) then e.deleted else g) := by
  rw [last_deleted]
  cases h : last_deleted P c with
  | some b => rfl
  | none =>
    simp only [Option.getD_none]
    split <;> rfl

/-- The loop of `restore_proof_garbage_marks` over a log whose entries all
refer to allocated clauses. -/
theorem restore_marks_spec (ops : HostOps)
    (hw : ∀ s c, (ops.watch_clause s c).heap = s.heap ∧ (ops.watch_clause s c).stats = s.stats)
    (P : List DrupperClause) :
    ∀ s : Internal,
    (∀ e ∈ P, ∃ c, e.variant = Variant.CLAUSE (some c) ∧ c < s.heap.length) →
    ∃ t, restore_marks ops P s = some t ∧ t.heap.length = s.heap.length ∧
      (∀ p, (t.deref p).garbage = (last_deleted P p).getD (s.deref p).garbage) ∧
      (∀ p, (t.deref p).literals = (s.deref p).literals ∧
        (t.deref p).redundant = (s.deref p).redundant) ∧
      settled_accounting ops t = settled_accounting ops s ∧ t.stats.rest = s.stats.rest := by
  induction P with
  | nil =>
    intro s _
    exact ⟨s, rfl, rfl, fun p => rfl, fun p => ⟨rfl, rfl⟩, rfl, rfl⟩
  | cons e P ih =>
    intro s hall
    obtain ⟨c, hv, hc⟩ := hall e (List.mem_cons_self _ _)
    unfold restore_marks
    rw [hv]
    dsimp only
    obtain ⟨a1, a2, a3, a4, a5, a6, a7⟩ := restore_step_spec ops hw s c e.deleted hc _ rfl
    generalize (if e.deleted = false ∧ ((if e.deleted = true then mark_garbage ops s c
        else mark_active ops s c).deref c).size > 1
      then ops.watch_clause (if e.deleted = true then mark_garbage ops s c
        else mark_active ops s c) c
      else (if e.deleted = true then mark_garbage ops s c else mark_active ops s c)) = s2
      at a1 a2 a3 a4 a5 a6 a7
    obtain ⟨t, t1, t2, t3, t4, t5, t6⟩ := ih s2 (fun e1 he1 => by
      obtain ⟨c1, hv1, hc1⟩ := hall e1 (List.mem_cons_of_mem _ he1)
      exact ⟨c1, hv1, by rw [a1]; exact hc1⟩)
    refine ⟨t, t1, by rw [t2, a1], ?_, ?_, by rw [t5, a6], by rw [t6, a7]⟩
    · intro p
      rw [t3 p, last_deleted_cons, hv]
      by_cases hp : p = c
      · subst hp
        simp only [if_true, a2]
      · rw [a3 p hp]
        have : ¬ (Variant.CLAUSE (some c) = Variant.CLAUSE (some p)) := by
          intro h; injection h with h; injection h with h; exact hp h.symm
        rw [if_neg this]
    · intro p
      rw [(t4 p).1, (t4 p).2]
      by_cases hp : p = c
      · subst hp; exact ⟨a4, a5⟩
      · rw [a3 p hp]; exact ⟨rfl, rfl⟩

theorem clause_credit_congr (ops : HostOps) (a b : Clause) (hg : a.garbage = b.garbage)
    (hl : a.literals = b.literals) (hr : a.redundant = b.redundant) :
    clause_credit ops a = clause_credit ops b := by
  unfold clause_credit Clause.size
  rw [hg, hl, hr]

theorem IStats.eq_of_parts (a b : IStats) (h1 : a.accounting = b.accounting)
    (h2 : a.rest = b.rest) : a = b := by
  cases a
  cases b
  simp only [IStats.accounting, IStats.rest, Prod.mk.injEq] at h1 h2
  obtain ⟨a1, a2, a3, a4, a5, a6, a7⟩ := h1
  obtain ⟨b1, b2, b3, b4⟩ := h2
  subst a1 a2 a3 a4 a5 a6 a7 b1 b2 b3 b4
  rfl

/-- Two states with the same garbage flags, clause shapes and settled
accounting have the same counters. -/
theorem stats_of_settled (ops : HostOps) (s t : Internal) (hl : t.heap.length = s.heap.length)
    (hg : ∀ p, (t.deref p).garbage = (s.deref p).garbage)
    (hs : ∀ p, (t.deref p).literals = (s.deref p).literals ∧
      (t.deref p).redundant = (s.deref p).redundant)
    (hset : settled_accounting ops t = settled_accounting ops s)
    (hrest : t.stats.rest = s.stats.rest) : t.stats = s.stats := by
  apply IStats.eq_of_parts _ _ _ hrest
  unfold settled_accounting at hset
  rw [hl] at hset
  have hsum : (Finset.sum (Finset.range s.heap.length) fun p => clause_credit ops (t.deref p)) =
      Finset.sum (Finset.range s.heap.length) fun p => clause_credit ops (s.deref p) := by
    apply Finset.sum_congr rfl
    intro p _
    exact clause_credit_congr ops _ _ (hg p) (hs p).1 (hs p).2
  rw [hsum] at hset
  exact add_right_cancel hset

/-- The optional `mark_garbage` of `failed_constraint` or `final_conflict`. -/
theorem mark_garbage_opt_spec (ops : HostOps) (t : Internal) (o : Option Nat)
    (ho : ∀ c, o = some c → c < t.heap.length) :
    (mark_garbage_opt ops t o).heap.length = t.heap.length ∧
    (∀ p, ((mark_garbage_opt ops t o).deref p).garbage =
      if o = some p then true else (t.deref p).garbage) ∧
    (∀ p, ((mark_garbage_opt ops t o).deref p).literals = (t.deref p).literals ∧
      ((mark_garbage_opt ops t o).deref p).redundant = (t.deref p).redundant) ∧
    settled_accounting ops (mark_garbage_opt ops t o) = settled_accounting ops t ∧
    (mark_garbage_opt ops t o).stats.rest = t.stats.rest := by
  cases o with
  | none =>
    exact ⟨rfl, fun p => by simp [mark_garbage_opt], fun p => ⟨rfl, rfl⟩, rfl, rfl⟩
  | some c =>
    unfold mark_garbage_opt
    have hc := ho c rfl
    obtain ⟨a1, a2, a3⟩ := mark_garbage_shape ops t c hc
    refine ⟨mark_garbage_heap_length ops t c, ?_, ?_, mark_garbage_settled ops t c hc,
      mark_garbage_rest ops t c⟩
    · intro p
      by_cases hp : p = c
      · subst hp; simp [a1]
      · have : ¬ (some c = some p) := fun h => hp (Option.some.inj h).symm
        dsimp only
        rw [if_neg this, mark_garbage_deref_other ops t c p hp]
    · intro p
      by_cases hp : p = c
      · subst hp; exact ⟨a2, a3⟩
      · dsimp only
        rw [mark_garbage_deref_other ops t c p hp]; exact ⟨rfl, rfl⟩

/-- C22 as stated fails in two ways.  With `overconstrained` set, the first
`restore_proof_garbage_marks` clears `final_conflict`, and a second one finds
it null where it calls `mark_garbage (final_conflict)`.  And when the failed
constraint is a clause whose last entry in the log is a derivation, the
clause ends up garbage although that entry is not a deletion. -/
theorem restore_marks_counterexample :
    (∀ e ∈ overconstrainedState.proof, ∃ c, e.variant = Variant.CLAUSE (some c)) ∧
    overconstrainedState.overconstrained = true ∧
    (∃ d1, restore_proof_garbage_marks exampleOps overconstrainedState = some d1 ∧
      d1.final_conflict = none ∧ restore_proof_garbage_marks exampleOps d1 = none) ∧
    (∀ e ∈ constraintState.proof, ∃ c, e.variant = Variant.CLAUSE (some c)) ∧
    last_deleted constraintState.proof 0 = some false ∧
    (∃ d1, restore_proof_garbage_marks exampleOps constraintState = some d1 ∧
      (d1.internal.deref 0).garbage = true) := by
  refine ⟨?_, rfl, ⟨_, rfl, rfl, ?_⟩, ?_, by decide, ⟨_, rfl, ?_⟩⟩
  · intro e he
    simp only [overconstrainedState, List.mem_cons, List.mem_singleton, List.not_mem_nil,
      or_false] at he
    rcases he with rfl | rfl
    · exact ⟨0, rfl⟩
    · exact ⟨1, rfl⟩
  · rfl
  · intro e he
    simp only [constraintState, List.mem_singleton] at he
    subst he
    exact ⟨0, rfl⟩
  · rfl

/-- C22, amended: for a log in which every entry refers to an allocated
clause, with `failed_constraint` and (when `overconstrained`) `final_conflict`
allocated clauses whose last entry in the log, if any, is a deletion, and the
host's `watch_clause` leaving clauses and counters alone,
`restore_proof_garbage_marks` succeeds; afterwards each clause referenced by
the log has `garbage` equal to the `deleted` flag of the last entry that
refers to it, `failed_constraint` and, when `overconstrained`,
`final_conflict` are garbage, and both are null.  When `overconstrained` is
not set, a second application succeeds and changes no garbage flag and no
host counter; when it is set, the second application fails on the null
`final_conflict`. -/
theorem restore_proof_garbage_marks_spec (ops : HostOps)
    (hw : ∀ s c, (ops.watch_clause s c).heap = s.heap ∧ (ops.watch_clause s c).stats = s.stats)
    (d : Drupper)
    (hall : ∀ e ∈ d.proof, ∃ c, e.variant = Variant.CLAUSE (some c) ∧ c < d.internal.heap.length)
    (hfc : ∀ c, d.failed_constraint = some c →
      c < d.internal.heap.length ∧ last_deleted d.proof c ≠ some false)
    (hfin : d.overconstrained = true → ∃ c, d.final_conflict = some c ∧
      c < d.internal.heap.length ∧ last_deleted d.proof c ≠ some false) :
    ∃ d1, restore_proof_garbage_marks ops d = some d1 ∧
      (∀ c b, last_deleted d.proof c = some b → (d1.internal.deref c).garbage = b) ∧
      (∀ c, d.failed_constraint = some c → (d1.internal.deref c).garbage = true) ∧
      (d.overconstrained = true →
        ∀ c, d.final_conflict = some c → (d1.internal.deref c).garbage = true) ∧
      d1.final_conflict = none ∧ d1.failed_constraint = none ∧ d1.proof = d.proof ∧
      (d.overconstrained = false →
        ∃ d2, restore_proof_garbage_marks ops d1 = some d2 ∧
          (∀ p, (d2.internal.deref p).garbage = (d1.internal.deref p).garbage) ∧
          d2.internal.stats = d1.internal.stats) ∧
      (d.overconstrained = true → restore_proof_garbage_marks ops d1 = none) := by
  obtain ⟨t, t1, t2, t3, t4, t5, t6⟩ := restore_marks_spec ops hw d.proof d.internal hall
  obtain ⟨f1, f2, f3, f4, f5⟩ := mark_garbage_opt_spec ops t d.failed_constraint
    (fun c hc => by rw [t2]; exact (hfc c hc).1)
  generalize hs1 : mark_garbage_opt ops t d.failed_constraint = s1 at f1 f2 f3 f4 f5
  -- the flags after the loop and the mark of the failed constraint
  have hflag1 : ∀ c b, last_deleted d.proof c = some b → (s1.deref c).garbage = b := by
    intro c b hb
    rw [f2 c]
    by_cases hc : d.failed_constraint = some c
    · rw [if_pos hc]
      have := (hfc c hc).2
      rw [hb] at this
      cases b with
      | true => rfl
      | false => exact absurd rfl this
    · rw [if_neg hc, t3 c, hb]; rfl
  cases hov : d.overconstrained with
  | false =>
    have hres : restore_proof_garbage_marks ops d =
        some { d with internal := s1, final_conflict := none, failed_constraint := none,
                      isolated := false } := by
      unfold restore_proof_garbage_marks
      rw [t1]
      dsimp only
      rw [hov, hs1]
      rfl
    refine ⟨_, hres, hflag1, ?_, (fun h => by cases h), rfl, rfl, rfl, fun _ => ?_,
      (fun h => by cases h)⟩
    · intro c hc
      rw [f2 c, if_pos hc]
    · obtain ⟨u, u1, u2, u3, u4, u5, u6⟩ := restore_marks_spec ops hw d.proof s1
        (fun e he => by
          obtain ⟨c, hv, hc⟩ := hall e he
          exact ⟨c, hv, by rw [f1, t2]; exact hc⟩)
      have hflags : ∀ p, (u.deref p).garbage = (s1.deref p).garbage := by
        intro p
        rw [u3 p]
        cases hl : last_deleted d.proof p with
        | none => rfl
        | some b => rw [hflag1 p b hl]; rfl
      refine ⟨{ d with internal := u, final_conflict := none, failed_constraint := none,
                       isolated := false }, ?_, hflags, ?_⟩
      · unfold restore_proof_garbage_marks
        dsimp only
        rw [u1]
        dsimp only
        rw [hov]
        rfl
      · exact stats_of_settled ops s1 u u2 hflags u4 u5 u6
  | true =>
    obtain ⟨fin, hfc1, hfc2, hfc3⟩ := hfin hov
    obtain ⟨g1, g2, g3, g4, g5⟩ := mark_garbage_opt_spec ops s1 (some fin)
      (fun c hc => by
        rw [f1, t2]
        have : c = fin := (Option.some.inj hc).symm
        rw [this]; exact hfc2)
    have hmg : mark_garbage_opt ops s1 (some fin) = mark_garbage ops s1 fin := rfl
    rw [hmg] at g1 g2 g3 g4 g5
    have hres : restore_proof_garbage_marks ops d =
        some { d with internal := mark_garbage ops s1 fin, final_conflict := none,
                      failed_constraint := none, isolated := false } := by
      unfold restore_proof_garbage_marks
      rw [t1]
      dsimp only
      rw [hov, hs1, hfc1]
      rfl
    refine ⟨_, hres, ?_, ?_, ?_, rfl, rfl, rfl, (fun h => by cases h), fun _ => ?_⟩
    · intro c b hb
      show ((mark_garbage ops s1 fin).deref c).garbage = b
      rw [g2 c]
      by_cases hc : some fin = some c
      · rw [if_pos hc]
        have hcf : fin = c := Option.some.inj hc
        subst hcf
        rw [hb] at hfc3
        cases b with
        | true => rfl
        | false => exact absurd rfl hfc3
      · rw [if_neg hc]; exact hflag1 c b hb
    · intro c hc
      show ((mark_garbage ops s1 fin).deref c).garbage = true
      rw [g2 c]
      by_cases hcf : some fin = some c
      · rw [if_pos hcf]
      · rw [if_neg hcf, f2 c, if_pos hc]
    · intro _ c hc
      show ((mark_garbage ops s1 fin).deref c).garbage = true
      rw [g2 c, if_pos (by rw [← hfc1, hc])]
    · obtain ⟨u, u1, -⟩ := restore_marks_spec ops hw d.proof (mark_garbage ops s1 fin)
        (fun e he => by
          obtain ⟨c, hv, hc⟩ := hall e he
          exact ⟨c, hv, by rw [g1, f1, t2]; exact hc⟩)
      unfold restore_proof_garbage_marks
      dsimp only
      rw [u1]
      dsimp only
      rw [hov]
      rfl

/-- The restoration on the example state after `add_derived_clause` and
`delete_clause` of clause 0: clause 0 is garbage afterwards, and a second
application changes nothing. -/
theorem restore_proof_garbage_marks_spec_witness :
    ∃ d1, restore_proof_garbage_marks exampleOps deletedState = some d1 ∧
      (d1.internal.deref 0).garbage = true ∧
      ∃ d2, restore_proof_garbage_marks exampleOps d1 = some d2 ∧
        (∀ p, (d2.internal.deref p).garbage = (d1.internal.deref p).garbage) ∧
        d2.internal.stats = d1.internal.stats := by
  obtain ⟨d1, h1, h2, -, -, -, -, -, h8, -⟩ :=
    restore_proof_garbage_marks_spec exampleOps (fun _ _ => ⟨rfl, rfl⟩) deletedState
      (by
        have hp : deletedState.proof =
            [{ deleted := false, revive_at := 0, variant := Variant.CLAUSE (some 0) },
             { deleted := true, revive_at := 1, variant := Variant.CLAUSE (some 0) }] := by
          decide
        intro e he
        rw [hp] at he
        simp only [List.mem_cons, List.mem_singleton, List.not_mem_nil, or_false] at he
        rcases he with rfl | rfl <;> exact ⟨0, rfl, by decide⟩)
      (fun c hc => by cases hc) (fun h => by cases h)
  exact ⟨d1, h1, h2 0 true (by decide), h8 rfl⟩

/-! ## A second `trim` -/

theorem reconstruct_pop_final_conflict (n : Nat) : ∀ d d1 : Drupper,
    reconstruct_pop n d = some d1 → d1.final_conflict = d.final_conflict := by
  induction n with
  | zero =>
    intro d d1 hr
    injection hr with hr
    rw [← hr]
  | succ n ih =>
    intro d d1 hr
    unfold reconstruct_pop at hr
    split at hr
    · cases hr
    · split at hr
      · cases hr
      · dsimp only at hr
        have := ih _ d1 hr
        exact this

theorem reconstruct_entry_final_conflict (d d1 : Drupper) (i : Nat)
    (hr : reconstruct_entry d i = some d1) : d1.final_conflict = d.final_conflict := by
  unfold reconstruct_entry at hr
  dsimp only at hr
  split at hr
  · split at hr
    · cases hr
    · split at hr
      · split at hr
        · injection hr with hr
          rw [← hr]
          rfl
        · cases hr
      · injection hr with hr
        rw [← hr]
        rfl
  · injection hr with hr
    rw [← hr]

theorem reconstruct_entries_final_conflict (l : List Nat) : ∀ d d1 : Drupper,
    reconstruct_entries l d = some d1 → d1.final_conflict = d.final_conflict := by
  induction l with
  | nil =>
    intro d d1 hr
    injection hr with hr
    rw [← hr]
  | cons a l ih =>
    intro d d1 hr
    unfold reconstruct_entries at hr
    cases he : reconstruct_entry d a with
    | none => rw [he] at hr; cases hr
    | some d2 =>
      rw [he] at hr
      exact (ih d2 d1 hr).trans (reconstruct_entry_final_conflict d d2 a he)

theorem reconstruct_final_conflict (ops : HostOps) (d d1 : Drupper) (n : Nat)
    (hr : reconstruct ops d n = some d1) : d1.final_conflict = d.final_conflict := by
  unfold reconstruct at hr
  dsimp only at hr
  split at hr
  · cases hr
  · next d2 hd2 =>
    have h2 : d2.final_conflict = d.final_conflict := by
      split at hd2
      · have := reconstruct_pop_final_conflict _ _ d2 hd2
        exact this
      · injection hd2 with hd2
        rw [← hd2]
    split at hr
    · cases hr
    · next d3 hd3 =>
      injection hr with hr
      rw [← hr]
      exact (reconstruct_entries_final_conflict _ _ d3 hd3).trans h2

theorem restore_proof_garbage_marks_clears (ops : HostOps) (d d1 : Drupper)
    (h : restore_proof_garbage_marks ops d = some d1) :
    d1.final_conflict = none ∧ d1.failed_constraint = none := by
  unfold restore_proof_garbage_marks at h
  split at h
  · cases h
  · dsimp only at h
    split at h
    · split at h
      · injection h with h; subst h; exact ⟨rfl, rfl⟩
      · cases h
    · injection h with h; subst h; exact ⟨rfl, rfl⟩

/-- Whatever the host routines do, a `trim` that ran to its end leaves
`final_conflict` null and `internal->unsat` as it was on entry, and on a host
that is UNSAT `mark_conflict` then has no final conflict to mark. -/
theorem trim_finish_clears_final_conflict (ops : HostOps)
    (search_assign : Internal → Int → Nat → Internal) (propagate : Internal → Internal)
    (failing : Drupper → Drupper) (unsat0 : Bool) (proof_sz : Nat) (d d1 : Drupper)
    (h : trim_finish ops search_assign propagate unsat0 proof_sz d = some d1) :
    d1.final_conflict = none ∧ d1.internal.unsat = unsat0 ∧
    (unsat0 = true → mark_conflict ops failing d1 = none) := by
  unfold trim_finish at h
  split at h
  · cases h
  · next d0 hd0 =>
    obtain ⟨c1, -⟩ := restore_proof_garbage_marks_clears ops d d0 hd0
    dsimp only at h
    have k1 : ∀ x : Drupper,
        (if x.settings.unmark_core = true then unmark_core x else x).final_conflict =
          x.final_conflict := by
      intro x; split <;> rfl
    have k2 : ∀ x y : Drupper,
        (if x.settings.reconstruct = true then reconstruct ops x proof_sz else some x) = some y →
          y.final_conflict = x.final_conflict := by
      intro x y hxy
      split at hxy
      · exact reconstruct_final_conflict ops x y proof_sz hxy
      · injection hxy with hxy
        rw [← hxy]
    split at h
    · cases h
    · next d3 hd3 =>
      injection h with h
      have hfc : d1.final_conflict = none := by
        rw [← h]
        exact (k2 _ d3 hd3).trans ((k1 d0).trans c1)
      have hun : d1.internal.unsat = unsat0 := by rw [← h]
      refine ⟨hfc, hun, fun hu => ?_⟩
      unfold mark_conflict
      rw [hun, hu, if_pos rfl, hfc]

/-- C21 at the failing input, the formula `(1)`, `(-1)`: the first `trim`
finds its final conflict, its last steps clear `final_conflict` and restore
`internal->unsat`, and `mark_conflict` of a second `trim` (with
`reconstruct = false`) has no final conflict to mark. -/
theorem second_trim_has_no_final_conflict :
    (mark_conflict exampleOps id refutedState).isSome = true ∧
    trimmedState.settings.reconstruct = false ∧
    ∃ d1, trim_finish exampleOps (fun s _ _ => s) id true 0 trimmedState = some d1 ∧
      d1.internal.unsat = true ∧ d1.validating = false ∧ d1.isolated = false ∧
      d1.final_conflict = none ∧ mark_conflict exampleOps id d1 = none := by
  refine ⟨rfl, rfl, _, rfl, rfl, rfl, rfl, rfl, rfl⟩

theorem mark_core_deref (s : Internal) (c p : Nat) :
    (mark_core s c).deref p =
      if p = c ∧ c < s.heap.length then { s.deref c with drup_core := true } else s.deref p := by
  unfold mark_core
  rw [deref_modify]

theorem SameTrail.same_refl (s : Internal) : SameTrail s s :=
  ⟨rfl, rfl, rfl, fun _ => rfl, fun _ h => h⟩

theorem SameTrail.same_trans {s t u : Internal} (h1 : SameTrail s t) (h2 : SameTrail t u) :
    SameTrail s u :=
  ⟨h2.vtab.trans h1.vtab, h2.trail.trans h1.trail, h2.heap.trans h1.heap,
    fun p => (h2.literals p).trans (h1.literals p), fun p h => h2.core p (h1.core p h)⟩

theorem mark_core_same (s : Internal) (c : Nat) : SameTrail s (mark_core s c) := by
  refine ⟨rfl, rfl, by unfold mark_core; rw [modify_heap_length], ?_, ?_⟩
  · intro p
    rw [mark_core_deref]
    split
    · next h => rw [h.1]
    · rfl
  · intro p hp
    rw [mark_core_deref]
    split
    · rfl
    · exact hp

theorem mark_core_opt_same (s : Internal) (o : Option Nat) : SameTrail s (mark_core_opt s o) := by
  cases o with
  | none => exact SameTrail.same_refl s
  | some c => exact mark_core_same s c

theorem mark_core_opt_core (s : Internal) (o : Option Nat) (p : Nat) :
    ((mark_core_opt s o).deref p).drup_core = true ↔
      (s.deref p).drup_core = true ∨ (p < s.heap.length ∧ o = some p) := by
  cases o with
  | none => simp [mark_core_opt]
  | some c =>
    unfold mark_core_opt
    dsimp only
    rw [mark_core_deref]
    by_cases h : p = c ∧ c < s.heap.length
    · rw [if_pos h]
      obtain ⟨h1, h2⟩ := h
      subst h1
      simp [h2]
    · rw [if_neg h]
      constructor
      · intro hp; exact Or.inl hp
      · rintro (hp | ⟨hp1, hp2⟩)
        · exact hp
        · exfalso
          have : c = p := Option.some.inj hp2
          exact h ⟨this.symm, by rw [this]; exact hp1⟩

theorem mark_core_opt_propagated (s : Internal) (o : Option Nat) :
    (mark_core_opt s o).propagated = s.propagated := by
  cases o <;> rfl

/-- The marks added by `mark_reasons`. -/
theorem mark_reasons_spec (L : List Int) :
    ∀ s : Internal, SameTrail s (mark_reasons s L) ∧
      (mark_reasons s L).propagated = s.propagated ∧
      ∀ p, ((mark_reasons s L).deref p).drup_core = true ↔
        (s.deref p).drup_core = true ∨
          (p < s.heap.length ∧ ∃ l ∈ L, (s.var l).reason = some p) := by
  induction L with
  | nil =>
    intro s
    exact ⟨SameTrail.same_refl s, rfl, fun p => by simp [mark_reasons]⟩
  | cons a L ih =>
    intro s
    have h0 := mark_core_opt_same s (s.var a).reason
    obtain ⟨i1, i2, i3⟩ := ih (mark_core_opt s (s.var a).reason)
    have he : mark_reasons s (a :: L) = mark_reasons (mark_core_opt s (s.var a).reason) L := rfl
    rw [he]
    refine ⟨h0.same_trans i1, by rw [i2, mark_core_opt_propagated], ?_⟩
    intro p
    rw [i3 p, mark_core_opt_core, h0.heap]
    have hv : ∀ l, ((mark_core_opt s (s.var a).reason).var l).reason = (s.var l).reason := by
      intro l
      exact congrArg (fun f => (f l.natAbs).reason) h0.vtab
    constructor
    · rintro ((h | ⟨h1, h2⟩) | ⟨h1, l, hl, h2⟩)
      · exact Or.inl h
      · exact Or.inr ⟨h1, a, List.mem_cons_self _ _, h2⟩
      · exact Or.inr ⟨h1, l, List.mem_cons_of_mem _ hl, by rw [← hv]; exact h2⟩
    · rintro (h | ⟨h1, l, hl, h2⟩)
      · exact Or.inl (Or.inl h)
      · rcases List.mem_cons.1 hl with rfl | hl
        · exact Or.inl (Or.inr ⟨h1, h2⟩)
        · exact Or.inr ⟨h1, l, hl, by rw [hv]; exact h2⟩

theorem SameTrail.var_eq {s t : Internal} (h : SameTrail s t) (l : Int) : t.var l = s.var l :=
  congrArg (fun f => f l.natAbs) h.vtab

theorem var_of_natAbs (s : Internal) {a b : Int} (h : a.natAbs = b.natAbs) : s.var a = s.var b := by
  unfold Internal.var
  rw [h]

theorem TrailReasons.transport_reasons {s t : Internal} (H : TrailReasons s) (h : SameTrail s t) :
    TrailReasons t := by
  obtain ⟨H1, H2⟩ := H
  refine ⟨?_, ?_⟩
  · rw [h.trail]; exact H1
  · rw [h.trail]
    intro i hi
    obtain ⟨r, h1, h2, h3, h4⟩ := H2 i hi
    refine ⟨r, by rw [h.var_eq]; exact h1, by rw [h.heap]; exact h2,
      by rw [h.literals]; exact h3, ?_⟩
    rw [h.literals]; exact h4

theorem TrailReasons.reason_inj {s : Internal} (H : TrailReasons s) {i k : Nat}
    (hi : i < s.trail.length) (hk : k < s.trail.length)
    (h : (s.var (s.trail.getD i 0)).reason = (s.var (s.trail.getD k 0)).reason) : i = k := by
  obtain ⟨r, h1, _, h3, _⟩ := H.2 i hi
  obtain ⟨q, k1, _, k3, _⟩ := H.2 k hk
  rw [h1, k1] at h
  have hrq : r = q := Option.some.inj h
  subst hrq
  rw [h3] at k3
  have := Option.some.inj k3
  exact H.1 i k hi hk (by rw [this])

theorem TrailReasons.lit_pos {s : Internal} (H : TrailReasons s) {i r : Nat}
    (hi : i < s.trail.length) (hr : (s.var (s.trail.getD i 0)).reason = some r) {l : Int}
    (hl : l ∈ (s.deref r).literals) :
    ∃ k, k ≤ i ∧ l.natAbs = (s.trail.getD k 0).natAbs := by
  obtain ⟨q, h1, _, h3, h4⟩ := H.2 i hi
  rw [hr] at h1
  have hrq : r = q := Option.some.inj h1
  subst hrq
  cases hL : (s.deref r).literals with
  | nil => rw [hL] at hl; cases hl
  | cons a L =>
    rw [hL] at hl h3 h4
    rcases List.mem_cons.1 hl with rfl | hl
    · exact ⟨i, le_refl _, by rw [Option.some.inj h3]⟩
    · obtain ⟨k, hk, hk2⟩ := h4 l hl
      exact ⟨k, le_of_lt hk, by rw [hk2, Int.natAbs_neg]⟩

/-- Every literal of the reason of a trail literal has an allocated reason,
the reason of a trail literal at a position not above. -/
theorem TrailReasons.lit_reason {s : Internal} (H : TrailReasons s) {i r : Nat}
    (hi : i < s.trail.length) (hr : (s.var (s.trail.getD i 0)).reason = some r) {l : Int}
    (hl : l ∈ (s.deref r).literals) :
    ∃ k q, k ≤ i ∧ (s.var l).reason = some q ∧ q < s.heap.length ∧
      (s.var (s.trail.getD k 0)).reason = some q := by
  obtain ⟨k, hk, hab⟩ := H.lit_pos hi hr hl
  obtain ⟨q, h1, h2, _, _⟩ := H.2 k (lt_of_le_of_lt hk hi)
  exact ⟨k, q, hk, by rw [var_of_natAbs s hab]; exact h1, h2, h1⟩

theorem reason_core_congr {s t : Internal} (h : SameTrail s t) (i : Nat) :
    reason_core t i ↔
      ∃ r, (s.var (s.trail.getD i 0)).reason = some r ∧ (t.deref r).drup_core = true := by
  unfold reason_core
  rw [h.trail, h.var_eq]

/-- One step of the loop of `mark_core_trail_antecedents`. -/
theorem mark_antecedents_at_spec (t : Internal) (H : TrailReasons t) (q : Nat)
    (hq : q < t.trail.length) :
    SameTrail t (mark_antecedents_at t q) ∧
    (∀ i, q ≤ i → i < t.trail.length →
      (reason_core (mark_antecedents_at t q) i ↔ reason_core t i)) ∧
    (reason_core t q → (mark_antecedents_at t q).propagated = q ∧
      AntecedentsClosed (mark_antecedents_at t q) q) ∧
    (¬ reason_core t q → mark_antecedents_at t q = t) := by
  obtain ⟨r, h1, h2, h3, h4⟩ := H.2 q hq
  by_cases hc : (t.deref r).drup_core = true
  · obtain ⟨m1, m2, m3⟩ := mark_reasons_spec (t.deref r).literals t
    have he : mark_antecedents_at t q =
        { mark_reasons t (t.deref r).literals with propagated := q } := by
      unfold mark_antecedents_at
      rw [h1]
      dsimp only
      rw [if_pos hc]
    have hs : SameTrail t (mark_antecedents_at t q) := by
      rw [he]
      exact ⟨m1.vtab, m1.trail, m1.heap, m1.literals, m1.core⟩
    have hd : ∀ p, ((mark_antecedents_at t q).deref p).drup_core =
        ((mark_reasons t (t.deref r).literals).deref p).drup_core := by
      intro p; rw [he]; rfl
    refine ⟨hs, ?_, ?_, ?_⟩
    · intro i hqi hi
      rw [reason_core_congr hs]
      unfold reason_core
      constructor
      · rintro ⟨p, hp1, hp2⟩
        refine ⟨p, hp1, ?_⟩
        rw [hd, m3] at hp2
        rcases hp2 with hp2 | ⟨_, l, hl, hl2⟩
        · exact hp2
        · obtain ⟨k, p2, hk, e1, _, e2⟩ := H.lit_reason hq h1 hl
          rw [hl2] at e1
          have hp : p = p2 := Option.some.inj e1
          subst hp
          have hik : i = k := H.reason_inj hi (lt_of_le_of_lt hk hq) (by rw [hp1, e2])
          have hiq : i = q := by omega
          subst hiq
          rw [h1] at hp1
          rw [← Option.some.inj hp1]
          exact hc
      · rintro ⟨p, hp1, hp2⟩
        exact ⟨p, hp1, hs.core p hp2⟩
    · intro _
      refine ⟨by rw [he], ?_⟩
      intro p hp1 _ l hl
      rw [hs.trail, hs.var_eq, h1] at hp1
      have hp : r = p := Option.some.inj hp1
      subst hp
      rw [hs.literals] at hl
      obtain ⟨k, p2, _, e1, e3, _⟩ := H.lit_reason hq h1 hl
      refine ⟨p2, by rw [hs.var_eq]; exact e1, ?_⟩
      rw [hd, m3]
      exact Or.inr ⟨e3, l, hl, e1⟩
    · intro hn
      exact absurd ⟨r, h1, hc⟩ hn
  · have he : mark_antecedents_at t q = t := by
      unfold mark_antecedents_at
      rw [h1]
      dsimp only
      rw [if_neg hc]
    rw [he]
    refine ⟨SameTrail.same_refl t, fun _ _ _ => Iff.rfl, ?_, fun _ => rfl⟩
    rintro ⟨p, hp1, hp2⟩
    rw [h1] at hp1
    rw [Option.some.inj hp1] at hc
    exact absurd hp2 hc

theorem AntecedentsClosed.preserved {t u : Internal} (h : SameTrail t u) {i : Nat}
    (hrc : reason_core u i → reason_core t i) (hc : AntecedentsClosed t i) :
    AntecedentsClosed u i := by
  intro r hr hcore l hl
  rw [h.trail, h.var_eq] at hr
  obtain ⟨r2, e1, e2⟩ := hrc ⟨r, by rw [h.trail, h.var_eq]; exact hr, hcore⟩
  rw [hr] at e1
  rw [← Option.some.inj e1] at e2
  rw [h.literals] at hl
  obtain ⟨q, q1, q2⟩ := hc r hr e2 l hl
  exact ⟨q, by rw [h.var_eq]; exact q1, h.core q q2⟩

/-- The loop of `mark_core_trail_antecedents`, run from position `j` down. -/
theorem mark_antecedents_loop_spec (p0 : Nat) : ∀ (j : Nat) (t : Internal), TrailReasons t →
    j ≤ t.trail.length → (∀ i, j ≤ i → i < t.trail.length → AntecedentsClosed t i) →
    PropagatedLeast p0 j t →
    SameTrail t (mark_antecedents_loop j t) ∧
    (∀ i, i < t.trail.length → AntecedentsClosed (mark_antecedents_loop j t) i) ∧
    PropagatedLeast p0 0 (mark_antecedents_loop j t) := by
  intro j
  induction j with
  | zero =>
    intro t _ _ hc hp
    exact ⟨SameTrail.same_refl t, fun i hi => hc i (Nat.zero_le _) hi, hp⟩
  | succ j ih =>
    intro t H hj hc hp
    have hq : j < t.trail.length := hj
    obtain ⟨hs, hst, hpos, hneg⟩ := mark_antecedents_at_spec t H j hq
    have hlen : (mark_antecedents_at t j).trail.length = t.trail.length := by rw [hs.trail]
    have hc2 : ∀ i, j ≤ i → i < (mark_antecedents_at t j).trail.length →
        AntecedentsClosed (mark_antecedents_at t j) i := by
      intro i hji hi
      rw [hlen] at hi
      rcases Nat.eq_or_lt_of_le hji with e | hlt
      · subst e
        by_cases hrc : reason_core t j
        · exact (hpos hrc).2
        · rw [hneg hrc]
          intro r hr hcore
          exact absurd ⟨r, hr, hcore⟩ hrc
      · exact AntecedentsClosed.preserved hs (hst i hji hi).1 (hc i hlt hi)
    have hp2 : PropagatedLeast p0 j (mark_antecedents_at t j) := by
      by_cases hrc : reason_core t j
      · have hrc2 := (hst j (le_refl _) hq).2 hrc
        refine ⟨fun hno => absurd hrc2 (hno j (le_refl _) (by rw [hlen]; exact hq)), ?_⟩
        intro m hjm _ _ hmin
        rcases Nat.eq_or_lt_of_le hjm with e | hlt
        · rw [← e]; exact (hpos hrc).1
        · exact absurd hrc2 (hmin j (le_refl _) hlt)
      · rw [hneg hrc]
        refine ⟨fun hno => hp.1 (fun i hi1 hi2 => hno i (by omega) hi2), ?_⟩
        intro m hjm hm hrm hmin
        have hne : m ≠ j := by
          rintro rfl
          exact hrc hrm
        exact hp.2 m (by omega) hm hrm (fun i hi1 hi2 => hmin i (by omega) hi2)
    obtain ⟨i1, i2, i3⟩ := ih (mark_antecedents_at t j) (H.transport_reasons hs)
      (by rw [hlen]; exact le_of_lt hq) hc2 hp2
    exact ⟨hs.same_trans i1, fun i hi => i2 i (by rw [hlen]; exact hi), i3⟩

/-- C28: on a trail in which each literal has a reason clause whose first
literal is that literal and whose other literals were assigned earlier,
`mark_core_trail_antecedents` changes nothing but core marks, which it only
adds, and `propagated`; afterwards, for every trail literal whose reason is
core, every literal of that reason clause has a core reason, and `propagated`
is the smallest trail index whose literal has a core reason (unchanged if no
trail literal has one). -/
theorem mark_core_trail_antecedents_closes (s : Internal) (H : TrailReasons s) :
    SameTrail s (mark_core_trail_antecedents s) ∧
    (∀ i, i < (mark_core_trail_antecedents s).trail.length →
      AntecedentsClosed (mark_core_trail_antecedents s) i) ∧
    PropagatedLeast s.propagated 0 (mark_core_trail_antecedents s) := by
  obtain ⟨h1, h2, h3⟩ := mark_antecedents_loop_spec s.propagated s.trail.length s H (le_refl _)
    (fun i h1 h2 => absurd h2 (not_lt.2 h1))
    ⟨fun _ => rfl, fun m h1 h2 => absurd h2 (not_lt.2 h1)⟩
  exact ⟨h1, fun i hi => h2 i (by rw [← h1.trail]; exact hi), h3⟩

theorem trailState_reasons : TrailReasons trailState := by
  have hlen : trailState.trail.length = 3 := rfl
  constructor
  · intro i j hi hj
    rw [hlen] at hi hj
    have hi3 : i = 0 ∨ i = 1 ∨ i = 2 := by omega
    have hj3 : j = 0 ∨ j = 1 ∨ j = 2 := by omega
    rcases hi3 with rfl | rfl | rfl <;> rcases hj3 with rfl | rfl | rfl <;> decide
  · intro i hi
    rw [hlen] at hi
    have hi3 : i = 0 ∨ i = 1 ∨ i = 2 := by omega
    rcases hi3 with rfl | rfl | rfl
    · exact ⟨0, rfl, by decide, rfl, fun l hl => by cases hl⟩
    · refine ⟨1, rfl, by decide, rfl, fun l hl => ?_⟩
      have : l = -1 := by simpa [trailState, Internal.deref] using hl
      subst this
      exact ⟨0, by decide, rfl⟩
    · refine ⟨2, rfl, by decide, rfl, fun l hl => ?_⟩
      have : l = -2 := by simpa [trailState, Internal.deref] using hl
      subst this
      exact ⟨1, by decide, rfl⟩

/-- On the trail `1, 2, 3` whose last reason is core, all three reasons end
core and `propagated` ends 0. -/
theorem mark_core_trail_antecedents_example :
    ((mark_core_trail_antecedents trailState).heap.map (fun c => c.drup_core) = [true, true, true]) ∧
    (mark_core_trail_antecedents trailState).propagated = 0 := by
  decide

theorem mark_core_trail_antecedents_closes_witness :
    TrailReasons trailState ∧
    SameTrail trailState (mark_core_trail_antecedents trailState) ∧
    (∀ i, i < (mark_core_trail_antecedents trailState).trail.length →
      AntecedentsClosed (mark_core_trail_antecedents trailState) i) ∧
    PropagatedLeast trailState.propagated 0 (mark_core_trail_antecedents trailState) :=
  ⟨trailState_reasons, mark_core_trail_antecedents_closes trailState trailState_reasons⟩

theorem undo_trail_example :
    (undo_trail_core clear_val fixedTrailState 1 3).map (fun r =>
      (r.2, r.1.internal.trail.map r.1.internal.vals,
        r.1.internal.trail.map (fun l => r.1.internal.fstatus l.natAbs),
        r.1.internal.heap.map (fun c => c.drup_core))) =
    some (1, [1, 0, 0], [FlagStatus.ACTIVE, FlagStatus.ACTIVE, FlagStatus.ACTIVE],
      [false, true, true]) := by
  decide

theorem mark_reasons_req_eq (L : List Int) : ∀ s : Internal,
    (∀ l ∈ L, (s.var l).reason ≠ none) → mark_reasons_req s L = some (mark_reasons s L) := by
  induction L with
  | nil => intro s _; rfl
  | cons a L ih =>
    intro s h
    cases hr : (s.var a).reason with
    | none => exact absurd hr (h a (List.mem_cons_self _ _))
    | some r =>
      have e1 : mark_reasons_req s (a :: L) = mark_reasons_req (mark_core s r) L := by
        rw [mark_reasons_req, hr]
      have e2 : mark_reasons s (a :: L) = mark_reasons (mark_core s r) L := by
        show mark_reasons (mark_core_opt s (s.var a).reason) L = _
        rw [hr]
        rfl
      rw [e1, e2]
      exact ih (mark_core s r) (fun l hl => h l (List.mem_cons_of_mem _ hl))

theorem mark_reasons_vals (L : List Int) : ∀ s : Internal,
    (mark_reasons s L).vals = s.vals ∧ (mark_reasons s L).fstatus = s.fstatus := by
  induction L with
  | nil => intro s; exact ⟨rfl, rfl⟩
  | cons a L ih =>
    intro s
    have e : mark_reasons s (a :: L) = mark_reasons (mark_core_opt s (s.var a).reason) L := rfl
    rw [e]
    obtain ⟨i1, i2⟩ := ih (mark_core_opt s (s.var a).reason)
    rw [i1, i2]
    cases (s.var a).reason <;> exact ⟨rfl, rfl⟩

/-- What `undo_trail_literal` does to the host state. -/
theorem undo_trail_literal_spec {unassign : Internal → Int → Internal}
    (hu : UnassignSpec unassign) (s : Internal) (l : Int) :
    SameTrail s (undo_trail_literal unassign s l) ∧
    (∀ m : Int, m.natAbs = l.natAbs → (undo_trail_literal unassign s l).vals m = 0) ∧
    (undo_trail_literal unassign s l).fstatus l.natAbs = FlagStatus.ACTIVE ∧
    (∀ m : Int, m.natAbs ≠ l.natAbs →
      (undo_trail_literal unassign s l).vals m = s.vals m ∧
      (undo_trail_literal unassign s l).fstatus m.natAbs = s.fstatus m.natAbs) := by
  unfold undo_trail_literal
  dsimp only
  generalize hs1 : (if s.fstatus l.natAbs ≠ FlagStatus.ACTIVE then reactivate_fixed s l else s) = s1
  have f1 : s1.vtab = s.vtab ∧ s1.trail = s.trail ∧ s1.heap = s.heap ∧ s1.vals = s.vals := by
    rw [← hs1]; split <;> exact ⟨rfl, rfl, rfl, rfl⟩
  have f2 : s1.fstatus l.natAbs = FlagStatus.ACTIVE := by
    rw [← hs1]
    split
    · simp [reactivate_fixed]
    · next h => exact not_not.1 h
  have f3 : ∀ m : Int, m.natAbs ≠ l.natAbs → s1.fstatus m.natAbs = s.fstatus m.natAbs := by
    intro m hm
    rw [← hs1]
    split
    · simp [reactivate_fixed, Function.update, hm]
    · rfl
  obtain ⟨g1, g2, g3, g4⟩ := f1
  have hderef : ∀ p, (unassign s1 l).deref p = s.deref p := by
    intro p
    unfold Internal.deref
    rw [hu.heap, g3]
  refine ⟨⟨by rw [hu.vtab, g1], by rw [hu.trail, g2], by rw [hu.heap, g3],
    fun p => by rw [hderef], fun p h => by rw [hderef]; exact h⟩, ?_, ?_, ?_⟩
  · intro m hm
    exact hu.cleared s1 l m hm
  · rw [hu.fstatus]; exact f2
  · intro m hm
    exact ⟨by rw [hu.others s1 l m hm, g4], by rw [hu.fstatus]; exact f3 m hm⟩

/-- What one round of the loop of `undo_trail_core` does. -/
theorem undo_trail_step_spec {unassign : Internal → Int → Internal}
    (hu : UnassignSpec unassign) (cu : Bool) (t : Internal) (l : Int) (r : Nat)
    (hr : r < t.heap.length)
    (hin : ∀ x ∈ (t.deref r).literals.tail, (t.var x).reason ≠ none) :
    ∃ s4, undo_trail_step unassign cu t l r = some s4 ∧ SameTrail t s4 ∧
      (∀ m : Int, m.natAbs = l.natAbs → s4.vals m = 0) ∧
      s4.fstatus l.natAbs = FlagStatus.ACTIVE ∧
      (∀ m : Int, m.natAbs ≠ l.natAbs →
        s4.vals m = t.vals m ∧ s4.fstatus m.natAbs = t.fstatus m.natAbs) ∧
      (cu = true → (s4.deref r).drup_core = true) := by
  obtain ⟨a1, a2, a3, a4⟩ := undo_trail_literal_spec hu t l
  generalize hs1 : undo_trail_literal unassign t l = s1 at a1 a2 a3 a4
  have hs2 : ∃ s2, (if cu then mark_core s1 r else s1) = s2 ∧ SameTrail s1 s2 ∧
      s2.vals = s1.vals ∧ s2.fstatus = s1.fstatus ∧ (cu = true → (s2.deref r).drup_core = true) := by
    refine ⟨_, rfl, ?_⟩
    cases cu with
    | false => exact ⟨SameTrail.same_refl s1, rfl, rfl, fun h => by cases h⟩
    | true =>
      refine ⟨mark_core_same s1 r, rfl, rfl, fun _ => ?_⟩
      show ((mark_core s1 r).deref r).drup_core = true
      rw [mark_core_deref, if_pos ⟨rfl, by rw [a1.heap]; exact hr⟩]
  obtain ⟨s2, e2, b1, b2, b3, b4⟩ := hs2
  have h12 := a1.same_trans b1
  have hin2 : ∀ x ∈ (s2.deref r).literals.tail, (s2.var x).reason ≠ none := by
    intro x hx
    rw [h12.literals] at hx
    rw [h12.var_eq]
    exact hin x hx
  have he : undo_trail_step unassign cu t l r =
      if (s2.deref r).drup_core then mark_reasons_req s2 (s2.deref r).literals.tail
      else some s2 := by
    unfold undo_trail_step
    dsimp only
    rw [hs1, e2]
  rw [he]
  by_cases hc : (s2.deref r).drup_core = true
  · rw [if_pos hc, mark_reasons_req_eq _ s2 hin2]
    obtain ⟨m1, _, _⟩ := mark_reasons_spec (s2.deref r).literals.tail s2
    obtain ⟨v1, v2⟩ := mark_reasons_vals (s2.deref r).literals.tail s2
    refine ⟨_, rfl, h12.same_trans m1, ?_, ?_, ?_, fun _ => m1.core r hc⟩
    · intro m hm; rw [v1, b2]; exact a2 m hm
    · rw [v2, b3]; exact a3
    · intro m hm; rw [v1, v2, b2, b3]; exact a4 m hm
  · rw [if_neg hc]
    refine ⟨_, rfl, h12, ?_, ?_, ?_, b4⟩
    · intro m hm; rw [b2]; exact a2 m hm
    · rw [b3]; exact a3
    · intro m hm; rw [b2, b3]; exact a4 m hm

theorem PoppedReasons.transport_popped {s t : Internal} {p n : Nat} (H : PoppedReasons s p n)
    (h : SameTrail s t) : PoppedReasons t p n := by
  intro k hk1 hk2
  obtain ⟨r, h1, h2, h3⟩ := H k hk1 hk2
  refine ⟨r, by rw [h.trail, h.var_eq]; exact h1, by rw [h.heap]; exact h2, ?_⟩
  intro x hx
  rw [h.literals] at hx
  rw [h.var_eq]
  exact h3 x hx

theorem get?_of_lt_length (xs : List Int) {n : Nat} (h : n < xs.length) :
    xs.get? n = some (xs.getD n 0) := by
  rw [List.get?_eq_getElem?, List.getD_eq_getElem?_getD, List.getElem?_eq_getElem h]
  rfl

/-- The loop of `undo_trail_core` stops at the position of `clit`. -/
theorem undo_trail_loop_spec {unassign : Internal → Int → Internal}
    (hu : UnassignSpec unassign) (cu : Bool) (clit : Int) (p : Nat) :
    ∀ (n : Nat) (t : Internal), TrailDistinct t → n ≤ t.trail.length → p < n →
    t.trail.getD p 0 = clit → PoppedReasons t p n →
    ∃ u, undo_trail_loop unassign cu clit n t = some (u, p) ∧ SameTrail t u ∧
      (∀ k, p ≤ k → k < n → u.vals (t.trail.getD k 0) = 0 ∧
        u.fstatus (t.trail.getD k 0).natAbs = FlagStatus.ACTIVE) ∧
      (∀ m : Int, (∀ k, p ≤ k → k < n → m.natAbs ≠ (t.trail.getD k 0).natAbs) →
        u.vals m = t.vals m ∧ u.fstatus m.natAbs = t.fstatus m.natAbs) ∧
      (cu = true → ∀ k, p < k → k < n →
        ∃ r, (t.var (t.trail.getD k 0)).reason = some r ∧ (u.deref r).drup_core = true) := by
  intro n
  induction n with
  | zero => intro t _ _ hp; exact absurd hp (Nat.not_lt_zero _)
  | succ n ih =>
    intro t hd hn hp hclit hr
    have hnl : n < t.trail.length := hn
    have hpl : p < t.trail.length := lt_of_lt_of_le hp hn
    rw [undo_trail_loop, get?_of_lt_length _ hnl]
    dsimp only
    by_cases hl : t.trail.getD n 0 = clit
    · rw [if_neg (not_not.2 hl)]
      have hnp : n = p := hd n p hnl hpl (by rw [hl, hclit])
      subst hnp
      obtain ⟨a1, a2, a3, a4⟩ := undo_trail_literal_spec hu t clit
      refine ⟨_, rfl, a1, ?_, ?_, ?_⟩
      · intro k hk1 hk2
        have hk : k = n := by omega
        subst hk
        rw [hl]
        exact ⟨a2 clit rfl, a3⟩
      · intro m hm
        exact a4 m (by rw [← hl]; exact hm n (le_refl _) (Nat.lt_succ_self _))
      · intro _ k hk1 hk2
        omega
    · rw [if_pos hl]
      have hpn : p < n := by
        rcases Nat.lt_or_ge p n with h | h
        · exact h
        · have : n = p := by omega
          subst this
          exact absurd hclit hl
      obtain ⟨r, r1, r2, r3⟩ := hr n hpn (Nat.lt_succ_self _)
      rw [r1]
      dsimp only
      obtain ⟨s4, e4, b1, b2, b3, b4, b5⟩ := undo_trail_step_spec hu cu t (t.trail.getD n 0) r r2 r3
      rw [e4]
      dsimp only
      have hd4 : TrailDistinct s4 := by
        unfold TrailDistinct
        rw [b1.trail]
        exact hd
      have hr4 : PoppedReasons s4 p n :=
        PoppedReasons.transport_popped (fun k hk1 hk2 => hr k hk1 (Nat.lt_succ_of_lt hk2)) b1
      obtain ⟨u, e5, c1, c2, c3, c4⟩ := ih s4 hd4 (by rw [b1.trail]; exact le_of_lt hnl) hpn
        (by rw [b1.trail]; exact hclit) hr4
      rw [b1.trail] at c2 c3 c4
      have hother : ∀ k, p ≤ k → k < n →
          (t.trail.getD n 0).natAbs ≠ (t.trail.getD k 0).natAbs := by
        intro k _ hk2 he
        have := hd n k hnl (lt_trans hk2 hnl) he
        omega
      refine ⟨u, e5, b1.same_trans c1, ?_, ?_, ?_⟩
      · intro k hk1 hk2
        rcases Nat.lt_or_ge k n with h | h
        · exact c2 k hk1 h
        · have hk : k = n := by omega
          subst hk
          obtain ⟨v1, v2⟩ := c3 (t.trail.getD k 0) hother
          exact ⟨by rw [v1]; exact b2 _ rfl, by rw [v2]; exact b3⟩
      · intro m hm
        obtain ⟨v1, v2⟩ := c3 m (fun k hk1 hk2 => hm k hk1 (Nat.lt_succ_of_lt hk2))
        obtain ⟨w1, w2⟩ := b4 m (hm n (le_of_lt hpn) (Nat.lt_succ_self _))
        exact ⟨by rw [v1, w1], by rw [v2, w2]⟩
      · intro hcu k hk1 hk2
        rcases Nat.lt_or_ge k n with h | h
        · obtain ⟨q, q1, q2⟩ := c4 hcu k hk1 h
          exact ⟨q, by rw [← b1.var_eq]; exact q1, q2⟩
        · have hk : k = n := by omega
          subst hk
          exact ⟨r, r1, c1.core r (b5 hcu)⟩

/-- C27: let no variable be on the trail twice, let the first literal of `c`
be on the trail at position `p < trail_sz`, and let every trail literal above
`p` and below `trail_sz` have an allocated reason whose further literals have
reasons.  Then `undo_trail_core (c, trail_sz)` returns with `trail_sz = p`; it
leaves the trail and the reasons alone and clears no core mark; every literal
at the positions `p` to the old `trail_sz - 1` is unassigned and active; every
literal at a position below `p` keeps its value; and with `core_units` the
reason of every popped literal above `p` is core. -/
theorem undo_trail_core_pops {unassign : Internal → Int → Internal}
    (hu : UnassignSpec unassign) (d : Drupper) (c p trail_sz : Nat)
    (hd : TrailDistinct d.internal) (hsz : trail_sz ≤ d.internal.trail.length)
    (hp : p < trail_sz) (hc : d.internal.trail.getD p 0 = (d.internal.deref c).lit0)
    (hr : PoppedReasons d.internal p trail_sz) :
    ∃ e, undo_trail_core unassign d c trail_sz = some (e, p) ∧
      SameTrail d.internal e.internal ∧
      (∀ k, p ≤ k → k < trail_sz →
        e.internal.val (d.internal.trail.getD k 0) = 0 ∧
        e.internal.fstatus (d.internal.trail.getD k 0).natAbs = FlagStatus.ACTIVE) ∧
      (∀ k, k < p →
        e.internal.val (d.internal.trail.getD k 0) = d.internal.val (d.internal.trail.getD k 0)) ∧
      (d.settings.core_units = true → ∀ k, p < k → k < trail_sz →
        ∃ r, (d.internal.var (d.internal.trail.getD k 0)).reason = some r ∧
          (e.internal.deref r).drup_core = true) := by
  obtain ⟨u, e1, c1, c2, c3, c4⟩ := undo_trail_loop_spec hu d.settings.core_units
    (d.internal.deref c).lit0 p trail_sz d.internal hd hsz hp hc hr
  refine ⟨{ d with internal := u }, ?_, c1, c2, ?_, c4⟩
  · unfold undo_trail_core
    rw [e1]
  · intro k hk
    refine (c3 (d.internal.trail.getD k 0) ?_).1
    intro j hj1 hj2 he
    have := hd k j (by omega) (by omega) he
    omega

theorem clear_val_spec : UnassignSpec clear_val :=
  ⟨fun s l m h => by simp [clear_val, h], fun s l m h => by simp [clear_val, h],
    fun _ _ => rfl, fun _ _ => rfl, fun _ _ => rfl, fun _ _ => rfl⟩

theorem fixedTrailState_distinct : TrailDistinct fixedTrailState.internal := by
  have hlen : fixedTrailState.internal.trail.length = 3 := rfl
  intro i j hi hj
  rw [hlen] at hi hj
  have hi3 : i = 0 ∨ i = 1 ∨ i = 2 := by omega
  have hj3 : j = 0 ∨ j = 1 ∨ j = 2 := by omega
  rcases hi3 with rfl | rfl | rfl <;> rcases hj3 with rfl | rfl | rfl <;> decide

theorem fixedTrailState_reasons : PoppedReasons fixedTrailState.internal 1 3 := by
  intro k hk1 hk2
  have hk : k = 2 := by omega
  subst hk
  refine ⟨2, rfl, by decide, fun x hx => ?_⟩
  have : x = -2 := by simpa [fixedTrailState, trailState, Internal.deref] using hx
  subst this
  decide

theorem undo_trail_core_pops_witness :
    UnassignSpec clear_val ∧ TrailDistinct fixedTrailState.internal ∧
    PoppedReasons fixedTrailState.internal 1 3 ∧
    ∃ e, undo_trail_core clear_val fixedTrailState 1 3 = some (e, 1) ∧
      SameTrail fixedTrailState.internal e.internal ∧
      (∀ k, 1 ≤ k → k < 3 →
        e.internal.val (fixedTrailState.internal.trail.getD k 0) = 0 ∧
        e.internal.fstatus (fixedTrailState.internal.trail.getD k 0).natAbs =
          FlagStatus.ACTIVE) ∧
      (∀ k, k < 1 →
        e.internal.val (fixedTrailState.internal.trail.getD k 0) =
          fixedTrailState.internal.val (fixedTrailState.internal.trail.getD k 0)) ∧
      (fixedTrailState.settings.core_units = true → ∀ k, 1 < k → k < 3 →
        ∃ r, (fixedTrailState.internal.var (fixedTrailState.internal.trail.getD k 0)).reason =
            some r ∧ (e.internal.deref r).drup_core = true) :=
  ⟨clear_val_spec, fixedTrailState_distinct, fixedTrailState_reasons,
    undo_trail_core_pops clear_val_spec fixedTrailState 1 1 3 fixedTrailState_distinct
      (by decide) (by decide) (by decide) fixedTrailState_reasons⟩

theorem TrailInv.transport_inv {s t : Internal} {mark : Int} (H : TrailInv s mark)
    (h : SameTrail s t) : TrailInv t mark := by
  refine ⟨H.mark_nonneg, ?_, ?_, ?_⟩
  · rw [h.trail]
    intro i hi
    rw [h.var_eq]
    exact H.indexed i hi
  · rw [h.trail]
    intro i hi hm
    obtain ⟨r, h1, h2, h3, h4⟩ := H.reasons i hi hm
    refine ⟨r, by rw [h.var_eq]; exact h1, by rw [h.heap]; exact h2,
      by rw [h.literals]; exact h3, ?_⟩
    rw [h.literals]; exact h4
  · rw [h.trail]
    intro i hi hm hl
    rw [h.var_eq] at hl ⊢
    rw [h.heap]
    exact H.level0 i hi hm hl

/-- A falsified literal has the table entry of the trail literal it
negates. -/
theorem TrailInv.var_of_falsified {s : Internal} {mark : Int} (H : TrailInv s mark) {k : Nat}
    {x : Int} (hk : k < s.trail.length) (hx : s.trail.getD k 0 = -x) :
    s.var x = s.var (s.trail.getD k 0) ∧ (s.var x).trail = (k : Int) := by
  have e : s.var x = s.var (s.trail.getD k 0) :=
    var_of_natAbs s (by rw [hx, Int.natAbs_neg])
  exact ⟨e, by rw [e]; exact H.indexed k hk⟩

theorem TrailInv.distinct {s : Internal} {mark : Int} (H : TrailInv s mark) {i j : Nat}
    (hi : i < s.trail.length) (hj : j < s.trail.length)
    (h : (s.trail.getD i 0).natAbs = (s.trail.getD j 0).natAbs) : i = j := by
  have e := var_of_natAbs s h
  have h1 := H.indexed i hi
  have h2 := H.indexed j hj
  rw [e, h2] at h1
  exact_mod_cast h1.symm

/-- What `analyze_literal` does on a falsified literal. -/
theorem analyze_literal_spec {mark : Int} (t : Internal) (H : TrailInv t mark) (x : Int)
    (hx : ∃ k, k < t.trail.length ∧ t.trail.getD k 0 = -x) :
    ∃ u, analyze_literal mark t x = some u ∧ SameTrail t u ∧
      (∀ v, u.seen v = true ↔ t.seen v = true ∨ (v = x.natAbs ∧ mark < (t.var x).trail)) ∧
      (¬ mark < (t.var x).trail → (t.var x).level = 0 → CoreReason u x) := by
  obtain ⟨k, hk, hkx⟩ := hx
  obtain ⟨e1, e2⟩ := H.var_of_falsified hk hkx
  unfold analyze_literal
  by_cases hm : mark < (t.var x).trail
  · rw [if_pos hm]
    refine ⟨_, rfl, ⟨rfl, rfl, rfl, fun _ => rfl, fun _ h => h⟩, ?_, fun h => absurd hm h⟩
    intro v
    by_cases hv : v = x.natAbs
    · subst hv
      simp [hm]
    · simp [Function.update, hv]
  · rw [if_neg hm]
    by_cases hl : (t.var x).level = 0
    · rw [if_pos hl]
      have hle : (k : Int) ≤ mark := by rw [← e2]; exact not_lt.1 hm
      obtain ⟨r, r1, r2⟩ := H.level0 k hk hle (by rw [← e1]; exact hl)
      rw [← e1] at r1
      rw [r1]
      refine ⟨_, rfl, mark_core_same t r, ?_, fun _ _ => ⟨r, r1, ?_⟩⟩
      · intro v
        constructor
        · intro h; exact Or.inl h
        · rintro (h | ⟨_, h⟩)
          · exact h
          · exact absurd h hm
      · rw [mark_core_deref, if_pos ⟨rfl, r2⟩]
    · rw [if_neg hl]
      refine ⟨_, rfl, SameTrail.same_refl t, ?_, fun _ h => absurd h hl⟩
      intro v
      constructor
      · intro h; exact Or.inl h
      · rintro (h | ⟨_, h⟩)
        · exact h
        · exact absurd h hm

theorem CoreReason.mono {s t : Internal} (h : SameTrail s t) {x : Int} (hc : CoreReason s x) :
    CoreReason t x := by
  obtain ⟨r, h1, h2⟩ := hc
  exact ⟨r, by rw [h.var_eq]; exact h1, h.core r h2⟩

/-- What a literal loop of `conflict_analysis_core` does on falsified
literals. -/
theorem analyze_literals_spec {mark : Int} (L : List Int) : ∀ t : Internal, TrailInv t mark →
    (∀ x ∈ L, ∃ k, k < t.trail.length ∧ t.trail.getD k 0 = -x) →
    ∃ u, analyze_literals mark t L = some u ∧ SameTrail t u ∧
      (∀ v, u.seen v = true ↔
        t.seen v = true ∨ ∃ x ∈ L, v = x.natAbs ∧ mark < (t.var x).trail) ∧
      (∀ x ∈ L, ¬ mark < (t.var x).trail → (t.var x).level = 0 → CoreReason u x) := by
  induction L with
  | nil =>
    intro t _ _
    exact ⟨t, rfl, SameTrail.same_refl t, fun v => by simp, fun x hx => by cases hx⟩
  | cons a L ih =>
    intro t H hf
    obtain ⟨u1, e1, a1, a2, a3⟩ := analyze_literal_spec t H a (hf a (List.mem_cons_self _ _))
    obtain ⟨u, e2, b1, b2, b3⟩ := ih u1 (H.transport_inv a1) (by
      rw [a1.trail]
      exact fun x hx => hf x (List.mem_cons_of_mem _ hx))
    refine ⟨u, ?_, a1.same_trans b1, ?_, ?_⟩
    · rw [analyze_literals, e1]
      exact e2
    · intro v
      rw [b2 v, a2 v]
      constructor
      · rintro ((h | h) | ⟨x, hx, h1, h2⟩)
        · exact Or.inl h
        · exact Or.inr ⟨a, List.mem_cons_self _ _, h⟩
        · exact Or.inr ⟨x, List.mem_cons_of_mem _ hx, h1, by rw [← a1.var_eq]; exact h2⟩
      · rintro (h | ⟨x, hx, h1, h2⟩)
        · exact Or.inl (Or.inl h)
        · rcases List.mem_cons.1 hx with rfl | hx
          · exact Or.inl (Or.inr ⟨h1, h2⟩)
          · exact Or.inr ⟨x, hx, h1, by rw [a1.var_eq]; exact h2⟩
    · intro x hx h1 h2
      rcases List.mem_cons.1 hx with rfl | hx
      · exact (a3 h1 h2).mono b1
      · exact b3 x hx (by rw [a1.var_eq]; exact h1) (by rw [a1.var_eq]; exact h2)

/-- What one round of the trail loop of `conflict_analysis_core` does. -/
theorem analyze_trail_at_spec {mark : Int} (t : Internal) (H : TrailInv t mark) (n : Nat)
    (hn : n < t.trail.length) (hm : mark < (n : Int)) :
    ∃ u, analyze_trail_at mark t n = some u ∧ SameTrail t u ∧
      (∀ v, u.seen v = true → (t.seen v = true ∧ v ≠ (t.trail.getD n 0).natAbs) ∨
        ∃ k, k < n ∧ mark < (k : Int) ∧ (t.trail.getD k 0).natAbs = v) ∧
      (∀ v, t.seen v = true → v ≠ (t.trail.getD n 0).natAbs → u.seen v = true) ∧
      (t.seen (t.trail.getD n 0).natAbs = true →
        ∃ r, (t.var (t.trail.getD n 0)).reason = some r ∧ (u.deref r).drup_core = true ∧
          ∀ x ∈ (t.deref r).literals.tail,
            (mark < (t.var x).trail → u.seen x.natAbs = true) ∧
            (¬ mark < (t.var x).trail → (t.var x).level = 0 → CoreReason u x)) := by
  unfold analyze_trail_at
  dsimp only
  by_cases hs : t.seen (t.trail.getD n 0).natAbs = true
  · rw [hs]
    obtain ⟨r, r1, r2, r3, r4⟩ := H.reasons n hn hm
    have hr : ((Internal.mk t.heap t.clauses t.assumptions t.constraint t.unsat
        t.unsat_constraint t.marked_failed t.protected_reasons t.max_var t.vtab t.vals t.marks
        t.fstatus (Function.update t.seen (t.trail.getD n 0).natAbs false) t.trail t.propagated
        t.control t.level t.conflict t.watches t.stats).var (t.trail.getD n 0)).reason =
        some r := r1
    simp only [Bool.not_true, Bool.false_eq_true, if_false]
    rw [hr]
    dsimp only
    generalize hs1 : (Internal.mk t.heap t.clauses t.assumptions t.constraint t.unsat
        t.unsat_constraint t.marked_failed t.protected_reasons t.max_var t.vtab t.vals t.marks
        t.fstatus (Function.update t.seen (t.trail.getD n 0).natAbs false) t.trail t.propagated
        t.control t.level t.conflict t.watches t.stats) = s1
    have f1 : SameTrail t s1 := by
      rw [← hs1]; exact ⟨rfl, rfl, rfl, fun _ => rfl, fun _ h => h⟩
    have f2 : ∀ v, s1.seen v = true ↔ t.seen v = true ∧ v ≠ (t.trail.getD n 0).natAbs := by
      intro v
      rw [← hs1]
      show Function.update t.seen (t.trail.getD n 0).natAbs false v = true ↔ _
      by_cases hv : v = (t.trail.getD n 0).natAbs
      · rw [hv, Function.update_same]
        exact ⟨fun h => absurd h Bool.false_ne_true, fun h => absurd rfl h.2⟩
      · rw [Function.update_noteq hv]
        exact ⟨fun h => ⟨h, hv⟩, fun h => h.1⟩
    have g1 := mark_core_same s1 r
    have f12 := f1.same_trans g1
    have g2 : (mark_core s1 r).seen = s1.seen := rfl
    have hfal : ∀ x ∈ ((mark_core s1 r).deref r).literals.tail,
        ∃ k, k < (mark_core s1 r).trail.length ∧ (mark_core s1 r).trail.getD k 0 = -x := by
      rw [f12.literals, f12.trail]
      intro x hx
      obtain ⟨k, k1, k2⟩ := r4 x hx
      exact ⟨k, lt_trans k1 hn, k2⟩
    obtain ⟨u, e, b1, b2, b3⟩ := analyze_literals_spec _ (mark_core s1 r) (H.transport_inv f12) hfal
    rw [f12.literals] at b2 b3
    have hcore : ((mark_core s1 r).deref r).drup_core = true := by
      rw [mark_core_deref, if_pos ⟨rfl, by rw [f1.heap]; exact r2⟩]
    refine ⟨u, e, f12.same_trans b1, ?_, ?_, ?_⟩
    · intro v hv
      rw [b2 v, g2, f2 v] at hv
      rcases hv with hv | ⟨x, hx, h1, h2⟩
      · exact Or.inl hv
      · obtain ⟨k, k1, k2⟩ := r4 x hx
        obtain ⟨_, p2⟩ := H.var_of_falsified (lt_trans k1 hn) k2
        rw [f12.var_eq, p2] at h2
        exact Or.inr ⟨k, k1, h2, by rw [h1, k2, Int.natAbs_neg]⟩
    · intro v hv hne
      rw [b2 v, g2, f2 v]
      exact Or.inl ⟨hv, hne⟩
    · intro _
      refine ⟨r, r1, b1.core r hcore, ?_⟩
      intro x hx
      refine ⟨fun h => ?_, fun h1 h2 => ?_⟩
      · rw [b2]
        exact Or.inr ⟨x, hx, rfl, by rw [f12.var_eq]; exact h⟩
      · exact b3 x hx (by rw [f12.var_eq]; exact h1) (by rw [f12.var_eq]; exact h2)
  · have hs2 : t.seen (t.trail.getD n 0).natAbs = false := by
      cases h : t.seen (t.trail.getD n 0).natAbs
      · rfl
      · exact absurd h hs
    rw [hs2]
    simp only [Bool.not_false, if_true]
    refine ⟨t, rfl, SameTrail.same_refl t, ?_, fun v hv _ => hv,
      fun h => absurd h Bool.false_ne_true⟩
    intro v hv
    refine Or.inl ⟨hv, ?_⟩
    rintro rfl
    exact hs hv

/-- The trail loop of `conflict_analysis_core` leaves no seen flag when every
seen variable is on the trail above the mark and below the start. -/
theorem analyze_trail_loop_clears {mark : Int} : ∀ (n : Nat) (t : Internal), TrailInv t mark →
    n ≤ t.trail.length →
    (∀ v, t.seen v = true →
      ∃ q, q < n ∧ mark < (q : Int) ∧ (t.trail.getD q 0).natAbs = v) →
    ∃ u, analyze_trail_loop mark n t = some u ∧ SameTrail t u ∧ ∀ v, u.seen v = false := by
  intro n
  induction n with
  | zero =>
    intro t H _ hs
    have hm := H.mark_nonneg
    refine ⟨t, ?_, SameTrail.same_refl t, ?_⟩
    · rw [analyze_trail_loop, if_neg (by omega)]
    · intro v
      cases h : t.seen v
      · rfl
      · obtain ⟨q, hq, _⟩ := hs v h
        exact absurd hq (Nat.not_lt_zero _)
  | succ n ih =>
    intro t H hn hs
    rw [analyze_trail_loop]
    by_cases hmn : (n : Int) > mark
    · rw [if_pos hmn]
      obtain ⟨u1, e1, a1, a2, _, _⟩ := analyze_trail_at_spec t H n hn hmn
      rw [e1]
      dsimp only
      obtain ⟨u, e2, b1, b2⟩ := ih u1 (H.transport_inv a1) (by rw [a1.trail]; exact le_of_lt hn) (by
        intro v hv
        rw [a1.trail]
        rcases a2 v hv with ⟨h1, h2⟩ | h
        · obtain ⟨q, q1, q2, q3⟩ := hs v h1
          have hqn : q ≠ n := by
            rintro rfl
            exact h2 q3.symm
          exact ⟨q, by omega, q2, q3⟩
        · exact h)
      exact ⟨u, e2, a1.same_trans b1, b2⟩
    · rw [if_neg hmn]
      refine ⟨t, rfl, SameTrail.same_refl t, ?_⟩
      intro v
      cases h : t.seen v
      · rfl
      · obtain ⟨q, q1, q2, _⟩ := hs v h
        omega

theorem Reached.transport_reached {s t : Internal} (h : SameTrail s t) (c : Nat) (m : Int) (x : Int) :
    Reached t c m x ↔ Reached s c m x := by
  constructor
  · intro hr
    induction hr with
    | conflict hl => exact Reached.conflict (by rw [← h.literals]; exact hl)
    | reason _ h2 h3 h4 ih =>
      rw [h.var_eq] at h2 h3
      rw [h.literals] at h4
      exact Reached.reason ih h2 h3 h4
  · intro hr
    induction hr with
    | conflict hl => exact Reached.conflict (by rw [h.literals]; exact hl)
    | reason _ h2 h3 h4 ih =>
      rw [← h.var_eq] at h2 h3
      rw [← h.literals] at h4
      exact Reached.reason ih h2 h3 h4

/-- A reached literal is falsified. -/
theorem Reached.falsified {s : Internal} {c : Nat} {mark m : Int} (H : TrailInv s mark)
    (hf : Falsified s c) (hm : mark ≤ m) {x : Int} (hr : Reached s c m x) :
    ∃ k, k < s.trail.length ∧ s.trail.getD k 0 = -x := by
  induction hr with
  | conflict hl => exact hf _ hl
  | reason _ h2 h3 h4 ih =>
    obtain ⟨k, k1, k2⟩ := ih
    obtain ⟨e1, e2⟩ := H.var_of_falsified k1 k2
    rw [e2] at h2
    obtain ⟨r, r1, _, _, r4⟩ := H.reasons k k1 (lt_of_le_of_lt hm h2)
    rw [e1, r1] at h3
    rw [← Option.some.inj h3] at h4
    obtain ⟨j, j1, j2⟩ := r4 _ h4
    exact ⟨j, lt_trans j1 k1, j2⟩

/-- The part of `conflict_analysis_core` before the trail loop. -/
theorem analyze_conflict_spec {mark : Int} (s : Internal) (c : Nat) (hf : Falsified s c)
    (H : TrailInv s mark) :
    ∃ u, analyze_literals mark (mark_core s c) ((mark_core s c).deref c).literals = some u ∧
      SameTrail s u ∧ (c < s.heap.length → (u.deref c).drup_core = true) ∧
      (∀ v, u.seen v = true ↔
        s.seen v = true ∨ ∃ x ∈ (s.deref c).literals, v = x.natAbs ∧ mark < (s.var x).trail) ∧
      (∀ x ∈ (s.deref c).literals, ¬ mark < (s.var x).trail → (s.var x).level = 0 →
        CoreReason u x) := by
  have a1 := mark_core_same s c
  obtain ⟨u, e, b1, b2, b3⟩ := analyze_literals_spec ((mark_core s c).deref c).literals
    (mark_core s c) (H.transport_inv a1) (by
      rw [a1.literals, a1.trail]
      exact hf)
  rw [a1.literals] at b2 b3
  refine ⟨u, e, a1.same_trans b1, ?_, ?_, ?_⟩
  · intro hc
    apply b1.core
    rw [mark_core_deref, if_pos ⟨rfl, hc⟩]
  · intro v
    rw [b2 v]
    constructor
    · rintro (h | ⟨x, hx, h1, h2⟩)
      · exact Or.inl h
      · exact Or.inr ⟨x, hx, h1, by rw [← a1.var_eq]; exact h2⟩
    · rintro (h | ⟨x, hx, h1, h2⟩)
      · exact Or.inl h
      · exact Or.inr ⟨x, hx, h1, by rw [a1.var_eq]; exact h2⟩
  · intro x hx h1 h2
    exact b3 x hx (by rw [a1.var_eq]; exact h1) (by rw [a1.var_eq]; exact h2)

theorem conflict_analysis_core_eq (s : Internal) (c : Nat) (mark : Int)
    (hc : s.conflict = some c) (hm : s.control.getLast? = some mark) (u : Internal)
    (hu : analyze_literals mark (mark_core s c) ((mark_core s c).deref c).literals = some u) :
    conflict_analysis_core s = analyze_trail_loop mark u.trail.length u := by
  unfold conflict_analysis_core
  rw [hc, hm]
  dsimp only
  rw [hu]

/-- C25: on a host state with a conflict clause whose literals are
falsified, with no seen flag set and with the trail and reason invariants
relative to the trail mark of the last decision, `conflict_analysis_core`
returns and leaves no seen flag set. -/
theorem conflict_analysis_core_clears_seen (s : Internal) (c : Nat) (mark : Int)
    (hc : s.conflict = some c) (hm : s.control.getLast? = some mark) (hf : Falsified s c)
    (H : TrailInv s mark) (hs : ∀ v, s.seen v = false) :
    ∃ t, conflict_analysis_core s = some t ∧ ∀ v, t.seen v = false := by
  obtain ⟨u, e, a1, _, a3, _⟩ := analyze_conflict_spec s c hf H
  rw [conflict_analysis_core_eq s c mark hc hm u e]
  obtain ⟨t, e2, _, b2⟩ := analyze_trail_loop_clears u.trail.length u (H.transport_inv a1)
    (le_refl _) (by
      intro v hv
      rw [a3 v, hs v] at hv
      rcases hv with hv | ⟨x, hx, h1, h2⟩
      · exact absurd hv Bool.false_ne_true
      · obtain ⟨k, k1, k2⟩ := hf x hx
        obtain ⟨_, p2⟩ := H.var_of_falsified k1 k2
        rw [p2] at h2
        rw [a1.trail]
        exact ⟨k, k1, h2, by rw [h1, k2, Int.natAbs_neg]⟩)
  exact ⟨t, e2, b2⟩

/-- A round of the trail loop at position `n` keeps a falsified literal in
order. -/
theorem AnalysisGood.step_good {mark : Int} {t u : Internal} {n : Nat} (H : TrailInv t mark)
    (hn : n < t.trail.length) (hs : SameTrail t u)
    (p2 : ∀ v, t.seen v = true → v ≠ (t.trail.getD n 0).natAbs → u.seen v = true)
    (p3 : t.seen (t.trail.getD n 0).natAbs = true →
      ∃ r, (t.var (t.trail.getD n 0)).reason = some r ∧ (u.deref r).drup_core = true)
    {x : Int} {k : Nat} (hk : k < t.trail.length) (hx : t.trail.getD k 0 = -x)
    (hg : AnalysisGood mark (n + 1) t x) : AnalysisGood mark n u x := by
  obtain ⟨e1, e2⟩ := H.var_of_falsified hk hx
  have hab : x.natAbs = (t.trail.getD k 0).natAbs := by rw [hx, Int.natAbs_neg]
  unfold AnalysisGood at hg ⊢
  rw [hs.var_eq, e2]
  rw [e2] at hg
  obtain ⟨g1, g2⟩ := hg
  refine ⟨fun hm => ⟨fun hlt => ?_, fun hge => ?_⟩, fun h1 h2 => (g2 h1 h2).mono hs⟩
  · have hkn : k < n := by exact_mod_cast hlt
    refine p2 _ ((g1 hm).1 (by push_cast; omega)) ?_
    intro he
    have := H.distinct hk hn (by rw [← hab, he])
    omega
  · have hkn : n ≤ k := by exact_mod_cast hge
    rcases Nat.eq_or_lt_of_le hkn with e | hlt
    · subst e
      have hseen := (g1 hm).1 (by push_cast; omega)
      rw [hab] at hseen
      obtain ⟨r, r1, r2⟩ := p3 hseen
      exact ⟨r, by rw [hs.var_eq, e1]; exact r1, r2⟩
    · exact ((g1 hm).2 (by push_cast; omega)).mono hs

/-- A round of the trail loop at position `n` extends the invariant from
the literals reached through positions above `n` to those reached through
positions from `n` on. -/
theorem analyze_round_good {mark : Int} {t u : Internal} {c n : Nat} (H : TrailInv t mark)
    (hf : Falsified t c) (hn : n < t.trail.length) (hmn : mark < (n : Int))
    (hs : SameTrail t u)
    (p2 : ∀ v, t.seen v = true → v ≠ (t.trail.getD n 0).natAbs → u.seen v = true)
    (p3 : t.seen (t.trail.getD n 0).natAbs = true →
      ∃ r, (t.var (t.trail.getD n 0)).reason = some r ∧ (u.deref r).drup_core = true ∧
        ∀ x ∈ (t.deref r).literals.tail,
          (mark < (t.var x).trail → u.seen x.natAbs = true) ∧
          (¬ mark < (t.var x).trail → (t.var x).level = 0 → CoreReason u x))
    (K : ∀ x, Reached t c (n : Int) x → AnalysisGood mark (n + 1) t x) :
    ∀ x, Reached t c ((n : Int) - 1) x → AnalysisGood mark n u x := by
  have p3s : t.seen (t.trail.getD n 0).natAbs = true →
      ∃ r, (t.var (t.trail.getD n 0)).reason = some r ∧ (u.deref r).drup_core = true := by
    intro h
    obtain ⟨r, r1, r2, _⟩ := p3 h
    exact ⟨r, r1, r2⟩
  have key : ∀ x, Reached t c ((n : Int) - 1) x →
      (((n : Int) ≤ (t.var x).trail → Reached t c (n : Int) x) ∧ AnalysisGood mark n u x) := by
    intro x hr
    induction hr with
    | @conflict l hl =>
      have R : Reached t c (n : Int) l := Reached.conflict hl
      obtain ⟨k, k1, k2⟩ := hf _ hl
      exact ⟨fun _ => R, AnalysisGood.step_good H hn hs p2 p3s k1 k2 (K _ R)⟩
    | @reason y l r hy h2 h3 h4 ih =>
      obtain ⟨ih1, _⟩ := ih
      obtain ⟨ky, ky1, ky2⟩ := Reached.falsified H hf (by omega) hy
      obtain ⟨e1, e2⟩ := H.var_of_falsified ky1 ky2
      have hyn : n ≤ ky := by
        rw [e2] at h2
        omega
      have Ry : Reached t c (n : Int) y := ih1 (by rw [e2]; exact_mod_cast hyn)
      obtain ⟨q, q1, _, _, q4⟩ := H.reasons ky ky1 (by omega)
      have hqr : q = r := by
        rw [← e1, h3] at q1
        exact (Option.some.inj q1).symm
      subst hqr
      obtain ⟨kx, kx1, kx2⟩ := q4 _ h4
      obtain ⟨f1, f2⟩ := H.var_of_falsified (lt_trans kx1 ky1) kx2
      refine ⟨?_, ?_⟩
      · intro hx
        rw [f2] at hx
        exact Reached.reason Ry (by rw [e2]; omega) h3 h4
      · rcases Nat.eq_or_lt_of_le hyn with e | hlt
        · subst e
          have gy := K _ Ry
          unfold AnalysisGood at gy
          rw [e2] at gy
          have hseen := (gy.1 hmn).1 (by push_cast; omega)
          have hab : y.natAbs = (t.trail.getD n 0).natAbs := by rw [ky2, Int.natAbs_neg]
          rw [hab] at hseen
          obtain ⟨r2, w1, _, w3⟩ := p3 hseen
          have hr2 : r2 = q := by
            rw [← e1, h3] at w1
            exact (Option.some.inj w1).symm
          subst hr2
          obtain ⟨g1, g2⟩ := w3 l h4
          unfold AnalysisGood
          rw [hs.var_eq]
          refine ⟨fun hm => ⟨fun _ => g1 hm, fun hge => ?_⟩, g2⟩
          rw [f2] at hge
          omega
        · have Rl : Reached t c (n : Int) l :=
            Reached.reason Ry (by rw [e2]; exact_mod_cast hlt) h3 h4
          exact AnalysisGood.step_good H hn hs p2 p3s (lt_trans kx1 ky1) kx2 (K _ Rl)
  exact fun x hr => (key x hr).2

/-- The trail loop of `conflict_analysis_core` marks the reasons of the
reached literals. -/
theorem analyze_trail_loop_marks {mark : Int} (c : Nat) : ∀ (n : Nat) (t : Internal),
    TrailInv t mark → Falsified t c → n ≤ t.trail.length →
    (∀ x, Reached t c (max mark ((n : Int) - 1)) x → AnalysisGood mark n t x) →
    ∃ u, analyze_trail_loop mark n t = some u ∧ SameTrail t u ∧
      ∀ x, Reached t c mark x →
        (mark < (t.var x).trail → CoreReason u x) ∧ ((t.var x).level = 0 → CoreReason u x) := by
  intro n
  induction n with
  | zero =>
    intro t H _ _ K
    have hm := H.mark_nonneg
    refine ⟨t, ?_, SameTrail.same_refl t, ?_⟩
    · rw [analyze_trail_loop, if_neg (by omega)]
    · intro x hx
      have hmax : max mark (((0 : Nat) : Int) - 1) = mark := max_eq_left (by push_cast; omega)
      rw [hmax] at K
      obtain ⟨g1, g2⟩ := K x hx
      have h1 : mark < (t.var x).trail → CoreReason t x :=
        fun h => (g1 h).2 (by push_cast; omega)
      refine ⟨h1, fun hl => ?_⟩
      by_cases h : mark < (t.var x).trail
      · exact h1 h
      · exact g2 h hl
  | succ n ih =>
    intro t H hf hn K
    rw [analyze_trail_loop]
    by_cases hmn : (n : Int) > mark
    · rw [if_pos hmn]
      obtain ⟨u1, e1, a1, _, a3, a4⟩ := analyze_trail_at_spec t H n hn hmn
      rw [e1]
      dsimp only
      have hmax : max mark (((n + 1 : Nat) : Int) - 1) = (n : Int) := by
        rw [max_eq_right (by push_cast; omega)]
        push_cast
        omega
      rw [hmax] at K
      have K2 := analyze_round_good H hf hn hmn a1 a3 a4 K
      have hf1 : Falsified u1 c := by
        unfold Falsified
        rw [a1.literals, a1.trail]
        exact hf
      obtain ⟨u, e2, b1, b2⟩ := ih u1 (H.transport_inv a1) hf1
        (by rw [a1.trail]; exact le_of_lt hn) (by
          intro x hx
          rw [max_eq_right (by omega), Reached.transport_reached a1] at hx
          exact K2 x hx)
      refine ⟨u, e2, a1.same_trans b1, ?_⟩
      intro x hx
      have := b2 x ((Reached.transport_reached a1 c mark x).2 hx)
      rw [a1.var_eq] at this
      exact this
    · rw [if_neg hmn]
      have hmax : max mark (((n + 1 : Nat) : Int) - 1) = mark :=
        max_eq_left (by push_cast; omega)
      rw [hmax] at K
      refine ⟨t, rfl, SameTrail.same_refl t, ?_⟩
      intro x hx
      obtain ⟨g1, g2⟩ := K x hx
      have h1 : mark < (t.var x).trail → CoreReason t x :=
        fun h => (g1 h).2 (by push_cast; omega)
      refine ⟨h1, fun hl => ?_⟩
      by_cases h : mark < (t.var x).trail
      · exact h1 h
      · exact g2 h hl

/-- C26: on a host state with an allocated conflict clause whose literals
are falsified and with the trail and reason invariants relative to the trail
mark of the last decision, `conflict_analysis_core` returns; it changes
neither the trail nor the reasons and clears no core mark; the conflict
clause is core; every literal assigned above the mark that is reached from
the conflict clause through reason clauses has a core reason; and so has
every level-0 literal that occurs in the conflict clause or in one of those
reason clauses. -/
theorem conflict_analysis_core_marks (s : Internal) (c : Nat) (mark : Int)
    (hc : s.conflict = some c) (hcl : c < s.heap.length)
    (hm : s.control.getLast? = some mark) (hf : Falsified s c) (H : TrailInv s mark) :
    ∃ t, conflict_analysis_core s = some t ∧ SameTrail s t ∧ (t.deref c).drup_core = true ∧
      (∀ x, Reached s c mark x → mark < (s.var x).trail → CoreReason t x) ∧
      (∀ x, Reached s c mark x → (s.var x).level = 0 → CoreReason t x) := by
  obtain ⟨u, e, a1, a2, a3, a4⟩ := analyze_conflict_spec s c hf H
  rw [conflict_analysis_core_eq s c mark hc hm u e]
  have hfu : Falsified u c := by
    unfold Falsified
    rw [a1.literals, a1.trail]
    exact hf
  have Hu := H.transport_inv a1
  obtain ⟨t, e2, b1, b2⟩ := analyze_trail_loop_marks c u.trail.length u Hu hfu (le_refl _) (by
    intro x hx
    have hx2 : ∃ k, k < u.trail.length ∧ u.trail.getD k 0 = -x :=
      Reached.falsified Hu hfu (le_max_left _ _) hx
    obtain ⟨k, k1, k2⟩ := hx2
    obtain ⟨_, p2⟩ := Hu.var_of_falsified k1 k2
    have hcx : x ∈ (s.deref c).literals := by
      cases hx with
      | conflict hl => rw [← a1.literals]; exact hl
      | @reason y _ r hy h2 _ _ =>
        exfalso
        obtain ⟨j, j1, j2⟩ := Reached.falsified Hu hfu (le_max_left _ _) hy
        obtain ⟨_, q2⟩ := Hu.var_of_falsified j1 j2
        rw [q2] at h2
        have := lt_of_le_of_lt (le_max_right _ _) h2
        omega
    unfold AnalysisGood
    rw [a1.var_eq]
    refine ⟨fun h => ⟨fun _ => ?_, fun hge => ?_⟩, fun h1 h2 => a4 x hcx h1 h2⟩
    · rw [a3]
      exact Or.inr ⟨x, hcx, rfl, h⟩
    · rw [← a1.var_eq, p2] at hge
      omega)
  refine ⟨t, e2, a1.same_trans b1, b1.core c (a2 hcl), ?_, ?_⟩
  · intro x hx h
    exact (b2 x ((Reached.transport_reached a1 c mark x).2 hx)).1 (by rw [a1.var_eq]; exact h)
  · intro x hx h
    exact (b2 x ((Reached.transport_reached a1 c mark x).2 hx)).2 (by rw [a1.var_eq]; exact h)

theorem conflictState_inv : TrailInv conflictState 1 := by
  have hlen : conflictState.trail.length = 4 := rfl
  refine ⟨by decide, ?_, ?_, ?_⟩
  · intro i hi
    rw [hlen] at hi
    have hi4 : i = 0 ∨ i = 1 ∨ i = 2 ∨ i = 3 := by omega
    rcases hi4 with rfl | rfl | rfl | rfl <;> rfl
  · intro i hi hm
    rw [hlen] at hi
    have hi4 : i = 2 ∨ i = 3 := by omega
    rcases hi4 with rfl | rfl
    · refine ⟨1, rfl, by decide, rfl, fun l hl => ?_⟩
      have : l = -2 ∨ l = -1 := by simpa [conflictState, Internal.deref] using hl
      rcases this with rfl | rfl
      · exact ⟨1, by decide, rfl⟩
      · exact ⟨0, by decide, rfl⟩
    · refine ⟨2, rfl, by decide, rfl, fun l hl => ?_⟩
      have : l = -3 := by simpa [conflictState, Internal.deref] using hl
      subst this
      exact ⟨2, by decide, rfl⟩
  · intro i hi hm hl
    rw [hlen] at hi
    have hi2 : i = 0 ∨ i = 1 := by omega
    rcases hi2 with rfl | rfl
    · exact ⟨0, rfl, by decide⟩
    · exact absurd hl (by decide)

theorem conflictState_falsified : Falsified conflictState 3 := by
  intro l hl
  have : l = -4 ∨ l = -3 ∨ l = -1 := by simpa [conflictState, Internal.deref] using hl
  rcases this with rfl | rfl | rfl
  · exact ⟨3, by decide, rfl⟩
  · exact ⟨2, by decide, rfl⟩
  · exact ⟨0, by decide, rfl⟩

/-- On `conflictState` the analysis marks all four clauses core and leaves
no variable seen. -/
theorem conflict_analysis_core_example :
    (conflict_analysis_core conflictState).map (fun t =>
      (t.heap.map (fun c => c.drup_core), [1, 2, 3, 4].map t.seen)) =
    some ([true, true, true, true], [false, false, false, false]) := by
  decide

theorem conflict_analysis_core_clears_seen_witness :
    conflictState.conflict = some 3 ∧ conflictState.control.getLast? = some 1 ∧
    Falsified conflictState 3 ∧ TrailInv conflictState 1 ∧
    (∀ v, conflictState.seen v = false) ∧
    ∃ t, conflict_analysis_core conflictState = some t ∧ ∀ v, t.seen v = false :=
  ⟨rfl, rfl, conflictState_falsified, conflictState_inv, fun _ => rfl,
    conflict_analysis_core_clears_seen conflictState 3 1 rfl rfl conflictState_falsified
      conflictState_inv (fun _ => rfl)⟩

theorem conflict_analysis_core_marks_witness :
    conflictState.conflict = some 3 ∧ 3 < conflictState.heap.length ∧
    conflictState.control.getLast? = some 1 ∧
    Falsified conflictState 3 ∧ TrailInv conflictState 1 ∧
    ∃ t, conflict_analysis_core conflictState = some t ∧ SameTrail conflictState t ∧
      (t.deref 3).drup_core = true ∧
      (∀ x, Reached conflictState 3 1 x → 1 < (conflictState.var x).trail → CoreReason t x) ∧
      (∀ x, Reached conflictState 3 1 x → (conflictState.var x).level = 0 → CoreReason t x) :=
  ⟨rfl, by decide, rfl, conflictState_falsified, conflictState_inv,
    conflict_analysis_core_marks conflictState 3 1 rfl (by decide) rfl conflictState_falsified
      conflictState_inv⟩

end CaDiCaL
